import Mathlib

/-!
# KnoxCrypt: the linked-block file primitive

A shallow embedding of `src/src/knoxcrypt/File.cpp` (class `File`) over a
functional model of the container image.

Conventions of the embedding.

* `S` is the value returned by `blockWriteSpace()`, that is
  `FILE_BLOCK_SIZE - FILE_BLOCK_META`.  Both constants live in a header that is
  not part of the sources at hand, so `S` is a parameter of every function that
  calls `blockWriteSpace()`.
* The object state of a `File` and the state of the image behind `SharedCoreIO`
  are passed explicitly; every member function returns a `Res`, which carries
  the value returned (or the exception thrown) together with the state of the
  object and of the image at that moment.
* 32-bit and 16-bit conversions (`uint32_t`, `uint16_t`) are written out with
  `% 4294967296` and `% 65536`.  64-bit counters (file sizes, block counts,
  stream positions) are unbounded `Nat` / `Int`: no image can hold `2 ^ 63`
  bytes.
* `FileBlock`, `FileBlockIterator`, `FileBlockBuilder` and `OpenDisposition`
  are used by `File.cpp` but their sources are not at hand; they are modelled
  from the specification, each under a doc comment that says so.
-/

namespace KnoxCrypt

/-! ## Data model -/

abbrev Byte := UInt8

inductive ReadOrWriteOrBoth
  | ReadOnly
  | WriteOnly
  | ReadWrite
deriving DecidableEq, Repr

inductive AppendOrOverwrite
  | Append
  | Overwrite
deriving DecidableEq, Repr

inductive TruncateOrKeep
  | Truncate
  | Keep
deriving DecidableEq, Repr

/-- Modelled from the spec: the class `OpenDisposition` is not among the sources.
The spec (section 6) gives the mode space as
`{ReadOnly, WriteOnly, ReadWrite} x {Append, Overwrite} x {Truncate, Keep}`. -/
structure OpenDisposition where
  readWrite : ReadOrWriteOrBoth
  append : AppendOrOverwrite
  trunc : TruncateOrKeep
deriving DecidableEq, Repr

/-- Modelled from the spec: `OpenDisposition::buildAppendDisposition()` is not among the
sources.  It is the mode of a newly created `File`; the tests write through it
(`FileTest::testBigWriteFollowedBySmallAppend`), read through it
(`FileTest::testWriteBigDataAppendSmallStringSeekToAndReadAppendedString`) and
expect the old content to be kept, hence read-write, append, keep. -/
def OpenDisposition.buildAppendDisposition : OpenDisposition :=
  { readWrite := ReadOrWriteOrBoth.ReadWrite
    append := AppendOrOverwrite.Append
    trunc := TruncateOrKeep.Keep }

/-- Modelled from the spec: `OpenDisposition::buildOverwriteDisposition()` is not among the
sources.  The tests write through it over existing content that is kept
(`FileTest::testBigWriteFollowedBySmallOverwriteAtStart`), hence read-write,
overwrite, keep. -/
def OpenDisposition.buildOverwriteDisposition : OpenDisposition :=
  { readWrite := ReadOrWriteOrBoth.ReadWrite
    append := AppendOrOverwrite.Overwrite
    trunc := TruncateOrKeep.Keep }

/-- Modelled from the spec: `OpenDisposition::buildReadOnlyDisposition()` is not among the
sources.  The tests read through it; a read-only open looks at neither of the
other two flags. -/
def OpenDisposition.buildReadOnlyDisposition : OpenDisposition :=
  { readWrite := ReadOrWriteOrBoth.ReadOnly
    append := AppendOrOverwrite.Append
    trunc := TruncateOrKeep.Keep }

/-- The two kinds of `FileEntryError` that `File.cpp` throws. -/
inductive FileEntryError
  | NotReadable
  | NotWritable
deriving DecidableEq, Repr

/-- Everything that can end a member function other than a normal return. -/
inductive Fault
  /-- The exception `FileEntryException(e)`. -/
  | fileEntry (e : FileEntryError)
  /-- The `std::runtime_error` thrown by `File::getBlockWithIndex`. -/
  | runtimeError
  /-- The allocator has no free block (spec 4.1, `OutOfSpace`). -/
  | outOfSpace
  /-- A member of the null `m_workingBlock` is called. -/
  | nullWorkingBlock
  /-- A loop that never ends (a chain without terminator, a write that makes no progress). -/
  | diverges
deriving DecidableEq, Repr

/-- One physical block of the image (spec section 3, "File Block"): the trailer fields
and the data region, addressed by byte offset. -/
structure BlockRecord where
  bytesWritten : Nat
  next : Nat
  data : Nat → Byte

/-- The image behind `SharedCoreIO`: total block count (`io->blocks`), the
free-block counter (`io->freeBlocks`), the root block (`io->rootBlock`), the
occupancy bitmap and the blocks of the data area. -/
structure Volume where
  blocks : Nat
  freeBlocks : Nat
  rootBlock : Nat
  bitmap : Nat → Bool
  store : Nat → BlockRecord

/-- Modelled from the spec: the class `FileBlock` is not among the sources.  A handle
on the block `index` with one read/write head `seekPos` (spec 4.2 `tell()`;
`File::workingBlockHasAvailableSpace` relies on the head being shared by reads
and writes).  The trailer is read from the image whenever it is asked for. -/
structure FileBlock where
  index : Nat
  seekPos : Nat
deriving DecidableEq, Repr

/-- The object state of `knoxcrypt::File`, member by member (`m_name`, `m_io`,
`m_stream` and the size callback carry no behaviour that is modelled). -/
structure File where
  m_enforceStartBlock : Bool
  m_fileSize : Nat
  m_workingBlock : Option FileBlock
  m_buffer : List Byte
  m_startVolumeBlock : Nat
  m_blockIndex : Nat
  m_openDisposition : OpenDisposition
  m_pos : Int
  m_blockCount : Nat

/-- The outcome of a member function: the value returned or the exception thrown,
with the state of the object and of the image at that moment. -/
inductive Res (α : Type) where
  | ok (a : α) (f : File) (io : Volume)
  | fail (e : Fault) (f : File) (io : Volume)

/-- The object state an outcome leaves behind. -/
def Res.file {α : Type} : Res α → File
  | Res.ok _ f _ => f
  | Res.fail _ f _ => f

/-- The image an outcome leaves behind. -/
def Res.image {α : Type} : Res α → Volume
  | Res.ok _ _ io => io
  | Res.fail _ _ io => io

/-- The value returned, if the function returned. -/
def Res.value? {α : Type} : Res α → Option α
  | Res.ok a _ _ => some a
  | Res.fail _ _ _ => none

/-- The exception thrown, if the function threw. -/
def Res.fault? {α : Type} : Res α → Option Fault
  | Res.ok _ _ _ => none
  | Res.fail e _ _ => some e

/-! ## FileBlock (modelled from the spec, section 4.2) -/

/-- Modelled from the spec: `FileBlock::getIndex`. -/
def FileBlock.getIndex (b : FileBlock) : Nat := b.index

/-- Modelled from the spec: `FileBlock::tell`, "byte offset of the cursor within the
data region". -/
def FileBlock.tell (b : FileBlock) : Nat := b.seekPos

/-- Modelled from the spec: `FileBlock::seek`, which places the cursor (the File layer
"set[s] its cursor to `block_pos`"); an offset within the data region is not
negative. -/
def FileBlock.seek (b : FileBlock) (off : Int) : FileBlock :=
  { b with seekPos := off.toNat }

/-- Modelled from the spec: `FileBlock::getDataBytesWritten`, spec 4.2 `size()`:
"current `bytes_written`". -/
def FileBlock.getDataBytesWritten (io : Volume) (b : FileBlock) : Nat :=
  (io.store b.index).bytesWritten

/-- Modelled from the spec: `FileBlock::getNextIndex`, the trailer field
`next_block_index`. -/
def FileBlock.getNextIndex (io : Volume) (b : FileBlock) : Nat :=
  (io.store b.index).next

/-- Modelled from the spec: opening a handle on an existing block; the cursor starts
at 0 (spec 4.2 `read`: "internal read cursor (initially 0 ...)"; `File` itself
moves it to `bytes_written` with `seek(0, end)` when it opens for append). -/
def FileBlock.openAt (index : Nat) : FileBlock :=
  { index := index, seekPos := 0 }

/-- Modelled from the spec: `FileBlock::read`, spec 4.2: reads `n` bytes of the data
region starting at the cursor and advances the cursor. -/
def FileBlock.read (io : Volume) (b : FileBlock) (n : Nat) : List Byte × FileBlock :=
  ((List.range n).map (fun j => (io.store b.index).data (b.seekPos + j)),
   { b with seekPos := b.seekPos + n })

/-- Modelled from the spec: `FileBlock::write`, spec 4.2: writes `n` bytes of `buf` into
the data region starting at the cursor, advances the cursor and persists
`bytes_written = max(bytes_written, cursor_after_write)` ("in overwrite,
`bytes_written` grows only if the write extends past it" is the same
value). -/
def FileBlock.write (io : Volume) (b : FileBlock) (buf : List Byte) (n : Nat) :
    Volume × FileBlock :=
  let r := io.store b.index
  let r1 : BlockRecord :=
    { bytesWritten := max r.bytesWritten (b.seekPos + n)
      next := r.next
      data := fun t =>
        if b.seekPos ≤ t ∧ t < b.seekPos + n then buf.getD (t - b.seekPos) 0 else r.data t }
  ({ io with store := fun k => if k = b.index then r1 else io.store k },
   { b with seekPos := b.seekPos + n })

/-- Modelled from the spec: `FileBlock::setNextIndex`, spec 4.2 `set_next(j)`: "writes
`next_block_index = j` into the trailer". -/
def FileBlock.setNextIndex (io : Volume) (b : FileBlock) (j : Nat) : Volume :=
  { io with store := fun k =>
      if k = b.index then { io.store k with next := j } else io.store k }

/-- Modelled from the spec: `FileBlock::setSize`, which persists `bytes_written`. -/
def FileBlock.setSize (io : Volume) (b : FileBlock) (n : Nat) : Volume :=
  { io with store := fun k =>
      if k = b.index then { io.store k with bytesWritten := n } else io.store k }

/-- Modelled from the spec: `FileBlock::registerBlockWithVolumeBitmap`, spec 4.2
`mark_in_use()`: sets the occupancy bit of the block. -/
def FileBlock.registerBlockWithVolumeBitmap (io : Volume) (b : FileBlock) : Volume :=
  { io with bitmap := fun k => if k = b.index then true else io.bitmap k }

/-- Modelled from the spec: `FileBlock::unlink`, spec 4.2: "clears the bit for `k` (but
leaves `next` and data intact ...)". -/
def FileBlock.unlink (io : Volume) (b : FileBlock) : Volume :=
  { io with bitmap := fun k => if k = b.index then false else io.bitmap k }

/-! ## FileBlockIterator and FileBlockBuilder (modelled from the spec) -/

/-- Modelled from the spec: the blocks a `FileBlockIterator` started at block `k`
visits before it compares equal to the end iterator: "Traversal terminates
when `next == current`" (spec section 3).  `fuel` bounds the number of blocks
visited; `none` stands for a traversal that has not reached a terminator. -/
def FileBlockIterator.visit (io : Volume) : Nat → Nat → Option (List Nat)
  | 0, _ => none
  | fuel + 1, k =>
    if (io.store k).next = k then some [k]
    else (FileBlockIterator.visit io fuel (io.store k).next).map (fun ks => k :: ks)

/-- Modelled from the spec: the whole traversal from `start`.  A chain without a
repeated block has at most `io.blocks` blocks inside the image, so a traversal
that needs more steps never ends. -/
def FileBlockIterator.blocksFrom (io : Volume) (start : Nat) : Option (List Nat) :=
  FileBlockIterator.visit io io.blocks start

/-- Modelled from the spec: the allocator's scan, spec 4.1 `allocate_n`: "returns the
first `n` currently-clear bit positions in ascending order, but does not set
them"; here the first one. -/
def getNextAvailableBlock (io : Volume) : Option Nat :=
  (List.range io.blocks).find? (fun k => !io.bitmap k)

/-- Modelled from the spec: `FileBlockBuilder::buildWritableFileBlock` is not among the
sources.  It takes the first free index `a` (or the root block when the start
block is enforced, see `MakeKnoxCrypt::doBuildImage`), fails with `OutOfSpace`
when there is none (spec 4.1), and constructs an empty block there.  The new
block terminates the chain: "A freshly created File owns one empty block whose
`next == self`" (spec section 3); `File::newWritableFileBlock` links it.  The
bit is not set here (spec 4.1). -/
def buildWritableFileBlock (io : Volume) (enforceStartBlock : Bool) :
    Except Fault (Volume × FileBlock) :=
  let pick : Option Nat := if enforceStartBlock then some io.rootBlock else getNextAvailableBlock io
  match pick with
  | none => Except.error Fault.outOfSpace
  | some a =>
    Except.ok
      ({ io with store := fun k =>
          if k = a then { bytesWritten := 0, next := a, data := (io.store k).data }
          else io.store k },
       { index := a, seekPos := 0 })

/-! ## File (`src/src/knoxcrypt/File.cpp`) -/

/-- The first constructor of `File` (lines 52-68): a brand new entry whose start block
is not known yet. -/
def File.create (enforceStartBlock : Bool) : File :=
  { m_enforceStartBlock := enforceStartBlock
    m_fileSize := 0
    m_workingBlock := none
    m_buffer := []
    m_startVolumeBlock := 0
    m_blockIndex := 0
    m_openDisposition := OpenDisposition.buildAppendDisposition
    m_pos := 0
    m_blockCount := 0 }

/-- The accessor `File::fileSize` (lines 118-122). -/
def File.fileSize (f : File) : Nat := f.m_fileSize

/-- The accessor `File::tell` (lines 579-583). -/
def File.tell (f : File) : Int := f.m_pos

/-- The member `File::newWritableFileBlock` (lines 183-201). -/
def File.newWritableFileBlock (f : File) (io : Volume) : Res Unit :=
  match buildWritableFileBlock io f.m_enforceStartBlock with
  | Except.error e => Res.fail e f io
  | Except.ok (io1, block) =>
    let io2 := block.registerBlockWithVolumeBitmap io1
    let io3 :=
      match f.m_workingBlock with
      | some wb => wb.setNextIndex io2 block.getIndex
      | none => io2
    Res.ok ()
      { f with
        m_enforceStartBlock := false
        m_blockCount := f.m_blockCount + 1
        m_blockIndex := f.m_blockCount + 1 - 1
        m_workingBlock := some block }
      io3

/-- The member `File::enumerateBlockStats` (lines 203-215): walks the chain from the start
block, adding up `bytes_written` and counting the blocks. -/
def File.enumerateBlockStats (f : File) (io : Volume) : Res Unit :=
  match FileBlockIterator.blocksFrom io f.m_startVolumeBlock with
  | none => Res.fail Fault.diverges f io
  | some ks =>
    Res.ok ()
      (ks.foldl
        (fun g k =>
          { g with
            m_fileSize := g.m_fileSize + (FileBlock.openAt k).getDataBytesWritten io
            m_blockCount := g.m_blockCount + 1 })
        f)
      io

/-- The member `File::writeBufferedDataToWorkingBlock` (lines 217-227). -/
def File.writeBufferedDataToWorkingBlock (f : File) (io : Volume) (bytes : Nat) : Res Unit :=
  match f.m_workingBlock with
  | none => Res.fail Fault.nullWorkingBlock f io
  | some wb =>
    let r := wb.write io f.m_buffer bytes
    Res.ok () { f with m_workingBlock := some r.2, m_buffer := [] } r.1

/-- The member `File::workingBlockHasAvailableSpace` (lines 229-241); `none` when the
working block is null. -/
def File.workingBlockHasAvailableSpace (S : Nat) (f : File) : Option Bool :=
  match f.m_workingBlock with
  | none => none
  | some wb => some (decide (wb.tell % 4294967296 < S))

/-- The condition `static_cast<uint64_t>(this->tell()) >= m_fileSize` of line 261: a
negative position is cast to a value above every file size. -/
def File.tellAtOrPastSize (f : File) : Bool :=
  decide (f.tell < 0 ∨ f.m_fileSize ≤ f.tell.toNat)

/-- The member `File::checkAndUpdateWorkingBlockWithNew` (lines 243-291). -/
def File.checkAndUpdateWorkingBlockWithNew (S : Nat) (f : File) (io : Volume) : Res Unit :=
  match f.m_workingBlock with
  | none =>
    match f.newWritableFileBlock io with
    | Res.fail e f1 io1 => Res.fail e f1 io1
    | Res.ok _ f1 io1 =>
      match f1.m_workingBlock with
      | none => Res.fail Fault.nullWorkingBlock f1 io1
      | some wb => Res.ok () { f1 with m_startVolumeBlock := wb.getIndex } io1
  | some wb =>
    if wb.tell % 4294967296 < S then Res.ok () f io
    else
      let f1 : File :=
        if f.tellAtOrPastSize then
          { f with m_openDisposition := OpenDisposition.buildAppendDisposition }
        else f
      if f1.m_openDisposition.append = AppendOrOverwrite.Overwrite then
        if wb.tell < S then Res.ok () f1 io
        else if wb.tell = S then
          Res.ok ()
            { f1 with
              m_blockIndex := f1.m_blockIndex + 1
              m_workingBlock := some (FileBlock.openAt (wb.getNextIndex io)) }
            io
        else f1.newWritableFileBlock io
      else f1.newWritableFileBlock io

/-- The member `File::getBytesLeftInWorkingBlock` (lines 293-304), in `uint32_t`
arithmetic; `none` when the working block is null. -/
def File.getBytesLeftInWorkingBlock (S : Nat) (f : File) : Option Nat :=
  match f.m_workingBlock with
  | none => none
  | some wb => some ((S % 4294967296 + 4294967296 - wb.tell % 4294967296) % 4294967296)

/-- The member `File::bufferBytesForWorkingBlock` (lines 338-358): `s` is the caller's
buffer, `n` the number of bytes still to write and `offset` (a `uint32_t`) the
place in `s` to copy from.  Returns the number of bytes buffered. -/
def File.bufferBytesForWorkingBlock (S : Nat) (f : File) (io : Volume) (s : List Byte)
    (n : Nat) (offset : Nat) : Res Nat :=
  match f.getBytesLeftInWorkingBlock S with
  | none => Res.fail Fault.nullWorkingBlock f io
  | some spaceAvailable =>
    if n < spaceAvailable then
      Res.ok n { f with m_buffer := (s.drop (offset % 4294967296)).take n } io
    else if 0 < spaceAvailable then
      Res.ok spaceAvailable
        { f with m_buffer := (s.drop (offset % 4294967296)).take spaceAvailable } io
    else Res.ok 0 f io

/-- The loop of `File::write` (lines 369-389).  `fuel` bounds the number of iterations;
an iteration that is reached without fuel stands for a loop that does not
end. -/
def File.writeLoop (S : Nat) (s : List Byte) (n : Nat) :
    Nat → Nat → File → Volume → Res Nat
  | fuel, wrote, f, io =>
    if wrote < n then
      match fuel with
      | 0 => Res.fail Fault.diverges f io
      | fuel + 1 =>
        match f.checkAndUpdateWorkingBlockWithNew S io with
        | Res.fail e f1 io1 => Res.fail e f1 io1
        | Res.ok _ f1 io1 =>
          match f1.bufferBytesForWorkingBlock S io1 s (n - wrote) wrote with
          | Res.fail e f2 io2 => Res.fail e f2 io2
          | Res.ok actualWritten f2 io2 =>
            match f2.writeBufferedDataToWorkingBlock io2 actualWritten with
            | Res.fail e f3 io3 => Res.fail e f3 io3
            | Res.ok _ f3 io3 =>
              let f4 : File :=
                { f3 with
                  m_pos := f3.m_pos + actualWritten
                  m_fileSize :=
                    if f3.m_openDisposition.append = AppendOrOverwrite.Append then
                      f3.m_fileSize + actualWritten
                    else f3.m_fileSize }
              File.writeLoop S s n fuel (wrote + actualWritten) f4 io3
    else Res.ok wrote f io

/-- The member `File::write` (lines 360-391): writes the first `n` bytes of `s`.  Every
iteration of the loop that returns writes at least one byte, so `n` iterations
are enough for every call that returns. -/
def File.write (S : Nat) (f : File) (io : Volume) (s : List Byte) (n : Nat) : Res Nat :=
  if f.m_openDisposition.readWrite = ReadOrWriteOrBoth.ReadOnly then
    Res.fail (Fault.fileEntry FileEntryError.NotWritable) f io
  else File.writeLoop S s n n 0 f io

/-- The member `File::readWorkingBlockBytes` (lines 155-181); `thisMany` is a
`uint32_t`. -/
def File.readWorkingBlockBytes (f : File) (io : Volume) (thisMany : Nat) : Res Nat :=
  match f.m_workingBlock with
  | none => Res.fail Fault.nullWorkingBlock f io
  | some wb =>
    let size :=
      ((wb.getDataBytesWritten io) % 4294967296 + 4294967296 - wb.tell % 4294967296)
        % 4294967296
    let bytesToRead := min size thisMany
    let r := wb.read io bytesToRead
    if f.m_blockIndex + 1 < f.m_blockCount ∧ bytesToRead = size then
      Res.ok bytesToRead
        { f with
          m_buffer := r.1
          m_blockIndex := f.m_blockIndex + 1
          m_workingBlock := some (FileBlock.openAt (r.2.getNextIndex io)) }
        io
    else
      Res.ok bytesToRead { f with m_buffer := r.1, m_workingBlock := some r.2 } io

/-- The loop of `File::read` (lines 316-330).  `read` is the `uint32_t` counter, `out`
the bytes copied to the caller's buffer so far (`offset` is its length). -/
def File.readLoop (n : Nat) : Nat → Nat → List Byte → File → Volume → Res (Nat × List Byte)
  | fuel, read, out, f, io =>
    if read < n then
      match fuel with
      | 0 => Res.fail Fault.diverges f io
      | fuel + 1 =>
        match f.readWorkingBlockBytes io ((n - read) % 4294967296) with
        | Res.fail e f1 io1 => Res.fail e f1 io1
        | Res.ok count f1 io1 =>
          let read1 := (read + count) % 4294967296
          let out1 := out ++ f1.m_buffer.take count
          if count = 0 then Res.ok (read1, out1) f1 io1
          else File.readLoop n fuel read1 out1 f1 io1
    else Res.ok (read, out) f io

/-- The member `File::read` (lines 306-336): returns the count and the bytes copied to
the caller's buffer `s`, in order.  Every iteration but the last reads at least
one byte, so `n + 1` iterations are enough. -/
def File.read (f : File) (io : Volume) (n : Nat) : Res (Nat × List Byte) :=
  if f.m_openDisposition.readWrite = ReadOrWriteOrBoth.WriteOnly then
    Res.fail (Fault.fileEntry FileEntryError.NotReadable) f io
  else
    match File.readLoop n (n + 1) 0 [] f io with
    | Res.fail e f1 io1 => Res.fail e f1 io1
    | Res.ok r f1 io1 => Res.ok r { f1 with m_pos := f1.m_pos + r.1 } io1

/-- The direction of a seek, `std::ios_base::seekdir`. -/
inductive SeekDir
  | beg
  | cur
  | «end»
deriving DecidableEq, Repr

/-- The type `SeekPair` (line 430): block index and position inside the block. -/
abbrev SeekPair := Int × Int

/-- The function `getPositionFromBegin` (lines 431-467); `%` and `/` of C++ truncate
towards zero. -/
def getPositionFromBegin (S : Nat) (off : Int) : SeekPair :=
  let blockSize : Int := (S : Int)
  let leftOver : Int := Int.tmod off blockSize
  if off > blockSize then
    let casted : Int := if leftOver > 0 then off - leftOver else off
    let blockPosition : Int := if leftOver > 0 then leftOver else 0
    let block : Int := Int.tdiv casted blockSize
    (if leftOver = 0 then block - 1 else block, blockPosition)
  else
    (0, off)

/-- The function `getPositionFromEnd` (lines 469-487); `blockSize` is a `uint16_t`
there. -/
def getPositionFromEnd (S : Nat) (off : Int) (endBlockIndex : Int) (bytesWrittenToEnd : Int) :
    SeekPair :=
  let treatLikeBegin := getPositionFromBegin S (|off|)
  let block : Int := endBlockIndex - treatLikeBegin.1
  let blockPosition : Int := bytesWrittenToEnd - treatLikeBegin.2
  if blockPosition < 0 then
    let blockSize : Int := ((S % 65536 : Nat) : Int)
    (block - 1, blockSize + blockPosition)
  else
    (block, blockPosition)

/-- The function `getPositionFromCurrent` (lines 489-510). -/
def getPositionFromCurrent (S : Nat) (off : Int) (blockIndex : Int)
    (indexedBlockPosition : Int) : SeekPair :=
  let blockSize : Int := (S : Int)
  let addition : Int := off + indexedBlockPosition
  let leftOver : Int := Int.tmod (|addition|) blockSize
  let roundedDown : Int := |addition| - leftOver
  let toIncrementBy : Int := Int.tdiv roundedDown blockSize
  if addition ≥ 0 then
    (blockIndex + toIncrementBy, leftOver)
  else
    (blockIndex - (toIncrementBy + 1), blockSize - leftOver)

/-- The member `File::getBlockWithIndex` (lines 631-648): the `n`-th block of the chain,
as a fresh handle; throws when the chain has no such block. -/
def File.getBlockWithIndex (f : File) (io : Volume) (n : Nat) : Except Fault FileBlock :=
  match FileBlockIterator.blocksFrom io f.m_startVolumeBlock with
  | none => Except.error Fault.diverges
  | some ks =>
    match ks.get? n with
    | some k => Except.ok (FileBlock.openAt k)
    | none => Except.error Fault.runtimeError

/-- The second half of `File::seek` (lines 547-576): bounds check, then the move. -/
def File.seekTo (f : File) (io : Volume) (off : Int) (way : SeekDir) (seekPair : SeekPair) :
    Res Int :=
  if f.m_blockCount ≤ seekPair.1.toNat ∨ seekPair.1 < 0 then Res.ok (-1) f io
  else
    let f1 : File := { f with m_blockIndex := seekPair.1.toNat }
    match f1.getBlockWithIndex io f1.m_blockIndex with
    | Except.error e => Res.fail e f1 io
    | Except.ok blk =>
      let f2 : File := { f1 with m_workingBlock := some (blk.seek seekPair.2) }
      let f3 : File :=
        match way with
        | SeekDir.cur => { f2 with m_pos := f2.m_pos + off }
        | SeekDir.end => { f2 with m_pos := (f2.m_fileSize : Int) + off }
        | SeekDir.beg => { f2 with m_pos := off }
      Res.ok off f3 io

/-- The member `File::seek` (lines 512-577).  `m_blockCount - 1` is computed in `size_t`,
so it is `2 ^ 64 - 1` for a file without blocks and `-1` once passed on as
`int64_t`. -/
def File.seek (S : Nat) (f : File) (io : Volume) (off : Int) (way : SeekDir) : Res Int :=
  let f0 : File :=
    if way ≠ SeekDir.cur then
      { f with m_workingBlock := f.m_workingBlock.map (fun wb => wb.seek 0) }
    else f
  match way with
  | SeekDir.end =>
    let endBlock : Nat :=
      if f0.m_blockCount = 0 then 18446744073709551615 else f0.m_blockCount - 1
    let endBlockIndex : Int := if f0.m_blockCount = 0 then -1 else ((f0.m_blockCount - 1 : Nat) : Int)
    match f0.getBlockWithIndex io endBlock with
    | Except.error e => Res.fail e f0 io
    | Except.ok blk =>
      f0.seekTo io off way
        (getPositionFromEnd S off endBlockIndex ((blk.getDataBytesWritten io : Nat) : Int))
  | SeekDir.beg => f0.seekTo io off way (getPositionFromBegin S off)
  | SeekDir.cur =>
    match f0.m_workingBlock with
    | none => Res.fail Fault.nullWorkingBlock f0 io
    | some wb =>
      f0.seekTo io off way
        (getPositionFromCurrent S off (f0.m_blockIndex : Int) ((wb.tell : Nat) : Int))

/-- The member `File::doReset` (lines 600-607). -/
def File.doReset (f : File) : File :=
  { f with m_fileSize := 0, m_blockCount := 0, m_workingBlock := none, m_blockIndex := 0 }

/-- The member `File::unlink` (lines 609-623): every block of the chain is unlinked and
counted as free; `FileBlock::unlink` leaves the `next` fields alone, so the
blocks visited are those of the chain as it was. -/
def File.unlink (f : File) (io : Volume) : Res Unit :=
  match FileBlockIterator.blocksFrom io f.m_startVolumeBlock with
  | none => Res.fail Fault.diverges f io
  | some ks =>
    Res.ok () f.doReset
      (ks.foldl
        (fun v k =>
          let v1 := (FileBlock.openAt k).unlink v
          { v1 with freeBlocks := v1.freeBlocks + 1 })
        io)

/-- The member `File::flush` (lines 585-592); no size callback is installed. -/
def File.flush (f : File) (io : Volume) : Res Unit :=
  f.writeBufferedDataToWorkingBlock io f.m_buffer.length

/-- The second constructor of `File` (lines 70-110): opens the chain that starts at
`startBlock`. -/
def File.openExisting (S : Nat) (io : Volume) (startBlock : Nat)
    (openDisposition : OpenDisposition) : Res Unit :=
  let f0 : File :=
    { m_enforceStartBlock := false
      m_fileSize := 0
      m_workingBlock := none
      m_buffer := []
      m_startVolumeBlock := startBlock
      m_blockIndex := 0
      m_openDisposition := openDisposition
      m_pos := 0
      m_blockCount := 0 }
  match f0.enumerateBlockStats io with
  | Res.fail e f1 io1 => Res.fail e f1 io1
  | Res.ok _ f1 io1 =>
    let f2 : File := { f1 with m_workingBlock := some (FileBlock.openAt startBlock) }
    if f2.m_openDisposition.readWrite ≠ ReadOrWriteOrBoth.ReadOnly then
      if f2.m_openDisposition.trunc = TruncateOrKeep.Truncate then f2.unlink io1
      else if f2.m_openDisposition.append = AppendOrOverwrite.Append then
        match f2.seek S io1 0 SeekDir.end with
        | Res.fail e f3 io3 => Res.fail e f3 io3
        | Res.ok _ f3 io3 => Res.ok () f3 io3
      else Res.ok () f2 io1
    else Res.ok () f2 io1

/-- The member `File::getStartVolumeBlockIndex` (lines 145-153). -/
def File.getStartVolumeBlockIndex (S : Nat) (f : File) (io : Volume) : Res Nat :=
  match f.m_workingBlock with
  | some _ => Res.ok f.m_startVolumeBlock f io
  | none =>
    match f.checkAndUpdateWorkingBlockWithNew S io with
    | Res.fail e f1 io1 => Res.fail e f1 io1
    | Res.ok _ f1 io1 =>
      match f1.m_workingBlock with
      | none => Res.fail Fault.nullWorkingBlock f1 io1
      | some wb => Res.ok wb.getIndex { f1 with m_startVolumeBlock := wb.getIndex } io1

/-! ## ContentFolder (`src/src/knoxcrypt/ContentFolder.cpp`)

`S` is `File::blockWriteSpace()` and `M` is `detail::MAX_FILENAME_LENGTH`.  The body
of a folder is a `File`: eight bytes of entry count, then one record of
`1 + M + 8` bytes per entry.  Names are byte strings (`std::string`). -/

/-- The enumeration `EntryType`. -/
inductive EntryType
  | FileType
  | FolderType
deriving DecidableEq, Repr

/-- Modelled from the spec: the class `EntryInfo` is not among the sources.  Its members
are the arguments of the constructor call in `ContentFolder::doGetEntryInfo`
(lines 668-673); `filename()`, `type()` and `firstFileBlock()` read them. -/
structure EntryInfo where
  filename : List Byte
  size : Nat
  type : EntryType
  writable : Bool
  firstFileBlock : Nat
  folderIndex : Nat
deriving DecidableEq, Repr

/-- Everything that can end a member function of `ContentFolder` other than a normal
return. -/
inductive FolderFault
  /-- An exception or fault of the `File` underneath. -/
  | file (e : Fault)
  /-- The `std::runtime_error` of `doSeekAndReadOfEntryMetaData` and of
  `metaDataToOutOfUse`. -/
  | metaData
  /-- A name of `MAX_FILENAME_LENGTH` bytes or more: `createFileNameVector` writes
  outside its vector. -/
  | nameOutsideVector
deriving DecidableEq, Repr

/-- The object state of `knoxcrypt::ContentFolder`, member by member (`m_io` and
`m_name` carry no behaviour that is modelled).  The cache `m_entryInfoCacheMap`
is a `std::map` from names to shared `EntryInfo`s; it is used through `find`,
`emplace` of an absent key and `erase` only, which an association list
serves. -/
structure ContentFolder where
  m_folderData : File
  m_startVolumeBlock : Nat
  m_entryCount : Int
  m_deadEntryCount : Int
  m_entryInfoCacheMap : List (List Byte × EntryInfo)
  m_checkForEarlyMetaData : Bool
  m_oldSpaceAvailableForEntry : Bool

/-- The outcome of a member function of `ContentFolder`: the value returned or the
exception thrown, with the state of the object and of the image at that
moment. -/
inductive FolderRes (α : Type) where
  | ok (a : α) (d : ContentFolder) (io : Volume)
  | fail (e : FolderFault) (d : ContentFolder) (io : Volume)

/-- The object state an outcome leaves behind. -/
def FolderRes.folder {α : Type} : FolderRes α → ContentFolder
  | FolderRes.ok _ d _ => d
  | FolderRes.fail _ d _ => d

/-- The image an outcome leaves behind. -/
def FolderRes.image {α : Type} : FolderRes α → Volume
  | FolderRes.ok _ _ io => io
  | FolderRes.fail _ _ io => io

/-- The value returned, if the function returned. -/
def FolderRes.value? {α : Type} : FolderRes α → Option α
  | FolderRes.ok a _ _ => some a
  | FolderRes.fail _ _ _ => none

/-- The exception thrown, if the function threw. -/
def FolderRes.fault? {α : Type} : FolderRes α → Option FolderFault
  | FolderRes.ok _ _ _ => none
  | FolderRes.fail e _ _ => some e

/-- Modelled from the spec: `detail::isBitSetInByte` is not among the sources.  Bit 0
is the in-use bit and bit 1 the type bit of the flags byte (spec section 3);
bits are counted from the least significant one. -/
def isBitSetInByte (byte : Byte) (n : Nat) : Bool :=
  decide (byte.toNat / 2 ^ n % 2 = 1)

/-- Modelled from the spec: `detail::setBitInByte` is not among the sources; it sets the
bit `n` of `byte` to `value` (`true` when the argument is left out). -/
def setBitInByte (byte : Byte) (n : Nat) (value : Bool) : Byte :=
  if value then
    if isBitSetInByte byte n then byte else UInt8.ofNat (byte.toNat + 2 ^ n)
  else
    if isBitSetInByte byte n then UInt8.ofNat (byte.toNat - 2 ^ n) else byte

/-- Modelled from the spec: `detail::convertUInt64ToInt8Array` is not among the sources;
"Little-endian multi-byte integers" (spec section 6). -/
def convertUInt64ToInt8Array (n : Nat) : List Byte :=
  (List.range 8).map (fun i => UInt8.ofNat (n / 256 ^ i % 256))

/-- Modelled from the spec: `detail::convertInt8ArrayToInt64` is not among the sources;
the inverse of `convertUInt64ToInt8Array` on the first eight bytes of `buf`. -/
def convertInt8ArrayToInt64 (buf : List Byte) : Nat :=
  ((List.range 8).map (fun i => (buf.getD i 0).toNat * 256 ^ i)).sum

/-- What a call that receives a `File` by value leaves of the caller's object.  The
working block is held through a shared pointer (`std::make_shared`, `File.cpp`
line 554), so the copy points to the same block until its own `seek` replaces
the pointer, and that `seek` starts by rewinding the block it points to (lines
518-522). -/
def File.lent (f : File) : File :=
  { f with m_workingBlock := f.m_workingBlock.map (fun wb => wb.seek 0) }

/-- The function `metaDataToOutOfUse` (lines 50-62); `folderData` is a `File` of its own.
`seekTo` is a `uint32_t`. -/
def metaDataToOutOfUse (S M : Nat) (folderData : File) (io : Volume) (n : Nat) :
    Except FolderFault Volume :=
  let bufferSize : Nat := (1 + M + 8) % 4294967296
  let seekTo : Nat := (8 + n % 4294967296 * bufferSize % 4294967296) % 4294967296
  match folderData.seek S io (seekTo : Int) SeekDir.beg with
  | Res.fail e _ _ => Except.error (FolderFault.file e)
  | Res.ok v f1 io1 =>
    if v ≠ -1 then
      match f1.write S io1 [0] 1 with
      | Res.fail e _ _ => Except.error (FolderFault.file e)
      | Res.ok _ f2 io2 =>
        match f2.flush io2 with
        | Res.fail e _ _ => Except.error (FolderFault.file e)
        | Res.ok _ _ io3 => Except.ok io3
    else Except.error FolderFault.metaData

/-- The function `doSeekAndReadOfEntryMetaData` (lines 72-91) with `bufSize` and `seekOff`
left at 0, as every call has them: the `1 + M + 8` bytes of the vector
`metaData`, which starts out zeroed and receives what `read` delivers.  The
offset is computed in `uint32_t`.  Neither `seek` nor `read` writes to the
image. -/
def doSeekAndReadOfEntryMetaData (S M : Nat) (folderData : File) (io : Volume) (n : Nat) :
    Except FolderFault (List Byte) :=
  let bufferSize : Nat := (1 + M + 8) % 4294967296
  let off : Nat := (8 + n % 4294967296 * bufferSize % 4294967296) % 4294967296
  match folderData.seek S io (off : Int) SeekDir.beg with
  | Res.fail e _ _ => Except.error (FolderFault.file e)
  | Res.ok v f1 io1 =>
    if v ≠ -1 then
      match f1.read io1 bufferSize with
      | Res.fail e _ _ => Except.error (FolderFault.file e)
      | Res.ok r _ _ => Except.ok ((r.2 ++ List.replicate bufferSize 0).take bufferSize)
    else Except.error FolderFault.metaData

/-- The function `createFileNameVector` (lines 93-99): `M` zero bytes that receive the
name; `none` when the name or its closing NUL falls outside the vector. -/
def createFileNameVector (M : Nat) (name : List Byte) : Option (List Byte) :=
  if name.length < M then some (name ++ List.replicate (M - name.length) 0) else none

/-- The function `entryMetaDataIsEnabled` (lines 111-115). -/
def entryMetaDataIsEnabled (bytes : List Byte) : Bool :=
  isBitSetInByte (bytes.getD 0 0) 0

/-- The function `getBlockIndexForEntry` (lines 122-126). -/
def getBlockIndexForEntry (M : Nat) (metaData : List Byte) : Nat :=
  convertInt8ArrayToInt64 (metaData.drop (M + 1))

/-- The function `getTypeForEntry` (lines 133-137). -/
def getTypeForEntry (bytes : List Byte) : EntryType :=
  if isBitSetInByte (bytes.getD 0 0) 1 then EntryType.FileType else EntryType.FolderType

/-- The function `getEntryName` on a record (lines 144-155): the bytes of the name field
up to the first NUL (`nameDat[c]` at the end of the `std::string` is NUL). -/
def getEntryName (metaData : List Byte) : List Byte :=
  ((metaData.drop 1).take (metaData.length - 9)).takeWhile (fun c => c ≠ 0)

/-- The function `getNumberOfEntries` (lines 175-189): the eight bytes at the start of
the data region of the start block, read through the image stream and cast to
`long`. -/
def getNumberOfEntries (folderData : File) (io : Volume) : Int :=
  let v := convertInt8ArrayToInt64
    ((List.range 8).map (fun t => (io.store folderData.m_startVolumeBlock).data t))
  if v < 9223372036854775808 then (v : Int) else (v : Int) - 18446744073709551616

/-- The function `detail::writeFolderEntryCount` (`DetailFolder.hpp`): eight bytes written
through the image stream at the start of the data region of `startBlock`. -/
def writeFolderEntryCount (io : Volume) (startBlock : Nat) (entryCount : Nat) : Volume :=
  let buf := convertUInt64ToInt8Array entryCount
  { io with store := fun k =>
      if k = startBlock then
        { io.store k with data := fun t => if t < 8 then buf.getD t 0 else (io.store k).data t }
      else io.store k }

/-- The loop of `ContentFolder::countDeadEntries` (lines 413-420) from `entryIndex` on,
with `k` indices to go. -/
def ContentFolder.countDeadEntriesFrom (S M : Nat) (io : Volume) :
    Nat → Nat → ContentFolder → FolderRes Unit
  | 0, _, d => FolderRes.ok () d io
  | k + 1, entryIndex, d =>
    let d1 : ContentFolder := { d with m_folderData := d.m_folderData.lent }
    match doSeekAndReadOfEntryMetaData S M d.m_folderData io entryIndex with
    | Except.error e => FolderRes.fail e d1 io
    | Except.ok metaData =>
      let d2 : ContentFolder :=
        if !entryMetaDataIsEnabled metaData then
          { d1 with m_deadEntryCount := d1.m_deadEntryCount + 1 }
        else d1
      ContentFolder.countDeadEntriesFrom S M io k (entryIndex + 1) d2

/-- The member `ContentFolder::countDeadEntries` (lines 410-421). -/
def ContentFolder.countDeadEntries (S M : Nat) (d : ContentFolder) (io : Volume) :
    FolderRes Unit :=
  ContentFolder.countDeadEntriesFrom S M io d.m_entryCount.toNat 0 d

/-- The constructor of `ContentFolder` for an existing folder (lines 193-210). -/
def ContentFolder.openExisting (S M : Nat) (io : Volume) (startVolumeBlock : Nat) :
    FolderRes Unit :=
  let r := File.openExisting S io startVolumeBlock OpenDisposition.buildAppendDisposition
  let d : ContentFolder :=
    { m_folderData := r.file
      m_startVolumeBlock := startVolumeBlock
      m_entryCount := getNumberOfEntries r.file r.image
      m_deadEntryCount := 0
      m_entryInfoCacheMap := []
      m_checkForEarlyMetaData := true
      m_oldSpaceAvailableForEntry := false }
  match r with
  | Res.fail e _ io1 => FolderRes.fail (FolderFault.file e) d io1
  | Res.ok _ _ io1 => d.countDeadEntries S M io1

/-- The constructor of `ContentFolder` for a new folder (lines 212-233). -/
def ContentFolder.create (S M : Nat) (io : Volume) (enforceRootBlock : Bool) : FolderRes Unit :=
  let mk (f : File) (start : Nat) : ContentFolder :=
    { m_folderData := f
      m_startVolumeBlock := start
      m_entryCount := 0
      m_deadEntryCount := 0
      m_entryInfoCacheMap := []
      m_checkForEarlyMetaData := true
      m_oldSpaceAvailableForEntry := false }
  match (File.create enforceRootBlock).getStartVolumeBlockIndex S io with
  | Res.fail e f1 io1 => FolderRes.fail (FolderFault.file e) (mk f1 0) io1
  | Res.ok start f1 io1 =>
    match f1.write S io1 (convertUInt64ToInt8Array 0) 8 with
    | Res.fail e f2 io2 => FolderRes.fail (FolderFault.file e) (mk f2 start) io2
    | Res.ok _ f2 io2 =>
      match f2.flush io2 with
      | Res.fail e f3 io3 => FolderRes.fail (FolderFault.file e) (mk f3 start) io3
      | Res.ok _ f3 io3 => (mk f3 start).countDeadEntries S M io3

/-- The member `ContentFolder::doWrite` (lines 235-239). -/
def ContentFolder.doWrite (S : Nat) (d : ContentFolder) (io : Volume) (buf : List Byte)
    (n : Nat) : FolderRes Nat :=
  match d.m_folderData.write S io buf n with
  | Res.fail e f1 io1 => FolderRes.fail (FolderFault.file e) { d with m_folderData := f1 } io1
  | Res.ok k f1 io1 => FolderRes.ok k { d with m_folderData := f1 } io1

/-- The member `ContentFolder::doWriteFirstByteToEntryMetaData` (lines 241-253). -/
def ContentFolder.doWriteFirstByteToEntryMetaData (S : Nat) (d : ContentFolder) (io : Volume)
    (entryType : EntryType) : FolderRes Nat :=
  let byte : Byte := setBitInByte (setBitInByte 0 0 true) 1 (decide (entryType = EntryType.FileType))
  d.doWrite S io [byte] 1

/-- The member `ContentFolder::doWriteFilenameToEntryMetaData` (lines 255-263). -/
def ContentFolder.doWriteFilenameToEntryMetaData (S M : Nat) (d : ContentFolder) (io : Volume)
    (name : List Byte) : FolderRes Nat :=
  match createFileNameVector M name with
  | none => FolderRes.fail FolderFault.nameOutsideVector d io
  | some filename => d.doWrite S io filename M

/-- The member `ContentFolder::doWriteFirstBlockIndexToEntryMetaData` (lines 265-272). -/
def ContentFolder.doWriteFirstBlockIndexToEntryMetaData (S : Nat) (d : ContentFolder)
    (io : Volume) (firstBlock : Nat) : FolderRes Nat :=
  d.doWrite S io (convertUInt64ToInt8Array firstBlock) 8

/-- The loop of `ContentFolder::doFindOffsetWhereMetaDataShouldBeWritten` (lines 707-714)
from `entryIndex` on, with `k` indices to go: the offset of the first record
whose in-use bit is clear.  `folderData` is `m_folderData` as the calls before
left it. -/
def ContentFolder.findDisabledFrom (S M : Nat) (io : Volume) :
    Nat → Nat → File → Except FolderFault (Option Int)
  | 0, _, _ => Except.ok none
  | k + 1, entryIndex, folderData =>
    match doSeekAndReadOfEntryMetaData S M folderData io entryIndex with
    | Except.error e => Except.error e
    | Except.ok metaData =>
      if !entryMetaDataIsEnabled metaData then
        let bufferSize : Nat := (1 + M + 8) % 4294967296
        Except.ok (some ((8 + entryIndex * bufferSize : Nat) : Int))
      else ContentFolder.findDisabledFrom S M io k (entryIndex + 1) folderData.lent

/-- The member `ContentFolder::doFindOffsetWhereMetaDataShouldBeWritten` (lines
697-725). -/
def ContentFolder.doFindOffsetWhereMetaDataShouldBeWritten (S M : Nat) (d : ContentFolder)
    (io : Volume) : FolderRes (Option Int) :=
  if d.m_checkForEarlyMetaData then
    let d1 : ContentFolder :=
      if 0 < d.m_entryCount then { d with m_folderData := d.m_folderData.lent } else d
    match ContentFolder.findDisabledFrom S M io d.m_entryCount.toNat 0 d.m_folderData with
    | Except.error e => FolderRes.fail e d1 io
    | Except.ok (some offset) => FolderRes.ok (some offset) d1 io
    | Except.ok none =>
      FolderRes.ok none
        { d1 with m_checkForEarlyMetaData := false, m_oldSpaceAvailableForEntry := false } io
  else FolderRes.ok none { d with m_oldSpaceAvailableForEntry := false } io
/-- The three writes, the count and the flush of
`ContentFolder::doWriteNewMetaDataForEntry` (lines 299-318); `brandNew` is
`!overWroteOld`. -/
def ContentFolder.writeRecord (S M : Nat) (d : ContentFolder) (io : Volume) (name : List Byte)
    (entryType : EntryType) (startBlock : Nat) (brandNew : Bool) : FolderRes Unit :=
  match d.doWriteFirstByteToEntryMetaData S io entryType with
  | FolderRes.fail e d1 io1 => FolderRes.fail e d1 io1
  | FolderRes.ok _ d1 io1 =>
    match d1.doWriteFilenameToEntryMetaData S M io1 name with
    | FolderRes.fail e d2 io2 => FolderRes.fail e d2 io2
    | FolderRes.ok _ d2 io2 =>
      match d2.doWriteFirstBlockIndexToEntryMetaData S io2 startBlock with
      | FolderRes.fail e d3 io3 => FolderRes.fail e d3 io3
      | FolderRes.ok _ d3 io3 =>
        let counted : FolderRes Unit :=
          if brandNew then
            let d4 : ContentFolder := { d3 with m_entryCount := d3.m_entryCount + 1 }
            match d4.m_folderData.getStartVolumeBlockIndex S io3 with
            | Res.fail e f5 io5 =>
              FolderRes.fail (FolderFault.file e) { d4 with m_folderData := f5 } io5
            | Res.ok start f5 io5 =>
              FolderRes.ok () { d4 with m_folderData := f5 }
                (writeFolderEntryCount io5 start
                  (d4.m_entryCount % 18446744073709551616).toNat)
          else FolderRes.ok () d3 io3
        match counted with
        | FolderRes.fail e d5 io5 => FolderRes.fail e d5 io5
        | FolderRes.ok _ d5 io5 =>
          match d5.m_folderData.flush io5 with
          | Res.fail e f6 io6 =>
            FolderRes.fail (FolderFault.file e) { d5 with m_folderData := f6 } io6
          | Res.ok _ f6 io6 => FolderRes.ok () { d5 with m_folderData := f6 } io6

/-- The member `ContentFolder::doWriteNewMetaDataForEntry` (lines 282-319). -/
def ContentFolder.doWriteNewMetaDataForEntry (S M : Nat) (d : ContentFolder) (io : Volume)
    (name : List Byte) (entryType : EntryType) (startBlock : Nat) : FolderRes Unit :=
  match d.doFindOffsetWhereMetaDataShouldBeWritten S M io with
  | FolderRes.fail e d1 io1 => FolderRes.fail e d1 io1
  | FolderRes.ok (some offset) d1 io1 =>
    match File.openExisting S io1 d1.m_startVolumeBlock
        OpenDisposition.buildOverwriteDisposition with
    | Res.fail e _ io2 => FolderRes.fail (FolderFault.file e) d1 io2
    | Res.ok _ f2 io2 =>
      match f2.seek S io2 offset SeekDir.beg with
      | Res.fail e f3 io3 => FolderRes.fail (FolderFault.file e) { d1 with m_folderData := f3 } io3
      | Res.ok _ f3 io3 =>
        ContentFolder.writeRecord S M
          { d1 with m_folderData := f3, m_deadEntryCount := d1.m_deadEntryCount - 1 }
          io3 name entryType startBlock false
  | FolderRes.ok none d1 io1 =>
    match d1.m_folderData.seek S io1 0 SeekDir.end with
    | Res.fail e f3 io3 => FolderRes.fail (FolderFault.file e) { d1 with m_folderData := f3 } io3
    | Res.ok _ f3 io3 =>
      ContentFolder.writeRecord S M { d1 with m_folderData := f3 } io3 name entryType
        startBlock true

/-- The member `ContentFolder::addFile` (lines 327-335). -/
def ContentFolder.addFile (S M : Nat) (d : ContentFolder) (io : Volume) (name : List Byte) :
    FolderRes Unit :=
  match (File.create false).getStartVolumeBlockIndex S io with
  | Res.fail e _ io1 => FolderRes.fail (FolderFault.file e) d io1
  | Res.ok start _ io1 => d.doWriteNewMetaDataForEntry S M io1 name EntryType.FileType start

/-- The member `ContentFolder::addContentFolder` (lines 337-344). -/
def ContentFolder.addContentFolder (S M : Nat) (d : ContentFolder) (io : Volume)
    (name : List Byte) : FolderRes Unit :=
  match ContentFolder.create S M io false with
  | FolderRes.fail e _ io1 => FolderRes.fail e d io1
  | FolderRes.ok _ entry io1 =>
    match entry.m_folderData.getStartVolumeBlockIndex S io1 with
    | Res.fail e _ io2 => FolderRes.fail (FolderFault.file e) d io2
    | Res.ok start _ io2 =>
      d.doWriteNewMetaDataForEntry S M io2 name EntryType.FolderType start

/-- The member `ContentFolder::invalidateEntryInEntryInfoCache` (lines 504-511). -/
def ContentFolder.invalidateEntryInEntryInfoCache (d : ContentFolder) (name : List Byte) :
    ContentFolder :=
  { d with m_entryInfoCacheMap := d.m_entryInfoCacheMap.filter (fun p => decide (p.1 ≠ name)) }

/-- The member `ContentFolder::doGetEntryInfo` (lines 643-678). -/
def ContentFolder.doGetEntryInfo (S M : Nat) (d : ContentFolder) (io : Volume)
    (metaData : List Byte) (entryIndex : Nat) : FolderRes EntryInfo :=
  let entryName := getEntryName metaData
  match d.m_entryInfoCacheMap.lookup entryName with
  | some info => FolderRes.ok info d io
  | none =>
    let entryType := getTypeForEntry metaData
    let startBlock := getBlockIndexForEntry M metaData
    let sized : Except Fault Nat :=
      if entryType = EntryType.FileType then
        match File.openExisting S io startBlock OpenDisposition.buildAppendDisposition with
        | Res.fail e _ _ => Except.error e
        | Res.ok _ fe _ => Except.ok fe.fileSize
      else Except.ok 0
    match sized with
    | Except.error e => FolderRes.fail (FolderFault.file e) d io
    | Except.ok fileSize =>
      let info : EntryInfo :=
        { filename := entryName
          size := fileSize
          type := entryType
          writable := true
          firstFileBlock := startBlock
          folderIndex := entryIndex }
      FolderRes.ok info { d with m_entryInfoCacheMap := (entryName, info) :: d.m_entryInfoCacheMap }
        io

/-- The loop of `ContentFolder::doGetNamedEntryInfo` (lines 609-620) from `entryIndex` on,
with `k` indices to go. -/
def ContentFolder.namedEntryInfoFrom (S M : Nat) (io : Volume) (name : List Byte) :
    Nat → Nat → ContentFolder → FolderRes (Option EntryInfo)
  | 0, _, d => FolderRes.ok none d io
  | k + 1, entryIndex, d =>
    let d1 : ContentFolder := { d with m_folderData := d.m_folderData.lent }
    match doSeekAndReadOfEntryMetaData S M d.m_folderData io entryIndex with
    | Except.error e => FolderRes.fail e d1 io
    | Except.ok metaData =>
      if entryMetaDataIsEnabled metaData then
        match d1.doGetEntryInfo S M io metaData entryIndex with
        | FolderRes.fail e d2 io2 => FolderRes.fail e d2 io2
        | FolderRes.ok info d2 io2 =>
          if info.filename = name then FolderRes.ok (some info) d2 io2
          else ContentFolder.namedEntryInfoFrom S M io name k (entryIndex + 1) d2
      else ContentFolder.namedEntryInfoFrom S M io name k (entryIndex + 1) d1

/-- The member `ContentFolder::doGetNamedEntryInfo` (lines 598-622), which
`getEntryInfo(name)` forwards to (lines 592-596). -/
def ContentFolder.doGetNamedEntryInfo (S M : Nat) (d : ContentFolder) (io : Volume)
    (name : List Byte) : FolderRes (Option EntryInfo) :=
  match d.m_entryInfoCacheMap.lookup name with
  | some info => FolderRes.ok (some info) d io
  | none => ContentFolder.namedEntryInfoFrom S M io name d.m_entryCount.toNat 0 d

/-- The member `ContentFolder::getEntryInfo(uint64_t)` (lines 624-629). -/
def ContentFolder.getEntryInfo (S M : Nat) (d : ContentFolder) (io : Volume)
    (entryIndex : Nat) : FolderRes EntryInfo :=
  let d1 : ContentFolder := { d with m_folderData := d.m_folderData.lent }
  match doSeekAndReadOfEntryMetaData S M d.m_folderData io entryIndex with
  | Except.error e => FolderRes.fail e d1 io
  | Except.ok metaData => d1.doGetEntryInfo S M io metaData entryIndex

/-- The member `ContentFolder::getAliveEntryCount` (lines 631-635). -/
def ContentFolder.getAliveEntryCount (d : ContentFolder) : Int :=
  d.m_entryCount - d.m_deadEntryCount

/-- The member `ContentFolder::getTotalEntryCount` (lines 637-641). -/
def ContentFolder.getTotalEntryCount (d : ContentFolder) : Int :=
  d.m_entryCount

/-- The member `ContentFolder::getFile` (lines 357-375); no size callback is modelled. -/
def ContentFolder.getFile (S M : Nat) (d : ContentFolder) (io : Volume) (name : List Byte)
    (openDisposition : OpenDisposition) : FolderRes (Option File) :=
  match d.doGetNamedEntryInfo S M io name with
  | FolderRes.fail e d1 io1 => FolderRes.fail e d1 io1
  | FolderRes.ok none d1 io1 => FolderRes.ok none d1 io1
  | FolderRes.ok (some info) d1 io1 =>
    if info.type = EntryType.FileType then
      match File.openExisting S io1 info.firstFileBlock openDisposition with
      | Res.fail e _ io2 => FolderRes.fail (FolderFault.file e) d1 io2
      | Res.ok _ file io2 => FolderRes.ok (some file) d1 io2
    else FolderRes.ok none d1 io1

/-- The loop of `ContentFolder::doGetMetaDataIndexForEntry` (lines 683-687) from
`entryIndex` on, with `k` indices to go.  `folderData` is `m_folderData` as the
calls before left it. -/
def ContentFolder.metaDataIndexFrom (S M : Nat) (io : Volume) (name : List Byte) :
    Nat → Nat → File → Except FolderFault Int
  | 0, _, _ => Except.ok (-1)
  | k + 1, entryIndex, folderData =>
    match doSeekAndReadOfEntryMetaData S M folderData io entryIndex with
    | Except.error e => Except.error e
    | Except.ok metaData =>
      if name = getEntryName metaData then Except.ok (entryIndex : Int)
      else ContentFolder.metaDataIndexFrom S M io name k (entryIndex + 1) folderData.lent

/-- The member `ContentFolder::doGetMetaDataIndexForEntry` (lines 680-689). -/
def ContentFolder.doGetMetaDataIndexForEntry (S M : Nat) (d : ContentFolder) (io : Volume)
    (name : List Byte) : FolderRes Int :=
  let d1 : ContentFolder :=
    if 0 < d.m_entryCount then { d with m_folderData := d.m_folderData.lent } else d
  match ContentFolder.metaDataIndexFrom S M io name d.m_entryCount.toNat 0 d.m_folderData with
  | Except.error e => FolderRes.fail e d1 io
  | Except.ok index => FolderRes.ok index d1 io

/-- The member `ContentFolder::doPutMetaDataOutOfUse` (lines 438-462). -/
def ContentFolder.doPutMetaDataOutOfUse (S M : Nat) (d : ContentFolder) (io : Volume)
    (name : List Byte) : FolderRes Bool :=
  match File.openExisting S io d.m_startVolumeBlock
      OpenDisposition.buildOverwriteDisposition with
  | Res.fail e _ io1 => FolderRes.fail (FolderFault.file e) d io1
  | Res.ok _ temp io1 =>
    match d.doGetMetaDataIndexForEntry S M io1 name with
    | FolderRes.fail e d2 io2 => FolderRes.fail e d2 io2
    | FolderRes.ok index d2 io2 =>
      if index = -1 then FolderRes.ok false d2 io2
      else
        match metaDataToOutOfUse S M temp io2 (index % 4294967296).toNat with
        | Except.error e => FolderRes.fail e d2 io2
        | Except.ok io3 =>
          FolderRes.ok true
            ({ d2 with
                m_checkForEarlyMetaData := true
                m_oldSpaceAvailableForEntry := true }.invalidateEntryInEntryInfoCache name)
            io3

/-- The member `ContentFolder::updateMetaDataWithNewFilename` (lines 470-502). -/
def ContentFolder.updateMetaDataWithNewFilename (S M : Nat) (d : ContentFolder) (io : Volume)
    (srcName dstName : List Byte) : FolderRes Bool :=
  match d.doGetMetaDataIndexForEntry S M io srcName with
  | FolderRes.fail e d1 io1 => FolderRes.fail e d1 io1
  | FolderRes.ok index d1 io1 =>
    if index = -1 then FolderRes.ok false d1 io1
    else
      let bufferSize : Int := (((1 + M + 8) % 4294967296 : Nat) : Int)
      let offset : Int := 8 + index * bufferSize + 1
      match File.openExisting S io1 d1.m_startVolumeBlock
          OpenDisposition.buildOverwriteDisposition with
      | Res.fail e _ io2 => FolderRes.fail (FolderFault.file e) d1 io2
      | Res.ok _ f2 io2 =>
        match f2.seek S io2 offset SeekDir.beg with
        | Res.fail e f3 io3 =>
          FolderRes.fail (FolderFault.file e) { d1 with m_folderData := f3 } io3
        | Res.ok _ f3 io3 =>
          match ContentFolder.doWriteFilenameToEntryMetaData S M { d1 with m_folderData := f3 }
              io3 dstName with
          | FolderRes.fail e d4 io4 => FolderRes.fail e d4 io4
          | FolderRes.ok _ d4 io4 =>
            FolderRes.ok true (d4.invalidateEntryInEntryInfoCache srcName) io4

/-- The member `ContentFolder::removeFile` (lines 513-529). -/
def ContentFolder.removeFile (S M : Nat) (d : ContentFolder) (io : Volume) (name : List Byte) :
    FolderRes Bool :=
  match d.getFile S M io name OpenDisposition.buildAppendDisposition with
  | FolderRes.fail e d1 io1 => FolderRes.fail e d1 io1
  | FolderRes.ok none d1 io1 => FolderRes.ok false d1 io1
  | FolderRes.ok (some entry) d1 io1 =>
    match entry.unlink io1 with
    | Res.fail e _ io2 => FolderRes.fail (FolderFault.file e) d1 io2
    | Res.ok _ _ io2 =>
      match d1.doPutMetaDataOutOfUse S M io2 name with
      | FolderRes.fail e d3 io3 => FolderRes.fail e d3 io3
      | FolderRes.ok _ d3 io3 =>
        FolderRes.ok true { d3 with m_deadEntryCount := d3.m_deadEntryCount + 1 } io3

/-- The member `ContentFolder::putMetaDataOutOfUse` (lines 464-468). -/
def ContentFolder.putMetaDataOutOfUse (S M : Nat) (d : ContentFolder) (io : Volume)
    (name : List Byte) : FolderRes Bool :=
  d.doPutMetaDataOutOfUse S M io name

/-! ## The image builder (`MakeKnoxCrypt.hpp`) -/

/-- The member `MakeKnoxCrypt::zeroOutBits` (lines 115-122): clears the eight bits of a
zero byte and appends it to `bitMapData`. -/
def MakeKnoxCrypt.zeroOutBits (bitMapData : List Byte) : List Byte :=
  bitMapData ++ [(List.range 8).foldl (fun byte i => setBitInByte byte i false) 0]

/-- The member `MakeKnoxCrypt::createVolumeBitMap` (lines 128-144): the bytes it writes
to the stream, `bytesRequired` bytes of `bitMapData`. -/
def MakeKnoxCrypt.createVolumeBitMap (blocks : Nat) : List Byte :=
  let bytesRequired : Nat := blocks / 8
  let bitMapData : List Byte :=
    (List.range bytesRequired).foldl (fun acc _ => MakeKnoxCrypt.zeroOutBits acc) []
  bitMapData.take bytesRequired

/-- The member `MakeKnoxCrypt::doBuildImage` (lines 245-272): the bytes written from
`detail::beginning()` on, before the file space: the block count, the volume
bitmap and the file count. -/
def MakeKnoxCrypt.doBuildImage (blocks : Nat) : List Byte :=
  let sizeBytes := convertUInt64ToInt8Array blocks
  let countBytes := convertUInt64ToInt8Array 0
  sizeBytes ++ MakeKnoxCrypt.createVolumeBitMap blocks ++ countBytes

/-! ## Vocabulary of the specification -/

/-- The list `ks` is the chain that starts at block `b` (spec section 3): it starts with
`b`, every block but the last points to the next one and not to itself, and
the last block points to itself (the self-loop terminator). -/
def IsChain (io : Volume) : Nat → List Nat → Prop
  | _, [] => False
  | b, [k] => b = k ∧ (io.store k).next = k
  | b, k :: k1 :: ks =>
    b = k ∧ (io.store k).next = k1 ∧ k1 ≠ k ∧ IsChain io k1 (k1 :: ks)

instance IsChain.instDecidable (io : Volume) : (b : Nat) → (ks : List Nat) →
    Decidable (IsChain io b ks)
  | _, [] => isFalse (fun h => h)
  | b, [k] => (inferInstance : Decidable (b = k ∧ (io.store k).next = k))
  | b, k :: k1 :: ks =>
    have : Decidable (IsChain io k1 (k1 :: ks)) := IsChain.instDecidable io k1 (k1 :: ks)
    (inferInstance :
      Decidable (b = k ∧ (io.store k).next = k1 ∧ k1 ≠ k ∧ IsChain io k1 (k1 :: ks)))

/-- The bytes `C` are laid out over the chain `ks` that starts at `b`, block after block:
the `j`-th block of the chain holds the bytes `C[j * S ..]`, as many as fit
into `S`, and the chain lies inside the image. -/
structure Laid (S : Nat) (io : Volume) (b : Nat) (ks : List Nat) (C : List Byte) : Prop where
  chain : IsChain io b ks
  inside : ∀ k ∈ ks, k < io.blocks
  sizes : ∀ j < ks.length, (io.store (ks.getD j 0)).bytesWritten = min S (C.length - j * S)
  bytes : ∀ j < ks.length, ∀ t < min S (C.length - j * S),
    (io.store (ks.getD j 0)).data t = C.getD (j * S + t) 0
  fits : C.length ≤ ks.length * S

/-- The file that starts at block `b` has the content `C`, stored as a dense chain `ks`:
every block but the last holds `S` bytes, and the last block is not empty
unless it is the only one. -/
structure Stored (S : Nat) (io : Volume) (b : Nat) (ks : List Nat) (C : List Byte) : Prop where
  laid : Laid S io b ks C
  canonical : ks.length = 1 ∨ (ks.length - 1) * S < C.length

/-- The number of blocks of the image whose occupancy bit is clear. -/
def freeCount (io : Volume) : Nat :=
  (List.range io.blocks).countP (fun k => !io.bitmap k)

/-- The sum of `bytes_written` over the blocks `ks`. -/
def sumBytesWritten (io : Volume) (ks : List Nat) : Nat :=
  (ks.map (fun k => (io.store k).bytesWritten)).sum

/-- The content `C` with the bytes `d` written over it from position `p` on. -/
def splice (C : List Byte) (p : Nat) (d : List Byte) : List Byte :=
  C.take p ++ d ++ C.drop (p + d.length)

/-- A client that calls `write` once for every buffer of `ds`, with `n` the length of the
buffer, and stops at the first call that throws. -/
def File.writeAll (S : Nat) : List (List Byte) → File → Volume → Res Unit
  | [], f, io => Res.ok () f io
  | d :: ds, f, io =>
    match f.write S io d d.length with
    | Res.fail e f1 io1 => Res.fail e f1 io1
    | Res.ok _ f1 io1 => File.writeAll S ds f1 io1

/-- The handle `f` is a writer on the file that starts at `b`, whose bytes `C` are laid
out over the chain `ks`: its working block is the `i`-th block of the chain, the
cursor of that block is `c`, and the position of the file is `i * S + c`, inside
or at the end of the content.  All blocks of the chain are marked in use.  In
append mode the handle stands at the end of the last block; in overwrite mode
`m_fileSize` is at most the size of the content and lies in the last block. -/
structure Writer (S : Nat) (f : File) (io : Volume) (b : Nat) (ks : List Nat)
    (C : List Byte) (i c : Nat) : Prop where
  laid : Laid S io b ks C
  inUse : ∀ k ∈ ks, io.bitmap k = true
  start : f.m_startVolumeBlock = b
  count : f.m_blockCount = ks.length
  index : f.m_blockIndex = i
  block : f.m_workingBlock = some { index := ks.getD i 0, seekPos := c }
  valid : i < ks.length
  cursor : c ≤ S
  pos : f.m_pos = ((i * S + c : Nat) : Int)
  within : i * S + c ≤ C.length
  enforce : f.m_enforceStartBlock = false
  writable : f.m_openDisposition.readWrite ≠ ReadOrWriteOrBoth.ReadOnly
  atEnd : f.m_openDisposition.append = AppendOrOverwrite.Append →
    i + 1 = ks.length ∧ i * S + c = C.length
  sized : f.m_openDisposition.append = AppendOrOverwrite.Overwrite →
    f.m_fileSize ≤ C.length ∧ (ks.length = 1 ∨ (ks.length - 1) * S < f.m_fileSize)

/-- What working-block maintenance achieves for a writer at block `i`, cursor `c`, that
has `m` more bytes to write: the handle `f1` it leaves is a writer with room in
its working block, at the same position of the file; `nb` are the blocks that
were allocated (none or one). -/
structure Maintained (S : Nat) (f : File) (io : Volume) (b : Nat) (ks : List Nat)
    (C : List Byte) (i c m : Nat) (f1 : File) (io1 : Volume) (nb : List Nat) (i1 c1 : Nat) :
    Prop where
  result : f.checkAndUpdateWorkingBlockWithNew S io = Res.ok () f1 io1
  writer : Writer S f1 io1 b (ks ++ nb) C i1 c1
  room : c1 < S
  samePos : i1 * S + c1 = i * S + c
  blocks : io1.blocks = io.blocks
  freeBlocks : io1.freeBlocks = io.freeBlocks
  capacity : (ks ++ nb).length + freeCount io1 = ks.length + freeCount io
  wasFree : ∀ k ∈ nb, io.bitmap k = false
  bitmap : ∀ k, io1.bitmap k = (io.bitmap k || decide (k ∈ nb))
  fileSize : f1.m_fileSize = f.m_fileSize
  staysAppend : f.m_openDisposition.append = AppendOrOverwrite.Append →
    f1.m_openDisposition.append = AppendOrOverwrite.Append
  staysOverwrite : f.m_openDisposition.append = AppendOrOverwrite.Overwrite →
    i * S + c + m ≤ C.length → f1.m_openDisposition = f.m_openDisposition ∧ nb = []
  canonical : (ks.length = 1 ∨ (ks.length - 1) * S < max C.length (i * S + c + m)) →
    ((ks ++ nb).length = 1 ∨ ((ks ++ nb).length - 1) * S < max C.length (i * S + c + m))
  others : ∀ x, x ∉ ks → x ∉ nb → io1.store x = io.store x

/-- What the loop of `write` achieves for a writer at block `i`, cursor `c`, once
`wrote` of the `n` bytes of `s` are written: it returns `n`, the bytes
`s[wrote .. n)` are spliced into the content at the position of the handle, the
blocks `nb` were free and are now linked to the end of the chain and marked in
use, and no other bit of the bitmap and no block outside the chain has
changed. -/
structure Looped (S : Nat) (s : List Byte) (n fuel wrote : Nat) (f : File) (io : Volume)
    (b : Nat) (ks : List Nat) (C : List Byte) (i c : Nat) (f1 : File) (io1 : Volume)
    (nb : List Nat) (i1 c1 : Nat) : Prop where
  result : File.writeLoop S s n fuel wrote f io = Res.ok n f1 io1
  writer : Writer S f1 io1 b (ks ++ nb)
    (splice C (i * S + c) ((s.drop wrote).take (n - wrote))) i1 c1
  newPos : i1 * S + c1 = i * S + c + (n - wrote)
  blocks : io1.blocks = io.blocks
  freeBlocks : io1.freeBlocks = io.freeBlocks
  capacity : (ks ++ nb).length + freeCount io1 = ks.length + freeCount io
  wasFree : ∀ k ∈ nb, io.bitmap k = false
  bitmap : ∀ k, io1.bitmap k = (io.bitmap k || decide (k ∈ nb))
  staysAppend : f.m_openDisposition.append = AppendOrOverwrite.Append →
    f1.m_openDisposition.append = AppendOrOverwrite.Append ∧
    f1.m_fileSize = f.m_fileSize + (n - wrote)
  staysOverwrite : f.m_openDisposition.append = AppendOrOverwrite.Overwrite →
    i * S + c + (n - wrote) ≤ C.length →
    f1.m_openDisposition = f.m_openDisposition ∧ nb = [] ∧ f1.m_fileSize = f.m_fileSize
  canonical : (ks.length = 1 ∨ (ks.length - 1) * S < max C.length (i * S + c + (n - wrote))) →
    ((ks ++ nb).length = 1 ∨
      ((ks ++ nb).length - 1) * S < max C.length (i * S + c + (n - wrote)))
  others : ∀ x, x ∉ ks → x ∉ nb → io1.store x = io.store x

/-- What the first working-block maintenance achieves for a newly created file: the
first free block `a` is taken, marked in use, and becomes the one-block chain of
the file; the handle `f1` is a writer at its start. -/
structure Started (S : Nat) (io : Volume) (a : Nat) (f1 : File) (io1 : Volume) : Prop where
  result : (File.create false).checkAndUpdateWorkingBlockWithNew S io = Res.ok () f1 io1
  writer : Writer S f1 io1 a [a] [] 0 0
  inside : a < io.blocks
  wasFree : io.bitmap a = false
  first : ∀ k, k < a → io.bitmap k = true
  bitmap : ∀ k, io1.bitmap k = (io.bitmap k || decide (k = a))
  blocks : io1.blocks = io.blocks
  freeBlocks : io1.freeBlocks = io.freeBlocks
  capacity : freeCount io1 + 1 = freeCount io
  append : f1.m_openDisposition = OpenDisposition.buildAppendDisposition
  fileSize : f1.m_fileSize = 0
  buffer : f1.m_buffer = []

/-- The image `io1` differs from `io` in its bitmap only by the blocks `nb`, which were
free in `io`, are in use in `io1` and extend the chain `ks`; the block count and
the free-block counter are those of `io`. -/
structure Grown (io io1 : Volume) (ks nb : List Nat) : Prop where
  blocks : io1.blocks = io.blocks
  freeBlocks : io1.freeBlocks = io.freeBlocks
  capacity : (ks ++ nb).length + freeCount io1 = ks.length + freeCount io
  wasFree : ∀ k ∈ nb, io.bitmap k = false
  bitmap : ∀ k, io1.bitmap k = (io.bitmap k || decide (k ∈ nb))

/-- The handle `f` is an append-mode writer that stands at the end of the file that starts
at `b`, whose content `C` is stored as the dense chain `ks`; `fileSize()` is the
size of the content and nothing is pending in `m_buffer`. -/
structure AtEnd (S : Nat) (f : File) (io : Volume) (b : Nat) (ks : List Nat)
    (C : List Byte) : Prop where
  writer : ∃ i c, Writer S f io b ks C i c
  append : f.m_openDisposition.append = AppendOrOverwrite.Append
  size : f.m_fileSize = C.length
  canonical : ks.length = 1 ∨ (ks.length - 1) * S < C.length
  flushed : f.m_buffer = []

/-- The handle `f` reads the file that starts at `b`, whose content `C` is stored as the
dense chain `ks`: its working block is the `i`-th block of the chain with the
cursor at `c`, that is at the byte `i * S + c` of the content, and it is not
parked at the end of a block that has a successor. -/
structure Reader (S : Nat) (f : File) (io : Volume) (b : Nat) (ks : List Nat)
    (C : List Byte) (i c : Nat) : Prop where
  stored : Stored S io b ks C
  start : f.m_startVolumeBlock = b
  count : f.m_blockCount = ks.length
  index : f.m_blockIndex = i
  block : f.m_workingBlock = some { index := ks.getD i 0, seekPos := c }
  valid : i < ks.length
  cursor : c ≤ S
  within : i * S + c ≤ C.length
  notParked : c < S ∨ i + 1 = ks.length

/-- What a sequence of writes that stays inside the content achieves for an overwrite-mode
writer: the bytes are spliced in at the position of the handle, and neither the
chain, the bitmap, the counters, the open mode nor `m_fileSize` change, and no block
outside the chain is written to. -/
structure Overwritten (S : Nat) (f : File) (io : Volume) (b : Nat) (ks : List Nat)
    (C : List Byte) (i c : Nat) (d : List Byte) (f1 : File) (io1 : Volume) (i1 c1 : Nat) :
    Prop where
  writer : Writer S f1 io1 b ks (splice C (i * S + c) d) i1 c1
  newPos : i1 * S + c1 = i * S + c + d.length
  mode : f1.m_openDisposition = f.m_openDisposition
  fileSize : f1.m_fileSize = f.m_fileSize
  bitmap : io1.bitmap = io.bitmap
  blocks : io1.blocks = io.blocks
  freeBlocks : io1.freeBlocks = io.freeBlocks
  buffer : f.m_buffer = [] → f1.m_buffer = []
  others : ∀ x, x ∉ ks → io1.store x = io.store x

/-- A client that opens the file that starts at block `b` with the disposition `disp`,
seeks to the byte `k` from the beginning, writes the bytes of `d` in one call and
flushes, as the overwrite tests of `FileTest.hpp` do (lines 424-434); it stops
at the first call that throws. -/
def File.openSeekWriteFlush (S : Nat) (io : Volume) (b : Nat) (disp : OpenDisposition)
    (k : Int) (d : List Byte) : Res Unit :=
  match File.openExisting S io b disp with
  | Res.fail e f io1 => Res.fail e f io1
  | Res.ok _ f io1 =>
    match f.seek S io1 k SeekDir.beg with
    | Res.fail e f1 io2 => Res.fail e f1 io2
    | Res.ok _ f1 io2 =>
      match f1.write S io2 d d.length with
      | Res.fail e f2 io3 => Res.fail e f2 io3
      | Res.ok _ f2 io3 => f2.flush io3

/-- A client that opens the file that starts at block `b` read-only and calls `read` once,
for `n` bytes. -/
def File.openRead (S : Nat) (io : Volume) (b : Nat) (n : Nat) : Res (Nat × List Byte) :=
  match File.openExisting S io b OpenDisposition.buildReadOnlyDisposition with
  | Res.fail e f io1 => Res.fail e f io1
  | Res.ok _ f io1 => f.read io1 n

/-- The member `File::truncate` (lines 393-428).  `newSize` is a `std::ios_base::streamoff`
and `blockSize` a `uint32_t`, so the comparison and the remainder are taken in
64-bit signed arithmetic; `blocksRequired` is a `uint64_t`.  The sizes handed
to `FileBlock::setSize` are not negative for a `newSize` that is not. -/
def File.truncate (S : Nat) (f : File) (io : Volume) (newSize : Int) : Res Unit :=
  let blockSize : Int := (S : Int)
  if newSize < blockSize then
    match f.getBlockWithIndex io 0 with
    | Except.error e => Res.fail e f io
    | Except.ok zeroBlock =>
      let io1 := zeroBlock.setSize io newSize.toNat
      let io2 := zeroBlock.setNextIndex io1 zeroBlock.getIndex
      Res.ok () f io2
  else
    let leftOver : Int := Int.tmod newSize blockSize
    let roundedDown : Int := newSize - leftOver
    let blocksRequired : Nat := (Int.tdiv roundedDown blockSize).toNat
    let blocksRequired1 : Nat :=
      if leftOver = 0 then (blocksRequired + 18446744073709551615) % 18446744073709551616
      else blocksRequired
    match f.getBlockWithIndex io blocksRequired1 with
    | Except.error e => Res.fail e f io
    | Except.ok block =>
      let io1 := block.setSize io (if leftOver = 0 then S else leftOver.toNat)
      let io2 := block.setNextIndex io1 block.getIndex
      Res.ok () { f with m_blockCount := blocksRequired1 } io2

/-- The target that `File::seek` computes before its bounds check (lines 524-545): block
index and position inside the block; `none` when computing it throws (the
working block is null, or the chain has no last block). -/
def File.seekPair (S : Nat) (f : File) (io : Volume) (off : Int) (way : SeekDir) :
    Option SeekPair :=
  match way with
  | SeekDir.beg => some (getPositionFromBegin S off)
  | SeekDir.cur =>
    f.m_workingBlock.map
      (fun wb => getPositionFromCurrent S off (f.m_blockIndex : Int) ((wb.tell : Nat) : Int))
  | SeekDir.end =>
    let endBlock : Nat :=
      if f.m_blockCount = 0 then 18446744073709551615 else f.m_blockCount - 1
    let endBlockIndex : Int := if f.m_blockCount = 0 then -1 else ((f.m_blockCount - 1 : Nat) : Int)
    match f.getBlockWithIndex io endBlock with
    | Except.error _ => none
    | Except.ok blk =>
      some (getPositionFromEnd S off endBlockIndex ((blk.getDataBytesWritten io : Nat) : Int))

/-- The position that a seek aims at: `off` from the beginning, `tell() + off` from the
current position, `fileSize() + off` from the end (the `switch` of lines
559-571). -/
def File.seekGoal (f : File) (off : Int) (way : SeekDir) : Int :=
  match way with
  | SeekDir.beg => off
  | SeekDir.cur => f.m_pos + off
  | SeekDir.end => (f.m_fileSize : Int) + off

/-- The bounds check of `File::seek` (line 548) fails for the target `p`. -/
def File.outOfRange (f : File) (p : SeekPair) : Prop :=
  f.m_blockCount ≤ p.1.toNat ∨ p.1 < 0

instance File.instDecidableOutOfRange (f : File) (p : SeekPair) : Decidable (f.outOfRange p) :=
  (inferInstance : Decidable (f.m_blockCount ≤ p.1.toNat ∨ p.1 < 0))

/-- The body of a folder with the header `hdr` and the records `recs`, in order. -/
def bodyOf (hdr : List Byte) (recs : List (List Byte)) : List Byte :=
  hdr ++ recs.flatten

/-- The body of a folder whose records are `recs` (spec section 3, "Content Folder"): the
number of records in eight bytes, then the records. -/
def folderBody (recs : List (List Byte)) : List Byte :=
  bodyOf (convertUInt64ToInt8Array recs.length) recs

/-- The names of the records that are in use, in the order of the records. -/
def liveNames (recs : List (List Byte)) : List (List Byte) :=
  (recs.filter entryMetaDataIsEnabled).map getEntryName

/-- The record that `doWriteNewMetaDataForEntry` writes for an entry: the flags byte, the
name padded with NUL bytes to `M` bytes, the first block in eight bytes. -/
def entryRecord (M : Nat) (name : List Byte) (entryType : EntryType) (startBlock : Nat) :
    List Byte :=
  [setBitInByte (setBitInByte 0 0 true) 1 (decide (entryType = EntryType.FileType))] ++
    ((name ++ List.replicate (M - name.length) 0) ++ convertUInt64ToInt8Array startBlock)

/-- None of the first `n` records starts at a multiple of the block payload `S`, and
none of their name fields starts at a multiple of `S` above `S`: the offsets
that `getPositionFromBegin` sends to the wrong byte, or at which a read finds
the handle parked at the end of a block, are kept out. -/
def GoodOffsets (S M n : Nat) : Prop :=
  ∀ i < n, (8 + i * (1 + M + 8)) % S ≠ 0 ∧
    (9 + i * (1 + M + 8) ≤ S ∨ (9 + i * (1 + M + 8)) % S ≠ 0)

/-- The bytes a write can place before it needs a block that is not free: the room left
in the working block, and `S` bytes for every free block of the image. -/
def File.writeCapacity (S : Nat) (f : File) (io : Volume) : Nat :=
  (match f.m_workingBlock with
    | some wb => S - wb.seekPos
    | none => 0) + freeCount io * S

/-- The cursor of the working block, if there is one, is at most `S`. -/
def File.cursorWithin (S : Nat) (f : File) : Prop :=
  ∀ wb, f.m_workingBlock = some wb → wb.seekPos ≤ S

/-- The handle `f` with other values in `m_fileSize` and `m_pos`, the two members that
`write` consults only to compare them with each other. -/
def File.resized (f : File) (sz : Nat) (p : Int) : File :=
  { f with m_fileSize := sz, m_pos := p }

/-- The folder object `d` and the image `io` agree on a folder with the records `recs`:
the body is stored as the dense chain `ks`, whose blocks are marked in use,
every record has the width `1 + M + 8`, `m_entryCount` is the number of
records, and the handle `m_folderData` is a read-write handle on this chain
which holds no unwritten bytes.  Nothing is asked of `m_fileSize` and `m_pos`
of the handle: a handle that `doWriteNewMetaDataForEntry` opened for
overwriting and that appends later does not count the appended bytes. -/
structure FolderLayout (S M : Nat) (d : ContentFolder) (io : Volume) (ks : List Nat)
    (recs : List (List Byte)) : Prop where
  stored : Stored S io d.m_startVolumeBlock ks (folderBody recs)
  inUse : ∀ k ∈ ks, io.bitmap k = true
  width : ∀ r ∈ recs, r.length = 1 + M + 8
  count : d.m_entryCount = (recs.length : Int)
  start : d.m_folderData.m_startVolumeBlock = d.m_startVolumeBlock
  blockCount : d.m_folderData.m_blockCount = ks.length
  mode : d.m_folderData.m_openDisposition.readWrite = ReadOrWriteOrBoth.ReadWrite
  enforce : d.m_folderData.m_enforceStartBlock = false
  buffer : d.m_folderData.m_buffer = []

/-- The folder `d` is kept in order on the image `io`: it is laid out with the records
`recs`, and (order) no record carries the name of a record in use that comes
after it, so that a lookup by name that ignores the in-use bit finds the
record in use; (early) when `m_checkForEarlyMetaData` is off every record is
in use; (files) the start block of every file in use heads a chain of blocks
of the image that are marked in use and are not blocks of the folder; (apart)
the chains of two files in use share no block; (cache) every pair of
`m_entryInfoCacheMap` describes a record in use under its name. -/
structure FolderKept (S M : Nat) (d : ContentFolder) (io : Volume) (ks : List Nat)
    (recs : List (List Byte)) : Prop where
  layout : FolderLayout S M d io ks recs
  order : ∀ i j, i < j → j < recs.length →
    entryMetaDataIsEnabled (recs.getD j []) = true →
    getEntryName (recs.getD i []) ≠ getEntryName (recs.getD j [])
  early : d.m_checkForEarlyMetaData = false → ∀ r ∈ recs, entryMetaDataIsEnabled r = true
  files : ∀ i, i < recs.length → entryMetaDataIsEnabled (recs.getD i []) = true →
    getTypeForEntry (recs.getD i []) = EntryType.FileType →
    ∃ cs, IsChain io (getBlockIndexForEntry M (recs.getD i [])) cs ∧
      ∀ y ∈ cs, y < io.blocks ∧ io.bitmap y = true ∧ y ∉ ks
  apart : ∀ i j, i < recs.length → j < recs.length → i ≠ j →
    entryMetaDataIsEnabled (recs.getD i []) = true →
    getTypeForEntry (recs.getD i []) = EntryType.FileType →
    entryMetaDataIsEnabled (recs.getD j []) = true →
    getTypeForEntry (recs.getD j []) = EntryType.FileType →
    ∀ ci cj, IsChain io (getBlockIndexForEntry M (recs.getD i [])) ci →
      IsChain io (getBlockIndexForEntry M (recs.getD j [])) cj → ∀ y ∈ ci, y ∉ cj
  cache : ∀ p ∈ d.m_entryInfoCacheMap, p.2.filename = p.1 ∧
    ∃ j, j < recs.length ∧ entryMetaDataIsEnabled (recs.getD j []) = true ∧
      getEntryName (recs.getD j []) = p.1 ∧ p.2.type = getTypeForEntry (recs.getD j []) ∧
      p.2.firstFileBlock = getBlockIndexForEntry M (recs.getD j [])

/-- The operations of a client that fills and empties a folder. -/
inductive FolderOp
  | addFile (name : List Byte)
  | addContentFolder (name : List Byte)
  | removeFile (name : List Byte)
deriving DecidableEq, Repr

/-- A client that calls one operation on a folder. -/
def ContentFolder.apply (S M : Nat) (d : ContentFolder) (io : Volume) :
    FolderOp → FolderRes Unit
  | FolderOp.addFile name => d.addFile S M io name
  | FolderOp.addContentFolder name => d.addContentFolder S M io name
  | FolderOp.removeFile name =>
    match d.removeFile S M io name with
    | FolderRes.fail e d1 io1 => FolderRes.fail e d1 io1
    | FolderRes.ok _ d1 io1 => FolderRes.ok () d1 io1

/-- A client that calls the operations `ops` on a folder, in order, and stops at the first
call that throws. -/
def ContentFolder.run (S M : Nat) : List FolderOp → ContentFolder → Volume → FolderRes Unit
  | [], d, io => FolderRes.ok () d io
  | op :: ops, d, io =>
    match d.apply S M io op with
    | FolderRes.fail e d1 io1 => FolderRes.fail e d1 io1
    | FolderRes.ok _ d1 io1 => ContentFolder.run S M ops d1 io1

/-- A client that creates a folder and calls the operations `ops` on it. -/
def ContentFolder.createAndRun (S M : Nat) (io : Volume) (ops : List FolderOp) :
    FolderRes Unit :=
  match ContentFolder.create S M io false with
  | FolderRes.fail e d1 io1 => FolderRes.fail e d1 io1
  | FolderRes.ok _ d1 io1 => ContentFolder.run S M ops d1 io1

/-- The type of the entry in use under the name `x` among the records `recs`, if there is
one. -/
def liveType (recs : List (List Byte)) (x : List Byte) : Option EntryType :=
  (recs.find? (fun r => entryMetaDataIsEnabled r && decide (getEntryName r = x))).map
    getTypeForEntry

/-- What the caller of a folder has to see to (`CoreFS::throwIfAlreadyExists`): `live`
maps the names in use to the types of their entries, a name that is added is
shorter than `M`, has no NUL byte and is not in use, and `removeFile` takes the
name of a file out of use. -/
def FolderOp.allowed (M : Nat) : List FolderOp → (List Byte → Option EntryType) → Prop
  | [], _ => True
  | FolderOp.addFile x :: ops, live =>
    x.length < M ∧ (0 : Byte) ∉ x ∧ live x = none ∧
      FolderOp.allowed M ops (fun y => if y = x then some EntryType.FileType else live y)
  | FolderOp.addContentFolder x :: ops, live =>
    x.length < M ∧ (0 : Byte) ∉ x ∧ live x = none ∧
      FolderOp.allowed M ops (fun y => if y = x then some EntryType.FolderType else live y)
  | FolderOp.removeFile x :: ops, live =>
    FolderOp.allowed M ops
      (fun y => if y = x ∧ live x = some EntryType.FileType then none else live y)

/-- The number of `addFile` and `addContentFolder` calls among `ops`. -/
def FolderOp.adds : List FolderOp → Nat
  | [] => 0
  | FolderOp.removeFile _ :: ops => FolderOp.adds ops
  | _ :: ops => FolderOp.adds ops + 1

instance FolderOp.instDecidableAllowed (M : Nat) : (ops : List FolderOp) →
    (live : List Byte → Option EntryType) → Decidable (FolderOp.allowed M ops live)
  | [], _ => isTrue trivial
  | FolderOp.addFile x :: ops, live =>
    have : Decidable (FolderOp.allowed M ops
        (fun y => if y = x then some EntryType.FileType else live y)) :=
      FolderOp.instDecidableAllowed M ops _
    (inferInstance : Decidable (x.length < M ∧ (0 : Byte) ∉ x ∧ live x = none ∧
      FolderOp.allowed M ops (fun y => if y = x then some EntryType.FileType else live y)))
  | FolderOp.addContentFolder x :: ops, live =>
    have : Decidable (FolderOp.allowed M ops
        (fun y => if y = x then some EntryType.FolderType else live y)) :=
      FolderOp.instDecidableAllowed M ops _
    (inferInstance : Decidable (x.length < M ∧ (0 : Byte) ∉ x ∧ live x = none ∧
      FolderOp.allowed M ops (fun y => if y = x then some EntryType.FolderType else live y)))
  | FolderOp.removeFile _ :: ops, _ =>
    FolderOp.instDecidableAllowed M ops _

/-! ## Example images

Small concrete volumes (eight blocks, four payload bytes per block) on which
the operations above are evaluated. -/

/-- An eight-block image with every block free and every block record in its
freshly formatted state (no bytes, next pointer on itself). -/
def emptyImage : Volume :=
  { blocks := 8
    freeBlocks := 8
    rootBlock := 0
    bitmap := fun _ => false
    store := fun k => { bytesWritten := 0, next := k, data := fun _ => 0 } }

/-- Image after a new file received the six bytes 1..6 with four payload
bytes per block. -/
def sixByteImage : Volume :=
  ((File.create false).write 4 emptyImage [1, 2, 3, 4, 5, 6] 6).image

/-- Handle left by the write that produced sixByteImage. -/
def sixByteFile : File :=
  ((File.create false).write 4 emptyImage [1, 2, 3, 4, 5, 6] 6).file

/-- Image after a new file received the eight bytes 1..8 with four payload bytes per
block: two full blocks. -/
def eightByteImage : Volume :=
  ((File.create false).write 4 emptyImage [1, 2, 3, 4, 5, 6, 7, 8] 8).image

/-- Image after a new file received the two bytes 1, 2 with four payload bytes per
block: one block that is half full. -/
def twoByteImage : Volume :=
  ((File.create false).write 4 emptyImage [1, 2] 2).image

/-- Image after the eight-byte example file was opened with the Overwrite disposition,
the handle moved by `seek(8, beg)` to the end of the file, and the byte 99
written and flushed. -/
def eightByteImageAfterSeekWrite : Volume :=
  (File.openSeekWriteFlush 4 eightByteImage 0 OpenDisposition.buildOverwriteDisposition 8
    [99]).image

/-- Outcome of the client that opens the two-byte example file with the Overwrite
disposition, moves by `seek(2, beg)` to the end of the file, writes the byte 99
and flushes. -/
def twoByteRun : Res Unit :=
  File.openSeekWriteFlush 4 twoByteImage 0 OpenDisposition.buildOverwriteDisposition 2 [99]

/-- Handle opened read-only on the six-byte example file. -/
def sixByteReader : File :=
  (File.openExisting 4 sixByteImage 0 OpenDisposition.buildReadOnlyDisposition).file

/-- Handle opened read-only on the eight-byte example file. -/
def eightByteReader : File :=
  (File.openExisting 4 eightByteImage 0 OpenDisposition.buildReadOnlyDisposition).file

/-- Handle opened with the Overwrite disposition on the six-byte example file. -/
def sixByteWriter : File :=
  (File.openExisting 4 sixByteImage 0 OpenDisposition.buildOverwriteDisposition).file

/-- A new folder on the empty example image, with 64 payload bytes per block and names
of at most one byte (`MAX_FILENAME_LENGTH = 2`, records of 11 bytes), to which
the files `x` (byte 120) and `y` (byte 121) are added. -/
def folderWithXY : FolderRes Unit :=
  let r0 := ContentFolder.create 64 2 emptyImage false
  let r1 := r0.folder.addFile 64 2 r0.image [120]
  r1.folder.addFile 64 2 r1.image [121]

/-- The two records of the folder `folderWithXY`: the file `x` with the start block 1 and
the file `y` with the start block 2, both in use. -/
def folderWithXYRecords : List (List Byte) :=
  [[3, 120, 0, 1, 0, 0, 0, 0, 0, 0, 0], [3, 121, 0, 2, 0, 0, 0, 0, 0, 0, 0]]

/-- The folder `folderWithXY` after `removeFile(x)`. -/
def folderWithXRemoved : FolderRes Bool :=
  folderWithXY.folder.removeFile 64 2 folderWithXY.image [120]

/-- The folder `folderWithXRemoved` after `updateMetaDataWithNewFilename(y, x)`: the
record 0 is out of use and still carries the name `x`, the record 1 is in use
and carries the name `x`. -/
def folderWithStaleName : FolderRes Bool :=
  folderWithXRemoved.folder.updateMetaDataWithNewFilename 64 2 folderWithXRemoved.image
    [121] [120]

/-- The records 0 .. `k - 1` of a folder as `doSeekAndReadOfEntryMetaData` delivers
them (`none` for a call that throws). -/
def ContentFolder.records (S M : Nat) (d : ContentFolder) (io : Volume) (k : Nat) :
    List (Option (List Byte)) :=
  (List.range k).map (fun i => (doSeekAndReadOfEntryMetaData S M d.m_folderData io i).toOption)

/-- The folder `folderWithStaleName` after `removeFile(x)`. -/
def staleNameRemoved : FolderRes Bool :=
  folderWithStaleName.folder.removeFile 64 2 folderWithStaleName.image [120]

/-- The folder `folderWithStaleName` after `updateMetaDataWithNewFilename(x, z)`, `z` the
byte 122. -/
def staleNameRenamed : FolderRes Bool :=
  folderWithStaleName.folder.updateMetaDataWithNewFilename 64 2 folderWithStaleName.image
    [120] [122]

/-- A new folder on the empty example image, with 64 payload bytes per block and records
of 11 bytes, to which the file `x` (byte 120) is added twice. -/
def folderWithXX : FolderRes Unit :=
  let r0 := ContentFolder.create 64 2 emptyImage false
  let r1 := r0.folder.addFile 64 2 r0.image [120]
  r1.folder.addFile 64 2 r1.image [120]

/-- A new folder on the empty example image, with 15 payload bytes per block and records
of 11 bytes, to which the files `a`, `b`, `c` (bytes 97, 98, 99) are added: the
record 2 starts at the byte 30 of the body, the first byte of the third
block. -/
def folderWithABC : FolderRes Unit :=
  let r0 := ContentFolder.create 15 2 emptyImage false
  let r1 := r0.folder.addFile 15 2 r0.image [97]
  let r2 := r1.folder.addFile 15 2 r1.image [98]
  r2.folder.addFile 15 2 r2.image [99]

/-- The folder `folderWithABC` after `removeFile(c)`. -/
def folderWithABCRemove : FolderRes Bool :=
  folderWithABC.folder.removeFile 15 2 folderWithABC.image [99]

/-- The folder `folderWithABCRemove` after `addFile(d)`, `d` the byte 100. -/
def folderWithABCThenD : FolderRes Unit :=
  folderWithABCRemove.folder.addFile 15 2 folderWithABCRemove.image [100]

/-- The handle that wrote the six-byte example file (a new file, so in Append mode),
moved back by `seek(0, beg)`. -/
def sixByteRewind : Res Int :=
  sixByteFile.seek 4 sixByteImage 0 SeekDir.beg

/-- The handle of `sixByteRewind` after a write of the five bytes 9. -/
def sixByteRewrite : Res Nat :=
  sixByteRewind.file.write 4 sixByteRewind.image [9, 9, 9, 9, 9] 5

/-- The read-only handle on the eight-byte example file after `seek(4, beg)`. -/
def eightByteSeek : Res Int :=
  eightByteReader.seek 4 eightByteImage 4 SeekDir.beg

/-- The read-only handle on the eight-byte example file after `seek(8, beg)`. -/
def eightByteSeekEnd : Res Int :=
  eightByteReader.seek 4 eightByteImage 8 SeekDir.beg

/-- The folder `folderWithXY` after `putMetaDataOutOfUse(x)`. -/
def folderWithXPutOutOfUse : FolderRes Bool :=
  folderWithXY.folder.putMetaDataOutOfUse 64 2 folderWithXY.image [120]

/-- A new folder on the empty example image, with 60 payload bytes per block and records
of 11 bytes, after addFile(x), addFile(x), addFile(w), addFile(w) (`x` the byte 120, `w`
the byte 119) and removeFile(x), removeFile(w), removeFile(x), removeFile(w). -/
def folderWithFreedLiveBlocks : FolderRes Bool :=
  let r0 := ContentFolder.create 60 2 emptyImage false
  let r1 := r0.folder.addFile 60 2 r0.image [120]
  let r2 := r1.folder.addFile 60 2 r1.image [120]
  let r3 := r2.folder.addFile 60 2 r2.image [119]
  let r4 := r3.folder.addFile 60 2 r3.image [119]
  let r5 := r4.folder.removeFile 60 2 r4.image [120]
  let r6 := r5.folder.removeFile 60 2 r5.image [119]
  let r7 := r6.folder.removeFile 60 2 r6.image [120]
  r7.folder.removeFile 60 2 r7.image [119]

/-- The folder `folderWithFreedLiveBlocks` after addFile(a), addFile(b), addFile(c) (the
bytes 97, 98, 99). -/
def folderGrownIntoLiveBlock : FolderRes Unit :=
  let r1 := folderWithFreedLiveBlocks.folder.addFile 60 2 folderWithFreedLiveBlocks.image [97]
  let r2 := r1.folder.addFile 60 2 r1.image [98]
  r2.folder.addFile 60 2 r2.image [99]

/-- The folder `folderGrownIntoLiveBlock` after removeFile(w). -/
def folderWithOwnBlockFreed : FolderRes Bool :=
  folderGrownIntoLiveBlock.folder.removeFile 60 2 folderGrownIntoLiveBlock.image [119]

/-- The folder `folderWithOwnBlockFreed` after addFile(e) (the byte 101). -/
def folderWithOwnBlockReused : FolderRes Unit :=
  folderWithOwnBlockFreed.folder.addFile 60 2 folderWithOwnBlockFreed.image [101]

/-- The folder `folderWithFreedLiveBlocks` after one more removeFile(x). -/
def folderRemovedOnceMore : FolderRes Bool :=
  folderWithFreedLiveBlocks.folder.removeFile 60 2 folderWithFreedLiveBlocks.image [120]

/-! ## Chains -/

theorem IsChain.ne_nil {io : Volume} {b : Nat} {ks : List Nat} (h : IsChain io b ks) :
    ks ≠ [] := by
  intro e
  subst e
  exact h

theorem IsChain.head_eq {io : Volume} {b : Nat} {ks : List Nat} (h : IsChain io b ks) :
    ks[0]? = some b := by
  match ks, h with
  | [k], h => simp [h.1]
  | k :: k1 :: ks, h => simp [h.1]

theorem IsChain.unique {io : Volume} : ∀ {ks ls : List Nat} {b : Nat},
    IsChain io b ks → IsChain io b ls → ks = ls
  | [], _, _, h, _ => absurd h (by simp [IsChain])
  | _ :: _, [], _, _, h => absurd h (by simp [IsChain])
  | [k], [l], b, h1, h2 => by rw [← h1.1, ← h2.1]
  | [k], l :: l1 :: ls, b, h1, h2 => by
    exfalso
    have e : k = l := by rw [← h1.1, ← h2.1]
    have := h2.2.1
    rw [← e, h1.2] at this
    exact h2.2.2.1 (by rw [← e]; exact this.symm)
  | k :: k1 :: ks, [l], b, h1, h2 => by
    exfalso
    have e : k = l := by rw [← h1.1, ← h2.1]
    have := h1.2.1
    rw [e, h2.2] at this
    exact h1.2.2.1 (by rw [e]; exact this.symm)
  | k :: k1 :: ks, l :: l1 :: ls, b, h1, h2 => by
    have e : k = l := by rw [← h1.1, ← h2.1]
    have e1 : k1 = l1 := by rw [← h1.2.1, ← h2.2.1, e]
    subst e e1
    have := IsChain.unique h1.2.2.2 h2.2.2.2
    rw [this]

theorem IsChain.tail {io : Volume} {b k k1 : Nat} {ks : List Nat}
    (h : IsChain io b (k :: k1 :: ks)) : IsChain io k1 (k1 :: ks) := h.2.2.2

theorem IsChain.drop {io : Volume} : ∀ {ks : List Nat} {b : Nat} (j : Nat) (k : Nat),
    IsChain io b ks → ks[j]? = some k → IsChain io k (ks.drop j)
  | [], _, _, _, h, _ => absurd h (by simp [IsChain])
  | [k0], b, 0, k, h, hk => by
    simp at hk
    subst hk
    simpa [IsChain] using h.2
  | [k0], b, j + 1, k, h, hk => by simp at hk
  | k0 :: k1 :: ks, b, 0, k, h, hk => by
    simp at hk
    subst hk
    exact ⟨rfl, h.2.1, h.2.2.1, h.2.2.2⟩
  | k0 :: k1 :: ks, b, j + 1, k, h, hk => by
    have hk1 : (k1 :: ks)[j]? = some k := by simpa using hk
    simpa using IsChain.drop j k h.2.2.2 hk1

theorem IsChain.nodup {io : Volume} : ∀ {ks : List Nat} {b : Nat}, IsChain io b ks → ks.Nodup
  | [], _, h => absurd h (by simp [IsChain])
  | [k], _, _ => by simp
  | k :: k1 :: ks, b, h => by
    have ih := IsChain.nodup h.2.2.2
    rw [List.nodup_cons]
    refine ⟨?_, ih⟩
    intro hmem
    obtain ⟨j, hj⟩ := List.mem_iff_getElem?.mp hmem
    have hd := IsChain.drop j k h.2.2.2 hj
    have hk : IsChain io k (k :: k1 :: ks) := ⟨rfl, h.2.1, h.2.2.1, h.2.2.2⟩
    have e := IsChain.unique hk hd
    have hl := congrArg List.length e
    simp at hl
    omega

theorem IsChain.length_le_blocks {io : Volume} {b : Nat} {ks : List Nat}
    (h : IsChain io b ks) (hin : ∀ k ∈ ks, k < io.blocks) : ks.length ≤ io.blocks := by
  have hsub : ks ⊆ List.range io.blocks := fun k hk => List.mem_range.mpr (hin k hk)
  have := (List.subperm_of_subset h.nodup hsub).length_le
  simpa using this

theorem FileBlockIterator.visit_of_chain {io : Volume} : ∀ {ks : List Nat} {b : Nat} (fuel : Nat),
    IsChain io b ks → ks.length ≤ fuel → FileBlockIterator.visit io fuel b = some ks
  | [], _, _, h, _ => absurd h (by simp [IsChain])
  | [k], b, 0, _, hl => by simp at hl
  | [k], b, fuel + 1, h, _ => by
    obtain ⟨rfl, hn⟩ := h
    simp [FileBlockIterator.visit, hn]
  | k :: k1 :: ks, b, 0, _, hl => by simp at hl
  | k :: k1 :: ks, b, fuel + 1, h, hl => by
    obtain ⟨rfl, hn, hne, ht⟩ := h
    have ih := FileBlockIterator.visit_of_chain fuel ht (by simpa using hl)
    have hne1 : ¬ (io.store b).next = b := by rw [hn]; exact hne
    simp [FileBlockIterator.visit, hn, hne, ih]

theorem FileBlockIterator.blocksFrom_of_chain {io : Volume} {ks : List Nat} {b : Nat}
    (h : IsChain io b ks) (hin : ∀ k ∈ ks, k < io.blocks) :
    FileBlockIterator.blocksFrom io b = some ks :=
  FileBlockIterator.visit_of_chain io.blocks h (h.length_le_blocks hin)

theorem FileBlockIterator.chain_of_visit {io : Volume} : ∀ (fuel : Nat) {b : Nat} {ks : List Nat},
    FileBlockIterator.visit io fuel b = some ks → IsChain io b ks
  | 0, _, _, h => by simp [FileBlockIterator.visit] at h
  | fuel + 1, b, ks, h => by
    unfold FileBlockIterator.visit at h
    by_cases hn : (io.store b).next = b
    · simp [hn] at h
      subst h
      exact ⟨rfl, hn⟩
    · simp only [hn, if_false, Option.map_eq_some'] at h
      obtain ⟨ls, hls, rfl⟩ := h
      have ih := FileBlockIterator.chain_of_visit fuel hls
      match ls, ih with
      | [l], ih =>
        have e : (io.store b).next = l := ih.1
        exact ⟨rfl, e, by rw [← e]; exact hn, e ▸ ih⟩
      | l :: l1 :: ls, ih =>
        have e : (io.store b).next = l := ih.1
        exact ⟨rfl, e, by rw [← e]; exact hn, e ▸ ih⟩

/-! ## Which exceptions `read` and `write` throw -/

theorem buildWritableFileBlock_fault {io : Volume} {enforce : Bool} {x : Fault}
    (h : buildWritableFileBlock io enforce = Except.error x) : x = Fault.outOfSpace := by
  unfold buildWritableFileBlock at h
  cases enforce with
  | true => simp at h
  | false =>
    cases hg : getNextAvailableBlock io with
    | none =>
      simp [hg] at h
      exact h.symm
    | some a => simp [hg] at h

theorem File.newWritableFileBlock_fault (f : File) (io : Volume) (e : FileEntryError) :
    (f.newWritableFileBlock io).fault? ≠ some (Fault.fileEntry e) := by
  unfold File.newWritableFileBlock
  cases hb : buildWritableFileBlock io f.m_enforceStartBlock with
  | error x =>
    have := buildWritableFileBlock_fault hb
    subst this
    simp [Res.fault?]
  | ok r => simp [Res.fault?]

theorem File.checkAndUpdateWorkingBlockWithNew_fault (S : Nat) (f : File) (io : Volume)
    (e : FileEntryError) :
    (f.checkAndUpdateWorkingBlockWithNew S io).fault? ≠ some (Fault.fileEntry e) := by
  unfold File.checkAndUpdateWorkingBlockWithNew
  cases hwb : f.m_workingBlock with
  | none =>
    simp only
    cases hn : f.newWritableFileBlock io with
    | fail x f1 io1 =>
      have := File.newWritableFileBlock_fault f io e
      rw [hn] at this
      simpa [Res.fault?] using this
    | ok a f1 io1 =>
      simp only
      cases f1.m_workingBlock <;> simp [Res.fault?]
  | some wb =>
    simp only
    by_cases h1 : wb.tell % 4294967296 < S
    · simp [h1, Res.fault?]
    · simp only [h1, if_false]
      have key : ∀ f1 : File,
          (if f1.m_openDisposition.append = AppendOrOverwrite.Overwrite then
            if wb.tell < S then Res.ok () f1 io
            else if wb.tell = S then
              Res.ok ()
                { f1 with
                  m_blockIndex := f1.m_blockIndex + 1
                  m_workingBlock := some (FileBlock.openAt (wb.getNextIndex io)) }
                io
            else f1.newWritableFileBlock io
          else f1.newWritableFileBlock io).fault? ≠ some (Fault.fileEntry e) := by
        intro f1
        by_cases h2 : f1.m_openDisposition.append = AppendOrOverwrite.Overwrite
        · simp only [h2, if_true]
          by_cases h3 : wb.tell < S
          · simp [h3, Res.fault?]
          · by_cases h4 : wb.tell = S
            · simp [h4, Res.fault?]
            · simp only [h3, h4, if_false]
              exact File.newWritableFileBlock_fault _ io e
        · simp only [h2, if_false]
          exact File.newWritableFileBlock_fault _ io e
      exact key _

theorem File.bufferBytesForWorkingBlock_fault (S : Nat) (f : File) (io : Volume)
    (s : List Byte) (n offset : Nat) (e : FileEntryError) :
    (f.bufferBytesForWorkingBlock S io s n offset).fault? ≠ some (Fault.fileEntry e) := by
  unfold File.bufferBytesForWorkingBlock
  cases f.getBytesLeftInWorkingBlock S with
  | none => simp [Res.fault?]
  | some sp =>
    simp only
    by_cases h1 : n < sp
    · simp [h1, Res.fault?]
    · by_cases h2 : 0 < sp
      · simp [h1, h2, Res.fault?]
      · simp [h1, h2, Res.fault?]

theorem File.writeBufferedDataToWorkingBlock_fault (f : File) (io : Volume) (bytes : Nat)
    (e : FileEntryError) :
    (f.writeBufferedDataToWorkingBlock io bytes).fault? ≠ some (Fault.fileEntry e) := by
  unfold File.writeBufferedDataToWorkingBlock
  cases f.m_workingBlock <;> simp [Res.fault?]

theorem File.writeLoop_fault (S : Nat) (s : List Byte) (n : Nat) (e : FileEntryError) :
    ∀ (fuel wrote : Nat) (f : File) (io : Volume),
      (File.writeLoop S s n fuel wrote f io).fault? ≠ some (Fault.fileEntry e) := by
  intro fuel
  induction fuel with
  | zero =>
    intro wrote f io
    unfold File.writeLoop
    by_cases h : wrote < n <;> simp [h, Res.fault?]
  | succ fuel ih =>
    intro wrote f io
    unfold File.writeLoop
    by_cases h : wrote < n
    · simp only [h, if_true]
      cases h1 : f.checkAndUpdateWorkingBlockWithNew S io with
      | fail x f1 io1 =>
        have := File.checkAndUpdateWorkingBlockWithNew_fault S f io e
        rw [h1] at this
        simpa [Res.fault?] using this
      | ok a f1 io1 =>
        simp only
        cases h2 : f1.bufferBytesForWorkingBlock S io1 s (n - wrote) wrote with
        | fail x f2 io2 =>
          have := File.bufferBytesForWorkingBlock_fault S f1 io1 s (n - wrote) wrote e
          rw [h2] at this
          simpa [Res.fault?] using this
        | ok w f2 io2 =>
          simp only
          cases h3 : f2.writeBufferedDataToWorkingBlock io2 w with
          | fail x f3 io3 =>
            have := File.writeBufferedDataToWorkingBlock_fault f2 io2 w e
            rw [h3] at this
            simpa [Res.fault?] using this
          | ok u f3 io3 =>
            simp only
            exact ih _ _ _
    · simp [h, Res.fault?]

theorem File.readWorkingBlockBytes_fault (f : File) (io : Volume) (m : Nat)
    (e : FileEntryError) :
    (f.readWorkingBlockBytes io m).fault? ≠ some (Fault.fileEntry e) := by
  unfold File.readWorkingBlockBytes
  cases f.m_workingBlock with
  | none => simp [Res.fault?]
  | some wb =>
    simp only
    split <;> simp [Res.fault?]

theorem File.readLoop_fault (n : Nat) (e : FileEntryError) :
    ∀ (fuel read : Nat) (out : List Byte) (f : File) (io : Volume),
      (File.readLoop n fuel read out f io).fault? ≠ some (Fault.fileEntry e) := by
  intro fuel
  induction fuel with
  | zero =>
    intro read out f io
    unfold File.readLoop
    by_cases h : read < n <;> simp [h, Res.fault?]
  | succ fuel ih =>
    intro read out f io
    unfold File.readLoop
    by_cases h : read < n
    · simp only [h, if_true]
      cases h1 : f.readWorkingBlockBytes io ((n - read) % 4294967296) with
      | fail x f1 io1 =>
        have := File.readWorkingBlockBytes_fault f io ((n - read) % 4294967296) e
        rw [h1] at this
        simpa [Res.fault?] using this
      | ok count f1 io1 =>
        simp only
        by_cases hc : count = 0
        · simp [hc, Res.fault?]
        · simp only [hc, if_false]
          exact ih _ _ _ _
    · simp [h, Res.fault?]

/-! ## Claims about the exceptions of `read` and `write` -/

/-- Claim C4.  `File::read` throws `FileEntryException(NotReadable)` if and only if the
open disposition is `WriteOnly`; when it does, the object (hence `tell()` and
`fileSize()`) and the image are as before, and no value and no byte is handed
to the caller. -/
theorem C4_read_not_readable_iff_write_only (f : File) (io : Volume) (n : Nat) :
    ((f.read io n).fault? = some (Fault.fileEntry FileEntryError.NotReadable) ↔
        f.m_openDisposition.readWrite = ReadOrWriteOrBoth.WriteOnly) ∧
    ((f.read io n).fault? = some (Fault.fileEntry FileEntryError.NotReadable) →
        (f.read io n).file = f ∧ (f.read io n).image = io ∧ (f.read io n).value? = none ∧
        (f.read io n).file.tell = f.tell ∧ (f.read io n).file.fileSize = f.fileSize) := by
  have hiff : (f.read io n).fault? = some (Fault.fileEntry FileEntryError.NotReadable) ↔
      f.m_openDisposition.readWrite = ReadOrWriteOrBoth.WriteOnly := by
    unfold File.read
    by_cases h : f.m_openDisposition.readWrite = ReadOrWriteOrBoth.WriteOnly
    · simp [h, Res.fault?]
    · simp only [h, if_false, iff_false]
      cases hl : File.readLoop n (n + 1) 0 [] f io with
      | fail x f1 io1 =>
        have := File.readLoop_fault n FileEntryError.NotReadable (n + 1) 0 [] f io
        rw [hl] at this
        simpa [Res.fault?] using this
      | ok r f1 io1 => simp [Res.fault?]
  refine ⟨hiff, fun hf => ?_⟩
  have h := hiff.mp hf
  unfold File.read
  simp [h, Res.file, Res.image, Res.value?]

/-- Claim C5.  `File::write` throws `FileEntryException(NotWritable)` if and only if the
open disposition is `ReadOnly`; when it does, the image (bitmap, trailers, data:
nothing is allocated, linked or modified) and the object (hence `tell()`,
`fileSize()` and the block count) are as before. -/
theorem C5_write_not_writable_iff_read_only (S : Nat) (f : File) (io : Volume)
    (s : List Byte) (n : Nat) :
    ((f.write S io s n).fault? = some (Fault.fileEntry FileEntryError.NotWritable) ↔
        f.m_openDisposition.readWrite = ReadOrWriteOrBoth.ReadOnly) ∧
    ((f.write S io s n).fault? = some (Fault.fileEntry FileEntryError.NotWritable) →
        (f.write S io s n).image = io ∧ (f.write S io s n).file = f ∧
        (f.write S io s n).file.tell = f.tell ∧
        (f.write S io s n).file.fileSize = f.fileSize ∧
        (f.write S io s n).file.m_blockCount = f.m_blockCount) := by
  have hiff : (f.write S io s n).fault? = some (Fault.fileEntry FileEntryError.NotWritable) ↔
      f.m_openDisposition.readWrite = ReadOrWriteOrBoth.ReadOnly := by
    unfold File.write
    by_cases h : f.m_openDisposition.readWrite = ReadOrWriteOrBoth.ReadOnly
    · simp [h, Res.fault?]
    · simp only [h, if_false, iff_false]
      exact File.writeLoop_fault S s n FileEntryError.NotWritable n 0 f io
  refine ⟨hiff, fun hf => ?_⟩
  have h := hiff.mp hf
  unfold File.write
  simp [h, Res.file, Res.image]

/-! ## Unlink -/

theorem unlink_fold (ks : List Nat) : ∀ (io : Volume),
    let v := ks.foldl
      (fun v k =>
        let v1 := (FileBlock.openAt k).unlink v
        { v1 with freeBlocks := v1.freeBlocks + 1 })
      io
    (∀ k, v.bitmap k = if k ∈ ks then false else io.bitmap k) ∧
    v.freeBlocks = io.freeBlocks + ks.length ∧ v.blocks = io.blocks ∧ v.store = io.store := by
  induction ks with
  | nil => intro io; simp
  | cons a ks ih =>
    intro io
    simp only [List.foldl_cons]
    obtain ⟨hb, hf, hn, hs⟩ := ih
      { (FileBlock.openAt a).unlink io with
        freeBlocks := ((FileBlock.openAt a).unlink io).freeBlocks + 1 }
    refine ⟨?_, ?_, ?_, ?_⟩
    · intro k
      rw [hb k]
      by_cases hk : k ∈ ks
      · simp [hk]
      · by_cases hka : k = a
        · simp [hk, hka, FileBlock.unlink, FileBlock.openAt]
        · simp [hk, hka, FileBlock.unlink, FileBlock.openAt]
    · rw [hf]
      simp [FileBlock.unlink]
      omega
    · rw [hn]
      simp [FileBlock.unlink]
    · rw [hs]
      simp [FileBlock.unlink]

/-- Claim C6.  For a file whose chain has the blocks `ks = [k_0, ..., k_m]`: `unlink()`
returns, afterwards the occupancy bit of every `k_i` is clear, no other bit has
changed, the free-block counter has grown by `m + 1` (the length of `ks`), and
`fileSize()` is 0. -/
theorem C6_unlink_frees_chain (f : File) (io : Volume) (ks : List Nat)
    (hchain : IsChain io f.m_startVolumeBlock ks) (hin : ∀ k ∈ ks, k < io.blocks) :
    (f.unlink io).fault? = none ∧
    (∀ k ∈ ks, (f.unlink io).image.bitmap k = false) ∧
    (∀ k, k ∉ ks → (f.unlink io).image.bitmap k = io.bitmap k) ∧
    (f.unlink io).image.freeBlocks = io.freeBlocks + ks.length ∧
    (f.unlink io).file.fileSize = 0 := by
  have hv := FileBlockIterator.blocksFrom_of_chain hchain hin
  obtain ⟨hb, hf, _, _⟩ := unlink_fold ks io
  unfold File.unlink
  rw [hv]
  simp only [Res.fault?, Res.image, Res.file]
  refine ⟨trivial, ?_, ?_, hf, ?_⟩
  · intro k hk
    rw [hb k]
    simp [hk]
  · intro k hk
    rw [hb k]
    simp [hk]
  · simp [File.doReset, File.fileSize]

/-! ## Lists -/

theorem splice_length (C : List Byte) (p : Nat) (d : List Byte) (hp : p ≤ C.length) :
    (splice C p d).length = max C.length (p + d.length) := by
  unfold splice
  simp only [List.length_append, List.length_take, List.length_drop]
  omega

theorem splice_getElem? (C : List Byte) (p : Nat) (d : List Byte) (hp : p ≤ C.length)
    (x : Nat) :
    (splice C p d)[x]? =
      if x < p then C[x]? else if x < p + d.length then d[x - p]? else C[x]? := by
  unfold splice
  have hl : (C.take p).length = p := by simp [List.length_take]; omega
  by_cases h1 : x < p
  · rw [if_pos h1, List.append_assoc, List.getElem?_append_left (by omega),
      List.getElem?_take_of_lt h1]
  · rw [if_neg h1, List.append_assoc, List.getElem?_append_right (by omega), hl]
    by_cases h2 : x < p + d.length
    · rw [if_pos h2, List.getElem?_append_left (by omega)]
    · rw [if_neg h2, List.getElem?_append_right (by omega), List.getElem?_drop]
      congr 1
      omega

theorem splice_nil (C : List Byte) (p : Nat) : splice C p [] = C := by
  simp [splice]

theorem splice_splice (C : List Byte) (p : Nat) (d e : List Byte) (hp : p ≤ C.length) :
    splice (splice C p d) (p + d.length) e = splice C p (d ++ e) := by
  apply List.ext_getElem?
  intro x
  have hl := splice_length C p d hp
  rw [splice_getElem? _ _ _ (by omega), splice_getElem? _ _ _ hp, splice_getElem? _ _ _ hp]
  simp only [List.length_append]
  by_cases h1 : x < p
  · simp [h1, show x < p + d.length by omega]
  · by_cases h2 : x < p + d.length
    · simp [h1, h2, List.getElem?_append_left (show x - p < d.length by omega),
        show x < p + (d.length + e.length) by omega]
    · by_cases h3 : x < p + d.length + e.length
      · simp only [h1, h2, h3, if_false, if_true, show x < p + (d.length + e.length) by omega]
        rw [List.getElem?_append_right (by omega)]
        congr 1
        omega
      · simp [h1, h2, h3, show ¬ x < p + (d.length + e.length) by omega]

theorem splice_at_end (C d : List Byte) : splice C C.length d = C ++ d := by
  simp [splice]

theorem splice_at_start (C d : List Byte) : splice C 0 d = d ++ C.drop d.length := by
  simp [splice]

/-! ## Layout -/

theorem getD_of_getElem? {ks : List Nat} {j k : Nat} (h : ks[j]? = some k) :
    ks.getD j 0 = k := by
  rw [List.getD_eq_getElem?_getD, h]
  rfl

theorem lt_length_of_getElem? {α : Type} {ks : List α} {j : Nat} {k : α}
    (h : ks[j]? = some k) : j < ks.length := by
  obtain ⟨hlt, _⟩ := List.getElem?_eq_some.mp h
  exact hlt

theorem Laid.size_at {S : Nat} {io : Volume} {b : Nat} {ks : List Nat} {C : List Byte}
    (h : Laid S io b ks C) {j k : Nat} (hk : ks[j]? = some k) :
    (io.store k).bytesWritten = min S (C.length - j * S) := by
  have := h.sizes j (lt_length_of_getElem? hk)
  rwa [getD_of_getElem? hk] at this

theorem Laid.byte_at {S : Nat} {io : Volume} {b : Nat} {ks : List Nat} {C : List Byte}
    (h : Laid S io b ks C) {j k t : Nat} (hk : ks[j]? = some k)
    (ht : t < min S (C.length - j * S)) :
    C[j * S + t]? = some ((io.store k).data t) := by
  have := h.bytes j (lt_length_of_getElem? hk) t ht
  rw [getD_of_getElem? hk] at this
  have hx : j * S + t < C.length := by omega
  rw [this, List.getD_eq_getElem?_getD, List.getElem?_eq_getElem hx]
  rfl

theorem Laid.mem_lt {S : Nat} {io : Volume} {b : Nat} {ks : List Nat} {C : List Byte}
    (h : Laid S io b ks C) {j k : Nat} (hk : ks[j]? = some k) : k < io.blocks :=
  h.inside k (List.mem_iff_getElem?.mpr ⟨j, hk⟩)

/-- Builds a layout from facts stated with `ks[j]? = some k`. -/
theorem Laid.mk_at {S : Nat} {io : Volume} {b : Nat} {ks : List Nat} {C : List Byte}
    (chain : IsChain io b ks) (inside : ∀ k ∈ ks, k < io.blocks)
    (sizes : ∀ j k, ks[j]? = some k → (io.store k).bytesWritten = min S (C.length - j * S))
    (bytes : ∀ j k t, ks[j]? = some k → t < min S (C.length - j * S) →
      C[j * S + t]? = some ((io.store k).data t))
    (fits : C.length ≤ ks.length * S) : Laid S io b ks C := by
  refine ⟨chain, inside, ?_, ?_, fits⟩
  · intro j hj
    have hk : ks[j]? = some (ks.getD j 0) := by
      rw [List.getD_eq_getElem?_getD, List.getElem?_eq_getElem hj]
      rfl
    exact sizes j _ hk
  · intro j hj t ht
    have hk : ks[j]? = some (ks.getD j 0) := by
      rw [List.getD_eq_getElem?_getD, List.getElem?_eq_getElem hj]
      rfl
    have := bytes j _ t hk ht
    rw [List.getD_eq_getElem?_getD (l := C), this]
    rfl

/-! ## The allocator -/

theorem getNextAvailableBlock_spec {io : Volume} {a : Nat}
    (h : getNextAvailableBlock io = some a) : a < io.blocks ∧ io.bitmap a = false := by
  unfold getNextAvailableBlock at h
  have h1 := List.find?_some h
  have h2 := List.mem_of_find?_eq_some h
  exact ⟨List.mem_range.mp h2, by simpa using h1⟩

theorem getNextAvailableBlock_of_free {io : Volume} (h : 0 < freeCount io) :
    ∃ a, getNextAvailableBlock io = some a := by
  unfold getNextAvailableBlock
  cases hf : (List.range io.blocks).find? (fun k => !io.bitmap k) with
  | some a => exact ⟨a, rfl⟩
  | none =>
    exfalso
    have h0 : freeCount io = 0 := by
      unfold freeCount
      rw [List.countP_eq_zero]
      exact List.find?_eq_none.mp hf
    omega

theorem countP_free_set (bm : Nat → Bool) (a : Nat) (ha : bm a = false) :
    ∀ N, (List.range N).countP (fun k => !(if k = a then true else bm k)) +
        (if a < N then 1 else 0) = (List.range N).countP (fun k => !bm k) := by
  intro N
  induction N with
  | zero => simp
  | succ N ih =>
    rw [List.range_succ, List.countP_append, List.countP_append]
    simp only [List.countP_singleton]
    by_cases h1 : N = a
    · subst h1
      simp [ha] at ih ⊢
      omega
    · by_cases h2 : a < N
      · simp [h1, h2, show a < N + 1 by omega] at ih ⊢
        omega
      · simp [h1, h2, show ¬ a < N + 1 by omega] at ih ⊢
        omega

theorem freeCount_register {io io1 : Volume} {a : Nat} (ha : a < io.blocks)
    (hfree : io.bitmap a = false) (hb : io1.blocks = io.blocks)
    (hbm : ∀ k, io1.bitmap k = if k = a then true else io.bitmap k) :
    freeCount io1 + 1 = freeCount io := by
  unfold freeCount
  rw [hb]
  have hfun : (fun k => !io1.bitmap k) = (fun k => !(if k = a then true else io.bitmap k)) := by
    funext k
    rw [hbm k]
  rw [hfun]
  have := countP_free_set io.bitmap a hfree io.blocks
  simpa [ha] using this

theorem freeCount_congr {io io1 : Volume} (hb : io1.blocks = io.blocks)
    (hbm : io1.bitmap = io.bitmap) : freeCount io1 = freeCount io := by
  unfold freeCount
  rw [hb, hbm]

/-! ## Writing into a block of a laid-out chain -/

theorem IsChain.congr {io io1 : Volume} (hn : ∀ k, (io1.store k).next = (io.store k).next) :
    ∀ {ks : List Nat} {b : Nat}, IsChain io b ks → IsChain io1 b ks
  | [], _, h => absurd h (by simp [IsChain])
  | [k], _, h => ⟨h.1, by rw [hn]; exact h.2⟩
  | k :: k1 :: ks, _, h =>
    ⟨h.1, by rw [hn]; exact h.2.1, h.2.2.1, IsChain.congr hn h.2.2.2⟩

theorem mul_step {i j : Nat} (S : Nat) (h : i < j) : i * S + S ≤ j * S := by
  have := Nat.mul_le_mul_right S (Nat.succ_le_of_lt h)
  rw [Nat.succ_mul] at this
  exact this

theorem index_unique {io : Volume} {b : Nat} {ks : List Nat} (h : IsChain io b ks)
    {i j k : Nat} (hi : ks[i]? = some k) (hj : ks[j]? = some k) : i = j :=
  List.getElem?_inj (lt_length_of_getElem? hi) h.nodup (hi.trans hj.symm)

theorem FileBlock.write_frame (io : Volume) (wb : FileBlock) (buf : List Byte) (n : Nat) :
    (wb.write io buf n).1.blocks = io.blocks ∧ (wb.write io buf n).1.bitmap = io.bitmap ∧
    (wb.write io buf n).1.freeBlocks = io.freeBlocks ∧
    (wb.write io buf n).1.rootBlock = io.rootBlock ∧
    (∀ k, ((wb.write io buf n).1.store k).next = (io.store k).next) ∧
    (∀ k, k ≠ wb.index → (wb.write io buf n).1.store k = io.store k) ∧
    (wb.write io buf n).2 = { index := wb.index, seekPos := wb.seekPos + n } := by
  refine ⟨rfl, rfl, rfl, rfl, ?_, ?_, rfl⟩
  · intro k
    simp only [FileBlock.write]
    by_cases hk : k = wb.index
    · simp [hk]
    · simp [hk]
  · intro k hk
    simp [FileBlock.write, hk]

theorem Laid.write_chunk {S : Nat} {io : Volume} {b : Nat} {ks : List Nat} {C : List Byte}
    (h : Laid S io b ks C) {i k c : Nat} (hk : ks[i]? = some k)
    (hpos : i * S + c ≤ C.length) (d : List Byte) (hd : c + d.length ≤ S) :
    Laid S ((FileBlock.write io { index := k, seekPos := c } d d.length).1) b ks
      (splice C (i * S + c) d) := by
  have hfr := FileBlock.write_frame io { index := k, seekPos := c } d d.length
  obtain ⟨hb, _, _, _, hnext, hother, _⟩ := hfr
  have hlen := splice_length C (i * S + c) d hpos
  have hi := lt_length_of_getElem? hk
  apply Laid.mk_at
  · exact IsChain.congr hnext h.chain
  · intro x hx
    rw [hb]
    exact h.inside x hx
  · intro j kj hj
    by_cases hji : j = i
    · subst hji
      have e : kj = k := by rw [hk] at hj; exact (Option.some.inj hj).symm
      subst e
      have hs := h.size_at hk
      simp only [FileBlock.write, if_true]
      rw [hs, hlen]
      omega
    · have hne : kj ≠ k := by
        intro e
        subst e
        exact hji (index_unique h.chain hj hk)
      rw [hother kj hne, h.size_at hj, hlen]
      rcases Nat.lt_or_gt_of_ne hji with hlt | hgt
      · have := mul_step S hlt
        omega
      · have := mul_step S hgt
        omega
  · intro j kj t hj ht
    rw [hlen] at ht
    rw [splice_getElem? C _ d hpos]
    by_cases hji : j = i
    · subst hji
      have e : kj = k := by rw [hk] at hj; exact (Option.some.inj hj).symm
      subst e
      simp only [FileBlock.write, if_true]
      by_cases h1 : t < c
      · rw [if_pos (by omega), if_neg (by omega)]
        exact h.byte_at hk (by omega)
      · by_cases h2 : t < c + d.length
        · rw [if_neg (by omega), if_pos (by omega), if_pos ⟨by omega, h2⟩]
          have e1 : j * S + t - (j * S + c) = t - c := by omega
          rw [e1, List.getD_eq_getElem?_getD, List.getElem?_eq_getElem (by omega)]
          rfl
        · rw [if_neg (by omega), if_neg (by omega), if_neg (by omega)]
          exact h.byte_at hk (by omega)
    · have hne : kj ≠ k := by
        intro e
        subst e
        exact hji (index_unique h.chain hj hk)
      rw [hother kj hne]
      rcases Nat.lt_or_gt_of_ne hji with hlt | hgt
      · have := mul_step S hlt
        rw [if_pos (by omega)]
        exact h.byte_at hj (by omega)
      · have := mul_step S hgt
        rw [if_neg (by omega), if_neg (by omega)]
        exact h.byte_at hj (by omega)
  · rw [hlen]
    have := h.fits
    have := mul_step S hi
    omega

/-! ## One iteration of the loop of `write` -/

theorem File.writeLoop_step {S : Nat} (hS32 : S < 4294967296) {s : List Byte}
    {n fuel wrote : Nat} {f f1 : File} {io io1 : Volume} {b : Nat} {ks : List Nat}
    {C : List Byte} {i c : Nat}
    (hm : f.checkAndUpdateWorkingBlockWithNew S io = Res.ok () f1 io1)
    (hw : Writer S f1 io1 b ks C i c) (hc : c < S) (hlt : wrote < n) (hn : n ≤ s.length)
    (hn32 : n ≤ 4294967296) :
    ∃ f2 io2,
      File.writeLoop S s n (fuel + 1) wrote f io =
        File.writeLoop S s n fuel (wrote + min (n - wrote) (S - c)) f2 io2 ∧
      Writer S f2 io2 b ks
        (splice C (i * S + c) ((s.drop wrote).take (min (n - wrote) (S - c)))) i
        (c + min (n - wrote) (S - c)) ∧
      io2.blocks = io1.blocks ∧ io2.bitmap = io1.bitmap ∧ io2.freeBlocks = io1.freeBlocks ∧
      f2.m_openDisposition = f1.m_openDisposition ∧
      f2.m_fileSize =
        (if f1.m_openDisposition.append = AppendOrOverwrite.Append then
          f1.m_fileSize + min (n - wrote) (S - c)
        else f1.m_fileSize) ∧
      (∀ x, x ∉ ks → io2.store x = io1.store x) := by
  obtain ⟨enf, sz, wb, buf, st, bi, disp, pos, bc⟩ := f1
  obtain ⟨hlaid, hinuse, hstart, hcount, hindex, hblock, hvalid, hcur, hpos, hwithin, henf,
    hwr, hatEnd, hsized⟩ := hw
  simp only at hstart hcount hindex hblock hpos henf hwr hatEnd hsized
  subst st bc bi wb pos enf
  have hk : ks[i]? = some (ks.getD i 0) := by
    rw [List.getD_eq_getElem?_getD, List.getElem?_eq_getElem hvalid]
    rfl
  generalize hkd : ks.getD i 0 = k at hk hm
  generalize hlen : min (n - wrote) (S - c) = len
  have hlen1 : 1 ≤ len := by omega
  have hlenS : c + len ≤ S := by omega
  have hchunk : ((s.drop wrote).take len).length = len := by
    simp only [List.length_take, List.length_drop]
    omega
  have hwm : wrote % 4294967296 = wrote := by omega
  have hleft : (S % 4294967296 + 4294967296 - c % 4294967296) % 4294967296 = S - c := by
    omega
  have hbuf : File.bufferBytesForWorkingBlock S
        { m_enforceStartBlock := false, m_fileSize := sz,
          m_workingBlock := some { index := k, seekPos := c }, m_buffer := buf,
          m_startVolumeBlock := b, m_blockIndex := i, m_openDisposition := disp,
          m_pos := ((i * S + c : Nat) : Int), m_blockCount := ks.length }
        io1 s (n - wrote) wrote =
      Res.ok len
        { m_enforceStartBlock := false, m_fileSize := sz,
          m_workingBlock := some { index := k, seekPos := c },
          m_buffer := (s.drop wrote).take len,
          m_startVolumeBlock := b, m_blockIndex := i, m_openDisposition := disp,
          m_pos := ((i * S + c : Nat) : Int), m_blockCount := ks.length }
        io1 := by
    simp only [File.bufferBytesForWorkingBlock, File.getBytesLeftInWorkingBlock,
      FileBlock.tell, hleft, hwm]
    by_cases h1 : n - wrote < S - c
    · have : len = n - wrote := by omega
      simp [h1, this]
    · have : len = S - c := by omega
      have h2 : 0 < S - c := by omega
      simp [h1, h2, this]
  have hlaid2 := hlaid.write_chunk hk hwithin ((s.drop wrote).take len)
    (by rw [hchunk]; exact hlenS)
  rw [hchunk] at hlaid2
  have hfr := FileBlock.write_frame io1 { index := k, seekPos := c } ((s.drop wrote).take len) len
  obtain ⟨hb, hbm, hfb, _, _, hst, hwb⟩ := hfr
  have hsl := splice_length C (i * S + c) ((s.drop wrote).take len) hwithin
  rw [hchunk] at hsl
  have hkmem : k ∈ ks := List.mem_iff_getElem?.mpr ⟨i, hk⟩
  refine ⟨File.mk false (if disp.append = AppendOrOverwrite.Append then sz + len else sz)
      (some (FileBlock.mk k (c + len))) [] b i disp (((i * S + c : Nat) : Int) + (len : Int))
      ks.length,
    (FileBlock.write io1 (FileBlock.mk k c) ((s.drop wrote).take len) len).1,
    ?_, ?_, hb, hbm, hfb, ?_, ?_, fun x hx => hst x (fun e => hx (e ▸ hkmem))⟩
  · rw [File.writeLoop, if_pos hlt]
    simp only [hm, hbuf, File.writeBufferedDataToWorkingBlock]
    rfl
  · refine ⟨hlaid2, ?_, rfl, rfl, rfl, ?_, hvalid, hlenS, ?_, ?_, rfl, hwr, ?_, ?_⟩
    · intro x hx
      rw [hbm]
      exact hinuse x hx
    · simp only [hkd]
    · simp only
      push_cast
      omega
    · rw [hsl]
      omega
    · intro ha
      obtain ⟨h1, h2⟩ := hatEnd ha
      refine ⟨h1, ?_⟩
      rw [hsl]
      omega
    · intro ho
      obtain ⟨h1, h2⟩ := hsized ho
      have hne : disp.append ≠ AppendOrOverwrite.Append := by
        rw [ho]
        decide
      simp only [hne, if_false]
      refine ⟨?_, h2⟩
      rw [hsl]
      omega
  · rfl
  · rfl

/-! ## Linking a new block to the end of a chain -/

theorem IsChain.next_at {io : Volume} : ∀ {ks : List Nat} {b : Nat} {j k k1 : Nat},
    IsChain io b ks → ks[j]? = some k → ks[j + 1]? = some k1 → (io.store k).next = k1
  | [], _, _, _, _, h, _, _ => absurd h (by simp [IsChain])
  | [k0], _, j, _, _, _, _, h1 => by simp at h1
  | k0 :: k1 :: ks, _, 0, k, k2, h, hk, hk1 => by
    simp at hk hk1
    subst hk hk1
    exact h.2.1
  | k0 :: k1 :: ks, _, j + 1, k, k2, h, hk, hk1 => by
    have hk' : (k1 :: ks)[j]? = some k := by simpa using hk
    have hk1' : (k1 :: ks)[j + 1]? = some k2 := by simpa using hk1
    exact IsChain.next_at h.2.2.2 hk' hk1'

theorem IsChain.terminator_iff {io : Volume} : ∀ {ks : List Nat} {b : Nat} {j k : Nat},
    IsChain io b ks → ks[j]? = some k → ((io.store k).next = k ↔ j + 1 = ks.length)
  | [], _, _, _, h, _ => absurd h (by simp [IsChain])
  | [k0], _, 0, k, h, hk => by
    simp at hk
    subst hk
    simp [h.2]
  | [k0], _, j + 1, k, _, hk => by simp at hk
  | k0 :: k1 :: ks, _, 0, k, h, hk => by
    simp at hk
    subst hk
    have : ¬ (io.store k0).next = k0 := by rw [h.2.1]; exact h.2.2.1
    simp [this]
  | k0 :: k1 :: ks, _, j + 1, k, h, hk => by
    have hk' : (k1 :: ks)[j]? = some k := by simpa using hk
    have := IsChain.terminator_iff h.2.2.2 hk'
    rw [this]
    simp

theorem IsChain.snoc {io io1 : Volume} {a : Nat} (ha : (io1.store a).next = a) :
    ∀ {ks : List Nat} {b : Nat}, IsChain io b ks → a ∉ ks →
      (∀ k ∈ ks, (io1.store k).next = if (io.store k).next = k then a else (io.store k).next) →
      IsChain io1 b (ks ++ [a])
  | [], _, h, _, _ => absurd h (by simp [IsChain])
  | [k0], _, h, hnot, hn => by
    have h1 := hn k0 (by simp)
    rw [if_pos h.2] at h1
    have hne : a ≠ k0 := by
      intro e
      exact hnot (by simp [e])
    exact ⟨h.1, h1, hne, rfl, ha⟩
  | k0 :: k1 :: ks, _, h, hnot, hn => by
    have h1 := hn k0 (by simp)
    have hne : ¬ (io.store k0).next = k0 := by rw [h.2.1]; exact h.2.2.1
    rw [if_neg hne, h.2.1] at h1
    have ih := IsChain.snoc ha h.2.2.2 (fun hm => hnot (List.mem_cons_of_mem _ hm))
      (fun k hk => hn k (List.mem_cons_of_mem _ hk))
    exact ⟨h.1, h1, h.2.2.1, ih⟩

theorem File.newWritableFileBlock_spec {S : Nat} {f : File} {io : Volume} {b : Nat}
    {ks : List Nat} {C : List Byte} {i : Nat} (hw : Writer S f io b ks C i S)
    (hApp : f.m_openDisposition.append = AppendOrOverwrite.Append) (hfree : 0 < freeCount io) :
    ∃ a f1 io1,
      f.newWritableFileBlock io = Res.ok () f1 io1 ∧
      Writer S f1 io1 b (ks ++ [a]) C ks.length 0 ∧
      a < io.blocks ∧ io.bitmap a = false ∧
      (∀ k, io1.bitmap k = (io.bitmap k || decide (k = a))) ∧
      io1.blocks = io.blocks ∧ io1.freeBlocks = io.freeBlocks ∧
      freeCount io1 + 1 = freeCount io ∧
      f1.m_fileSize = f.m_fileSize ∧ f1.m_openDisposition = f.m_openDisposition ∧
      (∀ x, x ≠ a → x ∉ ks → io1.store x = io.store x) := by
  obtain ⟨a, hga⟩ := getNextAvailableBlock_of_free hfree
  obtain ⟨halt, hafree⟩ := getNextAvailableBlock_spec hga
  obtain ⟨enf, sz, wb, buf, st, bi, disp, pos, bc⟩ := f
  obtain ⟨hlaid, hinuse, hstart, hcount, hindex, hblock, hvalid, hcur, hpos, hwithin, henf,
    hwr, hatEnd, hsized⟩ := hw
  simp only at hstart hcount hindex hblock hpos henf hwr hatEnd hsized hApp
  subst st bc bi wb pos enf
  obtain ⟨hlast, hend⟩ := hatEnd hApp
  have hmul : ks.length * S = i * S + S := by rw [← hlast, Nat.succ_mul]
  have hk : ks[i]? = some (ks.getD i 0) := by
    rw [List.getD_eq_getElem?_getD, List.getElem?_eq_getElem hvalid]
    rfl
  generalize hkd : ks.getD i 0 = k at hk
  have hkmem : k ∈ ks := List.mem_iff_getElem?.mpr ⟨i, hk⟩
  have hnot : a ∉ ks := by
    intro hmem
    have := hinuse a hmem
    rw [hafree] at this
    cases this
  have hka : k ≠ a := fun e => hnot (e ▸ hkmem)
  have hterm : (io.store k).next = k := (hlaid.chain.terminator_iff hk).mpr hlast
  -- the image after the allocation
  let io1 : Volume :=
    FileBlock.setNextIndex
      (FileBlock.registerBlockWithVolumeBitmap
        { io with store := fun x =>
            if x = a then { bytesWritten := 0, next := a, data := (io.store x).data }
            else io.store x }
        (FileBlock.mk a 0))
      (FileBlock.mk k S) a
  have hstore_a : io1.store a = { bytesWritten := 0, next := a, data := (io.store a).data } := by
    simp [io1, FileBlock.setNextIndex, FileBlock.registerBlockWithVolumeBitmap, Ne.symm hka]
  have hstore_k : io1.store k = { io.store k with next := a } := by
    simp [io1, FileBlock.setNextIndex, FileBlock.registerBlockWithVolumeBitmap, hka]
  have hstore_o : ∀ x, x ≠ a → x ≠ k → io1.store x = io.store x := by
    intro x h1 h2
    simp [io1, FileBlock.setNextIndex, FileBlock.registerBlockWithVolumeBitmap, h1, h2]
  have hbm : ∀ x, io1.bitmap x = (io.bitmap x || decide (x = a)) := by
    intro x
    by_cases hx : x = a
    · simp [io1, FileBlock.setNextIndex, FileBlock.registerBlockWithVolumeBitmap, hx]
    · simp [io1, FileBlock.setNextIndex, FileBlock.registerBlockWithVolumeBitmap, hx]
  have hblocks : io1.blocks = io.blocks := rfl
  have hchain : IsChain io1 b (ks ++ [a]) := by
    apply IsChain.snoc (by rw [hstore_a]) hlaid.chain hnot
    intro x hx
    by_cases hxk : x = k
    · subst hxk
      rw [hstore_k, if_pos hterm]
    · have hxa : x ≠ a := fun e => hnot (e ▸ hx)
      rw [hstore_o x hxa hxk]
      obtain ⟨j, hj⟩ := List.mem_iff_getElem?.mp hx
      have hnt : ¬ (io.store x).next = x := by
        intro e
        have := (hlaid.chain.terminator_iff hj).mp e
        have hji : j = i := by omega
        subst hji
        rw [hk] at hj
        exact hxk (Option.some.inj hj).symm
      rw [if_neg hnt]
  have hbw : ∀ x ∈ ks, (io1.store x).bytesWritten = (io.store x).bytesWritten ∧
      (io1.store x).data = (io.store x).data := by
    intro x hx
    have hxa : x ≠ a := fun e => hnot (e ▸ hx)
    by_cases hxk : x = k
    · subst hxk
      rw [hstore_k]
      exact ⟨rfl, rfl⟩
    · rw [hstore_o x hxa hxk]
      exact ⟨rfl, rfl⟩
  have hlaid1 : Laid S io1 b (ks ++ [a]) C := by
    apply Laid.mk_at hchain
    · intro x hx
      rcases List.mem_append.mp hx with h1 | h1
      · exact hlaid.inside x h1
      · simp at h1
        subst h1
        exact halt
    · intro j kj hj
      by_cases hjl : j < ks.length
      · rw [List.getElem?_append_left hjl] at hj
        have hmem : kj ∈ ks := List.mem_iff_getElem?.mpr ⟨j, hj⟩
        rw [(hbw kj hmem).1]
        exact hlaid.size_at hj
      · have hjlen := lt_length_of_getElem? hj
        simp at hjlen
        have hje : j = ks.length := by omega
        subst hje
        simp at hj
        subst hj
        rw [hstore_a]
        have := mul_step S hvalid
        simp only
        omega
    · intro j kj t hj ht
      by_cases hjl : j < ks.length
      · rw [List.getElem?_append_left hjl] at hj
        have hmem : kj ∈ ks := List.mem_iff_getElem?.mpr ⟨j, hj⟩
        rw [(hbw kj hmem).2]
        exact hlaid.byte_at hj ht
      · exfalso
        have hjlen := lt_length_of_getElem? hj
        simp at hjlen
        have hje : j = ks.length := by omega
        subst hje
        have := mul_step S hvalid
        omega
    · have := hlaid.fits
      simp only [List.length_append, List.length_singleton]
      rw [Nat.succ_mul]
      omega
  refine ⟨a, File.mk false sz (some (FileBlock.mk a 0)) buf b (ks.length + 1 - 1) disp
      (((i * S + S : Nat) : Int)) (ks.length + 1), io1, ?_, ?_, halt, hafree, hbm, hblocks, rfl,
      ?_, rfl, rfl, fun x h1 h2 => hstore_o x h1 (fun e => h2 (e ▸ hkmem))⟩
  · simp only [File.newWritableFileBlock, buildWritableFileBlock, hga, Bool.false_eq_true,
      if_false]
    rfl
  · refine ⟨hlaid1, ?_, rfl, ?_, ?_, ?_, ?_, Nat.zero_le _, ?_, ?_, rfl, hwr, ?_, ?_⟩
    · intro x hx
      rw [hbm]
      rcases List.mem_append.mp hx with h1 | h1
      · simp [hinuse x h1]
      · simp at h1
        simp [h1]
    · simp
    · simp
    · simp
    · simp
    · simp only
      have := mul_step S hvalid
      congr 1
      omega
    · omega
    · intro _
      exact ⟨by simp, by omega⟩
    · intro ho
      rw [hApp] at ho
      cases ho
  · exact freeCount_register halt hafree hblocks (by
      intro x
      rw [hbm]
      by_cases hx : x = a
      · simp [hx]
      · simp [hx])

/-! ## Working-block maintenance -/

theorem File.tellAtOrPastSize_eq (f : File) (p : Nat) (h : f.m_pos = (p : Int)) :
    f.tellAtOrPastSize = decide (f.m_fileSize ≤ p) := by
  unfold File.tellAtOrPastSize File.tell
  rw [h]
  by_cases hp : f.m_fileSize ≤ p
  · have : (p : Int) < 0 ∨ f.m_fileSize ≤ ((p : Int)).toNat := Or.inr (by omega)
    simp [hp, this]
  · have : ¬ ((p : Int) < 0 ∨ f.m_fileSize ≤ ((p : Int)).toNat) := by omega
    simp [hp, this]

theorem File.checkAndUpdate_room {S : Nat} {f : File} {io : Volume} {wb : FileBlock}
    (hwb : f.m_workingBlock = some wb) (h : wb.tell % 4294967296 < S) :
    f.checkAndUpdateWorkingBlockWithNew S io = Res.ok () f io := by
  unfold File.checkAndUpdateWorkingBlockWithNew
  rw [hwb]
  simp only [h, if_true]

theorem File.checkAndUpdate_past {S : Nat} {f : File} {io : Volume} {wb : FileBlock}
    (hwb : f.m_workingBlock = some wb) (h : ¬ wb.tell % 4294967296 < S)
    (hp : f.tellAtOrPastSize = true) :
    f.checkAndUpdateWorkingBlockWithNew S io =
      File.newWritableFileBlock
        { f with m_openDisposition := OpenDisposition.buildAppendDisposition } io := by
  unfold File.checkAndUpdateWorkingBlockWithNew
  rw [hwb]
  simp only [h, hp, if_true, if_false]
  rw [if_neg (by decide)]

theorem File.checkAndUpdate_append {S : Nat} {f : File} {io : Volume} {wb : FileBlock}
    (hwb : f.m_workingBlock = some wb) (h : ¬ wb.tell % 4294967296 < S)
    (hp : f.tellAtOrPastSize = false)
    (hmode : f.m_openDisposition.append = AppendOrOverwrite.Append) :
    f.checkAndUpdateWorkingBlockWithNew S io = f.newWritableFileBlock io := by
  unfold File.checkAndUpdateWorkingBlockWithNew
  rw [hwb]
  simp only [h, hp, if_false, Bool.false_eq_true]
  rw [if_neg (by rw [hmode]; decide)]

theorem File.checkAndUpdate_next {S : Nat} {f : File} {io : Volume} {wb : FileBlock}
    (hwb : f.m_workingBlock = some wb) (h : ¬ wb.tell % 4294967296 < S)
    (hp : f.tellAtOrPastSize = false)
    (hmode : f.m_openDisposition.append = AppendOrOverwrite.Overwrite)
    (hfull : wb.tell = S) :
    f.checkAndUpdateWorkingBlockWithNew S io =
      Res.ok ()
        { f with
          m_blockIndex := f.m_blockIndex + 1
          m_workingBlock := some (FileBlock.openAt (wb.getNextIndex io)) }
        io := by
  unfold File.checkAndUpdateWorkingBlockWithNew
  rw [hwb]
  simp only [h, hp, if_false, Bool.false_eq_true]
  rw [if_pos hmode, if_neg (by omega), if_pos hfull]
theorem Writer.promote {S : Nat} {f : File} {io : Volume} {b : Nat} {ks : List Nat}
    {C : List Byte} {i c : Nat} (hw : Writer S f io b ks C i c)
    (hend : i + 1 = ks.length ∧ i * S + c = C.length) :
    Writer S { f with m_openDisposition := OpenDisposition.buildAppendDisposition } io b ks C
      i c := by
  refine ⟨hw.laid, hw.inUse, hw.start, hw.count, hw.index, hw.block, hw.valid, hw.cursor,
    hw.pos, hw.within, hw.enforce, ?_, fun _ => hend, ?_⟩
  · simp [OpenDisposition.buildAppendDisposition]
  · intro h
    simp [OpenDisposition.buildAppendDisposition] at h

theorem File.maintain {S : Nat} (hS : 0 < S) (hS32 : S < 4294967296) {f : File}
    {io : Volume} {b : Nat} {ks : List Nat} {C : List Byte} {i c : Nat}
    (hw : Writer S f io b ks C i c) {m : Nat} (hm : 1 ≤ m)
    (hcap : i * S + c + m ≤ (ks.length + freeCount io) * S) :
    ∃ f1 io1 nb i1 c1,
      f.checkAndUpdateWorkingBlockWithNew S io = Res.ok () f1 io1 ∧
      Writer S f1 io1 b (ks ++ nb) C i1 c1 ∧ c1 < S ∧ i1 * S + c1 = i * S + c ∧
      io1.blocks = io.blocks ∧ io1.freeBlocks = io.freeBlocks ∧
      (ks ++ nb).length + freeCount io1 = ks.length + freeCount io ∧
      (∀ k ∈ nb, io.bitmap k = false) ∧
      (∀ k, io1.bitmap k = (io.bitmap k || decide (k ∈ nb))) ∧
      f1.m_fileSize = f.m_fileSize ∧
      (f.m_openDisposition.append = AppendOrOverwrite.Append →
        f1.m_openDisposition.append = AppendOrOverwrite.Append) ∧
      (f.m_openDisposition.append = AppendOrOverwrite.Overwrite →
        i * S + c + m ≤ C.length → f1.m_openDisposition = f.m_openDisposition ∧ nb = []) ∧
      ((ks.length = 1 ∨ (ks.length - 1) * S < max C.length (i * S + c + m)) →
        ((ks ++ nb).length = 1 ∨
          ((ks ++ nb).length - 1) * S < max C.length (i * S + c + m))) ∧
      (∀ x, x ∉ ks → x ∉ nb → io1.store x = io.store x) := by
  have hwb := hw.block
  by_cases hc : c < S
  · -- the working block has room
    refine ⟨f, io, [], i, c, File.checkAndUpdate_room hwb ?_, by simpa using hw, hc, rfl,
      rfl, rfl, by simp, by simp, by simp, rfl, fun h => h, fun _ _ => ⟨rfl, rfl⟩, by simp,
      fun _ _ _ => rfl⟩
    simp only [FileBlock.tell]
    omega
  · have hcS : c = S := by have := hw.cursor; omega
    subst hcS
    have hpast := File.tellAtOrPastSize_eq f (i * c + c) hw.pos
    have hnotlt : ¬ (FileBlock.mk (ks.getD i 0) c).tell % 4294967296 < c := by
      simp only [FileBlock.tell]
      omega
    have hfits := hw.laid.fits
    have hwithin := hw.within
    have hvalid := hw.valid
    -- the handle that reaches `newWritableFileBlock`, when it does
    have alloc : ∀ f0 : File, Writer c f0 io b ks C i c →
        f0.m_openDisposition.append = AppendOrOverwrite.Append →
        f0.m_fileSize = f.m_fileSize →
        f.checkAndUpdateWorkingBlockWithNew c io = f0.newWritableFileBlock io →
        ∃ f1 io1 nb i1 c1,
          f.checkAndUpdateWorkingBlockWithNew c io = Res.ok () f1 io1 ∧
          Writer c f1 io1 b (ks ++ nb) C i1 c1 ∧ c1 < c ∧ i1 * c + c1 = i * c + c ∧
          io1.blocks = io.blocks ∧ io1.freeBlocks = io.freeBlocks ∧
          (ks ++ nb).length + freeCount io1 = ks.length + freeCount io ∧
          (∀ k ∈ nb, io.bitmap k = false) ∧
          (∀ k, io1.bitmap k = (io.bitmap k || decide (k ∈ nb))) ∧
          f1.m_fileSize = f.m_fileSize ∧
          (f.m_openDisposition.append = AppendOrOverwrite.Append →
            f1.m_openDisposition.append = AppendOrOverwrite.Append) ∧
          (f.m_openDisposition.append = AppendOrOverwrite.Overwrite →
            i * c + c + m ≤ C.length → f1.m_openDisposition = f.m_openDisposition ∧ nb = []) ∧
          ((ks.length = 1 ∨ (ks.length - 1) * c < max C.length (i * c + c + m)) →
            ((ks ++ nb).length = 1 ∨
              ((ks ++ nb).length - 1) * c < max C.length (i * c + c + m))) ∧
          (∀ x, x ∉ ks → x ∉ nb → io1.store x = io.store x) := by
      intro f0 hw0 hApp hsz heq
      obtain ⟨hlast, hend⟩ := hw0.atEnd hApp
      have hmul : ks.length * c = i * c + c := by rw [← hlast, Nat.succ_mul]
      have hfree : 0 < freeCount io := by
        by_contra h0
        have h0' : freeCount io = 0 := by omega
        rw [h0', Nat.add_zero] at hcap
        omega
      obtain ⟨a, f1, io1, hres, hw1, halt, hafree, hbm, hbl, hfb, hfc, hsz1, hd1, hoth⟩ :=
        File.newWritableFileBlock_spec hw0 hApp hfree
      refine ⟨f1, io1, [a], ks.length, 0, by rw [heq, hres], hw1, hS, by omega, hbl, hfb,
        by simp only [List.length_append, List.length_singleton]; omega,
        by simpa using hafree, by simpa using hbm, by rw [hsz1, hsz],
        fun _ => by rw [hd1]; exact hApp, ?_, ?_,
        fun x h1 h2 => hoth x (fun e => h2 (by simp [e])) h1⟩
      · intro ho hle
        exfalso
        omega
      · intro _
        right
        simp only [List.length_append, List.length_singleton]
        have : ks.length + 1 - 1 = ks.length := by omega
        rw [this, hmul]
        omega
    have hmodes : f.m_openDisposition.append = AppendOrOverwrite.Append ∨
        f.m_openDisposition.append = AppendOrOverwrite.Overwrite := by
      cases f.m_openDisposition.append
      · exact Or.inl rfl
      · exact Or.inr rfl
    by_cases hp : f.m_fileSize ≤ i * c + c
    · -- at or past the recorded size: the handle is put in append mode
      have hp' : f.tellAtOrPastSize = true := by rw [hpast]; simp [hp]
      have hend : i + 1 = ks.length ∧ i * c + c = C.length := by
        rcases hmodes with hmode | hmode
        · exact hw.atEnd hmode
        · obtain ⟨hszle, hszlast⟩ := hw.sized hmode
          have hlast : i + 1 = ks.length := by
            rcases hszlast with h1 | h1
            · omega
            · by_contra hne
              have h2 : i + 1 ≤ ks.length - 1 := by omega
              have h3 := Nat.mul_le_mul_right c h2
              rw [Nat.succ_mul] at h3
              omega
          have hmul : ks.length * c = i * c + c := by rw [← hlast, Nat.succ_mul]
          exact ⟨hlast, by omega⟩
      exact alloc _ (hw.promote hend) rfl rfl (File.checkAndUpdate_past hwb hnotlt hp')
    · have hp' : f.tellAtOrPastSize = false := by rw [hpast]; simp [hp]
      rcases hmodes with hmode | hmode
      · exact alloc f hw hmode rfl (File.checkAndUpdate_append hwb hnotlt hp' hmode)
      · -- more blocks follow: step to the next one
        obtain ⟨hszle, hszlast⟩ := hw.sized hmode
        have hlt : i + 1 < ks.length := by
          by_contra hne
          have h2 : ks.length ≤ i + 1 := by omega
          have h3 := Nat.mul_le_mul_right c h2
          rw [Nat.succ_mul] at h3
          omega
        have hk : ks[i]? = some (ks.getD i 0) := by
          rw [List.getD_eq_getElem?_getD, List.getElem?_eq_getElem hvalid]
          rfl
        have hk1 : ks[i + 1]? = some (ks.getD (i + 1) 0) := by
          rw [List.getD_eq_getElem?_getD, List.getElem?_eq_getElem hlt]
          rfl
        have hnext := hw.laid.chain.next_at hk hk1
        have hres := @File.checkAndUpdate_next _ _ io _ hwb hnotlt hp' hmode rfl
        refine ⟨_, io, [], i + 1, 0, hres, ?_, hS, by rw [Nat.succ_mul]; omega, rfl, rfl,
          by simp, by simp, by simp, rfl, (fun h => by rw [hmode] at h; cases h),
          fun _ _ => ⟨rfl, rfl⟩, by simp, fun _ _ _ => rfl⟩
        rw [List.append_nil]
        refine ⟨hw.laid, hw.inUse, hw.start, hw.count, ?_, ?_, hlt, Nat.zero_le _, ?_, ?_,
          hw.enforce, hw.writable, (fun h => by rw [hmode] at h; cases h),
          fun _ => ⟨hszle, hszlast⟩⟩
        · simp only [hw.index]
        · simp only [FileBlock.openAt, FileBlock.getNextIndex, hnext]
        · simp only [hw.pos]
          rw [Nat.succ_mul]
          rfl
        · rw [Nat.succ_mul]
          omega

/-! ## The loop of `write` -/

theorem take_drop_split (s : List Byte) (wrote len m : Nat) (h : len ≤ m) :
    (s.drop wrote).take len ++ (s.drop (wrote + len)).take (m - len) = (s.drop wrote).take m := by
  have e : m = len + (m - len) := by omega
  conv_rhs => rw [e, List.take_add]
  rw [List.drop_drop]

theorem wl_pos {x3 c3 x1 c1 len n wrote x c : Nat} (h3 : x3 + c3 = x1 + (c1 + len) + (n - (wrote + len)))
    (h1 : x1 + c1 = x + c) (hl : len ≤ n - wrote) : x3 + c3 = x + c + (n - wrote) := by
  omega

theorem wl_cap {x1 c1 len n wrote x c cap1 cap : Nat} (h1 : x1 + c1 = x + c)
    (hl : len ≤ n - wrote) (hcap : x + c + (n - wrote) ≤ cap) (he : cap1 = cap) :
    x1 + (c1 + len) + (n - (wrote + len)) ≤ cap1 := by
  omega

theorem wl_pure {x1 c1 len n wrote x c L L1 : Nat} (h1 : x1 + c1 = x + c)
    (hl : len ≤ n - wrote) (hp : x + c + (n - wrote) ≤ L) (hL : L1 = max L (x1 + c1 + len)) :
    x1 + (c1 + len) + (n - (wrote + len)) ≤ L1 := by
  omega

theorem wl_canon_in {x1 c1 len n wrote x c L L1 k y : Nat} (h1 : x1 + c1 = x + c)
    (hl : len ≤ n - wrote) (hL : L1 = max L (x1 + c1 + len))
    (h : k = 1 ∨ y < max L (x + c + (n - wrote))) :
    k = 1 ∨ y < max L1 (x1 + (c1 + len) + (n - (wrote + len))) := by
  omega

theorem wl_canon_out {x1 c1 len n wrote x c L L1 k y : Nat} (h1 : x1 + c1 = x + c)
    (hl : len ≤ n - wrote) (hL : L1 = max L (x1 + c1 + len))
    (h : k = 1 ∨ y < max L1 (x1 + (c1 + len) + (n - (wrote + len)))) :
    k = 1 ∨ y < max L (x + c + (n - wrote)) := by
  omega

theorem File.maintained {S : Nat} (hS : 0 < S) (hS32 : S < 4294967296) {f : File}
    {io : Volume} {b : Nat} {ks : List Nat} {C : List Byte} {i c : Nat}
    (hw : Writer S f io b ks C i c) {m : Nat} (hm : 1 ≤ m)
    (hcap : i * S + c + m ≤ (ks.length + freeCount io) * S) :
    ∃ f1 io1 nb i1 c1, Maintained S f io b ks C i c m f1 io1 nb i1 c1 := by
  obtain ⟨f1, io1, nb1, i1, c1, h⟩ := File.maintain hS hS32 hw hm hcap
  exact ⟨f1, io1, nb1, i1, c1, h.1, h.2.1, h.2.2.1, h.2.2.2.1, h.2.2.2.2.1, h.2.2.2.2.2.1,
    h.2.2.2.2.2.2.1, h.2.2.2.2.2.2.2.1, h.2.2.2.2.2.2.2.2.1, h.2.2.2.2.2.2.2.2.2.1,
    h.2.2.2.2.2.2.2.2.2.2.1, h.2.2.2.2.2.2.2.2.2.2.2.1, h.2.2.2.2.2.2.2.2.2.2.2.2.1,
    h.2.2.2.2.2.2.2.2.2.2.2.2.2⟩

theorem Looped.done {S : Nat} {s : List Byte} {n fuel : Nat} {f : File} {io : Volume}
    {b : Nat} {ks : List Nat} {C : List Byte} {i c : Nat} (hw : Writer S f io b ks C i c) :
    Looped S s n fuel n f io b ks C i c f io [] i c := by
  refine ⟨?_, ?_, by omega, rfl, rfl, by simp, by simp, by simp, fun h => ⟨h, by omega⟩,
    fun _ _ => ⟨rfl, rfl, rfl⟩, by simp, fun _ _ _ => rfl⟩
  · rw [File.writeLoop.eq_def]
    simp only [Nat.lt_irrefl, if_false]
  · simpa [splice_nil] using hw

theorem Looped.step {S : Nat} {s : List Byte} {n fuel wrote len : Nat} {f f1 f2 f3 : File}
    {io io1 io2 io3 : Volume} {b : Nat} {ks nb1 nb2 : List Nat} {C : List Byte}
    {i c i1 c1 i3 c3 : Nat} (hn : n ≤ s.length) (hlt : wrote < n)
    (hlen : min (n - wrote) (S - c1) = len)
    (h1 : Maintained S f io b ks C i c (n - wrote) f1 io1 nb1 i1 c1)
    (hres2 : File.writeLoop S s n (fuel + 1) wrote f io =
      File.writeLoop S s n fuel (wrote + len) f2 io2)
    (hbl2 : io2.blocks = io1.blocks) (hbm2 : io2.bitmap = io1.bitmap)
    (hfb2 : io2.freeBlocks = io1.freeBlocks)
    (hd2 : f2.m_openDisposition = f1.m_openDisposition)
    (hsz2 : f2.m_fileSize =
      if f1.m_openDisposition.append = AppendOrOverwrite.Append then f1.m_fileSize + len
      else f1.m_fileSize)
    (hoth2 : ∀ x, x ∉ ks ++ nb1 → io2.store x = io1.store x)
    (h3 : Looped S s n fuel (wrote + len) f2 io2 b (ks ++ nb1)
      (splice C (i1 * S + c1) ((s.drop wrote).take len)) i1 (c1 + len) f3 io3 nb2 i3 c3) :
    Looped S s n (fuel + 1) wrote f io b ks C i c f3 io3 (nb1 ++ nb2) i3 c3 := by
  have hlenle : len ≤ n - wrote := by omega
  have hroom := h1.room
  have hpos1 := h1.samePos
  have hwithin := h1.writer.within
  have hfc2 : freeCount io2 = freeCount io1 := freeCount_congr hbl2 hbm2
  have hchunk : ((s.drop wrote).take len).length = len := by
    simp only [List.length_take, List.length_drop]
    omega
  have hsl := splice_length C (i1 * S + c1) ((s.drop wrote).take len) hwithin
  rw [hchunk] at hsl
  have hrest : n - (wrote + len) = n - wrote - len := by omega
  have hsplice : splice (splice C (i1 * S + c1) ((s.drop wrote).take len))
      (i1 * S + (c1 + len)) ((s.drop (wrote + len)).take (n - (wrote + len))) =
      splice C (i * S + c) ((s.drop wrote).take (n - wrote)) := by
    have e1 := splice_splice C (i1 * S + c1) ((s.drop wrote).take len)
      ((s.drop (wrote + len)).take (n - (wrote + len))) hwithin
    rw [hchunk, hrest, take_drop_split s wrote len (n - wrote) hlenle, hpos1] at e1
    rw [hrest, ← e1, hpos1]
    congr 1
    omega
  have hwriter := h3.writer
  rw [hsplice, List.append_assoc] at hwriter
  have hcap := h3.capacity
  rw [List.append_assoc, hfc2, h1.capacity] at hcap
  refine ⟨hres2.trans h3.result, hwriter, wl_pos h3.newPos hpos1 hlenle,
    h3.blocks.trans (hbl2.trans h1.blocks), h3.freeBlocks.trans (hfb2.trans h1.freeBlocks),
    hcap, ?_, ?_, ?_, ?_, ?_, ?_⟩
  · intro k hk
    rcases List.mem_append.mp hk with hk1 | hk1
    · exact h1.wasFree k hk1
    · have := h3.wasFree k hk1
      rw [hbm2, h1.bitmap k] at this
      simp at this
      exact this.1
  · intro k
    rw [h3.bitmap k, hbm2, h1.bitmap k]
    simp [Bool.or_assoc]
  · intro hA
    have hA1 := h1.staysAppend hA
    have hA3 := h3.staysAppend (by rw [hd2]; exact hA1)
    refine ⟨hA3.1, ?_⟩
    rw [hA3.2, hsz2, if_pos hA1, h1.fileSize, hrest]
    omega
  · intro hO hpure
    obtain ⟨hd1, hnil1⟩ := h1.staysOverwrite hO hpure
    have hO2 : f2.m_openDisposition.append = AppendOrOverwrite.Overwrite := by
      rw [hd2, hd1]
      exact hO
    have hne : ¬ f1.m_openDisposition.append = AppendOrOverwrite.Append := by
      rw [hd1, hO]
      decide
    obtain ⟨hd3, hnil3, hsz3⟩ := h3.staysOverwrite hO2 (wl_pure hpos1 hlenle hpure hsl)
    refine ⟨by rw [hd3, hd2, hd1], by rw [hnil1, hnil3]; rfl, ?_⟩
    rw [hsz3, hsz2, if_neg hne, h1.fileSize]
  · intro hcan
    have hc1 := h1.canonical hcan
    have hc3 := h3.canonical (wl_canon_in hpos1 hlenle hsl hc1)
    rw [List.append_assoc] at hc3
    exact wl_canon_out hpos1 hlenle hsl hc3
  · intro x hx hnb
    have hx1 : x ∉ nb1 := fun h => hnb (List.mem_append.mpr (Or.inl h))
    have hx2 : x ∉ nb2 := fun h => hnb (List.mem_append.mpr (Or.inr h))
    have hx3 : x ∉ ks ++ nb1 := fun h => (List.mem_append.mp h).elim hx hx1
    rw [h3.others x hx3 hx2, hoth2 x hx3, h1.others x hx hx1]

theorem File.writeLoop_spec {S : Nat} (hS : 0 < S) (hS32 : S < 4294967296) {s : List Byte}
    {n : Nat} (hn : n ≤ s.length) (hn32 : n ≤ 4294967296) :
    ∀ (fuel wrote : Nat) (f : File) (io : Volume) (b : Nat) (ks : List Nat) (C : List Byte)
      (i c : Nat), Writer S f io b ks C i c → wrote ≤ n → n - wrote ≤ fuel →
      i * S + c + (n - wrote) ≤ (ks.length + freeCount io) * S →
      ∃ f1 io1 nb i1 c1, Looped S s n fuel wrote f io b ks C i c f1 io1 nb i1 c1 := by
  intro fuel
  induction fuel with
  | zero =>
    intro wrote f io b ks C i c hw hle hfuel hcap
    have hwn : wrote = n := by omega
    subst hwn
    exact ⟨f, io, [], i, c, Looped.done hw⟩
  | succ fuel ih =>
    intro wrote f io b ks C i c hw hle hfuel hcap
    by_cases hlt : wrote < n
    · obtain ⟨f1, io1, nb1, i1, c1, h1⟩ :=
        File.maintained hS hS32 hw (m := n - wrote) (by omega) hcap
      obtain ⟨f2, io2, hres2, hw2, hbl2, hbm2, hfb2, hd2, hsz2, hoth2⟩ :=
        @File.writeLoop_step _ hS32 _ _ fuel _ _ _ _ _ _ _ _ _ _ h1.result h1.writer h1.room hlt hn hn32
      have hroom := h1.room
      have hlenle : min (n - wrote) (S - c1) ≤ n - wrote := Nat.min_le_left _ _
      have hlen1 : 1 ≤ min (n - wrote) (S - c1) := by omega
      have hfc2 : freeCount io2 = freeCount io1 := freeCount_congr hbl2 hbm2
      obtain ⟨f3, io3, nb2, i3, c3, h3⟩ :=
        ih (wrote + min (n - wrote) (S - c1)) f2 io2 b (ks ++ nb1) _ i1
          (c1 + min (n - wrote) (S - c1)) hw2 (by omega) (by omega)
          (wl_cap h1.samePos hlenle hcap (by rw [hfc2, h1.capacity]))
      exact ⟨f3, io3, nb1 ++ nb2, i3, c3,
        Looped.step hn hlt rfl h1 hres2 hbl2 hbm2 hfb2 hd2 hsz2 hoth2 h3⟩
    · have hwn : wrote = n := by omega
      subst hwn
      exact ⟨f, io, [], i, c, Looped.done hw⟩

/-! ## The first block of a new file -/

theorem getNextAvailableBlock_first {io : Volume} {a : Nat}
    (h : getNextAvailableBlock io = some a) : ∀ k, k < a → io.bitmap k = true := by
  unfold getNextAvailableBlock at h
  obtain ⟨_, as, bs, hsplit, hall⟩ := List.find?_eq_some.mp h
  intro k hk
  have hlen : as.length = a := by
    have h1 : (List.range io.blocks)[as.length]? = some a := by
      rw [hsplit, List.getElem?_append_right (Nat.le_refl _)]
      simp
    have h2 := lt_length_of_getElem? h1
    rw [List.getElem?_range (by simpa using h2)] at h1
    exact Option.some.inj h1
  have hk1 : (List.range io.blocks)[k]? = as[k]? := by
    rw [hsplit, List.getElem?_append_left (by omega)]
  have hka : k < io.blocks := by
    have h1 : (List.range io.blocks)[as.length]? = some a := by
      rw [hsplit, List.getElem?_append_right (Nat.le_refl _)]
      simp
    have h2 := lt_length_of_getElem? h1
    simp at h2
    omega
  rw [List.getElem?_range hka] at hk1
  have hmem : k ∈ as := List.mem_iff_getElem?.mpr ⟨k, hk1.symm⟩
  simpa using hall k hmem

theorem File.started {S : Nat} {io : Volume} (hfree : 0 < freeCount io) :
    ∃ a f1 io1, Started S io a f1 io1 := by
  obtain ⟨a, hga⟩ := getNextAvailableBlock_of_free hfree
  obtain ⟨halt, hafree⟩ := getNextAvailableBlock_spec hga
  let io1 : Volume :=
    FileBlock.registerBlockWithVolumeBitmap
      { io with store := fun x =>
          if x = a then { bytesWritten := 0, next := a, data := (io.store x).data }
          else io.store x }
      (FileBlock.mk a 0)
  have hstore_a : io1.store a = { bytesWritten := 0, next := a, data := (io.store a).data } := by
    simp [io1, FileBlock.registerBlockWithVolumeBitmap]
  have hbm : ∀ x, io1.bitmap x = (io.bitmap x || decide (x = a)) := by
    intro x
    by_cases hx : x = a
    · simp [io1, FileBlock.registerBlockWithVolumeBitmap, hx]
    · simp [io1, FileBlock.registerBlockWithVolumeBitmap, hx]
  have hblocks : io1.blocks = io.blocks := rfl
  have hlaid : Laid S io1 a [a] [] := by
    apply Laid.mk_at
    · exact ⟨rfl, by rw [hstore_a]⟩
    · intro x hx
      simp at hx
      subst hx
      exact halt
    · intro j kj hj
      have hj0 := lt_length_of_getElem? hj
      simp at hj0
      subst hj0
      simp at hj
      subst hj
      rw [hstore_a]
      simp
    · intro j kj t hj ht
      simp at ht
    · simp
  refine ⟨a, File.mk false 0 (some (FileBlock.mk a 0)) [] a 0
    OpenDisposition.buildAppendDisposition 0 1, io1, ?_, ?_, halt, hafree,
    getNextAvailableBlock_first hga, hbm, hblocks, rfl, ?_, rfl, rfl, rfl⟩
  · simp only [File.checkAndUpdateWorkingBlockWithNew, File.create, File.newWritableFileBlock,
      buildWritableFileBlock, hga, Bool.false_eq_true, if_false]
    rfl
  · refine ⟨hlaid, ?_, rfl, rfl, rfl, rfl, by simp, Nat.zero_le _, by simp, by simp, rfl, ?_,
      fun _ => ⟨by simp, by simp⟩, ?_⟩
    · intro x hx
      simp at hx
      rw [hbm, hx]
      simp
    · simp [OpenDisposition.buildAppendDisposition]
    · intro h
      simp [OpenDisposition.buildAppendDisposition] at h
  · exact freeCount_register halt hafree hblocks (by
      intro x
      rw [hbm]
      by_cases hx : x = a
      · simp [hx]
      · simp [hx])

theorem File.writeLoop_started {S : Nat} {io : Volume} {a : Nat} {f1 : File} {io1 : Volume}
    (hS : 0 < S) (h : Started S io a f1 io1) (s : List Byte) (n fuel wrote : Nat)
    (hlt : wrote < n) :
    File.writeLoop S s n (fuel + 1) wrote (File.create false) io =
      File.writeLoop S s n (fuel + 1) wrote f1 io1 := by
  have hroom : f1.checkAndUpdateWorkingBlockWithNew S io1 = Res.ok () f1 io1 :=
    File.checkAndUpdate_room h.writer.block (by simp only [FileBlock.tell]; omega)
  rw [File.writeLoop.eq_def]
  conv_rhs => rw [File.writeLoop.eq_def]
  simp only [hlt, if_true, h.result, hroom]

/-! ## `write` on a writer, on a new file, and repeated -/

theorem Grown.refl (io : Volume) (ks : List Nat) : Grown io io ks [] :=
  ⟨rfl, rfl, by simp, by simp, by simp⟩

theorem Grown.trans {io io1 io2 : Volume} {ks nb1 nb2 : List Nat} (h1 : Grown io io1 ks nb1)
    (h2 : Grown io1 io2 (ks ++ nb1) nb2) : Grown io io2 ks (nb1 ++ nb2) := by
  refine ⟨h2.blocks.trans h1.blocks, h2.freeBlocks.trans h1.freeBlocks, ?_, ?_, ?_⟩
  · have := h2.capacity
    rw [List.append_assoc, h1.capacity] at this
    exact this
  · intro k hk
    rcases List.mem_append.mp hk with hk1 | hk1
    · exact h1.wasFree k hk1
    · have := h2.wasFree k hk1
      rw [h1.bitmap k] at this
      simp at this
      exact this.1
  · intro k
    rw [h2.bitmap k, h1.bitmap k]
    simp [Bool.or_assoc]

theorem Looped.grown {S : Nat} {s : List Byte} {n fuel wrote : Nat} {f : File} {io : Volume}
    {b : Nat} {ks : List Nat} {C : List Byte} {i c : Nat} {f1 : File} {io1 : Volume}
    {nb : List Nat} {i1 c1 : Nat}
    (h : Looped S s n fuel wrote f io b ks C i c f1 io1 nb i1 c1) : Grown io io1 ks nb :=
  ⟨h.blocks, h.freeBlocks, h.capacity, h.wasFree, h.bitmap⟩

theorem File.writeLoop_buffer (S : Nat) (s : List Byte) (n : Nat) :
    ∀ (fuel wrote : Nat) (f : File) (io : Volume) (r : Nat) (f1 : File) (io1 : Volume),
      f.m_buffer = [] → File.writeLoop S s n fuel wrote f io = Res.ok r f1 io1 →
      f1.m_buffer = [] := by
  intro fuel
  induction fuel with
  | zero =>
    intro wrote f io r f1 io1 hb h
    rw [File.writeLoop.eq_def] at h
    by_cases hlt : wrote < n
    · simp [hlt] at h
    · simp only [hlt, if_false] at h
      injection h with _ h2 _
      rw [← h2]
      exact hb
  | succ fuel ih =>
    intro wrote f io r f1 io1 hb h
    rw [File.writeLoop.eq_def] at h
    by_cases hlt : wrote < n
    · simp only [hlt, if_true] at h
      cases h1 : f.checkAndUpdateWorkingBlockWithNew S io with
      | fail x g io2 => simp [h1] at h
      | ok u g io2 =>
        simp only [h1] at h
        cases h2 : g.bufferBytesForWorkingBlock S io2 s (n - wrote) wrote with
        | fail x g2 io3 => simp [h2] at h
        | ok w g2 io3 =>
          simp only [h2] at h
          cases h3 : g2.writeBufferedDataToWorkingBlock io3 w with
          | fail x g3 io4 => simp [h3] at h
          | ok v g3 io4 =>
            simp only [h3] at h
            refine ih _ _ _ _ _ _ ?_ h
            simp only
            unfold File.writeBufferedDataToWorkingBlock at h3
            cases hwb : g2.m_workingBlock with
            | none => simp [hwb] at h3
            | some wb =>
              simp only [hwb] at h3
              injection h3 with _ h4 _
              rw [← h4]
    · simp only [hlt, if_false] at h
      injection h with _ h2 _
      rw [← h2]
      exact hb

theorem File.write_spec {S : Nat} (hS : 0 < S) (hS32 : S < 4294967296) {s : List Byte}
    {n : Nat} (hn : n ≤ s.length) (hn32 : n ≤ 4294967296) {f : File} {io : Volume} {b : Nat}
    {ks : List Nat} {C : List Byte} {i c : Nat} (hw : Writer S f io b ks C i c)
    (hcap : i * S + c + n ≤ (ks.length + freeCount io) * S) :
    ∃ f1 io1 nb i1 c1, f.write S io s n = Res.ok n f1 io1 ∧
      Looped S s n n 0 f io b ks C i c f1 io1 nb i1 c1 := by
  obtain ⟨f1, io1, nb, i1, c1, h⟩ :=
    File.writeLoop_spec hS hS32 hn hn32 n 0 f io b ks C i c hw (Nat.zero_le _) (by omega)
      (by simpa using hcap)
  refine ⟨f1, io1, nb, i1, c1, ?_, h⟩
  unfold File.write
  rw [if_neg hw.writable]
  exact h.result

theorem File.write_fresh {S : Nat} (hS : 0 < S) (hS32 : S < 4294967296) {s : List Byte}
    {n : Nat} (hn : n ≤ s.length) (hn32 : n ≤ 4294967296) (hn1 : 1 ≤ n) {io : Volume}
    (hcap : n ≤ freeCount io * S) :
    ∃ a f0 io0 f1 io1 nb i1 c1, Started S io a f0 io0 ∧
      (File.create false).write S io s n = Res.ok n f1 io1 ∧
      Looped S s n n 0 f0 io0 a [a] [] 0 0 f1 io1 nb i1 c1 := by
  have hfree : 0 < freeCount io := by
    by_contra h0
    have : freeCount io = 0 := by omega
    rw [this] at hcap
    omega
  obtain ⟨a, f0, io0, hst⟩ := File.started (S := S) hfree
  have hcap0 : 0 * S + 0 + (n - 0) ≤ ([a].length + freeCount io0) * S := by
    have := hst.capacity
    simp only [List.length_singleton, Nat.zero_mul, Nat.zero_add, Nat.sub_zero]
    rw [Nat.add_comm, this]
    exact hcap
  obtain ⟨f1, io1, nb, i1, c1, h⟩ :=
    File.writeLoop_spec hS hS32 hn hn32 n 0 f0 io0 a [a] [] 0 0 hst.writer (Nat.zero_le _)
      (by omega) hcap0
  refine ⟨a, f0, io0, f1, io1, nb, i1, c1, hst, ?_, h⟩
  unfold File.write
  rw [if_neg (by simp [File.create, OpenDisposition.buildAppendDisposition])]
  obtain ⟨m, rfl⟩ : ∃ m, n = m + 1 := ⟨n - 1, by omega⟩
  rw [File.writeLoop_started hS hst s (m + 1) m 0 (by omega)]
  exact h.result

theorem AtEnd.write {S : Nat} (hS : 0 < S) (hS32 : S < 4294967296) {s : List Byte}
    (hn32 : s.length ≤ 4294967296) {f : File} {io : Volume} {b : Nat} {ks : List Nat}
    {C : List Byte} (h : AtEnd S f io b ks C)
    (hcap : C.length + s.length ≤ (ks.length + freeCount io) * S) :
    ∃ f1 io1 nb, f.write S io s s.length = Res.ok s.length f1 io1 ∧
      AtEnd S f1 io1 b (ks ++ nb) (C ++ s) ∧ Grown io io1 ks nb ∧
      f1.m_pos = f.m_pos + (s.length : Int) := by
  obtain ⟨i, c, hw⟩ := h.writer
  obtain ⟨_, hend⟩ := hw.atEnd h.append
  obtain ⟨f1, io1, nb, i1, c1, hres, hl⟩ :=
    File.write_spec hS hS32 (Nat.le_refl _) hn32 hw (by rw [hend]; exact hcap)
  have hcontent : splice C (i * S + c) ((s.drop 0).take (s.length - 0)) = C ++ s := by
    rw [hend]
    simp [splice]
  have hwriter := hl.writer
  rw [hcontent] at hwriter
  obtain ⟨hA, hsz⟩ := hl.staysAppend h.append
  refine ⟨f1, io1, nb, hres, ⟨⟨i1, c1, hwriter⟩, hA, ?_, ?_, ?_⟩, hl.grown, ?_⟩
  · rw [hsz, h.size]
    simp
  · have := hl.canonical (Or.elim h.canonical Or.inl (fun hc => Or.inr (by omega)))
    simp only [List.length_append, Nat.sub_zero] at this ⊢
    omega
  · unfold File.write at hres
    rw [if_neg hw.writable] at hres
    exact File.writeLoop_buffer S s s.length _ _ _ _ _ _ _ h.flushed hres
  · rw [hwriter.pos, hw.pos, hl.newPos]
    push_cast
    omega

theorem File.create_write {S : Nat} (hS : 0 < S) (hS32 : S < 4294967296) {s : List Byte}
    (hn32 : s.length ≤ 4294967296) (hn1 : 1 ≤ s.length) {io : Volume}
    (hcap : s.length ≤ freeCount io * S) :
    ∃ a f1 io1 nb, (File.create false).write S io s s.length = Res.ok s.length f1 io1 ∧
      AtEnd S f1 io1 a (a :: nb) s ∧ Grown io io1 [] (a :: nb) ∧
      (∀ k, k < a → io.bitmap k = true) ∧ f1.m_pos = (s.length : Int) := by
  obtain ⟨a, f0, io0, f1, io1, nb, i1, c1, hst, hres, hl⟩ :=
    File.write_fresh hS hS32 (Nat.le_refl _) hn32 hn1 hcap
  have hcontent : splice [] (0 * S + 0) ((s.drop 0).take (s.length - 0)) = s := by
    simp [splice]
  have hwriter := hl.writer
  rw [hcontent] at hwriter
  have hA0 : f0.m_openDisposition.append = AppendOrOverwrite.Append := by
    rw [hst.append]
    rfl
  obtain ⟨hA, hsz⟩ := hl.staysAppend hA0
  have hg0 : Grown io io0 [] [a] := by
    refine ⟨hst.blocks, hst.freeBlocks, ?_, ?_, ?_⟩
    · have := hst.capacity
      simp only [List.nil_append, List.length_singleton, List.length_nil]
      omega
    · intro k hk
      simp at hk
      rw [hk]
      exact hst.wasFree
    · intro k
      rw [hst.bitmap k]
      simp
  have hg := hg0.trans (by simpa using hl.grown)
  refine ⟨a, f1, io1, nb, hres, ⟨⟨i1, c1, by simpa using hwriter⟩, hA, ?_, ?_, ?_⟩,
    by simpa using hg, hst.first, ?_⟩
  · rw [hsz, hst.fileSize]
    simp
  · have := hl.canonical (Or.inl rfl)
    simp only [List.length_cons, List.singleton_append, List.length_nil] at this ⊢
    omega
  · unfold File.write at hres
    rw [if_neg (by simp [File.create, OpenDisposition.buildAppendDisposition])] at hres
    exact File.writeLoop_buffer S s s.length _ _ _ _ _ _ _ rfl hres
  · rw [hwriter.pos, hl.newPos]
    push_cast
    omega

theorem AtEnd.writeAll {S : Nat} (hS : 0 < S) (hS32 : S < 4294967296) :
    ∀ (ds : List (List Byte)) (f : File) (io : Volume) (b : Nat) (ks : List Nat)
      (C : List Byte), (∀ d ∈ ds, d.length ≤ 4294967296) → AtEnd S f io b ks C →
      C.length + ds.flatten.length ≤ (ks.length + freeCount io) * S →
      ∃ f1 io1 nb, File.writeAll S ds f io = Res.ok () f1 io1 ∧
        AtEnd S f1 io1 b (ks ++ nb) (C ++ ds.flatten) ∧ Grown io io1 ks nb ∧
        f1.m_pos = f.m_pos + (ds.flatten.length : Int) := by
  intro ds
  induction ds with
  | nil =>
    intro f io b ks C _ h _
    exact ⟨f, io, [], rfl, by simpa using h, Grown.refl io ks, by simp⟩
  | cons d ds ih =>
    intro f io b ks C h32 h hcap
    simp only [List.flatten_cons, List.length_append] at hcap
    obtain ⟨f1, io1, nb1, hres1, h1, hg1, hp1⟩ :=
      h.write hS hS32 (h32 d (by simp)) (by omega)
    obtain ⟨f2, io2, nb2, hres2, h2, hg2, hp2⟩ :=
      ih f1 io1 b (ks ++ nb1) (C ++ d) (fun x hx => h32 x (by simp [hx])) h1
        (by rw [hg1.capacity]; simp only [List.length_append]; omega)
    refine ⟨f2, io2, nb1 ++ nb2, ?_, ?_, hg1.trans hg2, ?_⟩
    · simp only [File.writeAll, hres1, hres2]
    · simpa [List.append_assoc] using h2
    · rw [hp2, hp1]
      simp only [List.flatten_cons, List.length_append]
      push_cast
      omega

theorem File.create_writeAll {S : Nat} (hS : 0 < S) (hS32 : S < 4294967296) :
    ∀ (ds : List (List Byte)) (io : Volume), (∀ d ∈ ds, d.length ≤ 4294967296) →
      1 ≤ ds.flatten.length → ds.flatten.length ≤ freeCount io * S →
      ∃ a f1 io1 nb, File.writeAll S ds (File.create false) io = Res.ok () f1 io1 ∧
        AtEnd S f1 io1 a (a :: nb) ds.flatten ∧ Grown io io1 [] (a :: nb) ∧
        (∀ k, k < a → io.bitmap k = true) ∧ f1.m_pos = (ds.flatten.length : Int) := by
  intro ds
  induction ds with
  | nil =>
    intro io _ h1 _
    simp at h1
  | cons d ds ih =>
    intro io h32 hpos hcap
    simp only [List.flatten_cons, List.length_append] at hcap hpos
    by_cases hd : d.length = 0
    · -- an empty buffer: the call returns at once and the file is still new
      have hd0 : d = [] := List.length_eq_zero.mp hd
      subst hd0
      obtain ⟨a, f1, io1, nb, hres, h1, hg, hfirst, hp⟩ :=
        ih io (fun x hx => h32 x (by simp [hx])) (by simpa using hpos) (by simpa using hcap)
      refine ⟨a, f1, io1, nb, ?_, by simpa using h1, hg, hfirst, by simpa using hp⟩
      have hw0 : (File.create false).write S io [] ([] : List Byte).length =
          Res.ok 0 (File.create false) io := by
        unfold File.write
        rw [if_neg (by simp [File.create, OpenDisposition.buildAppendDisposition])]
        rw [File.writeLoop.eq_def]
        simp
      simp only [File.writeAll, hw0, hres]
    · obtain ⟨a, f1, io1, nb1, hres1, h1, hg1, hfirst, hp1⟩ :=
        @File.create_write _ hS hS32 _ (h32 d (by simp)) (by omega) io
          (by
            have : d.length ≤ d.length + ds.flatten.length := Nat.le_add_right _ _
            omega)
      have hcap1 : d.length + ds.flatten.length ≤ ((a :: nb1).length + freeCount io1) * S := by
        have := hg1.capacity
        simp only [List.nil_append, List.length_nil, Nat.zero_add] at this
        rw [this]
        exact hcap
      obtain ⟨f2, io2, nb2, hres2, h2, hg2, hp2⟩ :=
        AtEnd.writeAll hS hS32 ds f1 io1 a (a :: nb1) d (fun x hx => h32 x (by simp [hx])) h1
          hcap1
      have hg := hg1.trans (by simpa using hg2)
      refine ⟨a, f2, io2, nb1 ++ nb2, ?_, by simpa using h2, by simpa using hg, hfirst, ?_⟩
      · simp only [File.writeAll, hres1, hres2]
      · rw [hp2, hp1]
        simp only [List.flatten_cons, List.length_append]
        push_cast
        omega

/-! ## `flush` after a write -/

theorem FileBlock.write_nothing (io : Volume) (k c : Nat)
    (hc : c ≤ (io.store k).bytesWritten) (buf : List Byte) :
    FileBlock.write io (FileBlock.mk k c) buf 0 = (io, FileBlock.mk k c) := by
  unfold FileBlock.write
  have hst : (fun x => if x = k then
      ({ bytesWritten := max (io.store k).bytesWritten (c + 0), next := (io.store k).next,
         data := fun t => if c ≤ t ∧ t < c + 0 then buf.getD (t - c) 0
           else (io.store k).data t } : BlockRecord)
      else io.store x) = io.store := by
    funext x
    by_cases hx : x = k
    · subst hx
      simp only [if_true]
      have h1 : max (io.store x).bytesWritten (c + 0) = (io.store x).bytesWritten := by
        simp only [Nat.add_zero]
        exact Nat.max_eq_left hc
      have h2 : (fun t => if c ≤ t ∧ t < c + 0 then buf.getD (t - c) 0
          else (io.store x).data t) = (io.store x).data := by
        funext t
        rw [if_neg (by omega)]
      rw [h1, h2]
    · simp only [hx, if_false]
  simp only [hst]
  rfl

theorem Writer.cursor_le {S : Nat} {f : File} {io : Volume} {b : Nat} {ks : List Nat}
    {C : List Byte} {i c : Nat} (hw : Writer S f io b ks C i c) :
    c ≤ (io.store (ks.getD i 0)).bytesWritten := by
  have hk : ks[i]? = some (ks.getD i 0) := by
    rw [List.getD_eq_getElem?_getD, List.getElem?_eq_getElem hw.valid]
    rfl
  rw [hw.laid.size_at hk]
  have := hw.within
  have := hw.cursor
  omega

theorem AtEnd.flush {S : Nat} {f : File} {io : Volume} {b : Nat} {ks : List Nat}
    {C : List Byte} (h : AtEnd S f io b ks C) : f.flush io = Res.ok () f io := by
  obtain ⟨i, c, hw⟩ := h.writer
  unfold File.flush File.writeBufferedDataToWorkingBlock
  rw [hw.block, h.flushed]
  simp only [List.length_nil, FileBlock.write_nothing io _ _ hw.cursor_le]
  have hf : f = { f with m_workingBlock := some (FileBlock.mk (ks.getD i 0) c), m_buffer := [] } := by
    have h1 := hw.block
    have h2 := h.flushed
    cases f
    simp only at h1 h2
    subst h1 h2
    rfl
  exact congrArg (fun g => Res.ok () g io) hf.symm

/-! ## Opening an existing file -/

theorem enumerate_fold (io : Volume) (ks : List Nat) : ∀ (f : File),
    ks.foldl
      (fun g k =>
        { g with
          m_fileSize := g.m_fileSize + (FileBlock.openAt k).getDataBytesWritten io
          m_blockCount := g.m_blockCount + 1 })
      f =
    { f with
      m_fileSize := f.m_fileSize + sumBytesWritten io ks
      m_blockCount := f.m_blockCount + ks.length } := by
  induction ks with
  | nil =>
    intro f
    simp [sumBytesWritten]
  | cons k ks ih =>
    intro f
    rw [List.foldl_cons, ih]
    simp only [sumBytesWritten, List.map_cons, List.sum_cons, List.length_cons,
      FileBlock.getDataBytesWritten, FileBlock.openAt]
    congr 1 <;> omega

theorem File.enumerateBlockStats_spec {io : Volume} {b : Nat} {ks : List Nat} (f : File)
    (hstart : f.m_startVolumeBlock = b) (hchain : IsChain io b ks)
    (hin : ∀ k ∈ ks, k < io.blocks) :
    f.enumerateBlockStats io =
      Res.ok ()
        { f with
          m_fileSize := f.m_fileSize + sumBytesWritten io ks
          m_blockCount := f.m_blockCount + ks.length }
        io := by
  subst hstart
  unfold File.enumerateBlockStats
  rw [FileBlockIterator.blocksFrom_of_chain hchain hin]
  simp only [enumerate_fold]

theorem File.getBlockWithIndex_spec {io : Volume} {b : Nat} {ks : List Nat} (f : File)
    (hstart : f.m_startVolumeBlock = b) (hchain : IsChain io b ks)
    (hin : ∀ k ∈ ks, k < io.blocks) {j k : Nat} (hk : ks[j]? = some k) :
    f.getBlockWithIndex io j = Except.ok (FileBlock.openAt k) := by
  subst hstart
  unfold File.getBlockWithIndex
  rw [FileBlockIterator.blocksFrom_of_chain hchain hin]
  simp only [List.get?_eq_getElem?, hk]

theorem getPositionFromBegin_zero (S : Nat) : getPositionFromBegin S 0 = (0, 0) := by
  unfold getPositionFromBegin
  have : ¬ (0 : Int) > (S : Int) := by omega
  simp [this]

theorem getPositionFromEnd_zero (S : Nat) (e w : Nat) :
    getPositionFromEnd S 0 (e : Int) (w : Int) = ((e : Int), (w : Int)) := by
  unfold getPositionFromEnd
  simp only [abs_zero, getPositionFromBegin_zero, sub_zero]
  have : ¬ (w : Int) < 0 := by omega
  simp [this]

theorem File.openExisting_front {S : Nat} {io : Volume} {b : Nat} {ks : List Nat}
    (hchain : IsChain io b ks) (hin : ∀ k ∈ ks, k < io.blocks) (disp : OpenDisposition)
    (h : disp.readWrite = ReadOrWriteOrBoth.ReadOnly ∨
      (disp.trunc = TruncateOrKeep.Keep ∧ disp.append = AppendOrOverwrite.Overwrite)) :
    File.openExisting S io b disp =
      Res.ok ()
        (File.mk false (sumBytesWritten io ks) (some (FileBlock.openAt b)) [] b 0 disp 0
          ks.length)
        io := by
  have henum := File.enumerateBlockStats_spec (File.mk false 0 none [] b 0 disp 0 0) rfl
    hchain hin
  unfold File.openExisting
  simp only [henum, Nat.zero_add]
  rcases h with h | ⟨h1, h2⟩
  · simp [h]
  · by_cases hro : disp.readWrite = ReadOrWriteOrBoth.ReadOnly
    · simp [hro]
    · simp [hro, h1, h2]

theorem File.openExisting_back {S : Nat} {io : Volume} {b : Nat} {ks : List Nat}
    (hchain : IsChain io b ks) (hin : ∀ k ∈ ks, k < io.blocks) (disp : OpenDisposition)
    (hrw : disp.readWrite ≠ ReadOrWriteOrBoth.ReadOnly) (hkeep : disp.trunc = TruncateOrKeep.Keep)
    (happ : disp.append = AppendOrOverwrite.Append) {k : Nat}
    (hlast : ks[ks.length - 1]? = some k) :
    File.openExisting S io b disp =
      Res.ok ()
        (File.mk false (sumBytesWritten io ks)
          (some (FileBlock.mk k (io.store k).bytesWritten)) [] b (ks.length - 1) disp
          ((sumBytesWritten io ks : Nat) : Int) ks.length)
        io := by
  have hlen : 0 < ks.length := List.length_pos.mpr hchain.ne_nil
  have hne : ks.length ≠ 0 := by omega
  have henum := File.enumerateBlockStats_spec (File.mk false 0 none [] b 0 disp 0 0) rfl
    hchain hin
  unfold File.openExisting
  simp only [henum, Nat.zero_add]
  have hgb : ∀ g : File, g.m_startVolumeBlock = b →
      g.getBlockWithIndex io (ks.length - 1) = Except.ok (FileBlock.openAt k) :=
    fun g hg => File.getBlockWithIndex_spec g hg hchain hin hlast
  have hnot : ¬ (ks.length ≤ (((ks.length - 1 : Nat) : Int)).toNat ∨
      (((ks.length - 1 : Nat) : Int)) < 0) := by omega
  have htn : (((ks.length - 1 : Nat) : Int)).toNat = ks.length - 1 := by omega
  simp only [hrw, hkeep, happ, ne_eq, not_false_eq_true, if_true, if_false, File.seek,
    File.seekTo, hne, getPositionFromEnd_zero, FileBlock.getDataBytesWritten,
    FileBlock.openAt, FileBlock.seek, Option.map_some', hnot, htn, reduceCtorEq]
  rw [hgb _ rfl]
  simp only [FileBlock.openAt, hnot, if_false, htn]
  rw [hgb _ rfl]
  have hnot2 : ¬ (ks.length ≤ ks.length - 1 ∨ (((ks.length - 1 : Nat) : Int)) < 0) := by omega
  simp only [FileBlock.openAt, FileBlock.seek, hnot2, if_false, Int.toNat_ofNat, add_zero]

/-! ## Reading -/

theorem Laid.sum_take {S : Nat} {io : Volume} {b : Nat} {ks : List Nat} {C : List Byte}
    (h : Laid S io b ks C) : ∀ j, j ≤ ks.length →
      sumBytesWritten io (ks.take j) = min C.length (j * S) := by
  intro j
  induction j with
  | zero => intro _; simp [sumBytesWritten]
  | succ j ih =>
    intro hj
    have hlt : j < ks.length := by omega
    have hk : ks[j]? = some ks[j] := List.getElem?_eq_getElem hlt
    have hs := h.size_at hk
    rw [List.take_succ, hk]
    simp only [sumBytesWritten, Option.toList_some, List.map_append, List.sum_append,
      List.map_cons, List.map_nil, List.sum_cons, List.sum_nil, Nat.add_zero]
    have ih' := ih (by omega)
    simp only [sumBytesWritten] at ih'
    rw [ih', hs, Nat.succ_mul]
    omega

theorem Laid.sum_eq {S : Nat} {io : Volume} {b : Nat} {ks : List Nat} {C : List Byte}
    (h : Laid S io b ks C) : sumBytesWritten io ks = C.length := by
  have := h.sum_take ks.length (Nat.le_refl _)
  rw [List.take_length] at this
  rw [this]
  exact Nat.min_eq_left h.fits

theorem Stored.full_of_not_last {S : Nat} {io : Volume} {b : Nat} {ks : List Nat}
    {C : List Byte} (h : Stored S io b ks C) {i : Nat} (hi : i + 1 < ks.length) :
    i * S + S ≤ C.length := by
  rcases h.canonical with h1 | h1
  · omega
  · have h2 : i + 1 ≤ ks.length - 1 := by omega
    have h3 := Nat.mul_le_mul_right S h2
    rw [Nat.succ_mul] at h3
    omega

theorem block_bytes {S : Nat} {io : Volume} {b : Nat} {ks : List Nat} {C : List Byte}
    (h : Laid S io b ks C) {i k c n : Nat} (hk : ks[i]? = some k)
    (hn : c + n ≤ min S (C.length - i * S)) :
    (List.range n).map (fun j => (io.store k).data (c + j)) = (C.drop (i * S + c)).take n := by
  apply List.ext_getElem?
  intro x
  by_cases hx : x < n
  · rw [List.getElem?_map, List.getElem?_range hx, List.getElem?_take_of_lt hx,
      List.getElem?_drop]
    have := h.byte_at hk (t := c + x) (by omega)
    rw [Nat.add_assoc, this]
    rfl
  · rw [List.getElem?_eq_none (by simp; omega), List.getElem?_take_eq_none (by omega)]

theorem File.readWorkingBlockBytes_spec {S : Nat} (hS : 0 < S) (hS32 : S < 4294967296)
    {f : File} {io : Volume} {b : Nat} {ks : List Nat} {C : List Byte} {i c : Nat}
    (hr : Reader S f io b ks C i c) {m : Nat} (hm : 1 ≤ m) :
    ∃ count f1 i1 c1,
      f.readWorkingBlockBytes io m = Res.ok count f1 io ∧
      Reader S f1 io b ks C i1 c1 ∧ i1 * S + c1 = i * S + c + count ∧ count ≤ m ∧
      i * S + c + count ≤ C.length ∧ (count = 0 → i * S + c = C.length) ∧
      f1.m_buffer = (C.drop (i * S + c)).take count ∧
      f1.m_pos = f.m_pos ∧ f1.m_openDisposition = f.m_openDisposition ∧
      f1.m_fileSize = f.m_fileSize := by
  have hlaid := hr.stored.laid
  have hvalid := hr.valid
  have hk : ks[i]? = some (ks.getD i 0) := by
    rw [List.getD_eq_getElem?_getD, List.getElem?_eq_getElem hvalid]
    rfl
  have hbw := hlaid.size_at hk
  have hwithin := hr.within
  have hcur := hr.cursor
  have hfits := hlaid.fits
  have hiS := mul_step S hvalid
  generalize hkd : ks.getD i 0 = k at hk hbw
  generalize hbwe : (io.store k).bytesWritten = bw at hbw
  have hsize : (bw % 4294967296 + 4294967296 - c % 4294967296) % 4294967296 = bw - c := by
    omega
  generalize hbtr : min (bw - c) m = btr
  have hbytes : (List.range btr).map (fun j => (io.store k).data (c + j)) =
      (C.drop (i * S + c)).take btr := block_bytes hlaid hk (by omega)
  have hzero : btr = 0 → i * S + c = C.length := by
    intro h0
    rcases hr.notParked with h1 | h1
    · omega
    · have hmul : ks.length * S = i * S + S := by rw [← h1, Nat.succ_mul]
      omega
  by_cases hadv : i + 1 < ks.length ∧ btr = bw - c
  · -- the block is read to its end and has a successor
    have hfull := hr.stored.full_of_not_last hadv.1
    have hk1 : ks[i + 1]? = some (ks.getD (i + 1) 0) := by
      rw [List.getD_eq_getElem?_getD, List.getElem?_eq_getElem hadv.1]
      rfl
    have hnext := hlaid.chain.next_at hk hk1
    have key : f.readWorkingBlockBytes io m = Res.ok btr
        (File.mk f.m_enforceStartBlock f.m_fileSize
          (some (FileBlock.mk (ks.getD (i + 1) 0) 0)) ((C.drop (i * S + c)).take btr)
          f.m_startVolumeBlock (i + 1) f.m_openDisposition f.m_pos f.m_blockCount) io := by
      have hcond : f.m_blockIndex + 1 < f.m_blockCount ∧ btr = bw - c := by
        rw [hr.index, hr.count]
        exact hadv
      unfold File.readWorkingBlockBytes
      rw [hr.block, hkd]
      simp only [FileBlock.getDataBytesWritten, FileBlock.tell, hbwe, hsize, hbtr,
        FileBlock.read, hbytes, FileBlock.openAt, FileBlock.getNextIndex, hnext]
      rw [if_pos hcond, hr.index]
    refine ⟨btr, _, i + 1, 0, key, ?_,
      by rw [Nat.succ_mul]; omega, by omega, by omega, hzero, rfl, rfl, rfl, rfl⟩
    · exact ⟨hr.stored, hr.start, hr.count, rfl, rfl, hadv.1, Nat.zero_le _,
        by rw [Nat.succ_mul]; omega, Or.inl hS⟩
  · have key : f.readWorkingBlockBytes io m = Res.ok btr
        (File.mk f.m_enforceStartBlock f.m_fileSize (some (FileBlock.mk k (c + btr)))
          ((C.drop (i * S + c)).take btr) f.m_startVolumeBlock f.m_blockIndex
          f.m_openDisposition f.m_pos f.m_blockCount) io := by
      have hcond : ¬ (f.m_blockIndex + 1 < f.m_blockCount ∧ btr = bw - c) := by
        rw [hr.index, hr.count]
        exact hadv
      unfold File.readWorkingBlockBytes
      rw [hr.block, hkd]
      simp only [FileBlock.getDataBytesWritten, FileBlock.tell, hbwe, hsize, hbtr,
        FileBlock.read, hbytes]
      rw [if_neg hcond]
    refine ⟨btr, _, i, c + btr, key, ?_,
      by omega, by omega, by omega, hzero, rfl, rfl, rfl, rfl⟩
    · refine ⟨hr.stored, hr.start, hr.count, hr.index, by simp only [hkd], hvalid, by omega,
        by omega, ?_⟩
      by_cases hl : i + 1 < ks.length
      · left
        have : btr ≠ bw - c := fun e => hadv ⟨hl, e⟩
        omega
      · right
        omega

theorem rl_count {read count n L p : Nat} (h1 : count ≤ n - read) (h2 : p + count ≤ L) :
    read + count + min (n - (read + count)) (L - (p + count)) = read + min (n - read) (L - p) := by
  omega

theorem File.readLoop_spec {S : Nat} (hS : 0 < S) (hS32 : S < 4294967296) {n : Nat}
    (hn32 : n < 4294967296) {io : Volume} {b : Nat} {ks : List Nat} {C : List Byte} :
    ∀ (fuel read : Nat) (out : List Byte) (f : File) (i c : Nat),
      Reader S f io b ks C i c → read ≤ n → n - read + 1 ≤ fuel →
      ∃ f1 i1 c1,
        File.readLoop n fuel read out f io =
          Res.ok (read + min (n - read) (C.length - (i * S + c)),
            out ++ (C.drop (i * S + c)).take (n - read)) f1 io ∧
        Reader S f1 io b ks C i1 c1 ∧
        i1 * S + c1 = i * S + c + min (n - read) (C.length - (i * S + c)) ∧
        f1.m_pos = f.m_pos ∧ f1.m_openDisposition = f.m_openDisposition ∧
        f1.m_fileSize = f.m_fileSize := by
  intro fuel
  induction fuel with
  | zero =>
    intro read out f i c _ _ hfuel
    omega
  | succ fuel ih =>
    intro read out f i c hr hle hfuel
    by_cases hlt : read < n
    · have hmod : (n - read) % 4294967296 = n - read := by omega
      obtain ⟨count, f1, i1, c1, hres, hr1, hpos1, hcm, hcl, hzero, hbuf, hp1, hd1, hs1⟩ :=
        File.readWorkingBlockBytes_spec hS hS32 hr (m := n - read) (by omega)
      have hrmod : (read + count) % 4294967296 = read + count := by omega
      have htake : f1.m_buffer.take count = (C.drop (i * S + c)).take count := by
        rw [hbuf, List.take_take, Nat.min_self]
      by_cases hc0 : count = 0
      · subst hc0
        have hend := hzero rfl
        refine ⟨f1, i1, c1, ?_, hr1, by omega, hp1, hd1, hs1⟩
        rw [File.readLoop.eq_def]
        simp only [hlt, if_true, hmod, hres, Nat.add_zero, htake, List.take_zero,
          List.append_nil]
        have h1 : min (n - read) (C.length - (i * S + c)) = 0 := by omega
        have h2 : (C.drop (i * S + c)).take (n - read) = [] := by
          rw [hend, List.drop_length]
          exact List.take_nil
        rw [h1, h2]
        simp [Nat.mod_eq_of_lt (show read < 4294967296 by omega)]
      · obtain ⟨f2, i2, c2, hres2, hr2, hpos2, hp2, hd2, hs2⟩ :=
          ih (read + count) (out ++ (C.drop (i * S + c)).take count) f1 i1 c1 hr1 (by omega)
            (by omega)
        rw [hpos1] at hres2 hpos2
        refine ⟨f2, i2, c2, ?_, hr2, ?_, hp2.trans hp1, hd2.trans hd1, hs2.trans hs1⟩
        · rw [File.readLoop.eq_def]
          simp only [hlt, if_true, hmod, hres, hrmod, htake, hc0, if_false, hres2]
          have e : n - (read + count) = n - read - count := by omega
          rw [rl_count hcm hcl, List.append_assoc, e,
            take_drop_split C (i * S + c) count (n - read) hcm]
        · rw [hpos2]
          have := @rl_count read _ n _ _ hcm hcl
          omega
    · have hrn : read = n := by omega
      subst hrn
      refine ⟨f, i, c, ?_, hr, by simp, rfl, rfl, rfl⟩
      rw [File.readLoop.eq_def]
      simp

theorem File.read_spec {S : Nat} (hS : 0 < S) (hS32 : S < 4294967296) {n : Nat}
    (hn32 : n < 4294967296) {f : File} {io : Volume} {b : Nat} {ks : List Nat}
    {C : List Byte} {i c : Nat} (hr : Reader S f io b ks C i c)
    (hmode : f.m_openDisposition.readWrite ≠ ReadOrWriteOrBoth.WriteOnly) :
    ∃ f1 i1 c1,
      f.read io n =
        Res.ok (min n (C.length - (i * S + c)), (C.drop (i * S + c)).take n) f1 io ∧
      Reader S f1 io b ks C i1 c1 ∧
      i1 * S + c1 = i * S + c + min n (C.length - (i * S + c)) ∧
      f1.m_pos = f.m_pos + ((min n (C.length - (i * S + c)) : Nat) : Int) ∧
      f1.m_openDisposition = f.m_openDisposition ∧ f1.m_fileSize = f.m_fileSize := by
  obtain ⟨f1, i1, c1, hres, hr1, hpos1, hp1, hd1, hs1⟩ :=
    File.readLoop_spec hS hS32 hn32 (n + 1) 0 [] f i c hr (Nat.zero_le _) (by omega)
  simp only [Nat.zero_add, Nat.sub_zero, List.nil_append] at hres hpos1
  refine ⟨{ f1 with m_pos := f1.m_pos + ((min n (C.length - (i * S + c)) : Nat) : Int) },
    i1, c1, ?_, ?_, hpos1, by simp only [hp1], hd1, hs1⟩
  · unfold File.read
    rw [if_neg hmode, hres]
  · exact ⟨hr1.stored, hr1.start, hr1.count, hr1.index, hr1.block, hr1.valid, hr1.cursor,
      hr1.within, hr1.notParked⟩

/-! ## From an opened file to readers and writers -/

theorem AtEnd.stored {S : Nat} {f : File} {io : Volume} {b : Nat} {ks : List Nat}
    {C : List Byte} (h : AtEnd S f io b ks C) : Stored S io b ks C := by
  obtain ⟨i, c, hw⟩ := h.writer
  exact ⟨hw.laid, h.canonical⟩

theorem AtEnd.inUse {S : Nat} {f : File} {io : Volume} {b : Nat} {ks : List Nat}
    {C : List Byte} (h : AtEnd S f io b ks C) : ∀ k ∈ ks, io.bitmap k = true := by
  obtain ⟨i, c, hw⟩ := h.writer
  exact hw.inUse

theorem AtEnd.start {S : Nat} {f : File} {io : Volume} {b : Nat} {ks : List Nat}
    {C : List Byte} (h : AtEnd S f io b ks C) : f.m_startVolumeBlock = b := by
  obtain ⟨i, c, hw⟩ := h.writer
  exact hw.start

theorem AtEnd.blockCount {S : Nat} {f : File} {io : Volume} {b : Nat} {ks : List Nat}
    {C : List Byte} (h : AtEnd S f io b ks C) : f.m_blockCount = ks.length := by
  obtain ⟨i, c, hw⟩ := h.writer
  exact hw.count

theorem getD_zero_of_chain {io : Volume} {b : Nat} {ks : List Nat} (h : IsChain io b ks) :
    ks.getD 0 0 = b := getD_of_getElem? h.head_eq

theorem Stored.open_front {S : Nat} (hS : 0 < S) {io : Volume} {b : Nat} {ks : List Nat}
    {C : List Byte} (h : Stored S io b ks C) (disp : OpenDisposition)
    (hd : disp.readWrite = ReadOrWriteOrBoth.ReadOnly ∨
      (disp.trunc = TruncateOrKeep.Keep ∧ disp.append = AppendOrOverwrite.Overwrite)) :
    ∃ f, File.openExisting S io b disp = Res.ok () f io ∧ Reader S f io b ks C 0 0 ∧
      f.m_fileSize = C.length ∧ f.m_pos = 0 ∧ f.m_openDisposition = disp ∧
      f.m_buffer = [] ∧ f.m_enforceStartBlock = false := by
  have hlen : 0 < ks.length := List.length_pos.mpr h.laid.chain.ne_nil
  refine ⟨_, File.openExisting_front h.laid.chain h.laid.inside disp hd, ?_, h.laid.sum_eq,
    rfl, rfl, rfl, rfl⟩
  exact ⟨h, rfl, rfl, rfl, by simp only [FileBlock.openAt, getD_zero_of_chain h.laid.chain],
    hlen, Nat.zero_le _, by simp, Or.inl hS⟩

theorem Stored.open_overwrite {S : Nat} (hS : 0 < S) {io : Volume} {b : Nat} {ks : List Nat}
    {C : List Byte} (h : Stored S io b ks C) (hin : ∀ k ∈ ks, io.bitmap k = true)
    (disp : OpenDisposition) (hrw : disp.readWrite ≠ ReadOrWriteOrBoth.ReadOnly)
    (hkeep : disp.trunc = TruncateOrKeep.Keep)
    (hov : disp.append = AppendOrOverwrite.Overwrite) :
    ∃ f, File.openExisting S io b disp = Res.ok () f io ∧ Writer S f io b ks C 0 0 ∧
      Reader S f io b ks C 0 0 ∧ f.m_fileSize = C.length ∧ f.m_openDisposition = disp ∧
      f.m_buffer = [] := by
  obtain ⟨f, hres, hr, hsz, hpos, hd, hbuf, henf⟩ := h.open_front hS disp (Or.inr ⟨hkeep, hov⟩)
  refine ⟨f, hres, ?_, hr, hsz, hd, hbuf⟩
  refine ⟨h.laid, hin, hr.start, hr.count, hr.index, hr.block, hr.valid, hr.cursor, ?_,
    hr.within, henf, by rw [hd]; exact hrw, ?_, ?_⟩
  · rw [hpos]
    simp
  · intro ha
    rw [hd, hov] at ha
    cases ha
  · intro _
    rw [hsz]
    exact ⟨Nat.le_refl _, h.canonical⟩

theorem Stored.open_append {S : Nat} {io : Volume} {b : Nat} {ks : List Nat}
    {C : List Byte} (h : Stored S io b ks C) (hin : ∀ k ∈ ks, io.bitmap k = true)
    (disp : OpenDisposition) (hrw : disp.readWrite ≠ ReadOrWriteOrBoth.ReadOnly)
    (hkeep : disp.trunc = TruncateOrKeep.Keep)
    (happ : disp.append = AppendOrOverwrite.Append) :
    ∃ f, File.openExisting S io b disp = Res.ok () f io ∧ AtEnd S f io b ks C ∧
      f.m_pos = (C.length : Int) ∧ f.m_openDisposition = disp := by
  have hlen : 0 < ks.length := List.length_pos.mpr h.laid.chain.ne_nil
  have hlast : ks[ks.length - 1]? = some (ks.getD (ks.length - 1) 0) := by
    rw [List.getD_eq_getElem?_getD, List.getElem?_eq_getElem (by omega)]
    rfl
  have hbw := h.laid.size_at hlast
  have hfits := h.laid.fits
  have hmul : ks.length * S = (ks.length - 1) * S + S := by
    have : ks.length = (ks.length - 1) + 1 := by omega
    conv_lhs => rw [this, Nat.succ_mul]
  have hcan : (ks.length - 1) * S ≤ C.length := by
    rcases h.canonical with h1 | h1
    · rw [h1]
      simp
    · omega
  refine ⟨_, File.openExisting_back h.laid.chain h.laid.inside disp hrw hkeep happ hlast, ?_,
    by simp only [h.laid.sum_eq], rfl⟩
  refine ⟨⟨ks.length - 1, (io.store (ks.getD (ks.length - 1) 0)).bytesWritten, ?_⟩, happ,
    h.laid.sum_eq, h.canonical, rfl⟩
  refine ⟨h.laid, hin, rfl, rfl, rfl, rfl, by omega, by rw [hbw]; omega, ?_, by rw [hbw]; omega,
    rfl, hrw, fun _ => ⟨by omega, by rw [hbw]; omega⟩, ?_⟩
  · simp only [h.laid.sum_eq, hbw]
    congr 1
    omega
  · intro ho
    simp only at ho
    rw [happ] at ho
    cases ho

/-- Witness for C6: the two-block chain of the six-byte example file is freed by unlink. -/
theorem C6_unlink_frees_chain_witness :
    IsChain sixByteImage sixByteFile.m_startVolumeBlock [0, 1] ∧
    (∀ k ∈ [0, 1], k < sixByteImage.blocks) ∧
    ((sixByteFile.unlink sixByteImage).fault? = none ∧
      (∀ k ∈ [0, 1], (sixByteFile.unlink sixByteImage).image.bitmap k = false) ∧
      (∀ k, k ∉ [0, 1] →
        (sixByteFile.unlink sixByteImage).image.bitmap k = sixByteImage.bitmap k) ∧
      (sixByteFile.unlink sixByteImage).image.freeBlocks = sixByteImage.freeBlocks + [0, 1].length ∧
      (sixByteFile.unlink sixByteImage).file.fileSize = 0) :=
  ⟨by decide!, by decide!,
    C6_unlink_frees_chain sixByteFile sixByteImage [0, 1] (by decide!) (by decide!)⟩

/-! ## Claim C3: the size and the block count of an opened file -/

theorem File.openExisting_size {S : Nat} {io : Volume} {b : Nat} {ks : List Nat}
    (hchain : IsChain io b ks) (hin : ∀ k ∈ ks, k < io.blocks) (disp : OpenDisposition)
    (hd : disp.readWrite = ReadOrWriteOrBoth.ReadOnly ∨ disp.trunc = TruncateOrKeep.Keep) :
    (File.openExisting S io b disp).fault? = none ∧
    (File.openExisting S io b disp).image = io ∧
    (File.openExisting S io b disp).file.fileSize = sumBytesWritten io ks ∧
    (File.openExisting S io b disp).file.m_blockCount = ks.length := by
  by_cases hro : disp.readWrite = ReadOrWriteOrBoth.ReadOnly
  · rw [File.openExisting_front hchain hin disp (Or.inl hro)]
    exact ⟨rfl, rfl, rfl, rfl⟩
  · have hkeep : disp.trunc = TruncateOrKeep.Keep := by
      rcases hd with h | h
      · exact absurd h hro
      · exact h
    have hmode : disp.append = AppendOrOverwrite.Append ∨
        disp.append = AppendOrOverwrite.Overwrite := by
      cases disp.append
      · exact Or.inl rfl
      · exact Or.inr rfl
    rcases hmode with happ | hov
    · have hne := hchain.ne_nil
      have hpos : ks.length - 1 < ks.length := by
        have := List.length_pos.mpr hne
        omega
      have hlast : ks[ks.length - 1]? = some (ks[ks.length - 1]) :=
        List.getElem?_eq_getElem hpos
      rw [File.openExisting_back hchain hin disp hro hkeep happ hlast]
      exact ⟨rfl, rfl, rfl, rfl⟩
    · rw [File.openExisting_front hchain hin disp (Or.inr ⟨hkeep, hov⟩)]
      exact ⟨rfl, rfl, rfl, rfl⟩

/-- Claim C3.  Opening an existing file at start block `b`, read-only or with the Keep
flag (a writable open with the Truncate flag calls `unlink()` after the opening),
returns a handle whose `fileSize()` is the sum of `bytes_written` over the chain
`ks` from `b` to its self-loop terminator and whose block count is the number of
blocks of `ks`.  And after `L >= 1` bytes were written to a newly created file,
in any number of `write` calls, `fileSize()` is `L` on the writing handle, `L` is
the sum of `bytes_written` over its chain, and a fresh handle opened at the same
start block reports `L` too. -/
theorem C3_open_reports_chain_size (S : Nat) (hS : 0 < S) (hS32 : S < 4294967296) :
    (∀ (io : Volume) (b : Nat) (ks : List Nat) (disp : OpenDisposition),
      IsChain io b ks → (∀ k ∈ ks, k < io.blocks) →
      (disp.readWrite = ReadOrWriteOrBoth.ReadOnly ∨ disp.trunc = TruncateOrKeep.Keep) →
      (File.openExisting S io b disp).fault? = none ∧
      (File.openExisting S io b disp).file.fileSize = sumBytesWritten io ks ∧
      (File.openExisting S io b disp).file.m_blockCount = ks.length) ∧
    (∀ (io : Volume) (ds : List (List Byte)) (disp : OpenDisposition),
      (∀ d ∈ ds, d.length ≤ 4294967296) → 1 ≤ ds.flatten.length →
      ds.flatten.length ≤ freeCount io * S →
      (disp.readWrite = ReadOrWriteOrBoth.ReadOnly ∨ disp.trunc = TruncateOrKeep.Keep) →
      ∃ f1 io1 ks, File.writeAll S ds (File.create false) io = Res.ok () f1 io1 ∧
        IsChain io1 f1.m_startVolumeBlock ks ∧
        sumBytesWritten io1 ks = ds.flatten.length ∧
        f1.fileSize = ds.flatten.length ∧
        f1.m_blockCount = ks.length ∧
        (File.openExisting S io1 f1.m_startVolumeBlock disp).fault? = none ∧
        (File.openExisting S io1 f1.m_startVolumeBlock disp).file.fileSize =
          ds.flatten.length ∧
        (File.openExisting S io1 f1.m_startVolumeBlock disp).file.m_blockCount =
          ks.length) := by
  refine ⟨?_, ?_⟩
  · intro io b ks disp hchain hin hd
    obtain ⟨h1, _, h3, h4⟩ := File.openExisting_size (S := S) hchain hin disp hd
    exact ⟨h1, h3, h4⟩
  · intro io ds disp h32 h1 hcap hd
    obtain ⟨a, f1, io1, nb, hres, hend, _, _, _⟩ :=
      File.create_writeAll hS hS32 ds io h32 h1 hcap
    have hst := hend.stored
    have hstart := hend.start
    have hsum := hst.laid.sum_eq
    obtain ⟨o1, _, o3, o4⟩ :=
      File.openExisting_size (S := S) hst.laid.chain hst.laid.inside disp hd
    refine ⟨f1, io1, a :: nb, hres, ?_, hsum, hend.size, hend.blockCount, ?_, ?_, ?_⟩
    · rw [hstart]
      exact hst.laid.chain
    · rw [hstart]
      exact o1
    · rw [hstart, o3, hsum]
    · rw [hstart, o4]

/-- Witness for C3, with four payload bytes per block: the six-byte example file is
opened read-only at its start block 0. -/
theorem C3_open_reports_chain_size_witness :
    (File.openExisting 4 sixByteImage 0
        ⟨ReadOrWriteOrBoth.ReadOnly, AppendOrOverwrite.Append, TruncateOrKeep.Keep⟩).file.fileSize =
      sumBytesWritten sixByteImage [0, 1] :=
  ((C3_open_reports_chain_size 4 (by decide) (by decide)).1 sixByteImage 0 [0, 1]
    ⟨ReadOrWriteOrBoth.ReadOnly, AppendOrOverwrite.Append, TruncateOrKeep.Keep⟩
    (by decide!) (by decide!) (Or.inl rfl)).2.1

/-! ## Claim C7: the blocks of a written file are marked in use -/

theorem File.write_zero (S : Nat) (f : File) (io : Volume) (s : List Byte)
    (hrw : f.m_openDisposition.readWrite ≠ ReadOrWriteOrBoth.ReadOnly) :
    f.write S io s 0 = Res.ok 0 f io := by
  unfold File.write
  rw [if_neg hrw, File.writeLoop.eq_def]
  simp

theorem File.writeAll_empty (S : Nat) (f : File) (io : Volume)
    (hrw : f.m_openDisposition.readWrite ≠ ReadOrWriteOrBoth.ReadOnly) :
    ∀ (ds : List (List Byte)), ds.flatten.length = 0 →
      File.writeAll S ds f io = Res.ok () f io := by
  intro ds
  induction ds with
  | nil => intro _; rfl
  | cons d ds ih =>
    intro h
    have hd : d.length = 0 := by
      simp only [List.flatten_cons, List.length_append] at h
      omega
    have hds : ds.flatten.length = 0 := by
      simp only [List.flatten_cons, List.length_append] at h
      omega
    simp only [File.writeAll, hd, File.write_zero S f io d hrw]
    exact ih hds

theorem File.getStartVolumeBlockIndex_of_block (S : Nat) {f : File} (io : Volume)
    {wb : FileBlock} (h : f.m_workingBlock = some wb) :
    f.getStartVolumeBlockIndex S io = Res.ok f.m_startVolumeBlock f io := by
  unfold File.getStartVolumeBlockIndex
  rw [h]

theorem Started.startIndex {S : Nat} {io : Volume} {a : Nat} {f1 : File} {io1 : Volume}
    (h : Started S io a f1 io1) :
    (File.create false).getStartVolumeBlockIndex S io = Res.ok a f1 io1 := by
  have hb := h.writer.block
  have hs := h.writer.start
  have hr := h.result
  cases f1 with
  | mk enf sz wb buf st bi disp pos bc =>
    simp only [List.getD_cons_zero] at hb hs
    subst hs hb
    unfold File.getStartVolumeBlockIndex
    simp only [File.create] at hr ⊢
    rw [hr]
    rfl

/-- Claim C7.  After any sequence `ds` of writes to a newly created file (every call with
at most 2^32 bytes, on an image with a free block and room for the bytes), the
chain `ks` from the start block that `getStartVolumeBlockIndex()` reports to its
self-loop terminator lies inside the image and every block of it has its
occupancy bit set.  When at least one byte was written, asking for the start
block changes neither the handle nor the image. -/
theorem C7_chain_blocks_in_use (S : Nat) (hS : 0 < S) (hS32 : S < 4294967296)
    (io : Volume) (ds : List (List Byte)) (h32 : ∀ d ∈ ds, d.length ≤ 4294967296)
    (hfree : 0 < freeCount io) (hcap : ds.flatten.length ≤ freeCount io * S) :
    ∃ f1 io1 a f2 io2 ks,
      File.writeAll S ds (File.create false) io = Res.ok () f1 io1 ∧
      f1.getStartVolumeBlockIndex S io1 = Res.ok a f2 io2 ∧
      IsChain io2 a ks ∧
      (∀ k ∈ ks, k < io2.blocks ∧ io2.bitmap k = true) ∧
      (1 ≤ ds.flatten.length → f2 = f1 ∧ io2 = io1 ∧ f1.m_startVolumeBlock = a) := by
  by_cases hL : 1 ≤ ds.flatten.length
  · obtain ⟨a, f1, io1, nb, hres, hend, _, _, _⟩ :=
      File.create_writeAll hS hS32 ds io h32 hL hcap
    obtain ⟨i, c, hw⟩ := hend.writer
    refine ⟨f1, io1, a, f1, io1, a :: nb, hres, ?_, hw.laid.chain, ?_, ?_⟩
    · rw [File.getStartVolumeBlockIndex_of_block S io1 hw.block, hw.start]
    · intro k hk
      exact ⟨hw.laid.inside k hk, hw.inUse k hk⟩
    · intro _
      exact ⟨rfl, rfl, hw.start⟩
  · have h0 : ds.flatten.length = 0 := by omega
    obtain ⟨a, f1, io1, hst⟩ := File.started (S := S) hfree
    have hrw : (File.create false).m_openDisposition.readWrite ≠
        ReadOrWriteOrBoth.ReadOnly := by
      simp [File.create, OpenDisposition.buildAppendDisposition]
    refine ⟨File.create false, io, a, f1, io1, [a],
      File.writeAll_empty S _ io hrw ds h0, hst.startIndex, hst.writer.laid.chain, ?_, ?_⟩
    · intro k hk
      exact ⟨hst.writer.laid.inside k hk, hst.writer.inUse k hk⟩
    · intro h
      exact absurd h hL

/-- Witness for C7, with four payload bytes per block: two writes of three bytes each to
a new file on the empty eight-block image. -/
theorem C7_chain_blocks_in_use_witness :
    ∃ f1 io1 a f2 io2 ks,
      File.writeAll 4 [[1, 2, 3], [4, 5, 6]] (File.create false) emptyImage =
        Res.ok () f1 io1 ∧
      f1.getStartVolumeBlockIndex 4 io1 = Res.ok a f2 io2 ∧
      IsChain io2 a ks ∧
      (∀ k ∈ ks, k < io2.blocks ∧ io2.bitmap k = true) ∧
      (1 ≤ [[1, 2, 3], [4, 5, 6]].flatten.length →
        f2 = f1 ∧ io2 = io1 ∧ f1.m_startVolumeBlock = a) :=
  C7_chain_blocks_in_use 4 (by decide) (by decide) emptyImage [[1, 2, 3], [4, 5, 6]]
    (by decide) (by decide) (by decide)

/-! ## Overwriting inside the content, flushing and reading back -/

theorem Writer.flush_noop {S : Nat} {f : File} {io : Volume} {b : Nat} {ks : List Nat}
    {C : List Byte} {i c : Nat} (hw : Writer S f io b ks C i c) (hbuf : f.m_buffer = []) :
    f.flush io = Res.ok () f io := by
  unfold File.flush File.writeBufferedDataToWorkingBlock
  rw [hw.block, hbuf]
  simp only [List.length_nil, FileBlock.write_nothing io _ _ hw.cursor_le]
  have hf : f = { f with m_workingBlock := some (FileBlock.mk (ks.getD i 0) c), m_buffer := [] } := by
    have h1 := hw.block
    cases f
    simp only at h1 hbuf
    subst h1 hbuf
    rfl
  exact congrArg (fun g => Res.ok () g io) hf.symm

theorem File.write_buffer {S : Nat} {f : File} {io : Volume} {s : List Byte} {n r : Nat}
    {f1 : File} {io1 : Volume} (h : f.write S io s n = Res.ok r f1 io1)
    (hbuf : f.m_buffer = []) : f1.m_buffer = [] := by
  unfold File.write at h
  by_cases hro : f.m_openDisposition.readWrite = ReadOrWriteOrBoth.ReadOnly
  · rw [if_pos hro] at h
    cases h
  · rw [if_neg hro] at h
    exact File.writeLoop_buffer S s n n 0 f io r f1 io1 hbuf h

theorem Writer.overwrite {S : Nat} (hS : 0 < S) (hS32 : S < 4294967296) {s : List Byte}
    (hn32 : s.length ≤ 4294967296) {f : File} {io : Volume} {b : Nat} {ks : List Nat}
    {C : List Byte} {i c : Nat} (hw : Writer S f io b ks C i c)
    (hov : f.m_openDisposition.append = AppendOrOverwrite.Overwrite)
    (hin : i * S + c + s.length ≤ C.length) :
    ∃ f1 io1 i1 c1, f.write S io s s.length = Res.ok s.length f1 io1 ∧
      Overwritten S f io b ks C i c s f1 io1 i1 c1 := by
  have hfits := hw.laid.fits
  have hcap : i * S + c + s.length ≤ (ks.length + freeCount io) * S := by
    have : ks.length * S ≤ (ks.length + freeCount io) * S :=
      Nat.mul_le_mul_right _ (Nat.le_add_right _ _)
    omega
  obtain ⟨f1, io1, nb, i1, c1, hres, hl⟩ :=
    File.write_spec hS hS32 (Nat.le_refl _) hn32 hw hcap
  obtain ⟨hmode, hnb, hsize⟩ := hl.staysOverwrite hov (by omega)
  subst hnb
  have hwr := hl.writer
  simp only [List.append_nil, List.drop_zero, Nat.sub_zero, List.take_length] at hwr
  refine ⟨f1, io1, i1, c1, hres, hwr, ?_, hmode, hsize, ?_, hl.blocks, hl.freeBlocks, ?_,
    fun x hx => hl.others x hx (by simp)⟩
  · have := hl.newPos
    omega
  · funext k
    have := hl.bitmap k
    simpa using this
  · exact File.write_buffer hres

theorem Overwritten.stored_after {S : Nat} {f : File} {io : Volume} {b : Nat} {ks : List Nat}
    {C : List Byte} {i c : Nat} {d : List Byte} {f1 : File} {io1 : Volume} {i1 c1 : Nat}
    (h : Overwritten S f io b ks C i c d f1 io1 i1 c1) (hst : Stored S io b ks C)
    (hp : i * S + c ≤ C.length) : Stored S io1 b ks (splice C (i * S + c) d) := by
  refine ⟨h.writer.laid, ?_⟩
  rw [splice_length C _ d hp]
  rcases hst.canonical with h1 | h2
  · exact Or.inl h1
  · right
    omega

theorem Writer.overwriteAll {S : Nat} (hS : 0 < S) (hS32 : S < 4294967296) {b : Nat}
    {ks : List Nat} :
    ∀ (ds : List (List Byte)) (f : File) (io : Volume) (C : List Byte) (i c : Nat),
      (∀ d ∈ ds, d.length ≤ 4294967296) → Writer S f io b ks C i c →
      f.m_openDisposition.append = AppendOrOverwrite.Overwrite →
      i * S + c + ds.flatten.length ≤ C.length →
      ∃ f1 io1 i1 c1, File.writeAll S ds f io = Res.ok () f1 io1 ∧
        Overwritten S f io b ks C i c ds.flatten f1 io1 i1 c1 := by
  intro ds
  induction ds with
  | nil =>
    intro f io C i c _ hw _ _
    refine ⟨f, io, i, c, rfl, ?_⟩
    refine ⟨?_, by simp, rfl, rfl, rfl, rfl, rfl, fun h => h, fun _ _ => rfl⟩
    simpa [splice_nil] using hw
  | cons d ds ih =>
    intro f io C i c h32 hw hov hin
    have hlen : (d :: ds).flatten.length = d.length + ds.flatten.length := by simp
    obtain ⟨f1, io1, i1, c1, hres, h1⟩ :=
      Writer.overwrite hS hS32 (h32 d (by simp)) hw hov (by omega)
    have hp := hw.within
    have hl1 : (splice C (i * S + c) d).length = C.length := by
      rw [splice_length C _ d hp]
      omega
    have hov1 : f1.m_openDisposition.append = AppendOrOverwrite.Overwrite := by
      rw [h1.mode]
      exact hov
    obtain ⟨f2, io2, i2, c2, hres2, h2⟩ :=
      ih f1 io1 (splice C (i * S + c) d) i1 c1 (fun x hx => h32 x (by simp [hx]))
        h1.writer hov1 (by rw [hl1, h1.newPos]; omega)
    refine ⟨f2, io2, i2, c2, ?_, ?_⟩
    · simp only [File.writeAll, hres]
      exact hres2
    · have hw2 := h2.writer
      rw [h1.newPos, splice_splice C _ d ds.flatten hp] at hw2
      refine ⟨?_, ?_, h2.mode.trans h1.mode, h2.fileSize.trans h1.fileSize,
        h2.bitmap.trans h1.bitmap, h2.blocks.trans h1.blocks,
        h2.freeBlocks.trans h1.freeBlocks, fun h => h2.buffer (h1.buffer h),
        fun x hx => (h2.others x hx).trans (h1.others x hx)⟩
      · simpa using hw2
      · have := h2.newPos
        have := h1.newPos
        omega

theorem Stored.reopen_read {S : Nat} (hS : 0 < S) (hS32 : S < 4294967296) {io : Volume}
    {b : Nat} {ks : List Nat} {C : List Byte} (h : Stored S io b ks C)
    (ro : OpenDisposition) (hro : ro.readWrite = ReadOrWriteOrBoth.ReadOnly) {n : Nat}
    (hn : n < 4294967296) :
    ∃ g g1, File.openExisting S io b ro = Res.ok () g io ∧ g.fileSize = C.length ∧
      g.m_blockCount = ks.length ∧
      g.read io n = Res.ok (min n C.length, C.take n) g1 io := by
  obtain ⟨g, hopen, hr, hsize, _, hdisp, _, _⟩ := h.open_front hS ro (Or.inl hro)
  have hmode : g.m_openDisposition.readWrite ≠ ReadOrWriteOrBoth.WriteOnly := by
    rw [hdisp, hro]
    decide
  obtain ⟨g1, i1, c1, hread, _⟩ := File.read_spec hS hS32 hn hr hmode
  refine ⟨g, g1, hopen, hsize, hr.count, ?_⟩
  simpa using hread

/-! ## Claim C8: overwriting from the start, inside the content -/

/-- Claim C8.  For an existing file with content `C` stored as the dense chain `ks`, whose
blocks are marked in use, and bytes `D = ds.flatten` with `|D| <= |C|`, written
without seeking in one call or several (every call with at most 2^32 bytes) on a
handle opened with the Overwrite disposition: every call returns, `fileSize()`
on the writing handle is still `|C|`, no block is allocated (the chain, the
bitmap and the free-block counter are unchanged), a flush changes nothing more,
and the file now holds `D` followed by `C[|D| ..)`: a fresh read-only handle
reports the size `|C|` and a read of `n < 2^32` bytes returns the first `n` bytes
of that content. -/
theorem C8_overwrite_at_start_keeps_size (S : Nat) (hS : 0 < S) (hS32 : S < 4294967296)
    (io : Volume) (b : Nat) (ks : List Nat) (C : List Byte) (ds : List (List Byte))
    (disp : OpenDisposition) (hst : Stored S io b ks C)
    (hin : ∀ k ∈ ks, io.bitmap k = true)
    (hrw : disp.readWrite ≠ ReadOrWriteOrBoth.ReadOnly)
    (hkeep : disp.trunc = TruncateOrKeep.Keep)
    (hov : disp.append = AppendOrOverwrite.Overwrite)
    (h32 : ∀ d ∈ ds, d.length ≤ 4294967296) (hDs : ds.flatten.length ≤ C.length) :
    ∃ f f1 io1, File.openExisting S io b disp = Res.ok () f io ∧
      File.writeAll S ds f io = Res.ok () f1 io1 ∧
      f1.fileSize = C.length ∧ f1.m_blockCount = ks.length ∧
      io1.bitmap = io.bitmap ∧ io1.freeBlocks = io.freeBlocks ∧
      Stored S io1 b ks (ds.flatten ++ C.drop ds.flatten.length) ∧
      f1.flush io1 = Res.ok () f1 io1 ∧
      ∀ (ro : OpenDisposition) (n : Nat), ro.readWrite = ReadOrWriteOrBoth.ReadOnly →
        n < 4294967296 →
        ∃ g g1, File.openExisting S io1 b ro = Res.ok () g io1 ∧ g.fileSize = C.length ∧
          g.m_blockCount = ks.length ∧
          g.read io1 n =
            Res.ok (min n C.length, (ds.flatten ++ C.drop ds.flatten.length).take n) g1 io1 := by
  obtain ⟨f, hopen, hw, _, hsize, hdisp, hbuf⟩ := hst.open_overwrite hS hin disp hrw hkeep hov
  have hov1 : f.m_openDisposition.append = AppendOrOverwrite.Overwrite := by
    rw [hdisp]
    exact hov
  obtain ⟨f1, io1, i1, c1, hres, h1⟩ :=
    Writer.overwriteAll hS hS32 ds f io C 0 0 h32 hw hov1 (by omega)
  have hst1 := h1.stored_after hst (by omega)
  simp only [Nat.zero_mul, Nat.add_zero, splice_at_start] at hst1
  have hlen : (ds.flatten ++ C.drop ds.flatten.length).length = C.length := by
    simp only [List.length_append, List.length_drop]
    omega
  refine ⟨f, f1, io1, hopen, hres, ?_, h1.writer.count, h1.bitmap, h1.freeBlocks, hst1,
    h1.writer.flush_noop (h1.buffer hbuf), ?_⟩
  · rw [File.fileSize, h1.fileSize, hsize]
  · intro ro n hro hn
    obtain ⟨g, g1, ho, hs, hc, hr⟩ := hst1.reopen_read hS hS32 ro hro hn
    rw [hlen] at hs hr
    exact ⟨g, g1, ho, hs, hc, hr⟩

/-- Witness for C8, with four payload bytes per block: the bytes 9, 9 and then 9 are
written over the start of the six-byte example file. -/
theorem C8_overwrite_at_start_keeps_size_witness :
    ∃ f f1 io1,
      File.openExisting 4 sixByteImage 0
        ⟨ReadOrWriteOrBoth.ReadWrite, AppendOrOverwrite.Overwrite, TruncateOrKeep.Keep⟩ =
        Res.ok () f sixByteImage ∧
      File.writeAll 4 [[9, 9], [9]] f sixByteImage = Res.ok () f1 io1 ∧
      f1.fileSize = 6 ∧
      Stored 4 io1 0 [0, 1] [9, 9, 9, 4, 5, 6] :=
  have h := C8_overwrite_at_start_keeps_size 4 (by decide) (by decide) sixByteImage 0 [0, 1]
    [1, 2, 3, 4, 5, 6] [[9, 9], [9]]
    ⟨ReadOrWriteOrBoth.ReadWrite, AppendOrOverwrite.Overwrite, TruncateOrKeep.Keep⟩
    ⟨⟨by decide!, by decide!, by decide!, by decide!, by decide!⟩, by decide!⟩
    (by decide!) (by decide) rfl rfl (by decide) (by decide)
  match h with
  | ⟨f, f1, io1, h1, h2, h3, _, _, _, h7, _, _⟩ => ⟨f, f1, io1, h1, h2, h3, h7⟩

/-! ## Claim C2: appending to an existing file -/

theorem full_chain_length {S m n L : Nat} (hS : 0 < S) (hm : 1 ≤ m) (hL : L = m * S)
    (hfits : L ≤ n * S) (hcanon : n = 1 ∨ (n - 1) * S < L) : n = m := by
  subst hL
  have h1 : m ≤ n := Nat.le_of_mul_le_mul_right hfits hS
  rcases hcanon with h | h
  · omega
  · have := Nat.lt_of_mul_lt_mul_right h
    omega

theorem one_new_block {S m x d : Nat} (hm : 1 ≤ m) (hd1 : 1 ≤ d) (hdS : d ≤ S)
    (hfits : m * S + d ≤ (m + x) * S)
    (hcanon : m + x = 1 ∨ (m + x - 1) * S < m * S + d) : x = 1 := by
  rcases Nat.lt_or_ge x 1 with h0 | h1
  · have : x = 0 := by omega
    subst this
    simp at hfits
    omega
  · rcases Nat.lt_or_ge 1 x with h2 | h2
    · exfalso
      rcases hcanon with h | h
      · omega
      · have hle : (m + 1) * S ≤ (m + x - 1) * S := Nat.mul_le_mul_right S (by omega)
        rw [Nat.succ_mul] at hle
        omega
    · omega

/-- Claim C2.  For an existing file with content `C` stored as the dense chain `ks`, whose
blocks are marked in use, and bytes `D = ds.flatten` written in one call or
several (every call with at most 2^32 bytes, the image having room for them) on
a handle opened with the Append disposition: every call and the flush return,
`fileSize()` is `|C| + |D|`, the file is stored as the dense chain `ks ++ nb`
with the content `C` followed by `D`, all of its blocks marked in use, and a
fresh read-only handle reports the size `|C| + |D|` and returns the first `n`
bytes of `C ++ D` for a read of `n < 2^32` bytes.  When `|C|` is a positive
multiple of `S` and `1 <= |D| <= S`, exactly one block `a`, free before, was
linked: the block count is one more and `a` holds `|D|` bytes. -/
theorem C2_append_extends_content (S : Nat) (hS : 0 < S) (hS32 : S < 4294967296)
    (io : Volume) (b : Nat) (ks : List Nat) (C : List Byte) (ds : List (List Byte))
    (disp : OpenDisposition) (hst : Stored S io b ks C)
    (hin : ∀ k ∈ ks, io.bitmap k = true)
    (hrw : disp.readWrite ≠ ReadOrWriteOrBoth.ReadOnly)
    (hkeep : disp.trunc = TruncateOrKeep.Keep)
    (happ : disp.append = AppendOrOverwrite.Append)
    (h32 : ∀ d ∈ ds, d.length ≤ 4294967296)
    (hcap : C.length + ds.flatten.length ≤ (ks.length + freeCount io) * S) :
    ∃ f f1 io1 nb, File.openExisting S io b disp = Res.ok () f io ∧
      File.writeAll S ds f io = Res.ok () f1 io1 ∧
      f1.flush io1 = Res.ok () f1 io1 ∧
      f1.fileSize = C.length + ds.flatten.length ∧
      f1.m_blockCount = ks.length + nb.length ∧
      Stored S io1 b (ks ++ nb) (C ++ ds.flatten) ∧
      (∀ k ∈ ks ++ nb, io1.bitmap k = true) ∧
      (∀ (ro : OpenDisposition) (n : Nat), ro.readWrite = ReadOrWriteOrBoth.ReadOnly →
        n < 4294967296 →
        ∃ g g1, File.openExisting S io1 b ro = Res.ok () g io1 ∧
          g.fileSize = C.length + ds.flatten.length ∧
          g.m_blockCount = ks.length + nb.length ∧
          g.read io1 n =
            Res.ok (min n (C.length + ds.flatten.length), (C ++ ds.flatten).take n) g1 io1) ∧
      (∀ m, 1 ≤ m → C.length = m * S → 1 ≤ ds.flatten.length → ds.flatten.length ≤ S →
        ∃ a, nb = [a] ∧ io.bitmap a = false ∧ a ∉ ks ∧
          (io1.store a).bytesWritten = ds.flatten.length ∧
          (io1.store a).next = a) := by
  obtain ⟨f, hopen, hend, _, _⟩ := hst.open_append hin disp hrw hkeep happ
  obtain ⟨f1, io1, nb, hres, hend1, hg, _⟩ := AtEnd.writeAll hS hS32 ds f io b ks C h32 hend hcap
  have hst1 := hend1.stored
  have hlen : (C ++ ds.flatten).length = C.length + ds.flatten.length := List.length_append _ _
  have hkl : (ks ++ nb).length = ks.length + nb.length := List.length_append _ _
  refine ⟨f, f1, io1, nb, hopen, hres, hend1.flush, ?_, ?_, hst1, hend1.inUse, ?_, ?_⟩
  · rw [File.fileSize, hend1.size, hlen]
  · rw [hend1.blockCount, hkl]
  · intro ro n hro hn
    obtain ⟨g, g1, ho, hs, hc, hr⟩ := hst1.reopen_read hS hS32 ro hro hn
    rw [hlen] at hs hr
    rw [hkl] at hc
    exact ⟨g, g1, ho, hs, hc, hr⟩
  · intro m hm hC hd1 hdS
    have hn : ks.length = m := full_chain_length hS hm hC hst.laid.fits hst.canonical
    have hfits := hst1.laid.fits
    have hcanon := hst1.canonical
    rw [hkl, hlen, hn, hC] at hfits
    rw [hkl, hlen, hn, hC] at hcanon
    have hx : nb.length = 1 := one_new_block hm hd1 hdS hfits hcanon
    obtain ⟨a, ha⟩ := List.length_eq_one.mp hx
    subst ha
    have hfree : io.bitmap a = false := hg.wasFree a (by simp)
    have hnotin : a ∉ ks := by
      intro hmem
      have := hin a hmem
      rw [hfree] at this
      cases this
    have hget : (ks ++ [a])[m]? = some a := by
      rw [← hn]
      simp
    have hsz := hst1.laid.size_at hget
    have hterm := (hst1.laid.chain.terminator_iff hget).mpr (by rw [hkl, hn]; rfl)
    refine ⟨a, rfl, hfree, hnotin, ?_, hterm⟩
    rw [hsz, hlen, hC]
    omega

/-- Witness for C2, with four payload bytes per block: two bytes are appended to the
eight-byte example file, whose two blocks are full. -/
theorem C2_append_extends_content_witness :
    ∃ f f1 io1 nb,
      File.openExisting 4 eightByteImage 0 OpenDisposition.buildAppendDisposition =
        Res.ok () f eightByteImage ∧
      File.writeAll 4 [[9, 10]] f eightByteImage = Res.ok () f1 io1 ∧
      f1.fileSize = 10 ∧
      Stored 4 io1 0 ([0, 1] ++ nb) [1, 2, 3, 4, 5, 6, 7, 8, 9, 10] ∧
      ∃ a, nb = [a] ∧ (io1.store a).bytesWritten = 2 :=
  have h := C2_append_extends_content 4 (by decide) (by decide) eightByteImage 0 [0, 1]
    [1, 2, 3, 4, 5, 6, 7, 8] [[9, 10]] OpenDisposition.buildAppendDisposition
    ⟨⟨by decide!, by decide!, by decide!, by decide!, by decide!⟩, by decide!⟩
    (by decide!) (by decide) rfl rfl (by decide) (by decide!)
  match h with
  | ⟨f, f1, io1, nb, h1, h2, _, h4, _, h6, _, _, h9⟩ =>
    match h9 2 (by decide) (by decide) (by decide) (by decide) with
    | ⟨a, ha, _, _, hb, _⟩ => ⟨f, f1, io1, nb, h1, h2, h4, h6, a, ha, hb⟩

/-! ## Claim C1: write, flush, reopen read-only, read -/

theorem File.readWorkingBlockBytes_zero {f : File} (io : Volume) {wb : FileBlock}
    (hwb : f.m_workingBlock = some wb) :
    ∃ f1, f.readWorkingBlockBytes io 0 = Res.ok 0 f1 io := by
  unfold File.readWorkingBlockBytes
  rw [hwb]
  simp only [Nat.min_zero]
  split
  · exact ⟨_, rfl⟩
  · exact ⟨_, rfl⟩

/-- A call `read(s, n)` with `n` a positive multiple of 2^32 reads nothing: the first
request to the working block is for `(uint32_t) n = 0` bytes, and the count 0
ends the loop. -/
theorem File.read_multiple_of_2_pow_32 {f : File} (io : Volume) {wb : FileBlock}
    (hwb : f.m_workingBlock = some wb)
    (hmode : f.m_openDisposition.readWrite ≠ ReadOrWriteOrBoth.WriteOnly) {n : Nat}
    (hpos : 0 < n) (hmod : n % 4294967296 = 0) :
    ∃ f1, f.read io n = Res.ok (0, []) f1 io := by
  obtain ⟨f1, h1⟩ := File.readWorkingBlockBytes_zero io hwb
  unfold File.read
  rw [if_neg hmode, File.readLoop.eq_def]
  simp only [hpos, if_true, Nat.sub_zero, hmod, h1]
  exact ⟨_, rfl⟩

/-- Claim C1.  For bytes `D = ds.flatten` of length `L >= 1` written to a newly created
file in one call or several (every call with at most 2^32 bytes, the image
having room for them): every call and the flush return, and a file opened
read-only at the same start block reports the size `L`.  When `L < 2^32`, its
`read` with `n = L` returns `L` and yields exactly `D`.  When `L = 2^32`, that
`read` returns 0 and yields nothing: `File::read` counts in 32 bits. -/
theorem C1_write_flush_reopen_read (S : Nat) (hS : 0 < S) (hS32 : S < 4294967296)
    (io : Volume) (ds : List (List Byte)) (h32 : ∀ d ∈ ds, d.length ≤ 4294967296)
    (hL : 1 ≤ ds.flatten.length) (hcap : ds.flatten.length ≤ freeCount io * S) :
    ∃ f1 io1, File.writeAll S ds (File.create false) io = Res.ok () f1 io1 ∧
      f1.flush io1 = Res.ok () f1 io1 ∧
      ∀ (ro : OpenDisposition), ro.readWrite = ReadOrWriteOrBoth.ReadOnly →
        ∃ g, File.openExisting S io1 f1.m_startVolumeBlock ro = Res.ok () g io1 ∧
          g.fileSize = ds.flatten.length ∧
          (ds.flatten.length < 4294967296 →
            ∃ g1, g.read io1 ds.flatten.length =
              Res.ok (ds.flatten.length, ds.flatten) g1 io1) ∧
          (ds.flatten.length = 4294967296 →
            ∃ g1, g.read io1 ds.flatten.length = Res.ok (0, []) g1 io1) := by
  obtain ⟨a, f1, io1, nb, hres, hend, _, _, _⟩ :=
    File.create_writeAll hS hS32 ds io h32 hL hcap
  have hst := hend.stored
  refine ⟨f1, io1, hres, hend.flush, ?_⟩
  intro ro hro
  obtain ⟨g, hopen, hr, hsize, _, hdisp, _, _⟩ := hst.open_front hS ro (Or.inl hro)
  have hmode : g.m_openDisposition.readWrite ≠ ReadOrWriteOrBoth.WriteOnly := by
    rw [hdisp, hro]
    decide
  rw [hend.start]
  refine ⟨g, hopen, hsize, ?_, ?_⟩
  · intro hlt
    obtain ⟨g1, i1, c1, hread, _⟩ := File.read_spec hS hS32 hlt hr hmode
    simp only [Nat.zero_mul, Nat.add_zero, List.drop_zero, Nat.sub_zero, Nat.min_self,
      List.take_length] at hread
    exact ⟨g1, hread⟩
  · intro heq
    rw [heq]
    exact File.read_multiple_of_2_pow_32 io1 hr.block hmode (by decide) (by decide)

/-- Witness for C1, with four payload bytes per block: two writes of three bytes each to
a new file on the empty eight-block image. -/
theorem C1_write_flush_reopen_read_witness :
    ∃ f1 io1,
      File.writeAll 4 [[1, 2, 3], [4, 5, 6]] (File.create false) emptyImage =
        Res.ok () f1 io1 ∧
      f1.flush io1 = Res.ok () f1 io1 ∧
      ∃ g g1,
        File.openExisting 4 io1 f1.m_startVolumeBlock
          OpenDisposition.buildReadOnlyDisposition = Res.ok () g io1 ∧
        g.fileSize = 6 ∧ g.read io1 6 = Res.ok (6, [1, 2, 3, 4, 5, 6]) g1 io1 :=
  have h := C1_write_flush_reopen_read 4 (by decide) (by decide) emptyImage
    [[1, 2, 3], [4, 5, 6]] (by decide) (by decide) (by decide)
  match h with
  | ⟨f1, io1, h1, h2, h3⟩ =>
    match h3 OpenDisposition.buildReadOnlyDisposition rfl with
    | ⟨g, h4, h5, h6, _⟩ =>
      match h6 (by decide) with
      | ⟨g1, h7⟩ => ⟨f1, io1, h1, h2, g, g1, h4, h5, h7⟩

/-! ## Claims C9 and C10: where the code leaves the specification -/

/-- Claim C9 at a failing input, with four payload bytes per block.  The eight-byte
example file (two full blocks) is opened with the Overwrite disposition, the
handle is moved by `seek(8, beg)`, so `k = s = 8`, and the one byte 99 is written
and flushed, so `k + |D| = 9 > s`.  No call throws, but the file reopened
read-only reports the size 8, not 9, and a read of 9 bytes returns 8 bytes, with
99 in place of the fifth byte, not the old content followed by 99:
`getPositionFromBegin` sends the offset 8 to block 1 at cursor 0, the byte 4 of
the file. -/
theorem C9_seek_to_block_boundary_misplaces_write :
    Stored 4 eightByteImage 0 [0, 1] [1, 2, 3, 4, 5, 6, 7, 8] ∧
    getPositionFromBegin 4 8 = (1, 0) ∧
    (File.openSeekWriteFlush 4 eightByteImage 0 OpenDisposition.buildOverwriteDisposition 8
      [99]).fault? = none ∧
    (File.openExisting 4 eightByteImageAfterSeekWrite 0
      OpenDisposition.buildReadOnlyDisposition).file.fileSize = 8 ∧
    (File.openRead 4 eightByteImageAfterSeekWrite 0 9).value? =
      some (8, [1, 2, 3, 4, 99, 6, 7, 8]) :=
  ⟨⟨⟨by decide!, by decide!, by decide!, by decide!, by decide!⟩, by decide!⟩,
    by decide!, by decide!, by decide!, by decide!⟩

/-- Claim C10 at a failing input, with four payload bytes per block.  The two-byte
example file (one block, half full) is opened with the Overwrite disposition,
the handle is moved by `seek(2, beg)` to the old end, and the one byte 99 is
written and flushed.  No call throws; the block of the file now holds three
bytes, so the sum of `bytes_written` over the chain is 3, but `fileSize()` on
the writing handle is still 2 and the handle is still in Overwrite mode. -/
theorem C10_overwrite_past_end_leaves_file_size_stale :
    Stored 4 twoByteImage 0 [0] [1, 2] ∧
    twoByteRun.fault? = none ∧
    IsChain twoByteRun.image 0 [0] ∧
    sumBytesWritten twoByteRun.image [0] = 3 ∧
    twoByteRun.file.fileSize = 2 ∧
    twoByteRun.file.tell = 3 ∧
    twoByteRun.file.m_openDisposition.append = AppendOrOverwrite.Overwrite ∧
    (File.openRead 4 twoByteRun.image 0 3).value? = some (3, [1, 2, 99]) :=
  ⟨⟨⟨by decide!, by decide!, by decide!, by decide!, by decide!⟩, by decide!⟩,
    by decide!, by decide!, by decide!, by decide!, by decide!, by decide!, by decide!⟩

/-! ## Seeking from the beginning -/

theorem getPositionFromBegin_of_le {S k : Nat} (h : k ≤ S) :
    getPositionFromBegin S (k : Int) = (0, (k : Int)) := by
  unfold getPositionFromBegin
  have : ¬ ((k : Int) > (S : Int)) := by omega
  simp only [this, if_false]

theorem getPositionFromBegin_of_rest {S k : Nat} (h : S < k) (hmod : k % S ≠ 0) :
    getPositionFromBegin S (k : Int) = (((k / S : Nat) : Int), ((k % S : Nat) : Int)) := by
  unfold getPositionFromBegin
  have h1 : (k : Int) > (S : Int) := by omega
  have h2 : Int.tmod (k : Int) (S : Int) = ((k % S : Nat) : Int) := (Int.ofNat_tmod k S).symm
  have h3 : ((k % S : Nat) : Int) > 0 := by omega
  have h4 : ¬ (((k % S : Nat) : Int) = 0) := by omega
  have h5 : (k : Int) - ((k % S : Nat) : Int) = ((k / S * S : Nat) : Int) := by
    have := Nat.div_add_mod' k S
    omega
  simp only [h1, h2, h3, h4, if_true, if_false, h5]
  have h6 : Int.tdiv ((k / S * S : Nat) : Int) (S : Int) = ((k / S * S / S : Nat) : Int) :=
    (Int.ofNat_tdiv _ _).symm
  rw [h6]
  rcases Nat.eq_zero_or_pos S with h0 | h0
  · subst h0
    simp
  · rw [Nat.mul_div_cancel _ h0]

theorem File.seek_beg_eq {S : Nat} {f : File} {io : Volume} {b : Nat} {ks : List Nat}
    (hstart : f.m_startVolumeBlock = b) (hchain : IsChain io b ks)
    (hin : ∀ k ∈ ks, k < io.blocks) (hcount : f.m_blockCount = ks.length) {off : Int}
    {i c x : Nat} (hpair : getPositionFromBegin S off = ((i : Int), (c : Int)))
    (hx : ks[i]? = some x) :
    f.seek S io off SeekDir.beg =
      Res.ok off
        (File.mk f.m_enforceStartBlock f.m_fileSize (some (FileBlock.mk x c)) f.m_buffer
          f.m_startVolumeBlock i f.m_openDisposition off f.m_blockCount)
        io := by
  have hi : i < ks.length := lt_length_of_getElem? hx
  unfold File.seek
  simp only [ne_eq, reduceCtorEq, not_false_eq_true, if_true, hpair]
  unfold File.seekTo
  have hcond : ¬ (f.m_blockCount ≤ i ∨ ((i : Int)) < 0) := by
    rw [hcount]
    omega
  simp only [Int.toNat_ofNat]
  rw [if_neg hcond]
  have hg : ∀ g : File, g.m_startVolumeBlock = b →
      g.getBlockWithIndex io i = Except.ok (FileBlock.openAt x) :=
    fun g hg => File.getBlockWithIndex_spec g hg hchain hin hx
  rw [hg]
  · simp only [FileBlock.seek, FileBlock.openAt, Int.toNat_ofNat]
  · exact hstart

theorem seek_target {S k n L : Nat} (hk : k ≤ L) (hfits : L ≤ n * S) (hn : 0 < n)
    (hgood : k ≤ S ∨ k % S ≠ 0) :
    ∃ i c : Nat, getPositionFromBegin S (k : Int) = ((i : Int), (c : Int)) ∧ i < n ∧ c ≤ S ∧
      i * S + c = k := by
  by_cases hle : k ≤ S
  · exact ⟨0, k, getPositionFromBegin_of_le hle, hn, hle, by omega⟩
  · have hlt : S < k := by omega
    have hmod : k % S ≠ 0 := by
      rcases hgood with h | h
      · exact absurd h hle
      · exact h
    have hS : 0 < S := by
      rcases Nat.eq_zero_or_pos S with h0 | h0
      · subst h0
        simp at hfits
        omega
      · exact h0
    have hdm := Nat.div_add_mod' k S
    have hml := Nat.mod_lt k hS
    refine ⟨k / S, k % S, getPositionFromBegin_of_rest hlt hmod, ?_, by omega, hdm⟩
    have : k / S * S < n * S := by omega
    exact Nat.lt_of_mul_lt_mul_right this

theorem Writer.seek_beg {S : Nat} {f : File} {io : Volume} {b : Nat} {ks : List Nat}
    {C : List Byte} {i0 c0 : Nat} (hw : Writer S f io b ks C i0 c0)
    (hov : f.m_openDisposition.append = AppendOrOverwrite.Overwrite) {k : Nat}
    (hk : k ≤ C.length) (hgood : k ≤ S ∨ k % S ≠ 0) :
    ∃ f1 i c, f.seek S io (k : Int) SeekDir.beg = Res.ok (k : Int) f1 io ∧
      Writer S f1 io b ks C i c ∧ i * S + c = k ∧ f1.m_fileSize = f.m_fileSize ∧
      f1.m_openDisposition = f.m_openDisposition ∧ f1.m_buffer = f.m_buffer := by
  obtain ⟨i, c, hpair, hi, hc, hpos⟩ :=
    seek_target hk hw.laid.fits (by have := hw.valid; omega) hgood
  have hx : ks[i]? = some (ks.getD i 0) := by
    rw [List.getD_eq_getElem?_getD, List.getElem?_eq_getElem hi]
    rfl
  have hseek := File.seek_beg_eq (S := S) hw.start hw.laid.chain hw.laid.inside hw.count hpair hx
  refine ⟨_, i, c, hseek, ?_, hpos, rfl, rfl, rfl⟩
  refine ⟨hw.laid, hw.inUse, hw.start, hw.count, rfl, rfl, hi, hc, ?_, by omega, hw.enforce,
    hw.writable, ?_, hw.sized⟩
  · simp only [hpos]
  · intro happ
    simp only at happ
    rw [hov] at happ
    cases happ

/-! ## Claim C9: overwriting past the end after a seek -/

theorem splice_past_end (C : List Byte) (k : Nat) (d : List Byte)
    (h : C.length ≤ k + d.length) : splice C k d = C.take k ++ d := by
  unfold splice
  rw [List.drop_eq_nil_of_le h, List.append_nil]

/-- Claim C9, away from the block boundaries.  For an existing file with content `C`
stored as the dense chain `ks`, whose blocks are marked in use, a position
`k <= |C|` that is at most `S` or not a multiple of `S`, and bytes `D` with
`k + |D| > |C|` (at most 2^32 of them, the image having room): opening with the
Overwrite disposition, `seek(k, beg)`, writing `D` and flushing all return, the
file is then stored as the dense chain `ks ++ nb` with the content `C[0 .. k)`
followed by `D`, and a fresh read-only handle reports the size `k + |D|` and
returns the first `n` bytes of that content for a read of `n < 2^32` bytes. -/
theorem C9_seek_then_overwrite_past_end (S : Nat) (hS : 0 < S) (hS32 : S < 4294967296)
    (io : Volume) (b : Nat) (ks : List Nat) (C : List Byte) (k : Nat) (D : List Byte)
    (disp : OpenDisposition) (hst : Stored S io b ks C)
    (hin : ∀ x ∈ ks, io.bitmap x = true)
    (hrw : disp.readWrite ≠ ReadOrWriteOrBoth.ReadOnly)
    (hkeep : disp.trunc = TruncateOrKeep.Keep)
    (hov : disp.append = AppendOrOverwrite.Overwrite)
    (hk : k ≤ C.length) (hgood : k ≤ S ∨ k % S ≠ 0) (hpast : C.length < k + D.length)
    (hD32 : D.length ≤ 4294967296)
    (hcap : k + D.length ≤ (ks.length + freeCount io) * S) :
    ∃ f1 io1 nb, File.openSeekWriteFlush S io b disp (k : Int) D = Res.ok () f1 io1 ∧
      Stored S io1 b (ks ++ nb) (C.take k ++ D) ∧
      ∀ (ro : OpenDisposition) (n : Nat), ro.readWrite = ReadOrWriteOrBoth.ReadOnly →
        n < 4294967296 →
        ∃ g g1, File.openExisting S io1 b ro = Res.ok () g io1 ∧
          g.fileSize = k + D.length ∧
          g.read io1 n = Res.ok (min n (k + D.length), (C.take k ++ D).take n) g1 io1 := by
  obtain ⟨f, hopen, hw, _, hsize, hdisp, hbuf⟩ := hst.open_overwrite hS hin disp hrw hkeep hov
  have hov0 : f.m_openDisposition.append = AppendOrOverwrite.Overwrite := by
    rw [hdisp]
    exact hov
  obtain ⟨f1, i, c, hseek, hw1, hpos, _, _, hbuf1⟩ := hw.seek_beg hov0 hk hgood
  obtain ⟨f2, io2, nb, i2, c2, hres, hl⟩ :=
    File.write_spec hS hS32 (Nat.le_refl _) hD32 hw1 (by rw [hpos]; exact hcap)
  have hw2 := hl.writer
  have hcanon := hl.canonical
  simp only [hpos, List.drop_zero, Nat.sub_zero, List.take_length] at hw2 hcanon
  rw [splice_past_end C k D (Nat.le_of_lt hpast)] at hw2
  have hlen : (C.take k ++ D).length = k + D.length := by
    simp only [List.length_append, List.length_take]
    omega
  have hst2 : Stored S io2 b (ks ++ nb) (C.take k ++ D) := by
    refine ⟨hw2.laid, ?_⟩
    rw [hlen]
    have hc := hst.canonical
    have hmax : max C.length (k + D.length) = k + D.length := by omega
    rw [hmax] at hcanon
    apply hcanon
    rcases hc with h1 | h2
    · exact Or.inl h1
    · right
      omega
  have hflush := hw2.flush_noop (File.write_buffer hres (hbuf1.trans hbuf))
  refine ⟨f2, io2, nb, ?_, hst2, ?_⟩
  · simp only [File.openSeekWriteFlush, hopen, hseek, hres, hflush]
  · intro ro n hro hn
    obtain ⟨g, g1, ho, hs, _, hr⟩ := hst2.reopen_read hS hS32 ro hro hn
    rw [hlen] at hs hr
    exact ⟨g, g1, ho, hs, hr⟩

/-- Witness for C9, with four payload bytes per block: the six-byte example file is
overwritten from the byte 5 on with the three bytes 7, 8, 9. -/
theorem C9_seek_then_overwrite_past_end_witness :
    ∃ f1 io1 nb,
      File.openSeekWriteFlush 4 sixByteImage 0 OpenDisposition.buildOverwriteDisposition 5
        [7, 8, 9] = Res.ok () f1 io1 ∧
      Stored 4 io1 0 ([0, 1] ++ nb) [1, 2, 3, 4, 5, 7, 8, 9] :=
  have h := C9_seek_then_overwrite_past_end 4 (by decide) (by decide) sixByteImage 0 [0, 1]
    [1, 2, 3, 4, 5, 6] 5 [7, 8, 9] OpenDisposition.buildOverwriteDisposition
    ⟨⟨by decide!, by decide!, by decide!, by decide!, by decide!⟩, by decide!⟩
    (by decide!) (by decide) rfl rfl (by decide) (by decide) (by decide) (by decide)
    (by decide!)
  match h with
  | ⟨f1, io1, nb, h1, h2, _⟩ => ⟨f1, io1, nb, h1, h2⟩

/-! ## Claim C10: `fileSize()` on the writing handle -/

/-- Claim C10, where it holds.  For an existing file with content `C` stored as the dense
chain `ks`, whose blocks are marked in use, opened for writing with the Keep
flag, and a write of the bytes `D` (at most 2^32 of them): after the write,
`fileSize()` on the writing handle is the sum of `bytes_written` over the chain
of the file (1) on a handle opened with the Append disposition, the image
having room for `D`; (2) on a handle opened with the Overwrite disposition that
writes without seeking and stays inside the content, `|D| <= |C|`; (3) on such a
handle after `seek(k, beg)`, for `k` at most `S` or not a multiple of `S`, when
the write stays inside the content, `k + |D| <= |C|`. -/
theorem C10_file_size_is_chain_sum (S : Nat) (hS : 0 < S) (hS32 : S < 4294967296)
    (io : Volume) (b : Nat) (ks : List Nat) (C D : List Byte) (disp : OpenDisposition)
    (hst : Stored S io b ks C) (hin : ∀ x ∈ ks, io.bitmap x = true)
    (hrw : disp.readWrite ≠ ReadOrWriteOrBoth.ReadOnly)
    (hkeep : disp.trunc = TruncateOrKeep.Keep) (hD32 : D.length ≤ 4294967296) :
    (disp.append = AppendOrOverwrite.Append →
      C.length + D.length ≤ (ks.length + freeCount io) * S →
      ∃ f f1 io1 nb, File.openExisting S io b disp = Res.ok () f io ∧
        f.write S io D D.length = Res.ok D.length f1 io1 ∧
        IsChain io1 b (ks ++ nb) ∧
        f1.fileSize = sumBytesWritten io1 (ks ++ nb) ∧
        f1.fileSize = C.length + D.length) ∧
    (disp.append = AppendOrOverwrite.Overwrite → D.length ≤ C.length →
      ∃ f f1 io1, File.openExisting S io b disp = Res.ok () f io ∧
        f.write S io D D.length = Res.ok D.length f1 io1 ∧
        IsChain io1 b ks ∧
        f1.fileSize = sumBytesWritten io1 ks ∧
        f1.fileSize = C.length) ∧
    (disp.append = AppendOrOverwrite.Overwrite →
      ∀ k : Nat, (k ≤ S ∨ k % S ≠ 0) → k + D.length ≤ C.length →
      ∃ f f0 f1 io1, File.openExisting S io b disp = Res.ok () f io ∧
        f.seek S io (k : Int) SeekDir.beg = Res.ok (k : Int) f0 io ∧
        f0.write S io D D.length = Res.ok D.length f1 io1 ∧
        IsChain io1 b ks ∧
        f1.fileSize = sumBytesWritten io1 ks ∧
        f1.fileSize = C.length) := by
  refine ⟨?_, ?_, ?_⟩
  · intro happ hcap
    obtain ⟨f, hopen, hend, _, _⟩ := hst.open_append hin disp hrw hkeep happ
    obtain ⟨f1, io1, nb, hres, hend1, _, _⟩ := AtEnd.write hS hS32 hD32 hend hcap
    have hsum := hend1.stored.laid.sum_eq
    refine ⟨f, f1, io1, nb, hopen, hres, hend1.stored.laid.chain, ?_, ?_⟩
    · rw [hsum, File.fileSize, hend1.size]
    · rw [File.fileSize, hend1.size, List.length_append]
  · intro hov hin2
    obtain ⟨f, hopen, hw, _, hsize, hdisp, _⟩ := hst.open_overwrite hS hin disp hrw hkeep hov
    have hov0 : f.m_openDisposition.append = AppendOrOverwrite.Overwrite := by
      rw [hdisp]
      exact hov
    obtain ⟨f1, io1, i1, c1, hres, h1⟩ := hw.overwrite hS hS32 hD32 hov0 (by omega)
    have hsum := h1.writer.laid.sum_eq
    rw [splice_length C _ D (by omega)] at hsum
    refine ⟨f, f1, io1, hopen, hres, h1.writer.laid.chain, ?_, ?_⟩
    · rw [hsum, File.fileSize, h1.fileSize, hsize]
      omega
    · rw [File.fileSize, h1.fileSize, hsize]
  · intro hov k hgood hin2
    obtain ⟨f, hopen, hw, _, hsize, hdisp, _⟩ := hst.open_overwrite hS hin disp hrw hkeep hov
    have hov0 : f.m_openDisposition.append = AppendOrOverwrite.Overwrite := by
      rw [hdisp]
      exact hov
    obtain ⟨f0, i, c, hseek, hw0, hpos, hsize0, hdisp0, _⟩ :=
      hw.seek_beg hov0 (by omega) hgood
    have hov1 : f0.m_openDisposition.append = AppendOrOverwrite.Overwrite := by
      rw [hdisp0]
      exact hov0
    obtain ⟨f1, io1, i1, c1, hres, h1⟩ :=
      hw0.overwrite hS hS32 hD32 hov1 (by rw [hpos]; exact hin2)
    have hsum := h1.writer.laid.sum_eq
    rw [splice_length C _ D (by omega)] at hsum
    refine ⟨f, f0, f1, io1, hopen, hseek, hres, h1.writer.laid.chain, ?_, ?_⟩
    · rw [hsum, File.fileSize, h1.fileSize, hsize0, hsize]
      omega
    · rw [File.fileSize, h1.fileSize, hsize0, hsize]

/-- Witness for C10, with four payload bytes per block: the two bytes 9, 9 are written
over the start of the six-byte example file. -/
theorem C10_file_size_is_chain_sum_witness :
    ∃ f f1 io1,
      File.openExisting 4 sixByteImage 0 OpenDisposition.buildOverwriteDisposition =
        Res.ok () f sixByteImage ∧
      f.write 4 sixByteImage [9, 9] 2 = Res.ok 2 f1 io1 ∧
      IsChain io1 0 [0, 1] ∧
      f1.fileSize = sumBytesWritten io1 [0, 1] ∧
      f1.fileSize = 6 :=
  (C10_file_size_is_chain_sum 4 (by decide) (by decide) sixByteImage 0 [0, 1]
    [1, 2, 3, 4, 5, 6] [9, 9] OpenDisposition.buildOverwriteDisposition
    ⟨⟨by decide!, by decide!, by decide!, by decide!, by decide!⟩, by decide!⟩
    (by decide!) (by decide) rfl (by decide)).2.1 rfl (by decide)

/-! ## The two outcomes of `seek` -/

theorem File.getBlockWithIndex_start (f : File) (enf : Bool) (sz : Nat)
    (wb : Option FileBlock) (buf : List Byte) (bi : Nat) (disp : OpenDisposition) (pos : Int)
    (bc : Nat) (io : Volume) (n : Nat) :
    (File.mk enf sz wb buf f.m_startVolumeBlock bi disp pos bc).getBlockWithIndex io n =
      f.getBlockWithIndex io n := rfl

theorem File.seek_out_of_range {S : Nat} {f : File} {io : Volume} {off : Int} {way : SeekDir}
    {p : SeekPair} (hp : f.seekPair S io off way = some p) (hout : f.outOfRange p) :
    ∃ f1, f.seek S io off way = Res.ok (-1) f1 io ∧ f1.m_pos = f.m_pos ∧
      f1.m_blockIndex = f.m_blockIndex ∧ f1.m_blockCount = f.m_blockCount ∧
      f1.m_fileSize = f.m_fileSize ∧ f1.m_startVolumeBlock = f.m_startVolumeBlock ∧
      f1.m_openDisposition = f.m_openDisposition := by
  unfold File.outOfRange at hout
  cases way with
  | beg =>
    simp only [File.seekPair, Option.some.injEq] at hp
    subst hp
    unfold File.seek File.seekTo
    simp only [ne_eq, reduceCtorEq, not_false_eq_true, if_true, hout]
    exact ⟨_, rfl, rfl, rfl, rfl, rfl, rfl, rfl⟩
  | cur =>
    unfold File.seekPair at hp
    unfold File.seek File.seekTo
    cases hwb : f.m_workingBlock with
    | none => simp [hwb] at hp
    | some wb =>
      simp only [hwb, Option.map_some', Option.some.injEq] at hp
      subst hp
      simp only [ne_eq, not_true_eq_false, if_false, hwb, hout, if_true]
      exact ⟨_, rfl, rfl, rfl, rfl, rfl, rfl, rfl⟩
  | «end» =>
    unfold File.seekPair at hp
    unfold File.seek File.seekTo
    simp only [ne_eq, reduceCtorEq, not_false_eq_true, if_true]
    simp only [File.getBlockWithIndex_start]
    cases hg : f.getBlockWithIndex io
        (if f.m_blockCount = 0 then 18446744073709551615 else f.m_blockCount - 1) with
    | error e => simp [hg] at hp
    | ok blk =>
      simp only [hg, Option.some.injEq] at hp
      subst hp
      simp only [hout, if_true]
      exact ⟨_, rfl, rfl, rfl, rfl, rfl, rfl, rfl⟩

theorem File.seek_in_range {S : Nat} {f : File} {io : Volume} {b : Nat} {ks : List Nat}
    (hstart : f.m_startVolumeBlock = b) (hchain : IsChain io b ks)
    (hin : ∀ k ∈ ks, k < io.blocks) {off : Int} {way : SeekDir} {p : SeekPair}
    (hp : f.seekPair S io off way = some p) (hok : ¬ f.outOfRange p) {x : Nat}
    (hx : ks[p.1.toNat]? = some x) :
    f.seek S io off way =
      Res.ok off
        (File.mk f.m_enforceStartBlock f.m_fileSize (some (FileBlock.mk x p.2.toNat))
          f.m_buffer f.m_startVolumeBlock p.1.toNat f.m_openDisposition (f.seekGoal off way)
          f.m_blockCount)
        io := by
  unfold File.outOfRange at hok
  have hg : ∀ g : File, g.m_startVolumeBlock = b →
      g.getBlockWithIndex io p.1.toNat = Except.ok (FileBlock.openAt x) :=
    fun g hg => File.getBlockWithIndex_spec g hg hchain hin hx
  cases way with
  | beg =>
    simp only [File.seekPair, Option.some.injEq] at hp
    subst hp
    unfold File.seek File.seekTo
    simp only [ne_eq, reduceCtorEq, not_false_eq_true, if_true, hok, if_false]
    simp only [File.getBlockWithIndex_start, hg f hstart, FileBlock.seek, FileBlock.openAt,
      File.seekGoal]
  | cur =>
    unfold File.seekPair at hp
    unfold File.seek File.seekTo
    cases hwb : f.m_workingBlock with
    | none => simp [hwb] at hp
    | some wb =>
      simp only [hwb, Option.map_some', Option.some.injEq] at hp
      subst hp
      simp only [ne_eq, not_true_eq_false, if_false, hwb, hok]
      simp only [File.getBlockWithIndex_start, hg f hstart, FileBlock.seek, FileBlock.openAt,
        File.seekGoal]
  | «end» =>
    unfold File.seekPair at hp
    unfold File.seek File.seekTo
    simp only [ne_eq, reduceCtorEq, not_false_eq_true, if_true]
    simp only [File.getBlockWithIndex_start]
    cases hg2 : f.getBlockWithIndex io
        (if f.m_blockCount = 0 then 18446744073709551615 else f.m_blockCount - 1) with
    | error e => simp [hg2] at hp
    | ok blk =>
      simp only [hg2, Option.some.injEq] at hp
      subst hp
      simp only [hok, if_false]
      simp only [File.getBlockWithIndex_start, hg f hstart, FileBlock.seek, FileBlock.openAt,
        File.seekGoal]

theorem File.seekPair_isSome {S : Nat} {f : File} {io : Volume} {b : Nat} {ks : List Nat}
    (hstart : f.m_startVolumeBlock = b) (hchain : IsChain io b ks)
    (hin : ∀ k ∈ ks, k < io.blocks) (hcount : f.m_blockCount = ks.length) (off : Int)
    (way : SeekDir) (hwb : way = SeekDir.cur → f.m_workingBlock ≠ none) :
    ∃ p, f.seekPair S io off way = some p := by
  cases way with
  | beg => exact ⟨_, rfl⟩
  | cur =>
    cases h : f.m_workingBlock with
    | none => exact absurd h (hwb rfl)
    | some wb =>
      refine ⟨getPositionFromCurrent S off (f.m_blockIndex : Int) ((wb.tell : Nat) : Int), ?_⟩
      simp [File.seekPair, h]
  | «end» =>
    have hne := hchain.ne_nil
    have hpos : 0 < ks.length := List.length_pos.mpr hne
    have hlast : ks[ks.length - 1]? = some (ks[ks.length - 1]) :=
      List.getElem?_eq_getElem (by omega)
    have hg := File.getBlockWithIndex_spec f hstart hchain hin hlast
    have hc0 : f.m_blockCount ≠ 0 := by omega
    refine ⟨getPositionFromEnd S off ((f.m_blockCount - 1 : Nat) : Int)
      (((FileBlock.openAt (ks[ks.length - 1])).getDataBytesWritten io : Nat) : Int), ?_⟩
    unfold File.seekPair
    simp only [hc0, if_false]
    rw [hcount, hg]

/-! ## Claims C11 and C13: the value `seek` returns and the position it leaves -/

/-- Claim C11 at an explicit input, with four payload bytes per block: on a handle
opened read-only on the six-byte example file, `seek(0, end)` succeeds and moves
the handle to the position 6, the value `tell()` reports afterwards, but the
value returned is 0, the offset passed in (`return off;`), not the resulting
position. -/
theorem C11_seek_from_end_returns_offset_not_position :
    (sixByteReader.seek 4 sixByteImage 0 SeekDir.end).value? = some 0 ∧
    (sixByteReader.seek 4 sixByteImage 0 SeekDir.end).file.tell = 6 ∧
    ¬ (sixByteReader.seek 4 sixByteImage 0 SeekDir.end).value? =
      some (sixByteReader.seek 4 sixByteImage 0 SeekDir.end).file.tell := by
  decide!

/-- What `seek` returns, in general.  On a handle whose block count is the number of
blocks of the chain `ks` of its file (and whose working block is not null when
the seek is relative to the current position), `seek(off, whence)` returns.
When the target block `p.1` passes the bounds check the value returned is
`off`, the argument of the call, and the position `tell()` reports afterwards
is the one aimed at: `off` from the beginning, the previous `tell() + off` from
the current position, `fileSize() + off` from the end; the value returned is
therefore the resulting position only for a seek from the beginning.  When the
target block is out of range the value returned is -1. -/
theorem File.seek_value_and_position (S : Nat) (f : File) (io : Volume) (b : Nat) (ks : List Nat)
    (off : Int) (way : SeekDir) (hstart : f.m_startVolumeBlock = b)
    (hchain : IsChain io b ks) (hin : ∀ k ∈ ks, k < io.blocks)
    (hcount : f.m_blockCount = ks.length)
    (hwb : way = SeekDir.cur → f.m_workingBlock ≠ none) :
    ∃ p v f1, f.seekPair S io off way = some p ∧ f.seek S io off way = Res.ok v f1 io ∧
      (¬ f.outOfRange p → v = off ∧ f1.tell = f.seekGoal off way) ∧
      (f.outOfRange p → v = -1) := by
  obtain ⟨p, hp⟩ := File.seekPair_isSome (S := S) hstart hchain hin hcount off way hwb
  by_cases hout : f.outOfRange p
  · obtain ⟨f1, hres, _⟩ := File.seek_out_of_range hp hout
    exact ⟨p, -1, f1, hp, hres, fun h => absurd hout h, fun _ => rfl⟩
  · have hlt : p.1.toNat < ks.length := by
      unfold File.outOfRange at hout
      omega
    have hx : ks[p.1.toNat]? = some (ks[p.1.toNat]) := List.getElem?_eq_getElem hlt
    have hres := File.seek_in_range hstart hchain hin hp hout hx
    exact ⟨p, off, _, hp, hres, fun _ => ⟨rfl, rfl⟩, fun h => absurd h hout⟩

/-- A seek to the end of the six-byte example file, as an instance of
`File.seek_value_and_position`. -/
theorem File.seek_value_and_position_example :
    ∃ p v f1, sixByteReader.seekPair 4 sixByteImage 0 SeekDir.end = some p ∧
      sixByteReader.seek 4 sixByteImage 0 SeekDir.end = Res.ok v f1 sixByteImage ∧
      (¬ sixByteReader.outOfRange p →
        v = 0 ∧ f1.tell = sixByteReader.seekGoal 0 SeekDir.end) ∧
      (sixByteReader.outOfRange p → v = -1) :=
  File.seek_value_and_position 4 sixByteReader sixByteImage 0 [0, 1] 0 SeekDir.end (by decide!)
    (by decide!) (by decide!) (by decide!) (by decide)

/-- Claim C13 at an explicit input, with four payload bytes per block: on a handle
opened read-only on the six-byte example file, at position 0 in block 0,
`seek(-1, end)` aims at the position 5, inside the file, and succeeds; it
returns -1, the offset passed in, and `tell()` and the block index have
changed, to 5 and to 1. -/
theorem C13_seek_returning_minus_one_moves_the_handle :
    sixByteReader.tell = 0 ∧ sixByteReader.m_blockIndex = 0 ∧
    (sixByteReader.seek 4 sixByteImage (-1) SeekDir.end).value? = some (-1) ∧
    (sixByteReader.seek 4 sixByteImage (-1) SeekDir.end).file.tell = 5 ∧
    (sixByteReader.seek 4 sixByteImage (-1) SeekDir.end).file.m_blockIndex = 1 := by
  decide!

/-- What `seek` leaves behind, in general.  On a handle whose block count is the number
of blocks of the chain `ks` of its file (and whose working block is not null
when the seek is relative to the current position), `seek(off, whence)`
returns.  When the target block passes the bounds check, `tell()` afterwards is
`off` from the beginning, the previous `tell() + off` from the current position
and `fileSize() + off` from the end, the block index is the target block, and
the block count and `fileSize()` are unchanged.  When the target block is out
of range, `tell()`, the block index, the block count and `fileSize()` are
unchanged.  The value returned is -1 when the target block is out of range and
also, the handle having moved, when `off` is -1. -/
theorem File.seek_position_and_counts (S : Nat) (f : File) (io : Volume) (b : Nat) (ks : List Nat)
    (off : Int) (way : SeekDir) (hstart : f.m_startVolumeBlock = b)
    (hchain : IsChain io b ks) (hin : ∀ k ∈ ks, k < io.blocks)
    (hcount : f.m_blockCount = ks.length)
    (hwb : way = SeekDir.cur → f.m_workingBlock ≠ none) :
    ∃ p v f1, f.seekPair S io off way = some p ∧ f.seek S io off way = Res.ok v f1 io ∧
      (¬ f.outOfRange p →
        f1.tell = f.seekGoal off way ∧ f1.m_blockIndex = p.1.toNat ∧
        f1.m_blockCount = f.m_blockCount ∧ f1.fileSize = f.fileSize) ∧
      (f.outOfRange p →
        f1.tell = f.tell ∧ f1.m_blockIndex = f.m_blockIndex ∧
        f1.m_blockCount = f.m_blockCount ∧ f1.fileSize = f.fileSize) ∧
      (v = -1 ↔ (f.outOfRange p ∨ off = -1)) := by
  obtain ⟨p, hp⟩ := File.seekPair_isSome (S := S) hstart hchain hin hcount off way hwb
  by_cases hout : f.outOfRange p
  · obtain ⟨f1, hres, h1, h2, h3, h4, _, _⟩ := File.seek_out_of_range hp hout
    refine ⟨p, -1, f1, hp, hres, fun h => absurd hout h, fun _ => ⟨h1, h2, h3, h4⟩, ?_⟩
    exact ⟨fun _ => Or.inl hout, fun _ => rfl⟩
  · have hlt : p.1.toNat < ks.length := by
      unfold File.outOfRange at hout
      omega
    have hx : ks[p.1.toNat]? = some (ks[p.1.toNat]) := List.getElem?_eq_getElem hlt
    have hres := File.seek_in_range hstart hchain hin hp hout hx
    refine ⟨p, off, _, hp, hres, fun _ => ⟨rfl, rfl, rfl, rfl⟩, fun h => absurd h hout, ?_⟩
    constructor
    · intro h
      exact Or.inr h
    · intro h
      rcases h with h | h
      · exact absurd h hout
      · exact h

/-- A seek to the byte before the end of the six-byte example file, as an instance of
`File.seek_position_and_counts`. -/
theorem File.seek_position_and_counts_example :
    ∃ p v f1, sixByteReader.seekPair 4 sixByteImage (-1) SeekDir.end = some p ∧
      sixByteReader.seek 4 sixByteImage (-1) SeekDir.end = Res.ok v f1 sixByteImage ∧
      (¬ sixByteReader.outOfRange p →
        f1.tell = sixByteReader.seekGoal (-1) SeekDir.end ∧ f1.m_blockIndex = p.1.toNat ∧
        f1.m_blockCount = sixByteReader.m_blockCount ∧
        f1.fileSize = sixByteReader.fileSize) ∧
      (sixByteReader.outOfRange p →
        f1.tell = sixByteReader.tell ∧ f1.m_blockIndex = sixByteReader.m_blockIndex ∧
        f1.m_blockCount = sixByteReader.m_blockCount ∧
        f1.fileSize = sixByteReader.fileSize) ∧
      (v = -1 ↔ (sixByteReader.outOfRange p ∨ (-1 : Int) = -1)) :=
  File.seek_position_and_counts 4 sixByteReader sixByteImage 0 [0, 1] (-1) SeekDir.end (by decide!)
    (by decide!) (by decide!) (by decide!) (by decide)

/-! ## Which targets pass the bounds check of `seek` -/

theorem getPositionFromBegin_of_multiple {S k : Nat} (h : S < k) (hmod : k % S = 0) :
    getPositionFromBegin S (k : Int) = (((k / S - 1 : Nat) : Int), 0) := by
  have hS : 0 < S := by
    rcases Nat.eq_zero_or_pos S with h0 | h0
    · subst h0
      simp at hmod
      omega
    · exact h0
  have hq : 1 ≤ k / S := (Nat.one_le_div_iff hS).mpr (Nat.le_of_lt h)
  unfold getPositionFromBegin
  have h1 : (k : Int) > (S : Int) := by omega
  have h2 : Int.tmod (k : Int) (S : Int) = ((k % S : Nat) : Int) := (Int.ofNat_tmod k S).symm
  have h3 : Int.tdiv (k : Int) (S : Int) = ((k / S : Nat) : Int) := (Int.ofNat_tdiv k S).symm
  simp only [h1, h2, hmod, if_true, Nat.cast_zero, gt_iff_lt, lt_self_iff_false, if_false, h3]
  congr 1
  omega

theorem begin_target_block {S k n L : Nat} (hk : k ≤ L) (hfits : L ≤ n * S) (hn : 0 < n) :
    ∃ i c : Nat, getPositionFromBegin S (k : Int) = ((i : Int), (c : Int)) ∧ i < n := by
  by_cases hle : k ≤ S
  · exact ⟨0, k, getPositionFromBegin_of_le hle, hn⟩
  · have hlt : S < k := by omega
    have hS : 0 < S := by
      rcases Nat.eq_zero_or_pos S with h0 | h0
      · subst h0
        simp at hfits
        omega
      · exact h0
    have hdm := Nat.div_add_mod' k S
    by_cases hmod : k % S = 0
    · refine ⟨k / S - 1, 0, getPositionFromBegin_of_multiple hlt hmod, ?_⟩
      have hq : 1 ≤ k / S := (Nat.one_le_div_iff hS).mpr (Nat.le_of_lt hlt)
      have : k / S * S ≤ n * S := by omega
      have := Nat.le_of_mul_le_mul_right this hS
      omega
    · refine ⟨k / S, k % S, getPositionFromBegin_of_rest hlt hmod, ?_⟩
      have : k / S * S < n * S := by omega
      exact Nat.lt_of_mul_lt_mul_right this

theorem getPositionFromEnd_eq (S : Nat) (a : Nat) (e w : Int) (i c : Nat)
    (h : getPositionFromBegin S (a : Int) = ((i : Int), (c : Int))) :
    getPositionFromEnd S (-(a : Int)) e w =
      if w - (c : Int) < 0 then (e - (i : Int) - 1, ((S % 65536 : Nat) : Int) + (w - (c : Int)))
      else (e - (i : Int), w - (c : Int)) := by
  unfold getPositionFromEnd
  have habs : |(-(a : Int))| = (a : Int) := by
    rw [abs_neg]
    exact abs_of_nonneg (Int.ofNat_nonneg a)
  simp only [habs, h]

theorem end_target_block {S a n L : Nat} (hS : 0 < S) (hn : 0 < n) (hfits : L ≤ n * S)
    (hcanon : n = 1 ∨ (n - 1) * S < L) (ha : a ≤ L) :
    0 ≤ (getPositionFromEnd S (-(a : Int)) ((n - 1 : Nat) : Int)
        ((L - (n - 1) * S : Nat) : Int)).1 ∧
    (getPositionFromEnd S (-(a : Int)) ((n - 1 : Nat) : Int)
        ((L - (n - 1) * S : Nat) : Int)).1.toNat < n := by
  have hmul : n * S = (n - 1) * S + S := by
    have : n = (n - 1) + 1 := by omega
    nth_rewrite 1 [this]
    rw [Nat.succ_mul]
  have hw : (n - 1) * S ≤ L := by
    rcases hcanon with h | h
    · subst h
      simp
    · omega
  by_cases hle : a ≤ S
  · rw [getPositionFromEnd_eq S a _ _ 0 a (getPositionFromBegin_of_le hle)]
    split
    · rename_i hneg
      have h1 : 1 ≤ n - 1 := by
        rcases Nat.eq_zero_or_pos (n - 1) with h0 | h0
        · rw [h0] at hneg hw
          simp only [Nat.zero_mul, Nat.sub_zero] at hneg
          omega
        · exact h0
      simp only
      omega
    · simp only
      omega
  · have hlt : S < a := by omega
    have hdm := Nat.div_add_mod' a S
    have hml := Nat.mod_lt a hS
    by_cases hmod : a % S = 0
    · have hpair := getPositionFromBegin_of_multiple hlt hmod
      have hq : 1 ≤ a / S := (Nat.one_le_div_iff hS).mpr (Nat.le_of_lt hlt)
      have h1 : a / S * S ≤ n * S := by omega
      have h2 := Nat.le_of_mul_le_mul_right h1 hS
      generalize a / S = q at *
      rw [getPositionFromEnd_eq S a _ _ (q - 1) 0 (by simpa using hpair)]
      have hnn : ¬ (((L - (n - 1) * S : Nat) : Int) - ((0 : Nat) : Int) < 0) := by omega
      rw [if_neg hnn]
      have hX : ((n - 1 : Nat) : Int) - ((q - 1 : Nat) : Int) = ((n - q : Nat) : Int) := by
        omega
      simp only [hX, Int.toNat_ofNat]
      constructor
      · exact Int.ofNat_nonneg _
      · omega
    · have hpair := getPositionFromBegin_of_rest hlt hmod
      generalize hq : a / S = q at *
      generalize hr : a % S = r at *
      rw [getPositionFromEnd_eq S a _ _ q r hpair]
      split
      · rename_i hneg
        have h1 : q * S < (n - 1) * S := by omega
        have h2 : q < n - 1 := Nat.lt_of_mul_lt_mul_right h1
        have hX : ((n - 1 : Nat) : Int) - (q : Int) - 1 = ((n - 1 - q - 1 : Nat) : Int) := by
          omega
        simp only [hX, Int.toNat_ofNat]
        constructor
        · exact Int.ofNat_nonneg _
        · omega
      · rename_i hnn
        have h1 : q * S < n * S := by omega
        have h2 : q < n := Nat.lt_of_mul_lt_mul_right h1
        have hX : ((n - 1 : Nat) : Int) - (q : Int) = ((n - 1 - q : Nat) : Int) := by omega
        simp only [hX, Int.toNat_ofNat]
        constructor
        · exact Int.ofNat_nonneg _
        · omega

theorem tdiv_rounded (A S : Nat) :
    Int.tdiv ((A : Int) - ((A % S : Nat) : Int)) (S : Int) = ((A / S : Nat) : Int) := by
  have h5 : (A : Int) - ((A % S : Nat) : Int) = ((A / S * S : Nat) : Int) := by
    have := Nat.div_add_mod' A S
    omega
  rw [h5, ← Int.ofNat_tdiv]
  rcases Nat.eq_zero_or_pos S with h0 | h0
  · subst h0
    simp
  · rw [Nat.mul_div_cancel _ h0]

theorem getPositionFromCurrent_of_nonneg (S : Nat) {off : Int} (i c : Int) {A : Nat}
    (h : off + c = (A : Int)) :
    getPositionFromCurrent S off i c = (i + ((A / S : Nat) : Int), ((A % S : Nat) : Int)) := by
  unfold getPositionFromCurrent
  have habs : |(A : Int)| = (A : Int) := abs_of_nonneg (Int.ofNat_nonneg A)
  have hge : (A : Int) ≥ 0 := Int.ofNat_nonneg A
  simp only [h, habs, ← Int.ofNat_tmod, tdiv_rounded, hge, if_true]

theorem getPositionFromCurrent_of_neg (S : Nat) {off : Int} (i c : Int) {A : Nat}
    (h : off + c = -(A : Int)) (hA : 0 < A) :
    getPositionFromCurrent S off i c =
      (i - (((A / S : Nat) : Int) + 1), (S : Int) - ((A % S : Nat) : Int)) := by
  unfold getPositionFromCurrent
  have habs : |(-(A : Int))| = (A : Int) := by
    rw [abs_neg]
    exact abs_of_nonneg (Int.ofNat_nonneg A)
  have hge : ¬ (-(A : Int) ≥ 0) := by omega
  simp only [h, habs, ← Int.ofNat_tmod, tdiv_rounded, hge, if_false]

theorem current_target_block {S i c n L : Nat} (hi : i < n) (hfits : L ≤ n * S)
    {off : Int} {t : Nat} (ht : (t : Int) = ((i * S + c : Nat) : Int) + off) (htL : t ≤ L)
    (hend : 0 ≤ off + (c : Int) → t ≠ n * S) (hzero : off + (c : Int) < 0 → t ≠ 0) :
    0 ≤ (getPositionFromCurrent S off (i : Int) (c : Int)).1 ∧
    (getPositionFromCurrent S off (i : Int) (c : Int)).1.toNat < n := by
  by_cases hnn : 0 ≤ off + (c : Int)
  · obtain ⟨A, hA⟩ := Int.eq_ofNat_of_zero_le hnn
    rw [getPositionFromCurrent_of_nonneg S _ _ hA]
    have hne := hend hnn
    have hdm := Nat.div_add_mod' A S
    have htA : t = i * S + A := by
      push_cast at ht
      omega
    generalize A / S = q at *
    have h1 : (i + q) * S < n * S := by
      rw [Nat.add_mul]
      omega
    have h2 : i + q < n := Nat.lt_of_mul_lt_mul_right h1
    have hX : (i : Int) + (q : Int) = ((i + q : Nat) : Int) := by omega
    simp only [hX, Int.toNat_ofNat]
    exact ⟨Int.ofNat_nonneg _, h2⟩
  · have hneg : off + (c : Int) < 0 := by omega
    obtain ⟨A, hA⟩ := Int.eq_ofNat_of_zero_le (a := -(off + (c : Int))) (by omega)
    have hA2 : off + (c : Int) = -(A : Int) := by omega
    have hApos : 0 < A := by omega
    rw [getPositionFromCurrent_of_neg S _ _ hA2 hApos]
    have hne := hzero hneg
    have hdm := Nat.div_add_mod' A S
    have htA : t + A = i * S := by
      push_cast at ht
      omega
    generalize A / S = q at *
    have h1 : q * S < i * S := by omega
    have h2 : q < i := Nat.lt_of_mul_lt_mul_right h1
    have hX : (i : Int) - ((q : Int) + 1) = ((i - q - 1 : Nat) : Int) := by omega
    simp only [hX, Int.toNat_ofNat]
    constructor
    · exact Int.ofNat_nonneg _
    · omega

theorem File.seekPair_end {S : Nat} {f : File} {io : Volume} {b : Nat} {ks : List Nat}
    {C : List Byte} (hst : Stored S io b ks C) (hstart : f.m_startVolumeBlock = b)
    (hcount : f.m_blockCount = ks.length) (off : Int) :
    f.seekPair S io off SeekDir.end =
      some (getPositionFromEnd S off ((ks.length - 1 : Nat) : Int)
        ((C.length - (ks.length - 1) * S : Nat) : Int)) := by
  have hne := hst.laid.chain.ne_nil
  have hpos : 0 < ks.length := List.length_pos.mpr hne
  have hlast : ks[ks.length - 1]? = some (ks[ks.length - 1]) :=
    List.getElem?_eq_getElem (by omega)
  have hg := File.getBlockWithIndex_spec f hstart hst.laid.chain hst.laid.inside hlast
  have hc0 : f.m_blockCount ≠ 0 := by omega
  have hsz := hst.laid.size_at hlast
  have hfits := hst.laid.fits
  have hmul : ks.length * S = (ks.length - 1) * S + S := by
    have : ks.length = (ks.length - 1) + 1 := by omega
    nth_rewrite 1 [this]
    rw [Nat.succ_mul]
  have hbw : (io.store (ks[ks.length - 1])).bytesWritten = C.length - (ks.length - 1) * S := by
    rw [hsz]
    omega
  unfold File.seekPair
  simp only [hc0, if_false]
  rw [hcount, hg]
  simp only [FileBlock.getDataBytesWritten, FileBlock.openAt, hbw]

theorem File.seek_passes {S : Nat} {f : File} {io : Volume} {b : Nat} {ks : List Nat}
    (hstart : f.m_startVolumeBlock = b) (hchain : IsChain io b ks)
    (hin : ∀ k ∈ ks, k < io.blocks) (hcount : f.m_blockCount = ks.length) {off : Int}
    {way : SeekDir} {p : SeekPair} (hp : f.seekPair S io off way = some p)
    (h0 : 0 ≤ p.1) (hlt : p.1.toNat < ks.length) :
    ∃ f1, ¬ f.outOfRange p ∧ f.seek S io off way = Res.ok off f1 io ∧
      f1.tell = f.seekGoal off way := by
  have hok : ¬ f.outOfRange p := by
    unfold File.outOfRange
    omega
  have hx : ks[p.1.toNat]? = some (ks[p.1.toNat]) := List.getElem?_eq_getElem hlt
  exact ⟨_, hok, File.seek_in_range hstart hchain hin hp hok hx, rfl⟩

/-- Claim C12 at explicit inputs, with four payload bytes per block.  On a handle opened
read-only on the eight-byte example file (two full blocks), at position 0,
`seek(8, cur)` aims at the position 8, the size of the file, and returns -1
without moving the handle: `getPositionFromCurrent` sends it to block 2 of a
chain of two blocks.  And on a handle opened on the six-byte example file
`seek(-1, end)`, which aims at the position 5 and moves the handle there,
returns -1 as well, the offset passed in. -/
theorem C12_seek_inside_file_returns_minus_one :
    eightByteReader.fileSize = 8 ∧ eightByteReader.tell = 0 ∧
    getPositionFromCurrent 4 8 0 0 = (2, 0) ∧
    (eightByteReader.seek 4 eightByteImage 8 SeekDir.cur).value? = some (-1) ∧
    (eightByteReader.seek 4 eightByteImage 8 SeekDir.cur).file.tell = 0 ∧
    sixByteReader.fileSize = 6 ∧
    (sixByteReader.seek 4 sixByteImage (-1) SeekDir.end).value? = some (-1) ∧
    (sixByteReader.seek 4 sixByteImage (-1) SeekDir.end).file.tell = 5 := by
  decide!

/-- The seeks inside a file that pass the bounds check.  For a file with content `C`
stored as the dense chain `ks` and a handle whose block count is the number of
blocks of `ks`: a seek whose target position lies in `[0, |C|]` passes the
bounds check, that is it moves the handle and returns `off`, when it is (1)
from the beginning, to `k <= |C|`; (2) from the end, by `-a` with `a <= |C|`;
(3) from the current position `i * S + c` of a handle in block `i` at cursor
`c`, to a target `t` other than the end of a file whose last block is full
(reached with `off + c >= 0`) and other than 0 (reached with `off + c < 0`). -/
theorem File.seek_inside_file (S : Nat) (hS : 0 < S) (f : File) (io : Volume) (b : Nat)
    (ks : List Nat) (C : List Byte) (hst : Stored S io b ks C)
    (hstart : f.m_startVolumeBlock = b) (hcount : f.m_blockCount = ks.length) :
    (∀ k : Nat, k ≤ C.length →
      ∃ p f1, f.seekPair S io (k : Int) SeekDir.beg = some p ∧ ¬ f.outOfRange p ∧
        f.seek S io (k : Int) SeekDir.beg = Res.ok (k : Int) f1 io ∧ f1.tell = (k : Int)) ∧
    (∀ a : Nat, a ≤ C.length →
      ∃ p f1, f.seekPair S io (-(a : Int)) SeekDir.end = some p ∧ ¬ f.outOfRange p ∧
        f.seek S io (-(a : Int)) SeekDir.end = Res.ok (-(a : Int)) f1 io ∧
        f1.tell = (f.fileSize : Int) - (a : Int)) ∧
    (∀ (i c x : Nat) (off : Int) (t : Nat), f.m_blockIndex = i →
      f.m_workingBlock = some (FileBlock.mk x c) → i < ks.length →
      (t : Int) = ((i * S + c : Nat) : Int) + off → t ≤ C.length →
      (0 ≤ off + (c : Int) → t ≠ ks.length * S) → (off + (c : Int) < 0 → t ≠ 0) →
      ∃ p f1, f.seekPair S io off SeekDir.cur = some p ∧ ¬ f.outOfRange p ∧
        f.seek S io off SeekDir.cur = Res.ok off f1 io ∧ f1.tell = f.tell + off) := by
  have hchain := hst.laid.chain
  have hin := hst.laid.inside
  have hfits := hst.laid.fits
  have hpos : 0 < ks.length := List.length_pos.mpr hchain.ne_nil
  refine ⟨?_, ?_, ?_⟩
  · intro k hk
    obtain ⟨i, c, hpair, hi⟩ := begin_target_block (S := S) hk hfits hpos
    have hp : f.seekPair S io (k : Int) SeekDir.beg = some ((i : Int), (c : Int)) := by
      simp only [File.seekPair, hpair]
    obtain ⟨f1, hok, hres, ht⟩ := File.seek_passes hstart hchain hin hcount hp
      (Int.ofNat_nonneg _) (by simpa using hi)
    exact ⟨_, f1, hp, hok, hres, ht⟩
  · intro a ha
    have hp := File.seekPair_end hst hstart hcount (-(a : Int))
    obtain ⟨h0, hlt⟩ := end_target_block hS hpos hfits hst.canonical ha
    obtain ⟨f1, hok, hres, ht⟩ := File.seek_passes hstart hchain hin hcount hp h0 hlt
    refine ⟨_, f1, hp, hok, hres, ?_⟩
    rw [ht]
    simp only [File.seekGoal, File.fileSize]
    omega
  · intro i c x off t hidx hwb hi ht htL hend hzero
    have hp : f.seekPair S io off SeekDir.cur =
        some (getPositionFromCurrent S off (i : Int) (c : Int)) := by
      simp only [File.seekPair, hwb, Option.map_some', hidx, FileBlock.tell]
    obtain ⟨h0, hlt⟩ := current_target_block hi hfits ht htL hend hzero
    obtain ⟨f1, hok, hres, ht2⟩ := File.seek_passes hstart hchain hin hcount hp h0 hlt
    exact ⟨_, f1, hp, hok, hres, ht2⟩

/-- A seek on a handle opened on the six-byte example file, as an instance of
`File.seek_inside_file`. -/
theorem File.seek_inside_file_example :
    ∃ p f1, sixByteReader.seekPair 4 sixByteImage (-(5 : Nat) : Int) SeekDir.end = some p ∧
      ¬ sixByteReader.outOfRange p ∧
      sixByteReader.seek 4 sixByteImage (-(5 : Nat) : Int) SeekDir.end =
        Res.ok (-(5 : Nat) : Int) f1 sixByteImage ∧
      f1.tell = (sixByteReader.fileSize : Int) - ((5 : Nat) : Int) :=
  (File.seek_inside_file 4 (by decide) sixByteReader sixByteImage 0 [0, 1]
    [1, 2, 3, 4, 5, 6]
    ⟨⟨by decide!, by decide!, by decide!, by decide!, by decide!⟩, by decide!⟩
    (by decide!) (by decide!)).2.1 5 (by decide)

/-! ## Truncation -/

theorem pred_div_of_dvd {S n : Nat} (hS : 0 < S) (hn : 0 < n) (hmod : n % S = 0) :
    (n - 1) / S = n / S - 1 := by
  have hdm := Nat.div_add_mod' n S
  have hq : 1 ≤ n / S := by
    rcases Nat.eq_zero_or_pos (n / S) with h0 | h0
    · rw [h0] at hdm
      omega
    · exact h0
  apply Nat.div_eq_of_lt_le
  · have : (n / S - 1) * S + S = n / S * S := by
      have h1 : n / S = (n / S - 1) + 1 := by omega
      nth_rewrite 2 [h1]
      rw [Nat.succ_mul]
    omega
  · have : n / S - 1 + 1 = n / S := by omega
    rw [this]
    omega

theorem pred_div_of_rest {S n : Nat} (hS : 0 < S) (hmod : n % S ≠ 0) :
    (n - 1) / S = n / S := by
  have hdm := Nat.div_add_mod' n S
  have hml := Nat.mod_lt n hS
  apply Nat.div_eq_of_lt_le
  · omega
  · rw [Nat.succ_mul]
    omega

theorem IsChain.cut {io io1 : Volume} : ∀ {ks : List Nat} {b : Nat} (j x : Nat),
    IsChain io b ks → ks[j]? = some x →
    (∀ i k, i < j → ks[i]? = some k → (io1.store k).next = (io.store k).next) →
    (io1.store x).next = x → IsChain io1 b (ks.take (j + 1))
  | [], _, _, _, h, _, _, _ => absurd h (by simp [IsChain])
  | [k0], b, 0, x, h, hx, _, hself => by
    simp at hx
    subst hx
    exact ⟨h.1, hself⟩
  | [k0], b, j + 1, x, h, hx, _, _ => by simp at hx
  | k0 :: k1 :: ks, b, 0, x, h, hx, _, hself => by
    simp at hx
    subst hx
    exact ⟨h.1, hself⟩
  | k0 :: k1 :: ks, b, j + 1, x, h, hx, hsame, hself => by
    have hx1 : (k1 :: ks)[j]? = some x := by simpa using hx
    have ih := IsChain.cut j x h.2.2.2 hx1
      (fun i k hi hk => hsame (i + 1) k (by omega) (by simpa using hk)) hself
    have h0 := hsame 0 k0 (by omega) (by simp)
    have htake : (k0 :: k1 :: ks).take (j + 1 + 1) = k0 :: k1 :: ks.take j := by
      simp [List.take]
    have htake1 : (k1 :: ks).take (j + 1) = k1 :: ks.take j := by simp [List.take]
    rw [htake]
    rw [htake1] at ih
    exact ⟨h.1, by rw [h0]; exact h.2.1, h.2.2.1, ih⟩

/-- The image after block `x` got the size `sz` and itself as next block. -/
theorem truncated_store (io : Volume) (x sz : Nat) :
    ((FileBlock.openAt x).setNextIndex ((FileBlock.openAt x).setSize io sz) x).store x =
        { bytesWritten := sz, next := x, data := (io.store x).data } ∧
    (∀ k, k ≠ x →
      ((FileBlock.openAt x).setNextIndex ((FileBlock.openAt x).setSize io sz) x).store k =
        io.store k) ∧
    ((FileBlock.openAt x).setNextIndex ((FileBlock.openAt x).setSize io sz) x).bitmap =
      io.bitmap ∧
    ((FileBlock.openAt x).setNextIndex ((FileBlock.openAt x).setSize io sz) x).blocks =
      io.blocks ∧
    ((FileBlock.openAt x).setNextIndex ((FileBlock.openAt x).setSize io sz) x).freeBlocks =
      io.freeBlocks := by
  refine ⟨?_, ?_, rfl, rfl, rfl⟩
  · simp [FileBlock.setNextIndex, FileBlock.setSize, FileBlock.openAt]
  · intro k hk
    simp [FileBlock.setNextIndex, FileBlock.setSize, FileBlock.openAt, hk]

theorem File.truncate_eq {S : Nat} (hS : 0 < S) {f : File} {io : Volume} {b : Nat}
    {ks : List Nat} (hstart : f.m_startVolumeBlock = b) (hchain : IsChain io b ks)
    (hin : ∀ k ∈ ks, k < io.blocks) {n x : Nat} (hn : 0 < n)
    (hn63 : n < 9223372036854775808) (hx : ks[(n - 1) / S]? = some x) :
    ∃ f1, f.truncate S io (n : Int) =
        Res.ok () f1
          ((FileBlock.openAt x).setNextIndex
            ((FileBlock.openAt x).setSize io (n - (n - 1) / S * S)) x) ∧
      f1.m_fileSize = f.m_fileSize ∧ f1.m_startVolumeBlock = f.m_startVolumeBlock ∧
      f1.m_pos = f.m_pos ∧ f1.m_openDisposition = f.m_openDisposition := by
  have hg := File.getBlockWithIndex_spec f hstart hchain hin hx
  unfold File.truncate
  by_cases hlt : n < S
  · have hj : (n - 1) / S = 0 := Nat.div_eq_of_lt (by omega)
    have hcond : (n : Int) < (S : Int) := by omega
    rw [hj] at hg
    simp only [hcond, if_true, hg, Int.toNat_ofNat, hj, Nat.zero_mul, Nat.sub_zero,
      FileBlock.getIndex, FileBlock.openAt]
    exact ⟨f, rfl, rfl, rfl, rfl, rfl⟩
  · have hcond : ¬ ((n : Int) < (S : Int)) := by omega
    have hdm := Nat.div_add_mod' n S
    have hq : 1 ≤ n / S := (Nat.one_le_div_iff hS).mpr (by omega)
    have hqn : n / S ≤ n := Nat.div_le_self n S
    simp only [hcond, if_false, ← Int.ofNat_tmod, tdiv_rounded, Int.toNat_ofNat]
    by_cases hmod : n % S = 0
    · have hj := pred_div_of_dvd hS hn hmod
      have hwrap : (n / S + 18446744073709551615) % 18446744073709551616 = n / S - 1 := by
        omega
      have hsz : n - (n / S - 1) * S = S := by
        have h1 : n / S = (n / S - 1) + 1 := by omega
        have : n / S * S = (n / S - 1) * S + S := by
          nth_rewrite 1 [h1]
          rw [Nat.succ_mul]
        omega
      rw [hj] at hg
      simp only [hmod, Nat.cast_zero, if_true, hwrap, hg, hj, hsz, FileBlock.getIndex,
        FileBlock.openAt]
      exact ⟨_, rfl, rfl, rfl, rfl, rfl⟩
    · have hj := pred_div_of_rest hS hmod
      have hne : ¬ (((n % S : Nat) : Int) = 0) := by omega
      have hsz : n - n / S * S = n % S := by omega
      rw [hj] at hg
      simp only [hne, if_false, hg, hj, hsz, FileBlock.getIndex, FileBlock.openAt]
      exact ⟨_, rfl, rfl, rfl, rfl, rfl⟩

theorem take_index {α : Type} {l : List α} {m i : Nat} {k : α}
    (h : (l.take m)[i]? = some k) : i < m ∧ l[i]? = some k := by
  by_cases hi : i < m
  · rw [List.getElem?_take_of_lt hi] at h
    exact ⟨hi, h⟩
  · rw [List.getElem?_take_eq_none (by omega)] at h
    cases h

theorem Stored.truncate {S : Nat} (hS : 0 < S) {io : Volume} {b : Nat} {ks : List Nat}
    {C : List Byte} (hst : Stored S io b ks C) {n x : Nat} (hn : 0 < n)
    (hnC : n ≤ C.length) (hx : ks[(n - 1) / S]? = some x) :
    Stored S
      ((FileBlock.openAt x).setNextIndex
        ((FileBlock.openAt x).setSize io (n - (n - 1) / S * S)) x)
      b (ks.take ((n - 1) / S + 1)) (C.take n) := by
  obtain ⟨hsx, hso, _, hblocks, _⟩ := truncated_store io x (n - (n - 1) / S * S)
  have hlo : (n - 1) / S * S ≤ n - 1 := Nat.div_mul_le_self _ _
  have hhi : n - 1 < ((n - 1) / S + 1) * S := by
    have h1 := Nat.div_add_mod' (n - 1) S
    have h2 := Nat.mod_lt (n - 1) hS
    rw [Nat.succ_mul]
    omega
  have hjlt : (n - 1) / S < ks.length := lt_length_of_getElem? hx
  generalize hj : (n - 1) / S = j at *
  rw [Nat.succ_mul] at hhi
  have hlen : (C.take n).length = n := by
    rw [List.length_take]
    omega
  have hne : ∀ i k, i < j → ks[i]? = some k → k ≠ x := by
    intro i k hi hk hkx
    subst hkx
    have := index_unique hst.laid.chain hk hx
    omega
  have htl : (ks.take (j + 1)).length = j + 1 := by
    rw [List.length_take]
    omega
  refine ⟨Laid.mk_at ?_ ?_ ?_ ?_ ?_, ?_⟩
  · refine IsChain.cut j x hst.laid.chain hx ?_ ?_
    · intro i k hi hk
      rw [hso k (hne i k hi hk)]
    · rw [hsx]
  · intro k hk
    rw [hblocks]
    exact hst.laid.inside k (List.mem_of_mem_take hk)
  · intro i k hk
    obtain ⟨hi, hk1⟩ := take_index hk
    rw [hlen]
    by_cases hij : i = j
    · subst hij
      have hkx : k = x := by
        rw [hx] at hk1
        exact (Option.some.inj hk1).symm
      subst hkx
      rw [hsx]
      simp only
      omega
    · have hi2 : i < j := by omega
      rw [hso k (hne i k hi2 hk1), hst.laid.size_at hk1]
      have := mul_step S hi2
      omega
  · intro i k t hk ht
    obtain ⟨hi, hk1⟩ := take_index hk
    rw [hlen] at ht
    have hdata : (((FileBlock.openAt x).setNextIndex
        ((FileBlock.openAt x).setSize io (n - j * S)) x).store k).data = (io.store k).data := by
      by_cases hkx : k = x
      · subst hkx
        rw [hsx]
      · rw [hso k hkx]
    rw [hdata]
    have hidx : i * S + t < n := by
      by_cases hij : i = j
      · subst hij
        omega
      · have := mul_step S (show i < j by omega)
        omega
    rw [List.getElem?_take_of_lt hidx]
    exact hst.laid.byte_at hk1 (by omega)
  · rw [hlen, htl, Nat.succ_mul]
    omega
  · rw [hlen, htl]
    by_cases hj0 : j = 0
    · left
      omega
    · right
      simp only [Nat.add_sub_cancel]
      omega

/-! ## Claims C14 and C15: `truncate` -/

/-- Claim C14 at a failing input, with four payload bytes per block.  No path of
`truncate` assigns `m_fileSize`: for every handle and every new size,
`fileSize()` after `truncate` is what it was before.  On a handle opened with
the Overwrite disposition on the six-byte example file, `truncate(2)` returns
and a file opened afterwards at the same start block reports the size 2, but
`fileSize()` on the handle that truncated is still 6. -/
theorem C14_truncate_leaves_file_size_stale :
    (∀ (S : Nat) (f : File) (io : Volume) (n : Int),
      (f.truncate S io n).file.fileSize = f.fileSize) ∧
    sixByteWriter.fileSize = 6 ∧
    (sixByteWriter.truncate 4 sixByteImage 2).fault? = none ∧
    (sixByteWriter.truncate 4 sixByteImage 2).file.fileSize = 6 ∧
    (File.openExisting 4 (sixByteWriter.truncate 4 sixByteImage 2).image 0
      OpenDisposition.buildReadOnlyDisposition).file.fileSize = 2 := by
  refine ⟨?_, by decide!, by decide!, by decide!, by decide!⟩
  intro S f io n
  unfold File.truncate
  simp only
  split
  · split
    · rfl
    · rfl
  · split
    · rfl
    · rfl

/-- Claim C15.  For a file with content `C` stored as the dense chain `ks`, a handle on it
and `0 < n <= |C|` (`n` a `streamoff`, below 2^63): `truncate(n)` returns and
changes no occupancy bit; afterwards the file is stored as the dense chain of
the first `(n - 1) / S + 1` blocks of `ks`, which is `ceil(n / S)` blocks, with
the content `C[0 .. n)`; the last of these blocks is its own next block; and a
file opened read-only at the same start block reports the size `n`, the block
count `(n - 1) / S + 1`, and returns the first `m` bytes of `C[0 .. n)` for a
read of `m < 2^32` bytes. -/
theorem C15_truncate_keeps_prefix (S : Nat) (hS : 0 < S) (hS32 : S < 4294967296) (f : File)
    (io : Volume) (b : Nat) (ks : List Nat) (C : List Byte) (n : Nat)
    (hst : Stored S io b ks C) (hstart : f.m_startVolumeBlock = b) (hn : 0 < n)
    (hnC : n ≤ C.length) (hn63 : n < 9223372036854775808) :
    ∃ f1 io1 x, f.truncate S io (n : Int) = Res.ok () f1 io1 ∧ io1.bitmap = io.bitmap ∧
      Stored S io1 b (ks.take ((n - 1) / S + 1)) (C.take n) ∧
      (ks.take ((n - 1) / S + 1)).length = (n - 1) / S + 1 ∧
      (n - 1) / S * S < n ∧ n ≤ ((n - 1) / S + 1) * S ∧
      ks[(n - 1) / S]? = some x ∧ (io1.store x).next = x ∧
      ∀ (ro : OpenDisposition) (m : Nat), ro.readWrite = ReadOrWriteOrBoth.ReadOnly →
        m < 4294967296 →
        ∃ g g1, File.openExisting S io1 b ro = Res.ok () g io1 ∧ g.fileSize = n ∧
          g.m_blockCount = (n - 1) / S + 1 ∧
          g.read io1 m = Res.ok (min m n, (C.take n).take m) g1 io1 := by
  have hlo : (n - 1) / S * S ≤ n - 1 := Nat.div_mul_le_self _ _
  have hhi : n - 1 < ((n - 1) / S + 1) * S := by
    have h1 := Nat.div_add_mod' (n - 1) S
    have h2 := Nat.mod_lt (n - 1) hS
    rw [Nat.succ_mul]
    omega
  have hfits := hst.laid.fits
  have hjlt : (n - 1) / S < ks.length := by
    have : (n - 1) / S * S < ks.length * S := by omega
    exact Nat.lt_of_mul_lt_mul_right this
  have hx : ks[(n - 1) / S]? = some (ks[(n - 1) / S]) := List.getElem?_eq_getElem hjlt
  obtain ⟨f1, hres, _⟩ :=
    File.truncate_eq hS hstart hst.laid.chain hst.laid.inside hn hn63 hx
  have hst1 := hst.truncate hS hn hnC hx
  obtain ⟨hsx, _, hbm, _, _⟩ := truncated_store io (ks[(n - 1) / S]) (n - (n - 1) / S * S)
  have hlen : (C.take n).length = n := by
    rw [List.length_take]
    omega
  have htl : (ks.take ((n - 1) / S + 1)).length = (n - 1) / S + 1 := by
    rw [List.length_take]
    omega
  refine ⟨f1, _, ks[(n - 1) / S], hres, hbm, hst1, htl, by omega, by omega, hx, ?_, ?_⟩
  · rw [hsx]
  · intro ro m hro hm
    obtain ⟨g, g1, ho, hs, hc, hr⟩ := hst1.reopen_read hS hS32 ro hro hm
    rw [hlen] at hs hr
    rw [htl] at hc
    exact ⟨g, g1, ho, hs, hc, hr⟩

/-- Witness for C15, with four payload bytes per block: the six-byte example file is
truncated to five bytes. -/
theorem C15_truncate_keeps_prefix_witness :
    ∃ f1 io1 x, sixByteWriter.truncate 4 sixByteImage ((5 : Nat) : Int) = Res.ok () f1 io1 ∧
      io1.bitmap = sixByteImage.bitmap ∧
      Stored 4 io1 0 [0, 1] [1, 2, 3, 4, 5] ∧ [0, 1][1]? = some x ∧
      (io1.store x).next = x :=
  have h := C15_truncate_keeps_prefix 4 (by decide) (by decide) sixByteWriter sixByteImage 0
    [0, 1] [1, 2, 3, 4, 5, 6] 5
    ⟨⟨by decide!, by decide!, by decide!, by decide!, by decide!⟩, by decide!⟩
    (by decide!) (by decide) (by decide) (by decide)
  match h with
  | ⟨f1, io1, x, h1, h2, h3, _, _, _, h7, h8, _⟩ => ⟨f1, io1, x, h1, h2, h3, h7, h8⟩

/-! ## Claims C16 to C20: `ContentFolder` at concrete folders -/

/-- Claim C16 at a failing input, with 15 payload bytes per block and records of 11 bytes.
The folder `folderWithABC` holds the live files `a`, `b`, `c` in the records 0,
1, 2 and no tombstone: its body is the 41 bytes shown, and its counts are 3.
`removeFile(c)`, for the file in the record 2, returns false, and the
`addFile(d)` that follows appends a record: `getTotalEntryCount()` and the
count in the header are 4 afterwards, the record of `d` is the record 3 and the
record of `c` is still in use. -/
theorem C16_record_at_block_boundary_is_not_reused :
    folderWithABC.value? = some () ∧
    (File.openRead 15 folderWithABC.image 0 41).value? =
      some (41, [3, 0, 0, 0, 0, 0, 0, 0,
                 3, 97, 0, 1, 0, 0, 0, 0, 0, 0, 0,
                 3, 98, 0, 3, 0, 0, 0, 0, 0, 0, 0,
                 3, 99, 0, 4, 0, 0, 0, 0, 0, 0, 0]) ∧
    folderWithABC.folder.getTotalEntryCount = 3 ∧
    folderWithABC.folder.getAliveEntryCount = 3 ∧
    folderWithABCRemove.value? = some false ∧
    folderWithABCThenD.value? = some () ∧
    folderWithABCThenD.folder.getTotalEntryCount = 4 ∧
    getNumberOfEntries folderWithABCThenD.folder.m_folderData folderWithABCThenD.image = 4 ∧
    (File.openRead 15 folderWithABCThenD.image 0 52).value? =
      some (52, [4, 0, 0, 0, 0, 0, 0, 0,
                 3, 97, 0, 1, 0, 0, 0, 0, 0, 0, 0,
                 3, 98, 0, 3, 0, 0, 0, 0, 0, 0, 0,
                 3, 99, 0, 4, 0, 0, 0, 0, 0, 0, 0,
                 3, 100, 0, 6, 0, 0, 0, 0, 0, 0, 0]) := by
  refine ⟨by decide!, by decide!, by decide!, by decide!, by decide!, by decide!, by decide!,
    by decide!, by decide!⟩

/-- Claim C17 at a failing input, with 15 payload bytes per block and records of 11 bytes.
After `addFile` of `a`, `b`, `c` on a new folder, whose start blocks are 1, 3
and 4, `getEntryInfo(0)` and `getEntryInfo(1)` return the names, the type and
the first blocks of `a` and `b`, but `getEntryInfo(2)` returns the empty name,
the folder type and a first block that no image has: the record 2 starts at the
byte 30 of the body, and `seek(30)` goes to the byte 15. -/
theorem C17_record_at_block_boundary_is_misread :
    folderWithABC.value? = some () ∧
    (folderWithABC.folder.getEntryInfo 15 2 folderWithABC.image 0).value? =
      some { filename := [97], size := 0, type := EntryType.FileType, writable := true,
             firstFileBlock := 1, folderIndex := 0 } ∧
    (folderWithABC.folder.getEntryInfo 15 2 folderWithABC.image 1).value? =
      some { filename := [98], size := 0, type := EntryType.FileType, writable := true,
             firstFileBlock := 3, folderIndex := 1 } ∧
    (folderWithABC.folder.getEntryInfo 15 2 folderWithABC.image 2).value? =
      some { filename := [], size := 0, type := EntryType.FolderType, writable := true,
             firstFileBlock := 12891325184, folderIndex := 2 } ∧
    folderWithABC.folder.records 15 2 folderWithABC.image 3 =
      [some [3, 97, 0, 1, 0, 0, 0, 0, 0, 0, 0],
       some [3, 98, 0, 3, 0, 0, 0, 0, 0, 0, 0],
       some [0, 0, 0, 0, 3, 98, 0, 3, 0, 0, 0]] ∧
    getPositionFromBegin 15 30 = (1, 0) := by
  refine ⟨by decide!, by decide!, by decide!, by decide!, by decide!, by decide!⟩

/-- Claim C18 at a failing input, with 64 payload bytes per block and records of 11 bytes.
After `addFile(x)`, `addFile(y)`, `removeFile(x)` and
`updateMetaDataWithNewFilename(y, x)`, which return true, the record 0 is out
of use with the name `x` and the record 1 is the one live entry, a file named
`x` with the first block 2.  `removeFile(x)` returns true and frees the block
2, but the record it puts out of use is the record 0: the record 1 keeps its
in-use bit, `getEntryInfo(x)` is still present, and the number of live entries
`getAliveEntryCount()` is 0. -/
theorem C18_removeFile_clears_a_record_that_is_out_of_use :
    folderWithXRemoved.value? = some true ∧
    folderWithStaleName.value? = some true ∧
    folderWithStaleName.folder.records 64 2 folderWithStaleName.image 2 =
      [some [0, 120, 0, 1, 0, 0, 0, 0, 0, 0, 0],
       some [3, 120, 0, 2, 0, 0, 0, 0, 0, 0, 0]] ∧
    folderWithStaleName.folder.getAliveEntryCount = 1 ∧
    folderWithStaleName.image.bitmap 2 = true ∧
    staleNameRemoved.value? = some true ∧
    staleNameRemoved.image.bitmap 2 = false ∧
    staleNameRemoved.folder.records 64 2 staleNameRemoved.image 2 =
      [some [0, 120, 0, 1, 0, 0, 0, 0, 0, 0, 0],
       some [3, 120, 0, 2, 0, 0, 0, 0, 0, 0, 0]] ∧
    (staleNameRemoved.folder.doGetNamedEntryInfo 64 2 staleNameRemoved.image [120]).value? =
      some (some { filename := [120], size := 0, type := EntryType.FileType,
                   writable := true, firstFileBlock := 2, folderIndex := 1 }) ∧
    staleNameRemoved.folder.getAliveEntryCount = 0 := by
  refine ⟨by decide!, by decide!, by decide!, by decide!, by decide!, by decide!, by decide!,
    by decide!, by decide!, by decide!⟩

/-- Claim C19 at a failing input, with 64 payload bytes per block and records of 11 bytes.
In the folder `folderWithStaleName` the one live entry is the record 1, a file
named `x` with the first block 2, and the record 0 is out of use with the name
`x`.  `updateMetaDataWithNewFilename(x, z)` returns true, but the name it
rewrites is that of the record 0: afterwards `getEntryInfo(z)` is absent and
`getEntryInfo(x)` is still present. -/
theorem C19_rename_rewrites_a_record_that_is_out_of_use :
    folderWithStaleName.value? = some true ∧
    folderWithStaleName.folder.records 64 2 folderWithStaleName.image 2 =
      [some [0, 120, 0, 1, 0, 0, 0, 0, 0, 0, 0],
       some [3, 120, 0, 2, 0, 0, 0, 0, 0, 0, 0]] ∧
    (folderWithStaleName.folder.doGetNamedEntryInfo 64 2 folderWithStaleName.image
      [122]).value? = some none ∧
    staleNameRenamed.value? = some true ∧
    staleNameRenamed.folder.records 64 2 staleNameRenamed.image 2 =
      [some [0, 122, 0, 1, 0, 0, 0, 0, 0, 0, 0],
       some [3, 120, 0, 2, 0, 0, 0, 0, 0, 0, 0]] ∧
    (staleNameRenamed.folder.doGetNamedEntryInfo 64 2 staleNameRenamed.image [122]).value? =
      some none ∧
    (staleNameRenamed.folder.doGetNamedEntryInfo 64 2 staleNameRenamed.image [120]).value? =
      some (some { filename := [120], size := 0, type := EntryType.FileType,
                   writable := true, firstFileBlock := 2, folderIndex := 1 }) := by
  refine ⟨by decide!, by decide!, by decide!, by decide!, by decide!, by decide!, by decide!⟩

/-- Claim C20, counterexample, with 64 payload bytes per block and records of 11 bytes:
`addFile(x)` on a new folder and then `addFile(x)` again both return, and the
folder has two records in use with the name `x`. -/
theorem C20_addFile_of_a_live_name_adds_a_second_live_record :
    folderWithXX.value? = some () ∧
    folderWithXX.folder.getAliveEntryCount = 2 ∧
    folderWithXX.folder.records 64 2 folderWithXX.image 2 =
      [some [3, 120, 0, 1, 0, 0, 0, 0, 0, 0, 0],
       some [3, 120, 0, 2, 0, 0, 0, 0, 0, 0, 0]] := by
  refine ⟨by decide!, by decide!, by decide!⟩

/-! ## The body of a folder as a list of records -/

theorem convertUInt64ToInt8Array_length (n : Nat) : (convertUInt64ToInt8Array n).length = 8 := by
  simp [convertUInt64ToInt8Array]

theorem flatten_length_of_width {W : Nat} : ∀ {recs : List (List Byte)},
    (∀ r ∈ recs, r.length = W) → recs.flatten.length = recs.length * W
  | [], _ => by simp
  | r :: rs, h => by
    have h1 := h r (List.mem_cons_self _ _)
    have h2 := @flatten_length_of_width W rs (fun x hx => h x (List.mem_cons_of_mem _ hx))
    simp only [List.flatten_cons, List.length_append, List.length_cons, h1, h2, Nat.succ_mul]
    omega

theorem bodyOf_length {W : Nat} {hdr : List Byte} {recs : List (List Byte)}
    (hh : hdr.length = 8) (hw : ∀ r ∈ recs, r.length = W) :
    (bodyOf hdr recs).length = 8 + recs.length * W := by
  simp only [bodyOf, List.length_append, hh, flatten_length_of_width hw]

theorem folderBody_length {W : Nat} {recs : List (List Byte)}
    (hw : ∀ r ∈ recs, r.length = W) : (folderBody recs).length = 8 + recs.length * W :=
  bodyOf_length (convertUInt64ToInt8Array_length _) hw

theorem flatten_record {W : Nat} : ∀ {recs : List (List Byte)},
    (∀ r ∈ recs, r.length = W) → ∀ {i : Nat}, i < recs.length →
    (recs.flatten.drop (i * W)).take W = recs.getD i []
  | [], _, i, hi => by simp at hi
  | r :: rs, h, 0, _ => by
    have h1 := h r (List.mem_cons_self _ _)
    simp only [Nat.zero_mul, List.drop_zero, List.flatten_cons, List.getD_cons_zero]
    exact List.take_left' h1
  | r :: rs, h, i + 1, hi => by
    have h1 := h r (List.mem_cons_self _ _)
    have h2 := @flatten_record W rs (fun x hx => h x (List.mem_cons_of_mem _ hx)) i
      (by simpa using hi)
    have e : (i + 1) * W = r.length + i * W := by
      rw [Nat.succ_mul, h1]
      omega
    simp only [List.flatten_cons, List.getD_cons_succ, e, List.drop_append]
    exact h2

theorem bodyOf_record {W : Nat} {hdr : List Byte} {recs : List (List Byte)}
    (hh : hdr.length = 8) (hw : ∀ r ∈ recs, r.length = W) {i : Nat} (hi : i < recs.length) :
    ((bodyOf hdr recs).drop (8 + i * W)).take W = recs.getD i [] := by
  unfold bodyOf
  rw [← hh, List.drop_append]
  exact flatten_record hw hi

theorem splice_left_pad (h F : List Byte) (p : Nat) (d : List Byte) :
    splice (h ++ F) (h.length + p) d = h ++ splice F p d := by
  unfold splice
  rw [List.take_append, Nat.add_assoc, List.drop_append]
  simp only [List.append_assoc]

theorem splice_right_pad (r F : List Byte) (o : Nat) (d : List Byte)
    (h : o + d.length ≤ r.length) : splice (r ++ F) o d = splice r o d ++ F := by
  unfold splice
  rw [List.take_append_of_le_length (by omega), List.drop_append_of_le_length h]
  simp only [List.append_assoc]

theorem splice_flatten {W : Nat} (o : Nat) (d : List Byte) (hod : o + d.length ≤ W) :
    ∀ {recs : List (List Byte)}, (∀ r ∈ recs, r.length = W) → ∀ {i : Nat}, i < recs.length →
    splice recs.flatten (i * W + o) d = (recs.set i (splice (recs.getD i []) o d)).flatten
  | [], _, i, hi => by simp at hi
  | r :: rs, h, 0, _ => by
    have h1 := h r (List.mem_cons_self _ _)
    simp only [Nat.zero_mul, Nat.zero_add, List.flatten_cons, List.getD_cons_zero,
      List.set_cons_zero]
    exact splice_right_pad r _ o d (by omega)
  | r :: rs, h, i + 1, hi => by
    have h1 := h r (List.mem_cons_self _ _)
    have h2 := @splice_flatten W o d hod rs (fun x hx => h x (List.mem_cons_of_mem _ hx)) i
      (by simpa using hi)
    have e : (i + 1) * W + o = r.length + (i * W + o) := by
      rw [Nat.succ_mul, h1]
      omega
    simp only [List.flatten_cons, List.getD_cons_succ, List.set_cons_succ, e, splice_left_pad,
      h2]

theorem bodyOf_splice {W : Nat} {hdr : List Byte} {recs : List (List Byte)}
    (hh : hdr.length = 8) (hw : ∀ r ∈ recs, r.length = W) {i : Nat} (hi : i < recs.length)
    (o : Nat) (d : List Byte) (hod : o + d.length ≤ W) :
    splice (bodyOf hdr recs) (8 + i * W + o) d =
      bodyOf hdr (recs.set i (splice (recs.getD i []) o d)) := by
  unfold bodyOf
  rw [← hh, Nat.add_assoc, splice_left_pad, splice_flatten o d hod hw hi]

theorem bodyOf_snoc (hdr : List Byte) (recs : List (List Byte)) (r : List Byte) :
    bodyOf hdr recs ++ r = bodyOf hdr (recs ++ [r]) := by
  simp [bodyOf]

theorem width_set {W : Nat} {recs : List (List Byte)} (hw : ∀ r ∈ recs, r.length = W)
    (i : Nat) {r : List Byte} (hr : r.length = W) : ∀ x ∈ recs.set i r, x.length = W := by
  intro x hx
  rcases List.mem_or_eq_of_mem_set hx with h | h
  · exact hw x h
  · rw [h, hr]

theorem width_snoc {W : Nat} {recs : List (List Byte)} (hw : ∀ r ∈ recs, r.length = W)
    {r : List Byte} (hr : r.length = W) : ∀ x ∈ recs ++ [r], x.length = W := by
  intro x hx
  rcases List.mem_append.mp hx with h | h
  · exact hw x h
  · simp at h
    rw [h, hr]

theorem getD_width {W : Nat} {recs : List (List Byte)} (hw : ∀ r ∈ recs, r.length = W)
    {i : Nat} (hi : i < recs.length) : (recs.getD i []).length = W := by
  rw [List.getD_eq_getElem _ _ hi]
  exact hw _ (List.getElem_mem _)

/-! ## Records and live names -/

theorem entryRecord_length {M : Nat} {name : List Byte} (hn : name.length < M)
    (entryType : EntryType) (startBlock : Nat) :
    (entryRecord M name entryType startBlock).length = 1 + M + 8 := by
  simp only [entryRecord, List.length_append, List.length_singleton, List.length_replicate,
    convertUInt64ToInt8Array_length]
  omega

theorem entryRecord_enabled (M : Nat) (name : List Byte) (entryType : EntryType)
    (startBlock : Nat) :
    entryMetaDataIsEnabled (entryRecord M name entryType startBlock) = true := by
  cases entryType <;> simp [entryRecord, entryMetaDataIsEnabled] <;> decide

theorem takeWhile_name (name : List Byte) (h0 : (0 : Byte) ∉ name) (rest : List Byte) :
    (name ++ (0 : Byte) :: rest).takeWhile (fun c => c ≠ 0) = name := by
  induction name with
  | nil => simp
  | cons a as ih =>
    have ha : a ≠ 0 := fun h => h0 (by simp [h])
    have has : (0 : Byte) ∉ as := fun h => h0 (List.mem_cons_of_mem _ h)
    have hp : (fun c : Byte => decide (c ≠ 0)) a = true := decide_eq_true ha
    rw [List.cons_append, List.takeWhile_cons, if_pos hp, ih has]

theorem getEntryName_of_fields (flag : Byte) (name : List Byte) (M : Nat)
    (hn : name.length < M) (h0 : (0 : Byte) ∉ name) (tail : List Byte) (ht : tail.length = 8) :
    getEntryName ([flag] ++ ((name ++ List.replicate (M - name.length) 0) ++ tail)) = name := by
  have hrep : List.replicate (M - name.length) (0 : Byte) =
      0 :: List.replicate (M - name.length - 1) 0 := by
    have : M - name.length = (M - name.length - 1) + 1 := by omega
    conv_lhs => rw [this, List.replicate_succ]
  have hlen : (name ++ List.replicate (M - name.length) (0 : Byte)).length = M := by
    simp only [List.length_append, List.length_replicate]
    omega
  unfold getEntryName
  have e1 : ([flag] ++ ((name ++ List.replicate (M - name.length) 0) ++ tail)).length - 9
      = (name ++ List.replicate (M - name.length) (0 : Byte)).length := by
    simp only [List.length_append, List.length_singleton, List.length_replicate, ht]
    omega
  rw [e1]
  simp only [List.singleton_append, List.drop_succ_cons, List.drop_zero]
  rw [List.take_left' rfl, hrep]
  exact takeWhile_name name h0 _

theorem entryRecord_name {M : Nat} {name : List Byte} (hn : name.length < M)
    (h0 : (0 : Byte) ∉ name) (entryType : EntryType) (startBlock : Nat) :
    getEntryName (entryRecord M name entryType startBlock) = name :=
  getEntryName_of_fields _ name M hn h0 _ (convertUInt64ToInt8Array_length _)

theorem liveNames_append (a b : List (List Byte)) :
    liveNames (a ++ b) = liveNames a ++ liveNames b := by
  simp [liveNames]

theorem liveNames_single (r : List Byte) :
    liveNames [r] = if entryMetaDataIsEnabled r then [getEntryName r] else [] := by
  by_cases h : entryMetaDataIsEnabled r = true <;> simp [liveNames, h]

theorem split_at {recs : List (List Byte)} {i : Nat} (hi : i < recs.length) :
    recs = recs.take i ++ (recs.getD i [] :: recs.drop (i + 1)) := by
  rw [List.getD_eq_getElem _ _ hi]
  simp

theorem set_at {recs : List (List Byte)} {i : Nat} (hi : i < recs.length) (r : List Byte) :
    recs.set i r = recs.take i ++ (r :: recs.drop (i + 1)) := by
  rw [List.set_eq_take_append_cons_drop, if_pos hi]

theorem liveNames_split {recs : List (List Byte)} {i : Nat} (hi : i < recs.length) :
    liveNames recs =
      liveNames (recs.take i) ++ (liveNames [recs.getD i []] ++ liveNames (recs.drop (i + 1))) := by
  conv_lhs => rw [split_at hi]
  rw [liveNames_append, ← List.singleton_append, liveNames_append]

theorem liveNames_set {recs : List (List Byte)} {i : Nat} (hi : i < recs.length)
    (r : List Byte) :
    liveNames (recs.set i r) =
      liveNames (recs.take i) ++ (liveNames [r] ++ liveNames (recs.drop (i + 1))) := by
  rw [set_at hi, liveNames_append, ← List.singleton_append, liveNames_append]

/-- Replacing a record by one that is out of use, or by one in use whose name is not
live, keeps the live names distinct. -/
theorem liveNames_set_nodup {recs : List (List Byte)} {i : Nat} (hi : i < recs.length)
    (hnd : (liveNames recs).Nodup) (r : List Byte)
    (hr : entryMetaDataIsEnabled r = true → getEntryName r ∉ liveNames recs) :
    (liveNames (recs.set i r)).Nodup := by
  rw [liveNames_split hi] at hnd hr
  rw [liveNames_set hi]
  have hAB : (liveNames (recs.take i) ++ liveNames (recs.drop (i + 1))).Nodup := by
    refine hnd.sublist ?_
    exact List.Sublist.append (List.Sublist.refl _) (List.sublist_append_right _ _)
  rw [liveNames_single r]
  by_cases h : entryMetaDataIsEnabled r = true
  · simp only [h, if_true, List.singleton_append]
    rw [List.nodup_middle]
    refine List.nodup_cons.mpr ⟨?_, hAB⟩
    intro hmem
    apply hr h
    rcases List.mem_append.mp hmem with h1 | h1
    · exact List.mem_append_left _ h1
    · exact List.mem_append_right _ (List.mem_append_right _ h1)
  · simp only [h, Bool.false_eq_true, if_false, List.nil_append]
    exact hAB

theorem splice_whole (r d : List Byte) (h : d.length = r.length) : splice r 0 d = d := by
  rw [splice_at_start, h, List.drop_length, List.append_nil]

theorem splice_flag_disabled (r : List Byte) :
    entryMetaDataIsEnabled (splice r 0 [0]) = false := by
  rw [splice_at_start]
  simp [entryMetaDataIsEnabled]
  decide

theorem splice_name_enabled (r v : List Byte) (hr : 1 ≤ r.length) :
    entryMetaDataIsEnabled (splice r 1 v) = entryMetaDataIsEnabled r := by
  cases r with
  | nil => simp at hr
  | cons a as => simp [splice, entryMetaDataIsEnabled]

theorem splice_name_name {M : Nat} (r : List Byte) (hr : r.length = 1 + M + 8)
    {name : List Byte} (hn : name.length < M) (h0 : (0 : Byte) ∉ name) :
    getEntryName (splice r 1 (name ++ List.replicate (M - name.length) 0)) = name := by
  cases r with
  | nil => simp at hr
  | cons a as =>
    have hv : (name ++ List.replicate (M - name.length) (0 : Byte)).length = M := by
      simp only [List.length_append, List.length_replicate]
      omega
    have e : splice (a :: as) 1 (name ++ List.replicate (M - name.length) 0) =
        [a] ++ ((name ++ List.replicate (M - name.length) 0) ++ as.drop M) := by
      simp only [splice, hv, List.take_succ_cons, List.take_zero, List.append_assoc,
        List.singleton_append, List.cons_append, List.nil_append]
      congr 2
      rw [Nat.add_comm]
      rfl
    rw [e]
    refine getEntryName_of_fields a name M hn h0 _ ?_
    simp only [List.length_drop]
    simp only [List.length_cons] at hr
    omega

/-! ## Reading the records of a folder -/

theorem record_offset {M i L : Nat} (hin : 8 + i * (1 + M + 8) + (1 + M + 8) ≤ L)
    (h32 : L < 4294967296) :
    (1 + M + 8) % 4294967296 = 1 + M + 8 ∧
    (8 + i % 4294967296 * (1 + M + 8) % 4294967296) % 4294967296 = 8 + i * (1 + M + 8) := by
  have hiW : i ≤ i * (1 + M + 8) := Nat.le_mul_of_pos_right i (by omega)
  have hi : i % 4294967296 = i := Nat.mod_eq_of_lt (by omega)
  rw [hi]
  generalize i * (1 + M + 8) = p at *
  omega

theorem doSeekAndReadOfEntryMetaData_spec {S M : Nat} (hS : 0 < S) (hS32 : S < 4294967296)
    {f : File} {io : Volume} {b : Nat} {ks : List Nat} {C : List Byte}
    (hst : Stored S io b ks C) (hstart : f.m_startVolumeBlock = b)
    (hcount : f.m_blockCount = ks.length)
    (hmode : f.m_openDisposition.readWrite ≠ ReadOrWriteOrBoth.WriteOnly) {i : Nat}
    (hin : 8 + i * (1 + M + 8) + (1 + M + 8) ≤ C.length) (h32 : C.length < 4294967296)
    (hgood : (8 + i * (1 + M + 8)) % S ≠ 0) :
    doSeekAndReadOfEntryMetaData S M f io i =
      Except.ok ((C.drop (8 + i * (1 + M + 8))).take (1 + M + 8)) := by
  obtain ⟨hW, hoff⟩ := record_offset hin h32
  have hlen : 0 < ks.length := List.length_pos.mpr hst.laid.chain.ne_nil
  obtain ⟨j, c, hpair, hj, hc, hjc⟩ :=
    seek_target (S := S) (k := 8 + i * (1 + M + 8)) (by omega) hst.laid.fits hlen
      (Or.inr hgood)
  have hx : ks[j]? = some (ks.getD j 0) := by
    rw [List.getD_eq_getElem?_getD, List.getElem?_eq_getElem hj]
    rfl
  have hseek := File.seek_beg_eq hstart hst.laid.chain hst.laid.inside hcount hpair hx
  have hcS : c < S := by
    rcases Nat.lt_or_ge c S with h | h
    · exact h
    · exfalso
      have hcS : c = S := by omega
      apply hgood
      rw [← hjc, hcS]
      have : j * S + S = (j + 1) * S := by rw [Nat.succ_mul]
      rw [this]
      exact Nat.mul_mod_left _ _
  have hr : Reader S
      (File.mk f.m_enforceStartBlock f.m_fileSize (some (FileBlock.mk (ks.getD j 0) c))
        f.m_buffer f.m_startVolumeBlock j f.m_openDisposition
        ((8 + i * (1 + M + 8) : Nat) : Int) f.m_blockCount) io b ks C j c :=
    ⟨hst, hstart, hcount, rfl, rfl, hj, hc, by omega, Or.inl hcS⟩
  obtain ⟨f1, i1, c1, hread, _⟩ :=
    File.read_spec hS hS32 (n := 1 + M + 8) (by omega) hr hmode
  have hne : ((8 + i * (1 + M + 8) : Nat) : Int) ≠ -1 := by omega
  have htake : ((C.drop (8 + i * (1 + M + 8))).take (1 + M + 8)).length = 1 + M + 8 := by
    simp only [List.length_take, List.length_drop]
    omega
  unfold doSeekAndReadOfEntryMetaData
  simp only [hW, hoff, hseek, hne, ne_eq, not_false_eq_true, if_true, hread, hjc]
  rw [List.take_left' htake]

/-! ## Writing a record -/

/-- Writing the entry count through the image stream replaces the header of the body. -/
theorem Laid.header_rewrite {S : Nat} (hS : 8 ≤ S) {io : Volume} {b : Nat}
    {ks : List Nat} {hdr : List Byte} {recs : List (List Byte)}
    (h : Laid S io b ks (bodyOf hdr recs)) (hh : hdr.length = 8) (n : Nat) :
    Laid S (writeFolderEntryCount io b n) b ks (bodyOf (convertUInt64ToInt8Array n) recs) := by
  have hl8 := convertUInt64ToInt8Array_length n
  have hlen : (bodyOf (convertUInt64ToInt8Array n) recs).length = (bodyOf hdr recs).length := by
    simp only [bodyOf, List.length_append, hl8, hh]
  have hget : ∀ p, 8 ≤ p → (bodyOf (convertUInt64ToInt8Array n) recs)[p]? =
      (bodyOf hdr recs)[p]? := by
    intro p hp
    simp only [bodyOf]
    rw [List.getElem?_append_right (by omega), List.getElem?_append_right (by omega), hl8, hh]
  apply Laid.mk_at
  · refine IsChain.congr ?_ h.chain
    intro k
    simp only [writeFolderEntryCount]
    split <;> rfl
  · exact h.inside
  · intro j k hk
    rw [hlen, ← h.size_at hk]
    simp only [writeFolderEntryCount]
    split <;> rfl
  · intro j k t hk ht
    rw [hlen] at ht
    have hold := h.byte_at hk ht
    by_cases hkb : k = b
    · have hj : j = 0 := index_unique h.chain hk (by rw [hkb]; exact h.chain.head_eq)
      subst hj
      simp only [Nat.zero_mul, Nat.zero_add] at hold ⊢
      by_cases ht8 : t < 8
      · simp only [writeFolderEntryCount, hkb, if_true, ht8]
        simp only [bodyOf]
        rw [List.getElem?_append_left (by omega), List.getD_eq_getElem?_getD,
          List.getElem?_eq_getElem (by omega)]
        rfl
      · simp only [writeFolderEntryCount, hkb, if_true, ht8, if_false]
        rw [hget t (by omega), hold, hkb]
    · have hj : j ≠ 0 := by
        intro hj
        subst hj
        rw [h.chain.head_eq] at hk
        exact hkb (Option.some.inj hk).symm
      have hjS : S ≤ j * S := Nat.le_mul_of_pos_left S (Nat.pos_of_ne_zero hj)
      simp only [writeFolderEntryCount, hkb, if_false]
      rw [hget _ (by omega), hold]
  · rw [hlen]
    exact h.fits

/-- One `write` of all of `d` by a writer: the bytes are spliced in at its position. -/
theorem Writer.write_one {S : Nat} (hS : 0 < S) (hS32 : S < 4294967296) {f : File}
    {io : Volume} {b : Nat} {ks : List Nat} {C : List Byte} {i c : Nat}
    (hw : Writer S f io b ks C i c) (d : List Byte) (hd32 : d.length ≤ 4294967296)
    (hcap : i * S + c + d.length ≤ (ks.length + freeCount io) * S) :
    ∃ f1 io1 nb i1 c1, f.write S io d d.length = Res.ok d.length f1 io1 ∧
      Writer S f1 io1 b (ks ++ nb) (splice C (i * S + c) d) i1 c1 ∧
      i1 * S + c1 = i * S + c + d.length ∧
      (ks ++ nb).length + freeCount io1 = ks.length + freeCount io ∧
      (∀ k, io1.bitmap k = (io.bitmap k || decide (k ∈ nb))) ∧
      ((ks.length = 1 ∨ (ks.length - 1) * S < C.length) →
        ((ks ++ nb).length = 1 ∨
          ((ks ++ nb).length - 1) * S < (splice C (i * S + c) d).length)) ∧
      (f.m_buffer = [] → f1.m_buffer = []) ∧
      (∀ k ∈ nb, io.bitmap k = false) ∧
      (∀ x, x ∉ ks → x ∉ nb → io1.store x = io.store x) ∧
      io1.blocks = io.blocks := by
  obtain ⟨f1, io1, nb, i1, c1, hres, hl⟩ :=
    File.write_spec hS hS32 (s := d) (n := d.length) (Nat.le_refl _) hd32 hw hcap
  have hwr := hl.writer
  have hnp := hl.newPos
  have hcn := hl.canonical
  simp only [List.drop_zero, Nat.sub_zero, List.take_length] at hwr hnp hcn
  refine ⟨f1, io1, nb, i1, c1, hres, hwr, hnp, hl.capacity, hl.bitmap, ?_,
    fun hb => File.write_buffer hres hb, hl.wasFree, hl.others, hl.blocks⟩
  intro hcan
  rw [splice_length C (i * S + c) d hw.within]
  apply hcn
  rcases hcan with h1 | h1
  · exact Or.inl h1
  · exact Or.inr (Nat.lt_of_lt_of_le h1 (Nat.le_max_left _ _))

/-- The three writes of a record by a writer: the record is spliced in at its position. -/
theorem Writer.write_record {S M : Nat} (hS : 0 < S) (hS32 : S < 4294967296) {f : File}
    {io : Volume} {b : Nat} {ks : List Nat} {C : List Byte} {i c : Nat}
    (hw : Writer S f io b ks C i c) (hbuf : f.m_buffer = [])
    (hcan : ks.length = 1 ∨ (ks.length - 1) * S < C.length) {name : List Byte}
    (hn : name.length < M) (hM : 1 + M + 8 ≤ 4294967296) (entryType : EntryType)
    (startBlock : Nat)
    (hcap : i * S + c + (1 + M + 8) ≤ (ks.length + freeCount io) * S) :
    ∃ f1 io1 f2 io2 f3 io3 nb i3 c3,
      f.write S io
        [setBitInByte (setBitInByte 0 0 true) 1 (decide (entryType = EntryType.FileType))] 1 =
        Res.ok 1 f1 io1 ∧
      f1.write S io1 (name ++ List.replicate (M - name.length) 0) M = Res.ok M f2 io2 ∧
      f2.write S io2 (convertUInt64ToInt8Array startBlock) 8 = Res.ok 8 f3 io3 ∧
      Writer S f3 io3 b (ks ++ nb)
        (splice C (i * S + c) (entryRecord M name entryType startBlock)) i3 c3 ∧
      ((ks ++ nb).length = 1 ∨ ((ks ++ nb).length - 1) * S <
        (splice C (i * S + c) (entryRecord M name entryType startBlock)).length) ∧
      f3.m_buffer = [] ∧
      (∀ k, io3.bitmap k = (io.bitmap k || decide (k ∈ nb))) ∧
      (ks ++ nb).length + freeCount io3 = ks.length + freeCount io ∧
      (∀ k ∈ nb, io.bitmap k = false) ∧
      (∀ x, x ∉ ks → x ∉ nb → io3.store x = io.store x) ∧
      io3.blocks = io.blocks := by
  have hvl : (name ++ List.replicate (M - name.length) (0 : Byte)).length = M := by
    simp only [List.length_append, List.length_replicate]
    omega
  have h8 := convertUInt64ToInt8Array_length startBlock
  obtain ⟨f1, io1, nb1, i1, c1, w1, hw1, hp1, hc1, hb1, hk1, hbf1, hf1, ho1, hbl1⟩ :=
    Writer.write_one hS hS32 hw
      [setBitInByte (setBitInByte 0 0 true) 1 (decide (entryType = EntryType.FileType))]
      (by simp) (by simp only [List.length_singleton]; omega)
  simp only [List.length_singleton] at w1 hp1
  obtain ⟨f2, io2, nb2, i2, c2, w2, hw2, hp2, hc2, hb2, hk2, hbf2, hf2, ho2, hbl2⟩ :=
    Writer.write_one hS hS32 hw1 (name ++ List.replicate (M - name.length) 0)
      (by rw [hvl]; omega) (by rw [hvl, hc1, hp1]; omega)
  rw [hvl] at w2 hp2
  obtain ⟨f3, io3, nb3, i3, c3, w3, hw3, hp3, hc3, hb3, hk3, hbf3, hf3, ho3, hbl3⟩ :=
    Writer.write_one hS hS32 hw2 (convertUInt64ToInt8Array startBlock)
      (by rw [h8]; omega) (by rw [h8, hc2, hc1, hp2, hp1]; omega)
  rw [h8] at w3 hp3
  have hcontent : splice (splice (splice C (i * S + c)
        [setBitInByte (setBitInByte 0 0 true) 1 (decide (entryType = EntryType.FileType))])
        (i1 * S + c1) (name ++ List.replicate (M - name.length) 0)) (i2 * S + c2)
        (convertUInt64ToInt8Array startBlock) =
      splice C (i * S + c) (entryRecord M name entryType startBlock) := by
    have e1 : i1 * S + c1 = i * S + c +
        [setBitInByte (setBitInByte 0 0 true) 1
          (decide (entryType = EntryType.FileType))].length := by
      simp only [List.length_singleton, hp1]
    rw [e1, splice_splice _ _ _ _ hw.within]
    have e2 : i2 * S + c2 = i * S + c +
        ([setBitInByte (setBitInByte 0 0 true) 1 (decide (entryType = EntryType.FileType))] ++
          (name ++ List.replicate (M - name.length) 0)).length := by
      simp only [List.length_append, List.length_singleton, hvl, hp2, hp1]
      omega
    rw [e2, splice_splice _ _ _ _ hw.within]
    simp only [entryRecord, List.append_assoc]
  rw [hcontent] at hw3 hk3
  refine ⟨f1, io1, f2, io2, f3, io3, nb1 ++ (nb2 ++ nb3), i3, c3, w1, w2, w3, ?_, ?_,
    hbf3 (hbf2 (hbf1 hbuf)), ?_, ?_, ?_, ?_, hbl3.trans (hbl2.trans hbl1)⟩
  · simpa only [List.append_assoc] using hw3
  · simpa only [List.append_assoc] using hk3 (hk2 (hk1 hcan))
  · intro k
    rw [hb3, hb2, hb1]
    simp only [List.mem_append, Bool.decide_or, Bool.or_assoc]
  · simp only [List.append_assoc] at hc3 hc2
    rw [hc3, hc2, hc1]
  · intro k hk
    have e1 : ∀ y, io1.bitmap y = false → io.bitmap y = false := by
      intro y hy
      have := hb1 y
      rw [hy] at this
      cases hio : io.bitmap y with
      | false => rfl
      | true =>
        rw [hio] at this
        simp at this
    have e2 : ∀ y, io2.bitmap y = false → io1.bitmap y = false := by
      intro y hy
      have := hb2 y
      rw [hy] at this
      cases hio : io1.bitmap y with
      | false => rfl
      | true =>
        rw [hio] at this
        simp at this
    rcases List.mem_append.mp hk with h | h
    · exact hf1 k h
    · rcases List.mem_append.mp h with h | h
      · exact e1 k (hf2 k h)
      · exact e1 k (e2 k (hf3 k h))
  · intro x hx hnb
    have hx1 : x ∉ nb1 := fun h => hnb (List.mem_append.mpr (Or.inl h))
    have hx2 : x ∉ nb2 :=
      fun h => hnb (List.mem_append.mpr (Or.inr (List.mem_append.mpr (Or.inl h))))
    have hx3 : x ∉ nb3 :=
      fun h => hnb (List.mem_append.mpr (Or.inr (List.mem_append.mpr (Or.inr h))))
    have hk1 : x ∉ ks ++ nb1 := fun h => (List.mem_append.mp h).elim hx hx1
    have hk2 : x ∉ ks ++ nb1 ++ nb2 := fun h => (List.mem_append.mp h).elim hk1 hx2
    rw [ho3 x hk2 hx3, ho2 x hk1 hx2, ho1 x hx hx1]

/-! ## `doWriteNewMetaDataForEntry` -/

theorem File.lent_lent (f : File) : f.lent.lent = f.lent := by
  cases f with
  | mk enf sz wb buf st bi disp pos bc =>
    cases wb <;> rfl

/-! ## Images that agree on the blocks of a folder -/

theorem IsChain.same_on {io io1 : Volume} :
    ∀ {ks : List Nat} {b : Nat}, (∀ k ∈ ks, io1.store k = io.store k) →
      IsChain io b ks → IsChain io1 b ks
  | [], _, _, h => absurd h (by simp [IsChain])
  | [k], _, hs, h => ⟨h.1, by rw [hs k (List.mem_singleton_self k)]; exact h.2⟩
  | k :: k1 :: ks, _, hs, h =>
    ⟨h.1, by rw [hs k (List.mem_cons_self _ _)]; exact h.2.1, h.2.2.1,
      IsChain.same_on (fun x hx => hs x (List.mem_cons_of_mem _ hx)) h.2.2.2⟩

theorem Laid.agree_on {S : Nat} {io io1 : Volume} {b : Nat} {ks : List Nat} {C : List Byte}
    (h : Laid S io b ks C) (hs : ∀ k ∈ ks, io1.store k = io.store k)
    (hb : io1.blocks = io.blocks) : Laid S io1 b ks C := by
  have hmem : ∀ j, j < ks.length → ks.getD j 0 ∈ ks := by
    intro j hj
    rw [List.getD_eq_getElem _ _ hj]
    exact List.getElem_mem _
  refine ⟨IsChain.same_on hs h.chain, ?_, ?_, ?_, h.fits⟩
  · intro k hk
    rw [hb]
    exact h.inside k hk
  · intro j hj
    rw [hs _ (hmem j hj)]
    exact h.sizes j hj
  · intro j hj t ht
    rw [hs _ (hmem j hj)]
    exact h.bytes j hj t ht

theorem Stored.congr_on {S : Nat} {io io1 : Volume} {b : Nat} {ks : List Nat} {C : List Byte}
    (h : Stored S io b ks C) (hs : ∀ k ∈ ks, io1.store k = io.store k)
    (hb : io1.blocks = io.blocks) : Stored S io1 b ks C :=
  ⟨h.laid.agree_on hs hb, h.canonical⟩

/-- The first block of a new file leaves every other block as it was. -/
theorem Started.others_kept {S : Nat} {io : Volume} {a : Nat} {f1 : File} {io1 : Volume}
    (h : Started S io a f1 io1) : ∀ k, k ≠ a → io1.store k = io.store k := by
  have hres := h.result
  have hst := h.writer.start
  simp only [File.checkAndUpdateWorkingBlockWithNew, File.create, File.newWritableFileBlock,
    buildWritableFileBlock, Bool.false_eq_true, if_false] at hres
  cases hga : getNextAvailableBlock io with
  | none =>
    rw [hga] at hres
    cases hres
  | some a1 =>
    rw [hga] at hres
    simp only [FileBlock.registerBlockWithVolumeBitmap, FileBlock.getIndex] at hres
    injection hres with _ hf hio
    subst hf hio
    simp only at hst
    subst hst
    intro k hk
    simp [hk]

/-! ## Operations that leave the image as it is -/

/-- `unlink` writes to no block: it clears the bits of the chain it walks. -/
theorem File.unlink_frame (f : File) (io : Volume) :
    (f.unlink io).image.store = io.store ∧ (f.unlink io).image.blocks = io.blocks ∧
    ∀ k, (f.unlink io).image.bitmap k = true → io.bitmap k = true := by
  unfold File.unlink
  cases FileBlockIterator.blocksFrom io f.m_startVolumeBlock with
  | none => exact ⟨rfl, rfl, fun _ h => h⟩
  | some ks =>
    obtain ⟨hbm, _, hb, hs⟩ := unlink_fold ks io
    refine ⟨hs, hb, ?_⟩
    intro k hk
    simp only [Res.image] at hk
    rw [hbm] at hk
    split at hk
    · cases hk
    · exact hk

theorem File.unlink_bitmap (f : File) (io : Volume) (cs : List Nat)
    (hcs : FileBlockIterator.blocksFrom io f.m_startVolumeBlock = some cs) :
    ∀ k, k ∉ cs → (f.unlink io).image.bitmap k = io.bitmap k := by
  unfold File.unlink
  rw [hcs]
  obtain ⟨hbm, _, _, _⟩ := unlink_fold cs io
  intro k hk
  simp only [Res.image]
  rw [hbm, if_neg hk]

/-! ## `removeFile` -/

/-- The function `metaDataToOutOfUse` on a handle opened for overwriting a stored body: the
flags byte of the record `i` becomes zero. -/
theorem metaDataToOutOfUse_spec {S M : Nat} (hS : 0 < S) (hS32 : S < 4294967296)
    {temp : File} {io : Volume} {b : Nat} {ks : List Nat} {C : List Byte}
    (hst : Stored S io b ks C) (hw : Writer S temp io b ks C 0 0)
    (hov : temp.m_openDisposition.append = AppendOrOverwrite.Overwrite)
    (hbuf : temp.m_buffer = []) {i : Nat}
    (hin : 8 + i * (1 + M + 8) + (1 + M + 8) ≤ C.length) (h32 : C.length < 4294967296)
    (hgood : (8 + i * (1 + M + 8)) % S ≠ 0) :
    ∃ io1, metaDataToOutOfUse S M temp io i = Except.ok io1 ∧
      Stored S io1 b ks (splice C (8 + i * (1 + M + 8)) [0]) ∧
      (∀ k, io1.bitmap k = io.bitmap k) ∧ (∀ x, x ∉ ks → io1.store x = io.store x) ∧
      io1.blocks = io.blocks := by
  obtain ⟨hW, hoff⟩ := record_offset hin h32
  obtain ⟨f1, i1, c1, hseek, hw1, hpos, _, hdisp1, hbuf1⟩ :=
    Writer.seek_beg hw hov (k := 8 + i * (1 + M + 8)) (by omega) (Or.inr hgood)
  obtain ⟨f2, io2, i2, c2, hwrite, hov2⟩ :=
    Writer.overwrite hS hS32 (s := [0]) (by simp) hw1 (by rw [hdisp1]; exact hov)
      (by simp only [List.length_singleton]; omega)
  simp only [List.length_singleton] at hwrite
  have hfl := Writer.flush_noop hov2.writer (hov2.buffer (by rw [hbuf1]; exact hbuf))
  have hstored := hov2.stored_after hst hw1.within
  rw [hpos] at hstored
  have hne : ((8 + i * (1 + M + 8) : Nat) : Int) ≠ -1 := by omega
  refine ⟨io2, ?_, hstored, fun k => by rw [hov2.bitmap], hov2.others, hov2.blocks⟩
  unfold metaDataToOutOfUse
  simp only [hW, hoff, hseek, hne, ne_eq, not_false_eq_true, if_true, hwrite, hfl]

theorem getPositionFromEnd_spec {S a e w : Nat} (hS16 : S < 65536) (hwS : w ≤ S)
    (ha : a ≤ e * S + w) (hgood : a ≤ S ∨ a % S ≠ 0) :
    ∃ i c : Nat, getPositionFromEnd S (-(a : Int)) (e : Int) (w : Int) = ((i : Int), (c : Int)) ∧
      i ≤ e ∧ c ≤ S ∧ i * S + c + a = e * S + w := by
  have h16 : S % 65536 = S := Nat.mod_eq_of_lt hS16
  by_cases hle : a ≤ S
  · have hb := getPositionFromEnd_eq S a (e : Int) (w : Int) 0 a (getPositionFromBegin_of_le hle)
    rw [hb, h16]
    by_cases hneg : (w : Int) - (a : Int) < 0
    · rw [if_pos hneg]
      have he : 1 ≤ e := by
        rcases Nat.eq_zero_or_pos e with h0 | h0
        · subst h0
          omega
        · exact h0
      obtain ⟨j, rfl⟩ := Nat.exists_eq_add_of_le he
      refine ⟨j, S + w - a, ?_, by omega, by omega, ?_⟩
      · generalize a / S = q at *
        refine Prod.ext ?_ ?_ <;> dsimp only <;> push_cast <;> omega
      · rw [Nat.add_mul]
        omega
    · rw [if_neg hneg]
      refine ⟨e, w - a, ?_, by omega, by omega, by omega⟩
      refine Prod.ext ?_ ?_ <;> dsimp only <;> omega
  · have hlt : S < a := by omega
    have hmod : a % S ≠ 0 := by
      rcases hgood with h | h
      · omega
      · exact h
    have hS : 0 < S := by
      rcases Nat.eq_zero_or_pos S with h0 | h0
      · subst h0
        simp at ha
        omega
      · exact h0
    have hr : a % S < S := Nat.mod_lt _ hS
    have hdm := Nat.div_add_mod' a S
    have hb := getPositionFromEnd_eq S a (e : Int) (w : Int) (a / S) (a % S)
      (getPositionFromBegin_of_rest hlt hmod)
    rw [hb, h16]
    by_cases hneg : (w : Int) - ((a % S : Nat) : Int) < 0
    · rw [if_pos hneg]
      have hq : a / S + 1 ≤ e := by
        have : a / S * S < e * S := by omega
        exact Nat.lt_of_mul_lt_mul_right this
      obtain ⟨j, rfl⟩ := Nat.exists_eq_add_of_le hq
      refine ⟨j, S + w - a % S, ?_, Nat.le_add_left _ _, by omega, ?_⟩
      · generalize a / S = q at *
        refine Prod.ext ?_ ?_ <;> dsimp only <;> push_cast <;> omega
      · rw [Nat.add_mul, Nat.add_mul]
        omega
    · rw [if_neg hneg]
      have hq : a / S ≤ e := by
        have : a / S * S < (e + 1) * S := by
          rw [Nat.add_mul]
          omega
        have := Nat.lt_of_mul_lt_mul_right this
        omega
      obtain ⟨j, rfl⟩ := Nat.exists_eq_add_of_le hq
      refine ⟨j, w - a % S, ?_, Nat.le_add_left _ _, by omega, ?_⟩
      · generalize a / S = q at *
        refine Prod.ext ?_ ?_ <;> dsimp only <;> push_cast <;> omega
      · rw [Nat.add_mul]
        omega

theorem getPositionFromCurrent_spec {S : Nat} (hS : 0 < S) (off i p : Int) :
    getPositionFromCurrent S off i p =
      (if off + p ≥ 0 then (i + |off + p| / (S : Int), |off + p| % (S : Int))
       else (i - (|off + p| / (S : Int) + 1), (S : Int) - |off + p| % (S : Int))) ∧
    0 ≤ (getPositionFromCurrent S off i p).2 ∧
    (getPositionFromCurrent S off i p).2 ≤ (S : Int) ∧
    (getPositionFromCurrent S off i p).1 * (S : Int) + (getPositionFromCurrent S off i p).2 =
      i * (S : Int) + p + off := by
  have hSi : (0 : Int) < (S : Int) := by exact_mod_cast hS
  have hSne : (S : Int) ≠ 0 := by omega
  rcases le_or_lt 0 (off + p) with hge | hlt
  · obtain ⟨A, hA⟩ := Int.eq_ofNat_of_zero_le hge
    have h := getPositionFromCurrent_of_nonneg S i p hA
    have habs : |off + p| = (A : Int) := by
      rw [hA]
      exact abs_of_nonneg (Int.ofNat_nonneg A)
    have hdm := Nat.div_add_mod' A S
    have hr : A % S < S := Nat.mod_lt _ hS
    rw [h, habs, if_pos (by omega)]
    refine ⟨?_, ?_, ?_, ?_⟩
    · norm_cast
    · exact Int.ofNat_nonneg _
    · show ((A % S : Nat) : Int) ≤ (S : Int)
      omega
    · show (i + ((A / S : Nat) : Int)) * (S : Int) + ((A % S : Nat) : Int) = i * (S : Int) + p + off
      have : ((A / S : Nat) : Int) * (S : Int) + ((A % S : Nat) : Int) = (A : Int) := by
        exact_mod_cast hdm
      rw [add_mul]
      omega
  · obtain ⟨A, hA⟩ := Int.eq_ofNat_of_zero_le (show 0 ≤ -(off + p) by omega)
    have hA2 : off + p = -(A : Int) := by omega
    have hApos : 0 < A := by omega
    have h := getPositionFromCurrent_of_neg S i p hA2 hApos
    have habs : |off + p| = (A : Int) := by
      rw [hA2, abs_neg]
      exact abs_of_nonneg (Int.ofNat_nonneg A)
    have hdm := Nat.div_add_mod' A S
    have hr : A % S < S := Nat.mod_lt _ hS
    rw [h, habs, if_neg (by omega)]
    refine ⟨?_, ?_, ?_, ?_⟩
    · norm_cast
    · show 0 ≤ (S : Int) - ((A % S : Nat) : Int)
      omega
    · show (S : Int) - ((A % S : Nat) : Int) ≤ (S : Int)
      omega
    · show (i - (((A / S : Nat) : Int) + 1)) * (S : Int) + ((S : Int) - ((A % S : Nat) : Int)) =
        i * (S : Int) + p + off
      have : ((A / S : Nat) : Int) * (S : Int) + ((A % S : Nat) : Int) = (A : Int) := by
        exact_mod_cast hdm
      rw [sub_mul, add_mul]
      omega
/-! ## Claims C23 to C25: the three position functions of `seek` -/

/-- C23 (File.cpp 430-467): for an offset above one block payload that is a multiple of
it, `getPositionFromBegin` returns the block before the quotient with position 0, not
position S, so block * S + pos falls short of the offset by S; with four payload bytes
the offset 8 gives (1, 0), which is position 4.  For every other offset that is not
negative the pair names the offset, with a position between 0 and S. -/
theorem C23_getPositionFromBegin_at_a_multiple_of_the_payload :
    getPositionFromBegin 4 8 = (1, 0) ∧
    (∀ S k : Nat, S < k → k % S = 0 →
      getPositionFromBegin S (k : Int) = (((k / S - 1 : Nat) : Int), 0) ∧
      (getPositionFromBegin S (k : Int)).1 * (S : Int) + (getPositionFromBegin S (k : Int)).2 =
        (k : Int) - (S : Int)) ∧
    (∀ S k : Nat, 0 < S → (k ≤ S ∨ k % S ≠ 0) →
      0 ≤ (getPositionFromBegin S (k : Int)).2 ∧
      (getPositionFromBegin S (k : Int)).2 ≤ (S : Int) ∧
      (getPositionFromBegin S (k : Int)).1 * (S : Int) + (getPositionFromBegin S (k : Int)).2 =
        (k : Int)) := by
  refine ⟨by decide, ?_, ?_⟩
  · intro S k hlt hmod
    have h := getPositionFromBegin_of_multiple hlt hmod
    refine ⟨h, ?_⟩
    rw [h]
    have hS : 0 < S := by
      rcases Nat.eq_zero_or_pos S with h0 | h0
      · subst h0
        simp at hmod
        omega
      · exact h0
    have hq : 1 ≤ k / S := (Nat.one_le_div_iff hS).mpr (Nat.le_of_lt hlt)
    have hdm := Nat.div_add_mod' k S
    obtain ⟨j, hj⟩ := Nat.exists_eq_add_of_le hq
    rw [hj, Nat.add_mul] at hdm
    have hj2 : k / S - 1 = j := by omega
    rw [hj2]
    show (j : Int) * (S : Int) + 0 = (k : Int) - (S : Int)
    have : ((j * S : Nat) : Int) = (j : Int) * (S : Int) := by push_cast; rfl
    omega
  · intro S k hS hgood
    by_cases hle : k ≤ S
    · rw [getPositionFromBegin_of_le hle]
      refine ⟨?_, ?_, ?_⟩
      · exact Int.ofNat_nonneg _
      · show (k : Int) ≤ (S : Int)
        omega
      · show (0 : Int) * (S : Int) + (k : Int) = (k : Int)
        omega
    · have hlt : S < k := by omega
      have hmod : k % S ≠ 0 := by
        rcases hgood with h | h
        · omega
        · exact h
      have hr : k % S < S := Nat.mod_lt _ hS
      have hdm := Nat.div_add_mod' k S
      rw [getPositionFromBegin_of_rest hlt hmod]
      refine ⟨?_, ?_, ?_⟩
      · exact Int.ofNat_nonneg _
      · show ((k % S : Nat) : Int) ≤ (S : Int)
        omega
      · show ((k / S : Nat) : Int) * (S : Int) + ((k % S : Nat) : Int) = (k : Int)
        exact_mod_cast hdm

/-- C24 (File.cpp 469-487): `getPositionFromEnd` takes the pair of `getPositionFromBegin`
for the distance, so a distance above one block payload that is a multiple of it lands
one payload too far: with four payload bytes, last block 2 holding two bytes, the
distance 8 gives (1, 2), position 6 instead of 2.  For every other distance inside the
file (and a payload that fits sixteen bits) the pair names position e * S + w - a with
block between 0 and e and position between 0 and S. -/
theorem C24_getPositionFromEnd_at_a_multiple_of_the_payload :
    getPositionFromEnd 4 (-8) 2 2 = (1, 2) ∧
    (∀ S a e w : Nat, S < 65536 → w ≤ S → a ≤ e * S + w → (a ≤ S ∨ a % S ≠ 0) →
      ∃ i c : Nat,
        getPositionFromEnd S (-(a : Int)) (e : Int) (w : Int) = ((i : Int), (c : Int)) ∧
        i ≤ e ∧ c ≤ S ∧ i * S + c + a = e * S + w) :=
  ⟨by decide, fun _ _ _ _ h16 hw ha hgood => getPositionFromEnd_spec h16 hw ha hgood⟩

/-- C25 (File.cpp 489-510): with addition = off + p, D the quotient and L the remainder
of |addition| by S, `getPositionFromCurrent` returns (i + D, L) when addition is not
negative and (i - (D + 1), S - L) otherwise; the position returned lies between 0 and S
and block * S + pos = i * S + p + off. -/
theorem C25_getPositionFromCurrent_names_the_target (S : Nat) (hS : 0 < S) (off i p : Int) :
    getPositionFromCurrent S off i p =
      (if off + p ≥ 0 then (i + |off + p| / (S : Int), |off + p| % (S : Int))
       else (i - (|off + p| / (S : Int) + 1), (S : Int) - |off + p| % (S : Int))) ∧
    0 ≤ (getPositionFromCurrent S off i p).2 ∧
    (getPositionFromCurrent S off i p).2 ≤ (S : Int) ∧
    (getPositionFromCurrent S off i p).1 * (S : Int) + (getPositionFromCurrent S off i p).2 =
      i * (S : Int) + p + off :=
  getPositionFromCurrent_spec hS off i p

/-- C25 at four payload bytes: from block 2, position 1, the offset -6 leads to block 0,
position 3. -/
theorem C25_getPositionFromCurrent_names_the_target_witness :
    getPositionFromCurrent 4 (-6) 2 1 =
      (if (-6 : Int) + 1 ≥ 0 then (2 + |(-6 : Int) + 1| / ((4 : Nat) : Int), |(-6 : Int) + 1| % ((4 : Nat) : Int))
       else (2 - (|(-6 : Int) + 1| / ((4 : Nat) : Int) + 1), ((4 : Nat) : Int) - |(-6 : Int) + 1| % ((4 : Nat) : Int))) ∧
    0 ≤ (getPositionFromCurrent 4 (-6) 2 1).2 ∧
    (getPositionFromCurrent 4 (-6) 2 1).2 ≤ ((4 : Nat) : Int) ∧
    (getPositionFromCurrent 4 (-6) 2 1).1 * ((4 : Nat) : Int) + (getPositionFromCurrent 4 (-6) 2 1).2 =
      2 * ((4 : Nat) : Int) + 1 + (-6) :=
  C25_getPositionFromCurrent_names_the_target 4 (by decide) (-6) 2 1

/-! ## Claims C22, C26 to C29: evaluations -/

theorem MakeKnoxCrypt.zeroOutBits_eq (bitMapData : List Byte) :
    MakeKnoxCrypt.zeroOutBits bitMapData = bitMapData ++ [0] := by
  unfold MakeKnoxCrypt.zeroOutBits
  congr 1

theorem MakeKnoxCrypt.zeroOutBits_fold (l : List Nat) (acc : List Byte) :
    l.foldl (fun acc _ => MakeKnoxCrypt.zeroOutBits acc) acc =
      acc ++ List.replicate l.length 0 := by
  induction l generalizing acc with
  | nil => simp
  | cons a l ih =>
    rw [List.foldl_cons, ih, MakeKnoxCrypt.zeroOutBits_eq, List.length_cons,
      List.replicate_succ, List.append_assoc]
    rfl

theorem MakeKnoxCrypt.createVolumeBitMap_eq (blocks : Nat) :
    MakeKnoxCrypt.createVolumeBitMap blocks = List.replicate (blocks / 8) 0 := by
  unfold MakeKnoxCrypt.createVolumeBitMap
  simp only [MakeKnoxCrypt.zeroOutBits_fold, List.length_range, List.nil_append]
  rw [List.take_of_length_le]
  rw [List.length_replicate]

/-- C22 (MakeKnoxCrypt.hpp 128-144, 245-272): `createVolumeBitMap` writes N / 8 bytes,
rounded down, all zero, so the bitmap is one byte short of ceil(N / 8) whenever N is
not a multiple of 8: for twelve blocks one byte lies between the block count and the
file count, and the blocks 8 to 11 have no bit. -/
theorem C22_createVolumeBitMap_rounds_down :
    (∀ N : Nat, MakeKnoxCrypt.createVolumeBitMap N = List.replicate (N / 8) 0) ∧
    (∀ N : Nat, MakeKnoxCrypt.doBuildImage N =
      convertUInt64ToInt8Array N ++ List.replicate (N / 8) 0 ++ convertUInt64ToInt8Array 0) ∧
    (MakeKnoxCrypt.createVolumeBitMap 12).length = 1 ∧
    (12 + 7) / 8 = 2 ∧
    MakeKnoxCrypt.doBuildImage 12 = [12, 0, 0, 0, 0, 0, 0, 0, 0, 0, 0, 0, 0, 0, 0, 0, 0] := by
  refine ⟨MakeKnoxCrypt.createVolumeBitMap_eq, ?_, ?_, by decide, ?_⟩
  · intro N
    unfold MakeKnoxCrypt.doBuildImage
    simp only [MakeKnoxCrypt.createVolumeBitMap_eq]
  · rw [MakeKnoxCrypt.createVolumeBitMap_eq]
    decide
  · unfold MakeKnoxCrypt.doBuildImage
    rw [MakeKnoxCrypt.createVolumeBitMap_eq]
    decide

theorem File.truncate_blockCount {S : Nat} (hS : 0 < S) (f : File) (io : Volume) {n : Nat}
    (hn : S ≤ n) (hn63 : n < 9223372036854775808)
    (hok : (f.truncate S io (n : Int)).value? = some ()) :
    (f.truncate S io (n : Int)).file.m_blockCount = (n - 1) / S := by
  have hpos : 0 < n := by omega
  have hcond : ¬ ((n : Int) < (S : Int)) := by omega
  have hq : 1 ≤ n / S := (Nat.one_le_div_iff hS).mpr hn
  have hqn : n / S ≤ n := Nat.div_le_self n S
  unfold File.truncate at hok ⊢
  simp only [hcond, if_false, ← Int.ofNat_tmod, tdiv_rounded, Int.toNat_ofNat] at hok ⊢
  by_cases hmod : n % S = 0
  · have hj := pred_div_of_dvd hS hpos hmod
    have hwrap : (n / S + 18446744073709551615) % 18446744073709551616 = n / S - 1 := by
      omega
    simp only [hmod, Nat.cast_zero, if_true, hwrap] at hok ⊢
    cases hg : f.getBlockWithIndex io (n / S - 1) with
    | error e =>
      rw [hg] at hok
      cases hok
    | ok blk =>
      show n / S - 1 = (n - 1) / S
      omega
  · have hj := pred_div_of_rest hS hmod
    have hne : ¬ (((n % S : Nat) : Int) = 0) := by omega
    simp only [hne, if_false] at hok ⊢
    cases hg : f.getBlockWithIndex io (n / S) with
    | error e =>
      rw [hg] at hok
      cases hok
    | ok blk =>
      show n / S = (n - 1) / S
      omega

/-- C26 (File.cpp 393-428): `truncate` stores the index of the new last block in the
block count, one less than the number of blocks q + (r = 0 ? 0 : 1), whenever the new
size n is at least one block payload, and for a smaller n it leaves the count as it
was.  On the six-byte file in two blocks of four payload bytes: truncate(5) keeps both
blocks and sets the count to 1, truncate(4) keeps one block and sets the count to 0,
truncate(2) keeps one block and leaves the count 2. -/
theorem C26_truncate_stores_the_last_index_as_block_count :
    sixByteWriter.m_blockCount = 2 ∧
    (File.truncate 4 sixByteWriter sixByteImage 5).value? = some () ∧
    FileBlockIterator.blocksFrom (File.truncate 4 sixByteWriter sixByteImage 5).image 0 =
      some [0, 1] ∧
    (File.truncate 4 sixByteWriter sixByteImage 5).file.m_blockCount = 1 ∧
    (File.truncate 4 sixByteWriter sixByteImage 4).value? = some () ∧
    FileBlockIterator.blocksFrom (File.truncate 4 sixByteWriter sixByteImage 4).image 0 =
      some [0] ∧
    (File.truncate 4 sixByteWriter sixByteImage 4).file.m_blockCount = 0 ∧
    (File.truncate 4 sixByteWriter sixByteImage 2).value? = some () ∧
    FileBlockIterator.blocksFrom (File.truncate 4 sixByteWriter sixByteImage 2).image 0 =
      some [0] ∧
    (File.truncate 4 sixByteWriter sixByteImage 2).file.m_blockCount = 2 ∧
    (∀ (S : Nat) (f : File) (io : Volume) (n : Int), n < (S : Int) →
      (File.truncate S f io n).file.m_blockCount = f.m_blockCount) ∧
    (∀ (S : Nat) (f : File) (io : Volume) (n : Nat), 0 < S → S ≤ n →
      n < 9223372036854775808 → (File.truncate S f io (n : Int)).value? = some () →
      (File.truncate S f io (n : Int)).file.m_blockCount + 1 =
        n / S + (if n % S = 0 then 0 else 1)) := by
  refine ⟨by decide!, by decide!, by decide!, by decide!, by decide!, by decide!, by decide!,
    by decide!, by decide!, by decide!, ?_, ?_⟩
  · intro S f io n hn
    unfold File.truncate
    simp only [hn, if_true]
    cases f.getBlockWithIndex io 0 <;> rfl
  · intro S f io n hS hn hn63 hok
    rw [File.truncate_blockCount hS f io hn hn63 hok]
    have hpos : 0 < n := by omega
    have hq : 1 ≤ n / S := (Nat.one_le_div_iff hS).mpr hn
    by_cases hmod : n % S = 0
    · rw [pred_div_of_dvd hS hpos hmod, if_pos hmod]
      omega
    · rw [pred_div_of_rest hS hmod, if_neg hmod]

/-- C27 (File.cpp 183-201, 243-291): `newWritableFileBlock` redirects the next pointer of
the working block, which is the last block only for a handle that stands at the end.
The handle that wrote the six-byte file (Append mode, blocks 0 and 1, four payload
bytes), moved by seek(0, beg), then writes five bytes: block 0 is filled, the new block 2
is linked behind block 0, block 1 is no longer reachable though still marked in use,
and the block count is 3 for a chain of two blocks. -/
theorem C27_append_after_seek_links_the_new_block_behind_the_working_block :
    FileBlockIterator.blocksFrom sixByteImage 0 = some [0, 1] ∧
    sixByteFile.m_openDisposition.append = AppendOrOverwrite.Append ∧
    sixByteFile.m_blockCount = 2 ∧
    sixByteRewind.value? = some 0 ∧
    sixByteRewrite.value? = some 5 ∧
    FileBlockIterator.blocksFrom sixByteRewrite.image 0 = some [0, 2] ∧
    (sixByteRewrite.image.store 0).next = 2 ∧
    sixByteRewrite.image.bitmap 1 = true ∧
    sixByteRewrite.file.m_blockCount = 3 :=
  ⟨by decide!, by decide!, by decide!, by decide!, by decide!, by decide!, by decide!,
    by decide!, by decide!⟩

/-- C28 (File.cpp 155-181, 306-336, 430-467): on the eight-byte file 1..8 in two blocks of
four payload bytes, opened read-only, seek(4, beg) leaves the handle at the end of
block 0 and read(buf, 2) returns 0 bytes although four bytes follow; seek(8, beg)
leaves it at the start of block 1 and read(buf, 2) returns the bytes 5, 6 although the
position is the size of the file. -/
theorem C28_read_after_seek_to_a_multiple_of_the_payload :
    eightByteReader.fileSize = 8 ∧
    eightByteSeek.value? = some 4 ∧
    eightByteSeek.file.tell = 4 ∧
    (eightByteSeek.file.read eightByteSeek.image 2).value? = some (0, []) ∧
    eightByteSeekEnd.value? = some 8 ∧
    eightByteSeekEnd.file.tell = 8 ∧
    (eightByteSeekEnd.file.read eightByteSeekEnd.image 2).value? = some (2, [5, 6]) :=
  ⟨by decide!, by decide!, by decide!, by decide!, by decide!, by decide!, by decide!⟩

/-- C29 (ContentFolder.cpp 438-468, 513-529, 631-635): `putMetaDataOutOfUse` clears the
in-use bit of a record and leaves the dead-entry count as it is, and `removeFile` adds
one to it whatever the record it cleared.  After putMetaDataOutOfUse(x) on the folder
with the files x and y one record of two is in use and getAliveEntryCount is 2.  After
addFile of x, x, w, w and removeFile of x, w, x, w on a new folder two records of four
are in use and getAliveEntryCount is 0; one more removeFile(x) makes it -1. -/
theorem C29_dead_entry_count_is_not_the_number_of_cleared_records :
    folderWithXY.folder.getAliveEntryCount = 2 ∧
    folderWithXPutOutOfUse.value? = some true ∧
    folderWithXPutOutOfUse.folder.records 64 2 folderWithXPutOutOfUse.image 2 =
      [some [0, 120, 0, 1, 0, 0, 0, 0, 0, 0, 0],
       some [3, 121, 0, 2, 0, 0, 0, 0, 0, 0, 0]] ∧
    folderWithXPutOutOfUse.folder.getTotalEntryCount = 2 ∧
    folderWithXPutOutOfUse.folder.getAliveEntryCount = 2 ∧
    (ContentFolder.openExisting 64 2 folderWithXPutOutOfUse.image 0).folder.getAliveEntryCount
      = 1 ∧
    folderWithFreedLiveBlocks.folder.records 60 2 folderWithFreedLiveBlocks.image 4 =
      [some [0, 120, 0, 1, 0, 0, 0, 0, 0, 0, 0],
       some [3, 120, 0, 2, 0, 0, 0, 0, 0, 0, 0],
       some [0, 119, 0, 3, 0, 0, 0, 0, 0, 0, 0],
       some [3, 119, 0, 4, 0, 0, 0, 0, 0, 0, 0]] ∧
    folderWithFreedLiveBlocks.folder.getTotalEntryCount = 4 ∧
    folderWithFreedLiveBlocks.folder.getAliveEntryCount = 0 ∧
    folderRemovedOnceMore.value? = some true ∧
    folderRemovedOnceMore.folder.records 60 2 folderRemovedOnceMore.image 4 =
      [some [0, 120, 0, 1, 0, 0, 0, 0, 0, 0, 0],
       some [3, 120, 0, 2, 0, 0, 0, 0, 0, 0, 0],
       some [0, 119, 0, 3, 0, 0, 0, 0, 0, 0, 0],
       some [3, 119, 0, 4, 0, 0, 0, 0, 0, 0, 0]] ∧
    folderRemovedOnceMore.folder.getAliveEntryCount = -1 :=
  ⟨by decide!, by decide!, by decide!, by decide!, by decide!, by decide!, by decide!,
    by decide!, by decide!, by decide!, by decide!, by decide!⟩

/-! ## Claim C21: the counts of a folder -/

/-- C21 (ContentFolder.cpp 282-319, 513-529): on a folder created empty, with 60 payload
bytes per block and records of 11 bytes, addFile(x) twice, addFile(w) twice and
removeFile of x, w, x, w leave the second x and the second w in use with their
blocks 2 and 4 free; addFile of a, b, c then lets the folder grow into block 4;
removeFile(w) frees that block of the folder itself and addFile(e) takes it as the
start block of e.  The header and getTotalEntryCount then are 5 and the body is 60
bytes long, not 8 + 11 * 5 = 63. -/
theorem C21_folder_body_loses_its_last_block :
    folderWithFreedLiveBlocks.value? = some true ∧
    folderWithFreedLiveBlocks.folder.records 60 2 folderWithFreedLiveBlocks.image 4 =
      [some [0, 120, 0, 1, 0, 0, 0, 0, 0, 0, 0],
       some [3, 120, 0, 2, 0, 0, 0, 0, 0, 0, 0],
       some [0, 119, 0, 3, 0, 0, 0, 0, 0, 0, 0],
       some [3, 119, 0, 4, 0, 0, 0, 0, 0, 0, 0]] ∧
    (List.range 8).map folderWithFreedLiveBlocks.image.bitmap =
      [true, false, false, false, false, false, false, false] ∧
    folderGrownIntoLiveBlock.value? = some () ∧
    FileBlockIterator.blocksFrom folderGrownIntoLiveBlock.image 0 = some [0, 4] ∧
    folderGrownIntoLiveBlock.folder.getTotalEntryCount = 5 ∧
    getNumberOfEntries folderGrownIntoLiveBlock.folder.m_folderData
      folderGrownIntoLiveBlock.image = 5 ∧
    sumBytesWritten folderGrownIntoLiveBlock.image [0, 4] = 63 ∧
    (File.openRead 60 folderGrownIntoLiveBlock.image 0 70).value? =
      some (63, [5, 0, 0, 0, 0, 0, 0, 0,
                 3, 97, 0, 1, 0, 0, 0, 0, 0, 0, 0,
                 3, 120, 0, 2, 0, 0, 0, 0, 0, 0, 0,
                 3, 98, 0, 2, 0, 0, 0, 0, 0, 0, 0,
                 3, 119, 0, 4, 0, 0, 0, 0, 0, 0, 0,
                 3, 99, 0, 3, 0, 0, 0, 0, 0, 0, 0]) ∧
    folderWithOwnBlockFreed.value? = some true ∧
    (List.range 8).map folderWithOwnBlockFreed.image.bitmap =
      [true, true, true, true, false, false, false, false] ∧
    folderWithOwnBlockReused.value? = some () ∧
    folderWithOwnBlockReused.folder.getTotalEntryCount = 5 ∧
    getNumberOfEntries folderWithOwnBlockReused.folder.m_folderData
      folderWithOwnBlockReused.image = 5 ∧
    FileBlockIterator.blocksFrom folderWithOwnBlockReused.image 0 = some [0, 4] ∧
    (folderWithOwnBlockReused.image.store 4).bytesWritten = 0 ∧
    sumBytesWritten folderWithOwnBlockReused.image [0, 4] = 60 ∧
    (File.openRead 60 folderWithOwnBlockReused.image 0 70).value? =
      some (60, [5, 0, 0, 0, 0, 0, 0, 0,
                 3, 97, 0, 1, 0, 0, 0, 0, 0, 0, 0,
                 3, 120, 0, 2, 0, 0, 0, 0, 0, 0, 0,
                 3, 98, 0, 2, 0, 0, 0, 0, 0, 0, 0,
                 3, 101, 0, 4, 0, 0, 0, 0, 0, 0, 0,
                 3, 99, 0, 3, 0, 0, 0, 0]) :=
  ⟨by decide!, by decide!, by decide!, by decide!, by decide!, by decide!, by decide!,
    by decide!, by decide!, by decide!, by decide!, by decide!, by decide!, by decide!,
    by decide!, by decide!, by decide!, by decide!⟩

/-! ## Termination of `write` -/

theorem countP_free_le (bm : Nat → Bool) (a : Nat) :
    ∀ N, (List.range N).countP (fun k => !bm k) ≤
      (List.range N).countP (fun k => !(if k = a then true else bm k)) + 1 := by
  intro N
  induction N with
  | zero => simp
  | succ N ih =>
    rw [List.range_succ, List.countP_append, List.countP_append]
    simp only [List.countP_singleton]
    by_cases h1 : N = a
    · subst h1
      have heq : (List.range N).countP (fun k => !(if k = N then true else bm k)) =
          (List.range N).countP (fun k => !bm k) := by
        apply List.countP_congr
        intro k hk
        have : k ≠ N := by
          have := List.mem_range.mp hk
          omega
        simp [this]
      rw [heq]
      split <;> split <;> omega
    · simp only [h1, if_false]
      omega

theorem freeCount_register_le {io io1 : Volume} {a : Nat} (hb : io1.blocks = io.blocks)
    (hbm : ∀ k, io1.bitmap k = if k = a then true else io.bitmap k) :
    freeCount io ≤ freeCount io1 + 1 := by
  unfold freeCount
  rw [hb]
  have hfun : (fun k => !io1.bitmap k) = (fun k => !(if k = a then true else io.bitmap k)) := by
    funext k
    rw [hbm k]
  rw [hfun]
  exact countP_free_le io.bitmap a io.blocks

theorem File.newWritableFileBlock_total {f : File} {io : Volume}
    (hfree : 0 < freeCount io ∨ f.m_enforceStartBlock = true) :
    ∃ a io3, f.newWritableFileBlock io =
        Res.ok ()
          { f with
            m_enforceStartBlock := false
            m_blockCount := f.m_blockCount + 1
            m_blockIndex := f.m_blockCount + 1 - 1
            m_workingBlock := some { index := a, seekPos := 0 } } io3 ∧
      freeCount io ≤ freeCount io3 + 1 := by
  have hpick : ∃ a, (if f.m_enforceStartBlock then some io.rootBlock
      else getNextAvailableBlock io) = some a := by
    cases henf : f.m_enforceStartBlock with
    | true => exact ⟨io.rootBlock, rfl⟩
    | false =>
      rcases hfree with h | h
      · obtain ⟨a, ha⟩ := getNextAvailableBlock_of_free h
        exact ⟨a, by simpa using ha⟩
      · rw [henf] at h
        exact absurd h (by decide)
  obtain ⟨a, ha⟩ := hpick
  unfold File.newWritableFileBlock buildWritableFileBlock
  simp only [ha]
  refine ⟨a, _, rfl, ?_⟩
  apply freeCount_register_le (a := a)
  · cases f.m_workingBlock <;> rfl
  · intro k
    cases f.m_workingBlock <;> rfl

theorem File.checkAndUpdate_total {S : Nat} (hS : 0 < S) (hS32 : S < 4294967296) {f : File}
    {io : Volume} (hcur : f.cursorWithin S)
    (hfree : (∃ wb, f.m_workingBlock = some wb ∧ wb.seekPos < S) ∨ 0 < freeCount io ∨
      f.m_enforceStartBlock = true) :
    ∃ f1 io1 wb1, f.checkAndUpdateWorkingBlockWithNew S io = Res.ok () f1 io1 ∧
      f1.m_workingBlock = some wb1 ∧ wb1.seekPos < S ∧ f1.m_pos = f.m_pos ∧
      f.writeCapacity S io ≤ f1.writeCapacity S io1 ∧
      ((∃ wb, f.m_workingBlock = some wb ∧ wb.seekPos < S) → f1 = f ∧ io1 = io) ∧
      ((∀ wb, f.m_workingBlock = some wb → ¬ wb.seekPos < S) → wb1.seekPos = 0) := by
  cases hwb : f.m_workingBlock with
  | none =>
    have hfree2 : 0 < freeCount io ∨ f.m_enforceStartBlock = true := by
      rcases hfree with ⟨wb, h, _⟩ | h
      · rw [hwb] at h
        exact absurd h (by simp)
      · exact h
    obtain ⟨a, io3, hnew, hcount⟩ := File.newWritableFileBlock_total hfree2
    unfold File.checkAndUpdateWorkingBlockWithNew
    simp only [hwb, hnew]
    refine ⟨_, io3, { index := a, seekPos := 0 }, rfl, rfl, hS, rfl, ?_, ?_, ?_⟩
    · unfold File.writeCapacity
      simp only [hwb]
      have := Nat.mul_le_mul_right S hcount
      rw [Nat.add_mul] at this
      omega
    · rintro ⟨wb, h, _⟩
      exact absurd h (by simp)
    · intro _
      rfl
  | some wb =>
    have hc : wb.seekPos ≤ S := hcur wb hwb
    have hmod : wb.tell % 4294967296 = wb.seekPos := Nat.mod_eq_of_lt (by
      show wb.seekPos < 4294967296
      omega)
    by_cases hroom : wb.seekPos < S
    · unfold File.checkAndUpdateWorkingBlockWithNew
      simp only [hwb, hmod, hroom, if_true]
      refine ⟨f, io, wb, rfl, hwb, hroom, rfl, Nat.le_refl _, fun _ => ⟨rfl, rfl⟩, ?_⟩
      intro h
      exact absurd hroom (h wb rfl)
    · have hfree2 : 0 < freeCount io ∨ f.m_enforceStartBlock = true := by
        rcases hfree with ⟨wb2, h, h2⟩ | h
        · rw [hwb] at h
          cases h
          exact absurd h2 hroom
        · exact h
      have hcS : wb.seekPos = S := by omega
      have hcap0 : File.writeCapacity S f io = freeCount io * S := by
        unfold File.writeCapacity
        simp only [hwb, hcS, Nat.sub_self, Nat.zero_add]
      have hnot : ∀ P : Prop, (∃ wb2, some wb = some wb2 ∧ wb2.seekPos < S) → P := by
        rintro P ⟨wb2, h, h2⟩
        cases h
        exact absurd h2 hroom
      rw [hcap0]
      clear hcap0 hcur hfree hmod
      cases wb with
      | mk idx c =>
      simp only at hcS
      subst hcS
      cases f with
      | mk enf fsz wbo buf st bi disp pos bc =>
      simp only at hwb
      subst hwb
      have hSmod : c % 4294967296 = c := Nat.mod_eq_of_lt hS32
      unfold File.checkAndUpdateWorkingBlockWithNew
      simp only [FileBlock.tell, hSmod, lt_self_iff_false, if_false, if_true]
      by_cases ht : File.tellAtOrPastSize (File.mk enf fsz (some ⟨idx, c⟩) buf st bi disp pos bc) = true
      · simp only [ht, if_true]
        have hap : ¬ (OpenDisposition.buildAppendDisposition.append = AppendOrOverwrite.Overwrite) := by
          decide
        simp only [hap, if_false]
        obtain ⟨a, io3, hnew, hcount⟩ :=
          @File.newWritableFileBlock_total
            (File.mk enf fsz (some ⟨idx, c⟩) buf st bi OpenDisposition.buildAppendDisposition pos bc)
            io hfree2
        rw [hnew]
        refine ⟨_, io3, { index := a, seekPos := 0 }, rfl, rfl, hS, rfl, ?_,
          fun h => hnot _ h, fun _ => rfl⟩
        unfold File.writeCapacity
        have := Nat.mul_le_mul_right c hcount
        rw [Nat.add_mul] at this
        simp only [Nat.one_mul] at this
        show freeCount io * c ≤ c - 0 + freeCount io3 * c
        omega
      · simp only [ht, Bool.false_eq_true, if_false]
        by_cases hov : disp.append = AppendOrOverwrite.Overwrite
        · simp only [hov, if_true]
          refine ⟨_, io, FileBlock.openAt (FileBlock.getNextIndex io { index := idx, seekPos := c }),
            rfl, rfl, hS, rfl, ?_, fun h => hnot _ h, fun _ => rfl⟩
          unfold File.writeCapacity
          exact Nat.le_add_left _ _
        · simp only [hov, if_false]
          obtain ⟨a, io3, hnew, hcount⟩ :=
            @File.newWritableFileBlock_total
              (File.mk enf fsz (some ⟨idx, c⟩) buf st bi disp pos bc) io hfree2
          rw [hnew]
          refine ⟨_, io3, { index := a, seekPos := 0 }, rfl, rfl, hS, rfl, ?_,
            fun h => hnot _ h, fun _ => rfl⟩
          unfold File.writeCapacity
          have := Nat.mul_le_mul_right c hcount
          rw [Nat.add_mul] at this
          simp only [Nat.one_mul] at this
          show freeCount io * c ≤ c - 0 + freeCount io3 * c
          omega
theorem File.bufferBytesForWorkingBlock_total {S : Nat} (hS32 : S < 4294967296) {f : File}
    {wb : FileBlock} (hwb : f.m_workingBlock = some wb) (hroom : wb.seekPos < S) (io : Volume)
    (s : List Byte) (m offset : Nat) :
    f.bufferBytesForWorkingBlock S io s m offset =
      Res.ok (min m (S - wb.seekPos))
        { f with m_buffer := (s.drop (offset % 4294967296)).take (min m (S - wb.seekPos)) } io := by
  have hsp : (S % 4294967296 + 4294967296 - wb.tell % 4294967296) % 4294967296 =
      S - wb.seekPos := by
    have h1 : S % 4294967296 = S := Nat.mod_eq_of_lt hS32
    have h2 : wb.tell % 4294967296 = wb.seekPos := Nat.mod_eq_of_lt (by
      show wb.seekPos < 4294967296
      omega)
    rw [h1, h2]
    have h3 : S + 4294967296 - wb.seekPos = (S - wb.seekPos) + 4294967296 := by omega
    rw [h3, Nat.add_mod_right]
    exact Nat.mod_eq_of_lt (by omega)
  unfold File.bufferBytesForWorkingBlock File.getBytesLeftInWorkingBlock
  simp only [hwb, hsp]
  by_cases hlt : m < S - wb.seekPos
  · have hk : min m (S - wb.seekPos) = m := Nat.min_eq_left (Nat.le_of_lt hlt)
    simp only [hlt, if_true, hk]
  · have hk : min m (S - wb.seekPos) = S - wb.seekPos := Nat.min_eq_right (by omega)
    have hpos : 0 < S - wb.seekPos := by omega
    simp only [hlt, if_false, hpos, if_true, hk]

theorem File.writeLoop_iteration {S : Nat} (hS : 0 < S) (hS32 : S < 4294967296) (s : List Byte)
    (n fuel wrote : Nat) (f : File) (io : Volume) (hlt : wrote < n) (hcur : f.cursorWithin S)
    (hcap : n - wrote ≤ f.writeCapacity S io) :
    ∃ f1 io1 wb1 f4 io3,
      f.checkAndUpdateWorkingBlockWithNew S io = Res.ok () f1 io1 ∧
      f1.m_workingBlock = some wb1 ∧ wb1.seekPos < S ∧
      1 ≤ min (n - wrote) (S - wb1.seekPos) ∧
      min (n - wrote) (S - wb1.seekPos) ≤ S ∧
      File.writeLoop S s n (fuel + 1) wrote f io =
        File.writeLoop S s n fuel (wrote + min (n - wrote) (S - wb1.seekPos)) f4 io3 ∧
      f4.m_workingBlock =
        some { wb1 with seekPos := wb1.seekPos + min (n - wrote) (S - wb1.seekPos) } ∧
      f4.m_pos = f.m_pos + ((min (n - wrote) (S - wb1.seekPos) : Nat) : Int) ∧
      f4.cursorWithin S ∧
      n - (wrote + min (n - wrote) (S - wb1.seekPos)) ≤ f4.writeCapacity S io3 := by
  have hfree : (∃ wb, f.m_workingBlock = some wb ∧ wb.seekPos < S) ∨ 0 < freeCount io ∨
      f.m_enforceStartBlock = true := by
    by_cases hroom : ∃ wb, f.m_workingBlock = some wb ∧ wb.seekPos < S
    · exact Or.inl hroom
    · refine Or.inr (Or.inl ?_)
      have hcap0 : f.writeCapacity S io = freeCount io * S := by
        unfold File.writeCapacity
        cases hwb : f.m_workingBlock with
        | none => simp
        | some wb =>
          have h1 := hcur wb hwb
          have h2 : ¬ wb.seekPos < S := fun h => hroom ⟨wb, hwb, h⟩
          have : S - wb.seekPos = 0 := by omega
          simp only [this, Nat.zero_add]
      rw [hcap0] at hcap
      rcases Nat.eq_zero_or_pos (freeCount io) with h0 | h0
      · rw [h0, Nat.zero_mul] at hcap
        omega
      · exact h0
  obtain ⟨f1, io1, wb1, hmaint, hwb1, hroom1, hpos1, hcap1, _, _⟩ :=
    File.checkAndUpdate_total hS hS32 hcur hfree
  clear hfree
  have hbuf := File.bufferBytesForWorkingBlock_total hS32 hwb1 hroom1 io1 s (n - wrote) wrote
  generalize hk : min (n - wrote) (S - wb1.seekPos) = k at hbuf ⊢
  have hk1 : 1 ≤ k := by
    rw [← hk]
    exact Nat.le_min.mpr ⟨by omega, by omega⟩
  have hkS : k ≤ S - wb1.seekPos := by
    rw [← hk]
    exact Nat.min_le_right _ _
  have hkn : k ≤ n - wrote := by
    rw [← hk]
    exact Nat.min_le_left _ _
  have hstep : File.writeLoop S s n (fuel + 1) wrote f io =
      File.writeLoop S s n fuel (wrote + k)
        { f1 with
          m_buffer := []
          m_workingBlock := some { wb1 with seekPos := wb1.seekPos + k }
          m_pos := f1.m_pos + (k : Int)
          m_fileSize :=
            if f1.m_openDisposition.append = AppendOrOverwrite.Append then f1.m_fileSize + k
            else f1.m_fileSize }
        (wb1.write io1 ((s.drop (wrote % 4294967296)).take k) k).1 := by
    rw [File.writeLoop, if_pos hlt]
    simp only [hmaint, hbuf]
    unfold File.writeBufferedDataToWorkingBlock
    simp only [hwb1]
    rfl
  have hfin : n - (wrote + k) ≤ (S - (wb1.seekPos + k)) +
      freeCount (wb1.write io1 ((s.drop (wrote % 4294967296)).take k) k).1 * S := by
    have hfc : freeCount (wb1.write io1 ((s.drop (wrote % 4294967296)).take k) k).1 =
        freeCount io1 := freeCount_congr rfl rfl
    have hc1 : f1.writeCapacity S io1 = (S - wb1.seekPos) + freeCount io1 * S := by
      unfold File.writeCapacity
      simp only [hwb1]
    rw [hfc]
    rw [hc1] at hcap1
    omega
  have hkS2 : k ≤ S := by omega
  have hcur2 : wb1.seekPos + k ≤ S := by omega
  subst hk
  refine ⟨f1, io1, wb1, _, _, hmaint, hwb1, hroom1, hk1, hkS2, hstep, rfl, ?_, ?_, ?_⟩
  · show f1.m_pos + _ = f.m_pos + _
    rw [hpos1]
  · intro wb h
    have h2 : some { wb1 with seekPos := wb1.seekPos + min (n - wrote) (S - wb1.seekPos) } =
        some wb := h
    cases h2
    exact hcur2
  · exact hfin

theorem File.writeLoop_total {S : Nat} (hS : 0 < S) (hS32 : S < 4294967296) (s : List Byte)
    (n : Nat) :
    ∀ (fuel wrote : Nat) (f : File) (io : Volume), wrote ≤ n → n - wrote ≤ fuel →
      f.cursorWithin S → n - wrote ≤ f.writeCapacity S io →
      ∃ f1 io1, File.writeLoop S s n fuel wrote f io = Res.ok n f1 io1 ∧
        f1.m_pos = f.m_pos + ((n - wrote : Nat) : Int) ∧ f1.cursorWithin S := by
  intro fuel
  induction fuel with
  | zero =>
    intro wrote f io hle hfuel hcur _
    have hw : wrote = n := by omega
    subst hw
    refine ⟨f, io, ?_, ?_, hcur⟩
    · rw [File.writeLoop.eq_def]
      simp only [Nat.lt_irrefl, if_false]
    · simp
  | succ fuel ih =>
    intro wrote f io hle hfuel hcur hcap
    by_cases hlt : wrote < n
    · obtain ⟨f1, io1, wb1, f4, io3, _, _, _, hk1, _, hstep, _, hpos, hcur4, hcap4⟩ :=
        File.writeLoop_iteration hS hS32 s n fuel wrote f io hlt hcur hcap
      have hmin := Nat.min_le_left (n - wrote) (S - wb1.seekPos)
      generalize min (n - wrote) (S - wb1.seekPos) = k at *
      have hkn : wrote + k ≤ n := by omega
      obtain ⟨f5, io5, hres, hpos5, hcur5⟩ :=
        ih (wrote + k) f4 io3 hkn (by omega) hcur4 hcap4
      refine ⟨f5, io5, ?_, ?_, hcur5⟩
      · rw [hstep, hres]
      · rw [hpos5, hpos]
        omega
    · have hw : wrote = n := by omega
      subst hw
      refine ⟨f, io, ?_, ?_, hcur⟩
      · rw [File.writeLoop.eq_def]
        simp only [Nat.lt_irrefl, if_false]
      · simp
/-- C30 (File.cpp 360-391, 338-358, 243-291): a handle that is not read-only, whose
working-block cursor is at most S, writes any n bytes that fit the room of its working
block plus S bytes per free block: `write` returns n without running out of iterations
and `tell` has advanced by n.  Every iteration that starts with bytes left in such a
state gets a working block with room from the maintenance, writes
min(bytes left, S - cursor) bytes, between 1 and S, and leaves such a state. -/
theorem C30_write_returns_n (S : Nat) (hS : 0 < S) (hS32 : S < 4294967296) (f : File)
    (io : Volume) (s : List Byte) (n : Nat)
    (hw : f.m_openDisposition.readWrite ≠ ReadOrWriteOrBoth.ReadOnly)
    (hcur : f.cursorWithin S) (hcap : n ≤ f.writeCapacity S io) :
    (∃ f1 io1, f.write S io s n = Res.ok n f1 io1 ∧ f1.tell = f.tell + (n : Int)) ∧
    (∀ (fuel wrote : Nat) (g : File) (v : Volume), wrote < n → g.cursorWithin S →
      n - wrote ≤ g.writeCapacity S v →
      ∃ g1 v1 wb1 g4 v3,
        g.checkAndUpdateWorkingBlockWithNew S v = Res.ok () g1 v1 ∧
        g1.m_workingBlock = some wb1 ∧ wb1.seekPos < S ∧
        1 ≤ min (n - wrote) (S - wb1.seekPos) ∧
        min (n - wrote) (S - wb1.seekPos) ≤ S ∧
        File.writeLoop S s n (fuel + 1) wrote g v =
          File.writeLoop S s n fuel (wrote + min (n - wrote) (S - wb1.seekPos)) g4 v3 ∧
        g4.m_workingBlock =
          some { wb1 with seekPos := wb1.seekPos + min (n - wrote) (S - wb1.seekPos) } ∧
        g4.tell = g.tell + ((min (n - wrote) (S - wb1.seekPos) : Nat) : Int) ∧
        g4.cursorWithin S ∧
        n - (wrote + min (n - wrote) (S - wb1.seekPos)) ≤ g4.writeCapacity S v3) := by
  refine ⟨?_, ?_⟩
  · obtain ⟨f1, io1, hres, hpos, _⟩ :=
      File.writeLoop_total hS hS32 s n n 0 f io (Nat.zero_le _) (by omega) hcur (by simpa using hcap)
    refine ⟨f1, io1, ?_, ?_⟩
    · unfold File.write
      rw [if_neg hw]
      exact hres
    · show f1.m_pos = f.m_pos + (n : Int)
      rw [hpos]
      simp
  · intro fuel wrote g v hlt hg hcapg
    exact File.writeLoop_iteration hS hS32 s n fuel wrote g v hlt hg hcapg

/-- C30 for the write of six bytes to a new file on the empty example image, with four
payload bytes per block. -/
theorem C30_write_returns_n_witness :
    (∃ f1 io1, (File.create false).write 4 emptyImage [1, 2, 3, 4, 5, 6] 6 = Res.ok 6 f1 io1 ∧
      f1.tell = (File.create false).tell + ((6 : Nat) : Int)) ∧
    (∀ (fuel wrote : Nat) (g : File) (v : Volume), wrote < 6 → g.cursorWithin 4 →
      6 - wrote ≤ g.writeCapacity 4 v →
      ∃ g1 v1 wb1 g4 v3,
        g.checkAndUpdateWorkingBlockWithNew 4 v = Res.ok () g1 v1 ∧
        g1.m_workingBlock = some wb1 ∧ wb1.seekPos < 4 ∧
        1 ≤ min (6 - wrote) (4 - wb1.seekPos) ∧
        min (6 - wrote) (4 - wb1.seekPos) ≤ 4 ∧
        File.writeLoop 4 [1, 2, 3, 4, 5, 6] 6 (fuel + 1) wrote g v =
          File.writeLoop 4 [1, 2, 3, 4, 5, 6] 6 fuel
            (wrote + min (6 - wrote) (4 - wb1.seekPos)) g4 v3 ∧
        g4.m_workingBlock =
          some { wb1 with seekPos := wb1.seekPos + min (6 - wrote) (4 - wb1.seekPos) } ∧
        g4.tell = g.tell + ((min (6 - wrote) (4 - wb1.seekPos) : Nat) : Int) ∧
        g4.cursorWithin 4 ∧
        6 - (wrote + min (6 - wrote) (4 - wb1.seekPos)) ≤ g4.writeCapacity 4 v3) :=
  C30_write_returns_n 4 (by decide) (by decide) (File.create false) emptyImage
    [1, 2, 3, 4, 5, 6] 6 (by decide) (fun _ h => nomatch h) (by decide)

/-! ## Handles that differ in `m_fileSize` and `m_pos` only -/

theorem File.resized_resized (f : File) (a : Nat) (b : Int) :
    (f.resized a b).resized f.m_fileSize f.m_pos = f := by
  cases f
  rfl

theorem File.tellAtOrPastSize_of_le (g : File) (hg : (g.m_fileSize : Int) ≤ g.m_pos) :
    g.tellAtOrPastSize = true := by
  unfold File.tellAtOrPastSize File.tell
  simp only [decide_eq_true_eq]
  right
  omega

theorem File.newWritableFileBlock_resized {f f1 : File} {io io1 : Volume} (sz : Nat) (p : Int)
    (h : f.newWritableFileBlock io = Res.ok () f1 io1) :
    (f.resized sz p).newWritableFileBlock io = Res.ok () (f1.resized sz p) io1 ∧
    f1.m_fileSize = f.m_fileSize ∧ f1.m_pos = f.m_pos ∧
    f1.m_openDisposition = f.m_openDisposition := by
  unfold File.newWritableFileBlock at h ⊢
  simp only [File.resized]
  cases hb : buildWritableFileBlock io f.m_enforceStartBlock with
  | error e =>
    rw [hb] at h
    cases h
  | ok r =>
    obtain ⟨ioB, blk⟩ := r
    rw [hb] at h
    simp only [Res.ok.injEq, true_and] at h
    obtain ⟨rfl, rfl⟩ := h
    exact ⟨rfl, rfl, rfl, rfl⟩

theorem File.checkAndUpdate_resized {S : Nat} {f f1 : File} {io io1 : Volume} (sz : Nat)
    (p : Int) (h : f.checkAndUpdateWorkingBlockWithNew S io = Res.ok () f1 io1)
    (hf : (f.m_fileSize : Int) ≤ f.m_pos) (hp : (sz : Int) ≤ p) :
    (f.resized sz p).checkAndUpdateWorkingBlockWithNew S io = Res.ok () (f1.resized sz p) io1 ∧
    f1.m_fileSize = f.m_fileSize ∧ f1.m_pos = f.m_pos ∧
    (f1.m_openDisposition = f.m_openDisposition ∨
      f1.m_openDisposition = OpenDisposition.buildAppendDisposition) := by
  cases hwb : f.m_workingBlock with
  | none =>
    have hwb2 : (f.resized sz p).m_workingBlock = none := hwb
    unfold File.checkAndUpdateWorkingBlockWithNew at h ⊢
    rw [hwb] at h
    rw [hwb2]
    simp only at h ⊢
    cases hn : f.newWritableFileBlock io with
    | fail e fa ioa =>
      rw [hn] at h
      cases h
    | ok u fa ioa =>
      obtain ⟨hr, h1, h2, h3⟩ := File.newWritableFileBlock_resized sz p hn
      rw [hn] at h
      rw [hr]
      simp only at h ⊢
      cases hfa : fa.m_workingBlock with
      | none =>
        rw [hfa] at h
        cases h
      | some wb =>
        have hfa2 : (fa.resized sz p).m_workingBlock = some wb := hfa
        rw [hfa] at h
        rw [hfa2]
        simp only [Res.ok.injEq, true_and] at h ⊢
        obtain ⟨rfl, rfl⟩ := h
        exact ⟨⟨rfl, rfl⟩, h1, h2, Or.inl h3⟩
  | some wb =>
    have hwb2 : (f.resized sz p).m_workingBlock = some wb := hwb
    by_cases hroom : wb.tell % 4294967296 < S
    · rw [File.checkAndUpdate_room hwb hroom] at h
      rw [File.checkAndUpdate_room hwb2 hroom]
      simp only [Res.ok.injEq, true_and] at h ⊢
      obtain ⟨rfl, rfl⟩ := h
      exact ⟨⟨rfl, rfl⟩, rfl, rfl, Or.inl rfl⟩
    · rw [File.checkAndUpdate_past hwb hroom (File.tellAtOrPastSize_of_le f hf)] at h
      rw [File.checkAndUpdate_past hwb2 hroom (File.tellAtOrPastSize_of_le _ hp)]
      obtain ⟨hr, h1, h2, h3⟩ := File.newWritableFileBlock_resized sz p h
      exact ⟨hr, h1, h2, Or.inr h3⟩

theorem File.bufferBytesForWorkingBlock_resized {S : Nat} {f f1 : File} {io io1 : Volume}
    {s : List Byte} {m off k : Nat} (sz : Nat) (p : Int)
    (h : f.bufferBytesForWorkingBlock S io s m off = Res.ok k f1 io1) :
    (f.resized sz p).bufferBytesForWorkingBlock S io s m off = Res.ok k (f1.resized sz p) io1 ∧
    f1.m_fileSize = f.m_fileSize ∧ f1.m_pos = f.m_pos ∧
    f1.m_openDisposition = f.m_openDisposition := by
  unfold File.bufferBytesForWorkingBlock File.getBytesLeftInWorkingBlock at h ⊢
  cases hwb : f.m_workingBlock with
  | none =>
    rw [hwb] at h
    cases h
  | some wb =>
    have hwb2 : (f.resized sz p).m_workingBlock = some wb := hwb
    rw [hwb] at h
    rw [hwb2]
    simp only at h ⊢
    split at h
    · rename_i h1
      simp only [Res.ok.injEq] at h
      obtain ⟨rfl, rfl, rfl⟩ := h
      rw [if_pos h1]
      exact ⟨rfl, rfl, rfl, rfl⟩
    · rename_i h1
      split at h
      · rename_i h2
        simp only [Res.ok.injEq] at h
        obtain ⟨rfl, rfl, rfl⟩ := h
        rw [if_neg h1, if_pos h2]
        exact ⟨rfl, rfl, rfl, rfl⟩
      · rename_i h2
        simp only [Res.ok.injEq] at h
        obtain ⟨rfl, rfl, rfl⟩ := h
        rw [if_neg h1, if_neg h2]
        exact ⟨rfl, rfl, rfl, rfl⟩

theorem File.writeBufferedDataToWorkingBlock_resized {f f1 : File} {io io1 : Volume}
    {k : Nat} (sz : Nat) (p : Int)
    (h : f.writeBufferedDataToWorkingBlock io k = Res.ok () f1 io1) :
    (f.resized sz p).writeBufferedDataToWorkingBlock io k = Res.ok () (f1.resized sz p) io1 ∧
    f1.m_fileSize = f.m_fileSize ∧ f1.m_pos = f.m_pos ∧
    f1.m_openDisposition = f.m_openDisposition := by
  unfold File.writeBufferedDataToWorkingBlock at h ⊢
  cases hwb : f.m_workingBlock with
  | none =>
    rw [hwb] at h
    cases h
  | some wb =>
    have hwb2 : (f.resized sz p).m_workingBlock = some wb := hwb
    rw [hwb] at h
    rw [hwb2]
    simp only [Res.ok.injEq, true_and] at h ⊢
    obtain ⟨rfl, rfl⟩ := h
    exact ⟨⟨rfl, rfl⟩, rfl, rfl, rfl⟩

/-- A `write` loop that returns on a handle whose position is at or past its recorded size
returns the same value and leaves the same image on every handle that differs
from it in `m_fileSize` and `m_pos` only and is in that situation too; the two
handles it leaves differ in these members only.  The open mode it leaves is
the one it found or the append mode. -/
theorem File.writeLoop_resized {S : Nat} (s : List Byte) (n : Nat) :
    ∀ (fuel wrote : Nat) (f : File) (io : Volume) (sz : Nat) (p : Int) (v : Nat) (f1 : File)
      (io1 : Volume), (f.m_fileSize : Int) ≤ f.m_pos → (sz : Int) ≤ p →
      File.writeLoop S s n fuel wrote f io = Res.ok v f1 io1 →
      (∃ sz1 p1, File.writeLoop S s n fuel wrote (f.resized sz p) io =
          Res.ok v (f1.resized sz1 p1) io1 ∧ (sz1 : Int) ≤ p1) ∧
        (f1.m_fileSize : Int) ≤ f1.m_pos ∧
        (f.m_openDisposition.readWrite = ReadOrWriteOrBoth.ReadWrite →
          f1.m_openDisposition.readWrite = ReadOrWriteOrBoth.ReadWrite) := by
  intro fuel
  induction fuel with
  | zero =>
    intro wrote f io sz p v f1 io1 hf hp h
    rw [File.writeLoop] at h ⊢
    by_cases hlt : wrote < n
    · rw [if_pos hlt] at h
      cases h
    · rw [if_neg hlt] at h
      rw [if_neg hlt]
      simp only [Res.ok.injEq] at h
      obtain ⟨rfl, rfl, rfl⟩ := h
      exact ⟨⟨sz, p, rfl, hp⟩, hf, fun h => h⟩
  | succ fuel ih =>
    intro wrote f io sz p v f1 io1 hf hp h
    rw [File.writeLoop] at h ⊢
    by_cases hlt : wrote < n
    · rw [if_pos hlt] at h
      rw [if_pos hlt]
      simp only at h ⊢
      cases hc : f.checkAndUpdateWorkingBlockWithNew S io with
      | fail e fa ioa =>
        rw [hc] at h
        cases h
      | ok u fa ioa =>
        obtain ⟨hcr, ha1, ha2, ha3⟩ := File.checkAndUpdate_resized sz p hc hf hp
        rw [hc] at h
        rw [hcr]
        simp only at h ⊢
        cases hb : fa.bufferBytesForWorkingBlock S ioa s (n - wrote) wrote with
        | fail e fb iob =>
          rw [hb] at h
          cases h
        | ok k fb iob =>
          obtain ⟨hbr, hb1, hb2, hb3⟩ := File.bufferBytesForWorkingBlock_resized sz p hb
          rw [hb] at h
          rw [hbr]
          simp only at h ⊢
          cases hw : fb.writeBufferedDataToWorkingBlock iob k with
          | fail e fc ioc =>
            rw [hw] at h
            cases h
          | ok u2 fc ioc =>
            obtain ⟨hwr, hc1, hc2, hc3⟩ :=
              File.writeBufferedDataToWorkingBlock_resized sz p hw
            rw [hw] at h
            rw [hwr]
            simp only at h ⊢
            have hsz : fc.m_fileSize = f.m_fileSize := by rw [hc1, hb1, ha1]
            have hps : fc.m_pos = f.m_pos := by rw [hc2, hb2, ha2]
            have hinv : (((if fc.m_openDisposition.append = AppendOrOverwrite.Append then
                fc.m_fileSize + k else fc.m_fileSize : Nat) : Int)) ≤ fc.m_pos + (k : Int) := by
              split
              · push_cast
                omega
              · omega
            have hinv2 : (((if fc.m_openDisposition.append = AppendOrOverwrite.Append then
                sz + k else sz : Nat) : Int)) ≤ p + (k : Int) := by
              split
              · push_cast
                omega
              · omega
            obtain ⟨⟨sz1, p1, hres, hle⟩, hf1, hmode⟩ :=
              ih (wrote + k) _ ioc
                (if fc.m_openDisposition.append = AppendOrOverwrite.Append then sz + k else sz)
                (p + (k : Int)) v f1 io1 hinv hinv2 h
            refine ⟨⟨sz1, p1, ?_, hle⟩, hf1, ?_⟩
            · exact hres
            · intro hrw
              apply hmode
              simp only
              rw [hc3, hb3]
              rcases ha3 with e | e
              · rw [e]
                exact hrw
              · rw [e]
                rfl
    · rw [if_neg hlt] at h
      rw [if_neg hlt]
      simp only [Res.ok.injEq] at h
      obtain ⟨rfl, rfl, rfl⟩ := h
      exact ⟨⟨sz, p, rfl, hp⟩, hf, fun h => h⟩

theorem File.write_resized {S : Nat} {s : List Byte} {n v : Nat} {f f1 : File}
    {io io1 : Volume} (sz : Nat) (p : Int) (hf : (f.m_fileSize : Int) ≤ f.m_pos)
    (hp : (sz : Int) ≤ p) (h : f.write S io s n = Res.ok v f1 io1) :
    (∃ sz1 p1, (f.resized sz p).write S io s n = Res.ok v (f1.resized sz1 p1) io1 ∧
        (sz1 : Int) ≤ p1) ∧
      (f1.m_fileSize : Int) ≤ f1.m_pos ∧
      (f.m_openDisposition.readWrite = ReadOrWriteOrBoth.ReadWrite →
        f1.m_openDisposition.readWrite = ReadOrWriteOrBoth.ReadWrite) := by
  unfold File.write at h ⊢
  by_cases hro : f.m_openDisposition.readWrite = ReadOrWriteOrBoth.ReadOnly
  · rw [if_pos hro] at h
    cases h
  · have hro2 : ¬ (f.resized sz p).m_openDisposition.readWrite = ReadOrWriteOrBoth.ReadOnly :=
      hro
    rw [if_neg hro] at h
    rw [if_neg hro2]
    exact File.writeLoop_resized s n n 0 f io sz p v f1 io1 hf hp h

theorem File.flush_resized {f : File} {io : Volume} (sz : Nat) (p : Int)
    (h : f.flush io = Res.ok () f io) :
    (f.resized sz p).flush io = Res.ok () (f.resized sz p) io := by
  unfold File.flush at h ⊢
  exact (File.writeBufferedDataToWorkingBlock_resized sz p h).1

/-- On a handle on a stored content, whatever its recorded size, `seek(0, end)` puts the
working block at the end of the content and the position at the recorded size:
but for `m_fileSize` and `m_pos` the handle is a writer at the end of the
content. -/
theorem File.seek_end_resized {S : Nat} {f : File} {io : Volume} {b : Nat} {ks : List Nat}
    {C : List Byte} (hst : Stored S io b ks C) (hin : ∀ k ∈ ks, io.bitmap k = true)
    (hstart : f.m_startVolumeBlock = b) (hcount : f.m_blockCount = ks.length)
    (henf : f.m_enforceStartBlock = false)
    (hmode : f.m_openDisposition.readWrite ≠ ReadOrWriteOrBoth.ReadOnly) :
    ∃ f1 i c, f.seek S io 0 SeekDir.end = Res.ok 0 f1 io ∧
      Writer S (f1.resized C.length (C.length : Int)) io b ks C i c ∧
      i * S + c = C.length ∧ f1.m_buffer = f.m_buffer ∧
      f1.m_openDisposition = f.m_openDisposition ∧ f1.m_pos = (f1.m_fileSize : Int) := by
  have hlen : 0 < ks.length := List.length_pos.mpr hst.laid.chain.ne_nil
  have hlast : ks[ks.length - 1]? = some (ks.getD (ks.length - 1) 0) := by
    rw [List.getD_eq_getElem?_getD, List.getElem?_eq_getElem (by omega)]
    rfl
  have hfits := hst.laid.fits
  have hmul : ks.length * S = (ks.length - 1) * S + S := by
    have : ks.length = (ks.length - 1) + 1 := by omega
    conv_lhs => rw [this, Nat.succ_mul]
  have hcan : (ks.length - 1) * S ≤ C.length := by
    rcases hst.canonical with h1 | h1
    · rw [h1]
      simp
    · omega
  have hp := File.seekPair_end hst hstart hcount 0
  rw [getPositionFromEnd_zero] at hp
  have hok : ¬ f.outOfRange (((ks.length - 1 : Nat) : Int),
      ((C.length - (ks.length - 1) * S : Nat) : Int)) := by
    unfold File.outOfRange
    simp only [Int.toNat_ofNat, hcount]
    omega
  have hseek := File.seek_in_range hstart hst.laid.chain hst.laid.inside hp hok
    (by simpa only [Int.toNat_ofNat] using hlast)
  simp only [Int.toNat_ofNat] at hseek
  refine ⟨_, ks.length - 1, C.length - (ks.length - 1) * S, hseek, ?_, by omega, rfl, rfl, ?_⟩
  · refine ⟨hst.laid, hin, hstart, hcount, rfl, rfl, by omega, by omega, ?_, by omega, henf,
      hmode, fun _ => ⟨by omega, by omega⟩, ?_⟩
    · simp only [File.resized]
      congr 1
      omega
    · intro _
      simp only [File.resized]
      exact ⟨Nat.le_refl _, hst.canonical⟩
  · simp only [File.seekGoal]
    omega

/-! ## Folders laid out on an image -/

theorem FolderLayout.lengths {S M : Nat} {d : ContentFolder} {io : Volume} {ks : List Nat}
    {recs : List (List Byte)} (hv : FolderLayout S M d io ks recs)
    (hsmall : 8 + (recs.length + 1) * (1 + M + 8) < 4294967296) :
    (folderBody recs).length = 8 + recs.length * (1 + M + 8) ∧
    (folderBody recs).length + (1 + M + 8) < 4294967296 ∧
    d.m_entryCount.toNat = recs.length := by
  have hlen := folderBody_length hv.width
  rw [Nat.succ_mul] at hsmall
  refine ⟨hlen, by omega, ?_⟩
  rw [hv.count, Int.toNat_ofNat]

/-- The layout of a folder does not depend on the cursor of the working block of
`m_folderData`, on its recorded size and position, nor on the cache, the dead
count and the two flags. -/
theorem FolderLayout.same_handle {S M : Nat} {d d1 : ContentFolder} {io : Volume} {ks : List Nat}
    {recs : List (List Byte)} (hv : FolderLayout S M d io ks recs)
    (h1 : d1.m_startVolumeBlock = d.m_startVolumeBlock)
    (h2 : d1.m_entryCount = d.m_entryCount)
    (h3 : d1.m_folderData.lent = d.m_folderData.lent) : FolderLayout S M d1 io ks recs := by
  have e1 : d1.m_folderData.m_startVolumeBlock = d.m_folderData.m_startVolumeBlock :=
    by
      have h := congrArg File.m_startVolumeBlock h3
      exact h
  have e2 : d1.m_folderData.m_blockCount = d.m_folderData.m_blockCount :=
    by
      have h := congrArg File.m_blockCount h3
      exact h
  have e3 : d1.m_folderData.m_openDisposition = d.m_folderData.m_openDisposition :=
    by
      have h := congrArg File.m_openDisposition h3
      exact h
  have e5 : d1.m_folderData.m_enforceStartBlock = d.m_folderData.m_enforceStartBlock :=
    by
      have h := congrArg File.m_enforceStartBlock h3
      exact h
  have e6 : d1.m_folderData.m_buffer = d.m_folderData.m_buffer :=
    by
      have h := congrArg File.m_buffer h3
      exact h
  exact ⟨by rw [h1]; exact hv.stored, hv.inUse, hv.width, by rw [h2]; exact hv.count,
    by rw [e1, h1]; exact hv.start, by rw [e2]; exact hv.blockCount,
    by rw [e3]; exact hv.mode, by rw [e5]; exact hv.enforce, by rw [e6]; exact hv.buffer⟩

/-- The record appended to the body of a folder by `doWriteNewMetaDataForEntry`: the
`seek(0, end)`, the three writes, the count and the flush return, the body gains
the record, its header holds the new count, and the folder is laid out on the
chain with the blocks `nb`, which were free, behind it.  No block outside the
chain is written to. -/
theorem ContentFolder.appendRecord_layout {S M : Nat} (hS : 8 ≤ S) (hS32 : S < 4294967296)
    {d : ContentFolder} {io : Volume} {ks : List Nat} {recs : List (List Byte)}
    (hv : FolderLayout S M d io ks recs)
    (hsmall : 8 + (recs.length + 1) * (1 + M + 8) < 4294967296) {name : List Byte}
    (hn : name.length < M) (entryType : EntryType) (startBlock : Nat)
    (hcap : (folderBody recs).length + (1 + M + 8) ≤ (ks.length + freeCount io) * S) :
    ∃ f1 F io1 nb,
      d.m_folderData.seek S io 0 SeekDir.end = Res.ok 0 f1 io ∧
      ContentFolder.writeRecord S M { d with m_folderData := f1 } io name entryType startBlock
          true =
        FolderRes.ok () { d with m_folderData := F, m_entryCount := d.m_entryCount + 1 } io1 ∧
      FolderLayout S M { d with m_folderData := F, m_entryCount := d.m_entryCount + 1 } io1
        (ks ++ nb) (recs ++ [entryRecord M name entryType startBlock]) ∧
      (∀ k, io1.bitmap k = (io.bitmap k || decide (k ∈ nb))) ∧
      (ks ++ nb).length + freeCount io1 = ks.length + freeCount io ∧
      (∀ k ∈ nb, io.bitmap k = false) ∧
      (∀ x, x ∉ ks → x ∉ nb → io1.store x = io.store x) ∧
      io1.blocks = io.blocks := by
  have hS0 : 0 < S := by omega
  obtain ⟨hlen, h32, hcnt⟩ := hv.lengths hsmall
  have hM : 1 + M + 8 ≤ 4294967296 := by omega
  have hrl : recs.length + 1 < 18446744073709551616 := by
    have : recs.length ≤ recs.length * (1 + M + 8) := Nat.le_mul_of_pos_right _ (by omega)
    omega
  have hrw : d.m_folderData.m_openDisposition.readWrite ≠ ReadOrWriteOrBoth.ReadOnly := by
    rw [hv.mode]
    decide
  obtain ⟨f1, i, c, hseek, hw, hend, hbuf1, hdisp1, hpos1⟩ :=
    File.seek_end_resized hv.stored hv.inUse hv.start hv.blockCount hv.enforce hrw
  have hh := convertUInt64ToInt8Array_length recs.length
  obtain ⟨g2, io1, g3, io2, g4, io3, nb, i3, c3, w1, w2, w3, hw3, hk3, hb3, hbit, hcp, hfree,
      hoth, hbl⟩ :=
    Writer.write_record hS0 hS32 hw (hbuf1.trans hv.buffer) hv.stored.canonical hn hM entryType
      startBlock (by rw [hend]; exact hcap)
  -- the same writes through the handle of the folder
  have hmode1 : (f1.resized (folderBody recs).length ((folderBody recs).length : Int)).m_openDisposition.readWrite =
      ReadOrWriteOrBoth.ReadWrite := by
    show f1.m_openDisposition.readWrite = _
    rw [hdisp1]
    exact hv.mode
  obtain ⟨⟨s1, p1, v1, hle1⟩, hi1, hm1⟩ :=
    File.write_resized f1.m_fileSize f1.m_pos (by simp [File.resized]) (by omega) w1
  rw [File.resized_resized] at v1
  obtain ⟨⟨s2, p2, v2, hle2⟩, hi2, hm2⟩ := File.write_resized s1 p1 hi1 hle1 w2
  obtain ⟨⟨s3, p3, v3, hle3⟩, hi3, hm3⟩ := File.write_resized s2 p2 hi2 hle2 w3
  have hmode4 : g4.m_openDisposition.readWrite = ReadOrWriteOrBoth.ReadWrite :=
    hm3 (hm2 (hm1 hmode1))
  rw [hend, splice_at_end] at hw3 hk3
  unfold folderBody at hw3 hk3
  rw [bodyOf_snoc] at hw3 hk3
  have hlen2 : (bodyOf (convertUInt64ToInt8Array (recs.length + 1))
        (recs ++ [entryRecord M name entryType startBlock])).length =
      (bodyOf (convertUInt64ToInt8Array recs.length)
        (recs ++ [entryRecord M name entryType startBlock])).length := by
    simp only [bodyOf, List.length_append, convertUInt64ToInt8Array_length]
  have hlaid := hw3.laid.header_rewrite hS hh (recs.length + 1)
  have hw5 : Writer S g4 (writeFolderEntryCount io3 d.m_startVolumeBlock (recs.length + 1))
      d.m_startVolumeBlock (ks ++ nb)
      (bodyOf (convertUInt64ToInt8Array (recs.length + 1))
        (recs ++ [entryRecord M name entryType startBlock])) i3 c3 :=
    ⟨hlaid, hw3.inUse, hw3.start, hw3.count, hw3.index, hw3.block, hw3.valid, hw3.cursor,
      hw3.pos, by rw [hlen2]; exact hw3.within, hw3.enforce, hw3.writable,
      by rw [hlen2]; exact hw3.atEnd, by rw [hlen2]; exact hw3.sized⟩
  have hfl := File.flush_resized s3 p3 (Writer.flush_noop hw5 hb3)
  have hgs := File.getStartVolumeBlockIndex_of_block S io3
    (show (g4.resized s3 p3).m_workingBlock = _ from hw3.block)
  have hst4 : (g4.resized s3 p3).m_startVolumeBlock = d.m_startVolumeBlock := hw3.start
  rw [hst4] at hgs
  have hmod : ((d.m_entryCount + 1) % 18446744073709551616).toNat = recs.length + 1 := by
    rw [hv.count]
    have : ((recs.length : Int) + 1) % 18446744073709551616 = ((recs.length + 1 : Nat) : Int) := by
      rw [Int.emod_eq_of_lt (by omega) (by omega)]
      push_cast
      rfl
    rw [this, Int.toNat_ofNat]
  have hb_mem : d.m_startVolumeBlock ∈ ks := by
    have := hv.stored.laid.chain.head_eq
    exact List.mem_iff_getElem?.mpr ⟨0, this⟩
  refine ⟨f1, g4.resized s3 p3, writeFolderEntryCount io3 d.m_startVolumeBlock (recs.length + 1),
    nb, hseek, ?_, ?_, hbit, ?_, hfree, ?_, hbl⟩
  · simp only [ContentFolder.writeRecord, ContentFolder.doWriteFirstByteToEntryMetaData,
      ContentFolder.doWriteFilenameToEntryMetaData,
      ContentFolder.doWriteFirstBlockIndexToEntryMetaData, ContentFolder.doWrite,
      createFileNameVector, hn, if_true, v1, v2, v3, hgs, hmod, hfl]
  · refine ⟨⟨?_, ?_⟩, hw5.inUse, width_snoc hv.width (entryRecord_length hn entryType startBlock),
      ?_, hw3.start, hw3.count, hmode4, hw3.enforce, hb3⟩
    · have e : folderBody (recs ++ [entryRecord M name entryType startBlock]) =
          bodyOf (convertUInt64ToInt8Array (recs.length + 1))
            (recs ++ [entryRecord M name entryType startBlock]) := by
        simp [folderBody]
      rw [e]
      exact hw5.laid
    · have e : folderBody (recs ++ [entryRecord M name entryType startBlock]) =
          bodyOf (convertUInt64ToInt8Array (recs.length + 1))
            (recs ++ [entryRecord M name entryType startBlock]) := by
        simp [folderBody]
      rw [e, hlen2]
      exact hk3
    · show d.m_entryCount + 1 = _
      rw [hv.count]
      simp
  · rw [← hcp]
    congr 1
  · intro x hx hnb
    have hxb : x ≠ d.m_startVolumeBlock := fun e => hx (e ▸ hb_mem)
    rw [← hoth x hx hnb]
    simp only [writeFolderEntryCount, hxb, if_false]

/-- The record written over one that is out of use by `doWriteNewMetaDataForEntry`: the
handle opened for overwriting, the `seek`, the three writes and the flush
return, the record `i` of the body is replaced, and the folder is laid out on
the same chain with the new handle as `m_folderData`.  No bit of the bitmap
changes and no block outside the chain is written to. -/
theorem ContentFolder.reuseRecord_layout {S M : Nat} (hS : 0 < S) (hS32 : S < 4294967296)
    {d : ContentFolder} {io : Volume} {ks : List Nat} {recs : List (List Byte)}
    (hv : FolderLayout S M d io ks recs)
    (hsmall : 8 + (recs.length + 1) * (1 + M + 8) < 4294967296) {i : Nat}
    (hi : i < recs.length) (hgood : (8 + i * (1 + M + 8)) % S ≠ 0) {name : List Byte}
    (hn : name.length < M) (entryType : EntryType) (startBlock : Nat) (dead : Int) :
    ∃ f2 f3 F io1,
      File.openExisting S io d.m_startVolumeBlock OpenDisposition.buildOverwriteDisposition =
        Res.ok () f2 io ∧
      f2.seek S io ((8 + i * (1 + M + 8) : Nat) : Int) SeekDir.beg =
        Res.ok ((8 + i * (1 + M + 8) : Nat) : Int) f3 io ∧
      ContentFolder.writeRecord S M { d with m_folderData := f3, m_deadEntryCount := dead } io
          name entryType startBlock false =
        FolderRes.ok () { d with m_folderData := F, m_deadEntryCount := dead } io1 ∧
      FolderLayout S M { d with m_folderData := F, m_deadEntryCount := dead } io1 ks
        (recs.set i (entryRecord M name entryType startBlock)) ∧
      io1.bitmap = io.bitmap ∧ io1.blocks = io.blocks ∧
      (∀ x, x ∉ ks → io1.store x = io.store x) := by
  obtain ⟨hlen, h32, hcnt⟩ := hv.lengths hsmall
  have hM : 1 + M + 8 ≤ 4294967296 := by omega
  obtain ⟨f2, hopen, hw2, _, hsz2, hdisp2, hbuf2⟩ :=
    Stored.open_overwrite hS hv.stored hv.inUse OpenDisposition.buildOverwriteDisposition
      (by decide) (by decide) (by decide)
  have hiW : (i + 1) * (1 + M + 8) ≤ recs.length * (1 + M + 8) :=
    Nat.mul_le_mul_right _ (by omega)
  rw [Nat.succ_mul] at hiW
  obtain ⟨f3, i3, c3, hseek, hw3, hpos, _, hdisp3, hbuf3⟩ :=
    Writer.seek_beg hw2 (by rw [hdisp2]; rfl) (k := 8 + i * (1 + M + 8)) (by omega)
      (Or.inr hgood)
  have hov3 : f3.m_openDisposition.append = AppendOrOverwrite.Overwrite := by
    rw [hdisp3, hdisp2]
    rfl
  have hvl : (name ++ List.replicate (M - name.length) (0 : Byte)).length = M := by
    simp only [List.length_append, List.length_replicate]
    omega
  have h8 := convertUInt64ToInt8Array_length startBlock
  obtain ⟨g1, io1, i1, c1, w1, o1⟩ :=
    Writer.overwrite hS hS32
      (s := [setBitInByte (setBitInByte 0 0 true) 1 (decide (entryType = EntryType.FileType))])
      (by simp) hw3 hov3 (by simp only [List.length_singleton]; omega)
  simp only [List.length_singleton] at w1
  have hl1 := splice_length (folderBody recs) (i3 * S + c3)
    [setBitInByte (setBitInByte 0 0 true) 1 (decide (entryType = EntryType.FileType))]
    hw3.within
  simp only [List.length_singleton] at hl1
  have hp1 := o1.newPos
  simp only [List.length_singleton] at hp1
  obtain ⟨g2, io2, i2, c2, w2, o2⟩ :=
    Writer.overwrite hS hS32 (s := name ++ List.replicate (M - name.length) 0)
      (by rw [hvl]; omega) o1.writer (by rw [o1.mode]; exact hov3)
      (by rw [hvl, hl1, hp1]; omega)
  rw [hvl] at w2
  have hl2 := splice_length (splice (folderBody recs) (i3 * S + c3)
    [setBitInByte (setBitInByte 0 0 true) 1 (decide (entryType = EntryType.FileType))])
    (i1 * S + c1) (name ++ List.replicate (M - name.length) 0) o1.writer.within
  rw [hvl] at hl2
  have hp2 := o2.newPos
  rw [hvl] at hp2
  obtain ⟨g3, io3, i4, c4, w3, o3⟩ :=
    Writer.overwrite hS hS32 (s := convertUInt64ToInt8Array startBlock)
      (by rw [h8]; omega) o2.writer (by rw [o2.mode, o1.mode]; exact hov3)
      (by rw [h8, hl2, hl1, hp2, hp1]; omega)
  rw [h8] at w3
  have hcontent : splice (splice (splice (folderBody recs) (i3 * S + c3)
        [setBitInByte (setBitInByte 0 0 true) 1 (decide (entryType = EntryType.FileType))])
        (i1 * S + c1) (name ++ List.replicate (M - name.length) 0)) (i2 * S + c2)
        (convertUInt64ToInt8Array startBlock) =
      splice (folderBody recs) (i3 * S + c3) (entryRecord M name entryType startBlock) := by
    have e1 : i1 * S + c1 = i3 * S + c3 +
        [setBitInByte (setBitInByte 0 0 true) 1
          (decide (entryType = EntryType.FileType))].length := by
      simp only [List.length_singleton, hp1]
    rw [e1, splice_splice _ _ _ _ hw3.within]
    have e2 : i2 * S + c2 = i3 * S + c3 +
        ([setBitInByte (setBitInByte 0 0 true) 1 (decide (entryType = EntryType.FileType))] ++
          (name ++ List.replicate (M - name.length) 0)).length := by
      simp only [List.length_append, List.length_singleton, hvl, hp2, hp1]
      omega
    rw [e2, splice_splice _ _ _ _ hw3.within]
    simp only [entryRecord, List.append_assoc]
  have hrlen := entryRecord_length hn entryType startBlock
  have hcontent2 : splice (folderBody recs) (i3 * S + c3)
        (entryRecord M name entryType startBlock) =
      folderBody (recs.set i (entryRecord M name entryType startBlock)) := by
    rw [hpos]
    have := bodyOf_splice (convertUInt64ToInt8Array_length recs.length) hv.width hi 0
      (entryRecord M name entryType startBlock) (by omega)
    rw [Nat.add_zero] at this
    unfold folderBody
    rw [this, splice_whole _ _ (by rw [hrlen, getD_width hv.width hi]), List.length_set]
  have hw5 := o3.writer
  rw [hcontent, hcontent2] at hw5
  have hbuf5 : g3.m_buffer = [] :=
    o3.buffer (o2.buffer (o1.buffer (hbuf3.trans hbuf2)))
  have hfl := Writer.flush_noop hw5 hbuf5
  have hlen5 : (folderBody (recs.set i (entryRecord M name entryType startBlock))).length =
      (folderBody recs).length := by
    rw [folderBody_length (width_set hv.width i hrlen), hlen, List.length_set]
  have hmode5 : g3.m_openDisposition.readWrite = ReadOrWriteOrBoth.ReadWrite := by
    rw [o3.mode, o2.mode, o1.mode, hdisp3, hdisp2]
    rfl
  refine ⟨f2, f3, g3, io3, hopen, hseek, ?_, ?_, ?_, ?_, ?_⟩
  · simp only [ContentFolder.writeRecord, ContentFolder.doWriteFirstByteToEntryMetaData,
      ContentFolder.doWriteFilenameToEntryMetaData,
      ContentFolder.doWriteFirstBlockIndexToEntryMetaData, ContentFolder.doWrite,
      createFileNameVector, hn, if_true, w1, w2, w3, Bool.false_eq_true, if_false, hfl]
  · refine ⟨⟨hw5.laid, ?_⟩, hw5.inUse, width_set hv.width i hrlen, ?_, hw5.start, hw5.count, hmode5,
      hw5.enforce, hbuf5⟩
    · rw [hlen5]
      exact hv.stored.canonical
    · show d.m_entryCount = _
      rw [hv.count, List.length_set]
  · rw [o3.bitmap, o2.bitmap, o1.bitmap]
  · rw [o3.blocks, o2.blocks, o1.blocks]
  · intro x hx
    rw [o3.others x hx, o2.others x hx, o1.others x hx]

/-! ## The scans over the records of a folder -/

/-- Reading the record `e` of a stored folder delivers the record. -/
theorem read_record {S M : Nat} (hS : 0 < S) (hS32 : S < 4294967296)
    {io : Volume} {b : Nat} {ks : List Nat} {recs : List (List Byte)}
    (hst : Stored S io b ks (folderBody recs)) (hw : ∀ r ∈ recs, r.length = 1 + M + 8)
    (h32 : (folderBody recs).length < 4294967296)
    (hgood : ∀ i < recs.length, (8 + i * (1 + M + 8)) % S ≠ 0) {f : File}
    (hstart : f.m_startVolumeBlock = b) (hcount : f.m_blockCount = ks.length)
    (hmode : f.m_openDisposition.readWrite ≠ ReadOrWriteOrBoth.WriteOnly) {e : Nat}
    (he : e < recs.length) :
    doSeekAndReadOfEntryMetaData S M f io e = Except.ok (recs.getD e []) ∧
    (1 + M + 8) % 4294967296 = 1 + M + 8 := by
  have hlen := folderBody_length hw
  have hin : 8 + e * (1 + M + 8) + (1 + M + 8) ≤ (folderBody recs).length := by
    rw [hlen]
    have : (e + 1) * (1 + M + 8) ≤ recs.length * (1 + M + 8) :=
      Nat.mul_le_mul_right _ (by omega)
    rw [Nat.succ_mul] at this
    omega
  have hread := doSeekAndReadOfEntryMetaData_spec hS hS32 hst hstart hcount hmode hin h32
    (hgood e he)
  have hrec : ((folderBody recs).drop (8 + e * (1 + M + 8))).take (1 + M + 8) =
      recs.getD e [] := bodyOf_record (convertUInt64ToInt8Array_length _) hw he
  rw [hrec] at hread
  exact ⟨hread, (record_offset hin h32).1⟩

/-- The scan of `doFindOffsetWhereMetaDataShouldBeWritten` over a stored folder returns the
offset of the first record that is out of use, and nothing when every record is
in use. -/
theorem ContentFolder.findDisabledFrom_first {S M : Nat} (hS : 0 < S) (hS32 : S < 4294967296)
    {io : Volume} {b : Nat} {ks : List Nat} {recs : List (List Byte)}
    (hst : Stored S io b ks (folderBody recs)) (hw : ∀ r ∈ recs, r.length = 1 + M + 8)
    (h32 : (folderBody recs).length < 4294967296)
    (hgood : ∀ i < recs.length, (8 + i * (1 + M + 8)) % S ≠ 0) :
    ∀ (k e : Nat) (f : File), f.m_startVolumeBlock = b → f.m_blockCount = ks.length →
      f.m_openDisposition.readWrite ≠ ReadOrWriteOrBoth.WriteOnly → e + k ≤ recs.length →
      (∃ i, e ≤ i ∧ i < e + k ∧ entryMetaDataIsEnabled (recs.getD i []) = false ∧
        (∀ j, e ≤ j → j < i → entryMetaDataIsEnabled (recs.getD j []) = true) ∧
        ContentFolder.findDisabledFrom S M io k e f =
          Except.ok (some ((8 + i * (1 + M + 8) : Nat) : Int))) ∨
      ((∀ j, e ≤ j → j < e + k → entryMetaDataIsEnabled (recs.getD j []) = true) ∧
        ContentFolder.findDisabledFrom S M io k e f = Except.ok none) := by
  intro k
  induction k with
  | zero =>
    intro e f _ _ _ _
    exact Or.inr ⟨fun j h1 h2 => by omega, rfl⟩
  | succ k ih =>
    intro e f hstart hcount hmode hek
    have he : e < recs.length := by omega
    obtain ⟨hread, hW⟩ := read_record hS hS32 hst hw h32 hgood hstart hcount hmode he
    unfold ContentFolder.findDisabledFrom
    simp only [hread, hW]
    by_cases hen : entryMetaDataIsEnabled (recs.getD e []) = true
    · simp only [hen, Bool.not_true, Bool.false_eq_true, if_false]
      rcases ih (e + 1) f.lent hstart hcount hmode (by omega) with
        ⟨i, h1, h2, h3, h4, h5⟩ | ⟨h1, h2⟩
      · refine Or.inl ⟨i, by omega, by omega, h3, ?_, h5⟩
        intro j hj1 hj2
        by_cases hje : j = e
        · rw [hje]
          exact hen
        · exact h4 j (by omega) hj2
      · refine Or.inr ⟨?_, h2⟩
        intro j hj1 hj2
        by_cases hje : j = e
        · rw [hje]
          exact hen
        · exact h1 j (by omega) (by omega)
    · simp only [hen, Bool.not_false, if_true]
      exact Or.inl ⟨e, Nat.le_refl _, by omega, by simpa using hen,
        fun j h1 h2 => by omega, rfl⟩

/-- The scan of `doGetMetaDataIndexForEntry` over a stored folder returns the index of the
first record that carries the name, in use or not, and -1 when no record
does. -/
theorem ContentFolder.metaDataIndexFrom_first {S M : Nat} (hS : 0 < S) (hS32 : S < 4294967296)
    {io : Volume} {b : Nat} {ks : List Nat} {recs : List (List Byte)}
    (hst : Stored S io b ks (folderBody recs)) (hw : ∀ r ∈ recs, r.length = 1 + M + 8)
    (h32 : (folderBody recs).length < 4294967296)
    (hgood : ∀ i < recs.length, (8 + i * (1 + M + 8)) % S ≠ 0) (name : List Byte) :
    ∀ (k e : Nat) (f : File), f.m_startVolumeBlock = b → f.m_blockCount = ks.length →
      f.m_openDisposition.readWrite ≠ ReadOrWriteOrBoth.WriteOnly → e + k ≤ recs.length →
      (∃ i, e ≤ i ∧ i < e + k ∧ name = getEntryName (recs.getD i []) ∧
        (∀ j, e ≤ j → j < i → name ≠ getEntryName (recs.getD j [])) ∧
        ContentFolder.metaDataIndexFrom S M io name k e f = Except.ok (i : Int)) ∨
      ((∀ j, e ≤ j → j < e + k → name ≠ getEntryName (recs.getD j [])) ∧
        ContentFolder.metaDataIndexFrom S M io name k e f = Except.ok (-1)) := by
  intro k
  induction k with
  | zero =>
    intro e f _ _ _ _
    exact Or.inr ⟨fun j h1 h2 => by omega, rfl⟩
  | succ k ih =>
    intro e f hstart hcount hmode hek
    have he : e < recs.length := by omega
    obtain ⟨hread, hW⟩ := read_record hS hS32 hst hw h32 hgood hstart hcount hmode he
    unfold ContentFolder.metaDataIndexFrom
    simp only [hread]
    by_cases hnm : name = getEntryName (recs.getD e [])
    · rw [if_pos hnm]
      exact Or.inl ⟨e, Nat.le_refl _, by omega, hnm, fun j h1 h2 => by omega, rfl⟩
    · rw [if_neg hnm]
      rcases ih (e + 1) f.lent hstart hcount hmode (by omega) with
        ⟨i, h1, h2, h3, h4, h5⟩ | ⟨h1, h2⟩
      · refine Or.inl ⟨i, by omega, by omega, h3, ?_, h5⟩
        intro j hj1 hj2
        by_cases hje : j = e
        · rw [hje]
          exact hnm
        · exact h4 j (by omega) hj2
      · refine Or.inr ⟨?_, h2⟩
        intro j hj1 hj2
        by_cases hje : j = e
        · rw [hje]
          exact hnm
        · exact h1 j (by omega) (by omega)

/-- What `doFindOffsetWhereMetaDataShouldBeWritten` returns on a folder that is laid out:
the offset of the first record that is out of use, or nothing, and then
`m_checkForEarlyMetaData` is off; when it was on before, every record is in use.
The image is as it was, and the object but for the two flags and the cursor of
the working block of `m_folderData`. -/
theorem ContentFolder.doFindOffset_first {S M : Nat} (hS : 0 < S) (hS32 : S < 4294967296)
    {d : ContentFolder} {io : Volume} {ks : List Nat} {recs : List (List Byte)}
    (hv : FolderLayout S M d io ks recs)
    (hgood : ∀ i < recs.length, (8 + i * (1 + M + 8)) % S ≠ 0)
    (hsmall : 8 + (recs.length + 1) * (1 + M + 8) < 4294967296) :
    ∃ r d1, d.doFindOffsetWhereMetaDataShouldBeWritten S M io = FolderRes.ok r d1 io ∧
      d1.m_startVolumeBlock = d.m_startVolumeBlock ∧ d1.m_entryCount = d.m_entryCount ∧
      d1.m_folderData.lent = d.m_folderData.lent ∧
      d1.m_entryInfoCacheMap = d.m_entryInfoCacheMap ∧
      ((∃ i, i < recs.length ∧ r = some ((8 + i * (1 + M + 8) : Nat) : Int) ∧
          entryMetaDataIsEnabled (recs.getD i []) = false ∧
          (∀ j, j < i → entryMetaDataIsEnabled (recs.getD j []) = true) ∧
          d1.m_checkForEarlyMetaData = true) ∨
        (r = none ∧ d1.m_checkForEarlyMetaData = false ∧
          (d.m_checkForEarlyMetaData = true →
            ∀ j, j < recs.length → entryMetaDataIsEnabled (recs.getD j []) = true))) := by
  obtain ⟨hlen, h32, hcnt⟩ := hv.lengths hsmall
  have hmode : d.m_folderData.m_openDisposition.readWrite ≠ ReadOrWriteOrBoth.WriteOnly := by
    rw [hv.mode]
    decide
  have hscan := ContentFolder.findDisabledFrom_first hS hS32 hv.stored hv.width
    (by omega) hgood recs.length 0 d.m_folderData hv.start hv.blockCount hmode (by omega)
  cases d with
  | mk fd st cnt dead cache chk old =>
    simp only at hcnt hscan
    have hl1 : ∀ c1 o1, (if 0 < cnt then ContentFolder.mk fd.lent st cnt dead cache c1 o1
        else ContentFolder.mk fd st cnt dead cache c1 o1).m_folderData.lent = fd.lent := by
      intro c1 o1
      split
      · exact File.lent_lent _
      · rfl
    have hs1 : ∀ c1 o1, (if 0 < cnt then ContentFolder.mk fd.lent st cnt dead cache c1 o1
        else ContentFolder.mk fd st cnt dead cache c1 o1).m_startVolumeBlock = st := by
      intro c1 o1
      split <;> rfl
    have hc1 : ∀ c1 o1, (if 0 < cnt then ContentFolder.mk fd.lent st cnt dead cache c1 o1
        else ContentFolder.mk fd st cnt dead cache c1 o1).m_entryCount = cnt := by
      intro c1 o1
      split <;> rfl
    have hm1 : ∀ c1 o1, (if 0 < cnt then ContentFolder.mk fd.lent st cnt dead cache c1 o1
        else ContentFolder.mk fd st cnt dead cache c1 o1).m_entryInfoCacheMap = cache := by
      intro c1 o1
      split <;> rfl
    have hk1 : ∀ c1 o1, (if 0 < cnt then ContentFolder.mk fd.lent st cnt dead cache c1 o1
        else ContentFolder.mk fd st cnt dead cache c1 o1).m_checkForEarlyMetaData = c1 := by
      intro c1 o1
      split <;> rfl
    unfold ContentFolder.doFindOffsetWhereMetaDataShouldBeWritten
    cases chk with
    | true =>
      simp only [if_true, hcnt]
      rcases hscan with ⟨i, _, h2, h3, h4, h5⟩ | ⟨h1, h2⟩
      · rw [h5]
        refine ⟨_, _, rfl, hs1 true old, hc1 true old, hl1 true old, hm1 true old,
          Or.inl ⟨i, by omega, rfl, h3, fun j hj => h4 j (Nat.zero_le _) hj, hk1 true old⟩⟩
      · rw [h2]
        refine ⟨none, _, rfl, ?_, ?_, ?_, ?_, Or.inr ⟨rfl, ?_, ?_⟩⟩
        · exact hs1 true old
        · exact hc1 true old
        · exact hl1 true old
        · exact hm1 true old
        · rfl
        · intro _ j hj
          exact h1 j (Nat.zero_le _) (by omega)
    | false =>
      simp only [Bool.false_eq_true, if_false]
      refine ⟨none, _, rfl, rfl, rfl, rfl, rfl, Or.inr ⟨rfl, rfl, ?_⟩⟩
      intro h
      cases h

/-! ## The fields of a record -/

theorem getD_set_same {recs : List (List Byte)} {i : Nat} (hi : i < recs.length)
    (r : List Byte) : (recs.set i r).getD i [] = r := by
  rw [List.getD_eq_getElem?_getD, List.getElem?_set_self hi]
  rfl

theorem getD_set_other {recs : List (List Byte)} {i j : Nat} (h : i ≠ j) (r : List Byte) :
    (recs.set i r).getD j [] = recs.getD j [] := by
  rw [List.getD_eq_getElem?_getD, List.getD_eq_getElem?_getD, List.getElem?_set_ne h]

theorem getD_snoc_old {recs : List (List Byte)} {j : Nat} (hj : j < recs.length)
    (r : List Byte) : (recs ++ [r]).getD j [] = recs.getD j [] := by
  rw [List.getD_eq_getElem?_getD, List.getD_eq_getElem?_getD, List.getElem?_append_left hj]

theorem getD_snoc_new (recs : List (List Byte)) (r : List Byte) :
    (recs ++ [r]).getD recs.length [] = r := by
  rw [List.getD_eq_getElem?_getD, List.getElem?_append_right (Nat.le_refl _)]
  simp

theorem toNat_ofNat_byte (n : Nat) : (UInt8.ofNat n).toNat = n % 256 := rfl

theorem convert_roundtrip (n : Nat) (hn : n < 18446744073709551616) (rest : List Byte) :
    convertInt8ArrayToInt64 (convertUInt64ToInt8Array n ++ rest) = n := by
  simp only [convertInt8ArrayToInt64, convertUInt64ToInt8Array, List.range, List.range.loop,
    List.map_cons, List.map_nil, List.cons_append, List.getD_cons_zero, List.getD_cons_succ,
    List.sum_cons, List.sum_nil, toNat_ofNat_byte]
  norm_num
  omega

theorem entryRecord_type (M : Nat) (name : List Byte) (entryType : EntryType)
    (startBlock : Nat) :
    getTypeForEntry (entryRecord M name entryType startBlock) = entryType := by
  cases entryType <;> simp [entryRecord, getTypeForEntry] <;> decide

theorem entryRecord_block {M : Nat} {name : List Byte} (hn : name.length < M)
    (entryType : EntryType) {startBlock : Nat} (hb : startBlock < 18446744073709551616) :
    getBlockIndexForEntry M (entryRecord M name entryType startBlock) = startBlock := by
  have hvl : (name ++ List.replicate (M - name.length) (0 : Byte)).length = M := by
    simp only [List.length_append, List.length_replicate]
    omega
  have e : (entryRecord M name entryType startBlock).drop (M + 1) =
      convertUInt64ToInt8Array startBlock ++ [] := by
    unfold entryRecord
    rw [List.drop_append_eq_append_drop]
    simp only [List.length_singleton]
    rw [List.drop_of_length_le (by simp), List.nil_append]
    have : M + 1 - 1 = (name ++ List.replicate (M - name.length) (0 : Byte)).length := by
      rw [hvl]
      omega
    rw [this, List.drop_left, List.append_nil]
  unfold getBlockIndexForEntry
  rw [e]
  exact convert_roundtrip startBlock hb []

theorem getD_mem_of_lt {recs : List (List Byte)} {j : Nat} (hj : j < recs.length) :
    recs.getD j [] ∈ recs := by
  rw [List.getD_eq_getElem?_getD, List.getElem?_eq_getElem hj]
  exact List.getElem_mem hj

theorem exists_getD_of_mem {recs : List (List Byte)} {r : List Byte} (h : r ∈ recs) :
    ∃ j, j < recs.length ∧ recs.getD j [] = r := by
  obtain ⟨j, hj, e⟩ := List.getElem_of_mem h
  refine ⟨j, hj, ?_⟩
  rw [List.getD_eq_getElem?_getD, List.getElem?_eq_getElem hj]
  exact e

theorem mem_liveNames {recs : List (List Byte)} {x : List Byte} :
    x ∈ liveNames recs ↔
      ∃ j, j < recs.length ∧ entryMetaDataIsEnabled (recs.getD j []) = true ∧
        getEntryName (recs.getD j []) = x := by
  unfold liveNames
  constructor
  · intro h
    obtain ⟨r, hr, e⟩ := List.mem_map.mp h
    obtain ⟨hmem, hen⟩ := List.mem_filter.mp hr
    obtain ⟨j, hj, ej⟩ := exists_getD_of_mem hmem
    exact ⟨j, hj, by rw [ej]; exact hen, by rw [ej]; exact e⟩
  · rintro ⟨j, hj, hen, e⟩
    exact List.mem_map.mpr ⟨recs.getD j [], List.mem_filter.mpr ⟨getD_mem_of_lt hj, hen⟩, e⟩

/-- The chain of a file whose blocks an operation leaves as they are is the chain of the
file afterwards, and the only one. -/
theorem IsChain.kept {io io1 : Volume} {a : Nat} {cs : List Nat} (h : IsChain io a cs)
    (hs : ∀ y ∈ cs, io1.store y = io.store y) :
    IsChain io1 a cs ∧ ∀ c, IsChain io1 a c → c = cs :=
  ⟨IsChain.same_on hs h, fun _ hc => IsChain.unique hc (IsChain.same_on hs h)⟩

/-! ## Folders kept in order -/

/-- A folder that was kept in order is kept in order once the record of a new entry is put
in the place `i0`, behind the records or over the first record that is out of
use, when the name is not in use, the blocks of the folder that are new were
free, the blocks in use outside the folder are as they were, and, for a file,
its start block heads a chain of blocks in use that is apart from the folder
and from the chains of the files in use. -/
theorem FolderKept.put {S M : Nat} {d d1 : ContentFolder} {io io1 : Volume}
    {ks ks1 : List Nat} {recs recs1 : List (List Byte)} (hk : FolderKept S M d io ks recs)
    (hl : FolderLayout S M d1 io1 ks1 recs1)
    (hcache : d1.m_entryInfoCacheMap = d.m_entryInfoCacheMap)
    {name : List Byte} (hn : name.length < M) (h0 : (0 : Byte) ∉ name)
    (entryType : EntryType) {a : Nat} (i0 : Nat) (hi0 : i0 < recs1.length)
    (hrec : recs1.getD i0 [] = entryRecord M name entryType a)
    (hold : ∀ j, j < recs1.length → j ≠ i0 →
      j < recs.length ∧ recs1.getD j [] = recs.getD j [])
    (hlen : recs.length ≤ recs1.length)
    (hdis : i0 < recs.length → entryMetaDataIsEnabled (recs.getD i0 []) = false)
    (hbefore : ∀ j, j < i0 → entryMetaDataIsEnabled (recs.getD j []) = true)
    (hnew : name ∉ liveNames recs)
    (hearly : d1.m_checkForEarlyMetaData = false →
      ∀ j, j < recs.length → entryMetaDataIsEnabled (recs.getD j []) = true)
    (hstore : ∀ y, y ∉ ks → io.bitmap y = true → io1.store y = io.store y)
    (hbits : ∀ y, io.bitmap y = true → io1.bitmap y = true)
    (hblocks : io1.blocks = io.blocks)
    (hks1 : ∀ y, y ∈ ks1 → y ∈ ks ∨ io.bitmap y = false)
    (hfile : entryType = EntryType.FileType → a < 18446744073709551616 ∧
      ∃ cs, IsChain io a cs ∧ (∀ y ∈ cs, y < io.blocks ∧ io.bitmap y = true ∧ y ∉ ks) ∧
        ∀ j, j < recs.length → entryMetaDataIsEnabled (recs.getD j []) = true →
          getTypeForEntry (recs.getD j []) = EntryType.FileType →
          ∀ cj, IsChain io (getBlockIndexForEntry M (recs.getD j [])) cj →
            ∀ y ∈ cs, y ∉ cj) :
    FolderKept S M d1 io1 ks1 recs1 := by
  have hname : getEntryName (recs1.getD i0 []) = name := by
    rw [hrec]
    exact entryRecord_name hn h0 _ _
  have hnew2 : ∀ j, j < recs.length → entryMetaDataIsEnabled (recs.getD j []) = true →
      getEntryName (recs.getD j []) ≠ name :=
    fun j hj he e => hnew (mem_liveNames.mpr ⟨j, hj, he, e⟩)
  have keep : ∀ cs : List Nat, (∀ y ∈ cs, y < io.blocks ∧ io.bitmap y = true ∧ y ∉ ks) →
      ∀ y ∈ cs, io1.store y = io.store y ∧ y < io1.blocks ∧ io1.bitmap y = true ∧ y ∉ ks1 := by
    intro cs h y hy
    obtain ⟨h1, h2, h3⟩ := h y hy
    refine ⟨hstore y h3 h2, by rw [hblocks]; exact h1, hbits y h2, ?_⟩
    intro hm
    rcases hks1 y hm with h | h
    · exact h3 h
    · rw [h2] at h
      cases h
  have chainOf : ∀ j, j < recs1.length → entryMetaDataIsEnabled (recs1.getD j []) = true →
      getTypeForEntry (recs1.getD j []) = EntryType.FileType →
      ∃ cs, IsChain io (getBlockIndexForEntry M (recs1.getD j [])) cs ∧
        (∀ y ∈ cs, y < io.blocks ∧ io.bitmap y = true ∧ y ∉ ks) := by
    intro j hj he ht
    by_cases hji : j = i0
    · subst hji
      rw [hrec] at ht ⊢
      rw [entryRecord_type] at ht
      obtain ⟨ha, cs, h1, h2, _⟩ := hfile ht
      rw [entryRecord_block hn _ ha]
      exact ⟨cs, h1, h2⟩
    · obtain ⟨hjl, e⟩ := hold j hj hji
      rw [e] at he ht ⊢
      exact hk.files j hjl he ht
  have newOld : ∀ i j, i = i0 → j ≠ i0 → j < recs1.length →
      entryMetaDataIsEnabled (recs1.getD i []) = true →
      getTypeForEntry (recs1.getD i []) = EntryType.FileType →
      entryMetaDataIsEnabled (recs1.getD j []) = true →
      getTypeForEntry (recs1.getD j []) = EntryType.FileType →
      ∀ ci cj, IsChain io (getBlockIndexForEntry M (recs1.getD i [])) ci →
        IsChain io (getBlockIndexForEntry M (recs1.getD j [])) cj → ∀ y ∈ ci, y ∉ cj := by
    intro i j hii hjj hj hei hti hej htj ci cj hci hcj y hy
    subst hii
    obtain ⟨hjl, e⟩ := hold j hj hjj
    rw [e] at hej htj hcj
    rw [hrec] at hti hci
    rw [entryRecord_type] at hti
    obtain ⟨ha, cs, h1, _, h3⟩ := hfile hti
    rw [entryRecord_block hn _ ha] at hci
    have ec : ci = cs := IsChain.unique hci h1
    rw [ec] at hy
    exact h3 j hjl hej htj cj hcj y hy
  refine ⟨hl, ?_, ?_, ?_, ?_, ?_⟩
  · intro i j hij hj he
    by_cases hji : j = i0
    · subst hji
      rw [hname]
      obtain ⟨hil, e⟩ := hold i (by omega) (by omega)
      rw [e]
      exact hnew2 i hil (hbefore i hij)
    · obtain ⟨hjl, e⟩ := hold j hj hji
      rw [e] at he ⊢
      by_cases hii : i = i0
      · subst hii
        rw [hname]
        exact fun h => hnew2 j hjl he h.symm
      · obtain ⟨hil, e2⟩ := hold i (by omega) hii
        rw [e2]
        exact hk.order i j hij hjl he
  · intro hf r hr
    obtain ⟨j, hj, e⟩ := exists_getD_of_mem hr
    rw [← e]
    by_cases hji : j = i0
    · subst hji
      rw [hrec]
      exact entryRecord_enabled _ _ _ _
    · obtain ⟨hjl, e2⟩ := hold j hj hji
      rw [e2]
      exact hearly hf j hjl
  · intro j hj he ht
    obtain ⟨cs, h1, h2⟩ := chainOf j hj he ht
    have h3 := keep cs h2
    exact ⟨cs, IsChain.same_on (fun y hy => (h3 y hy).1) h1,
      fun y hy => ⟨(h3 y hy).2.1, (h3 y hy).2.2.1, (h3 y hy).2.2.2⟩⟩
  · intro i j hi hj hij hei hti hej htj ci cj hci hcj y hy hy2
    obtain ⟨ci0, a1, a2⟩ := chainOf i hi hei hti
    obtain ⟨cj0, b1, b2⟩ := chainOf j hj hej htj
    have ei : ci = ci0 := (IsChain.kept a1 (fun y hy => ((keep ci0 a2) y hy).1)).2 ci hci
    have ej : cj = cj0 := (IsChain.kept b1 (fun y hy => ((keep cj0 b2) y hy).1)).2 cj hcj
    rw [ei] at hy
    rw [ej] at hy2
    by_cases hii : i = i0
    · exact newOld i j hii (fun h => hij (hii.trans h.symm)) hj hei hti hej htj ci0 cj0 a1 b1 y hy
        hy2
    · by_cases hjj : j = i0
      · exact newOld j i hjj hii hi hej htj hei hti cj0 ci0 b1 a1 y hy2 hy
      · obtain ⟨hil, e1⟩ := hold i hi hii
        obtain ⟨hjl, e2⟩ := hold j hj hjj
        rw [e1] at hei hti a1
        rw [e2] at hej htj b1
        exact hk.apart i j hil hjl hij hei hti hej htj ci0 cj0 a1 b1 y hy hy2
  · intro p hp
    rw [hcache] at hp
    obtain ⟨h1, j, hj, he, hnm, hty, hbl⟩ := hk.cache p hp
    have hji : j ≠ i0 := by
      intro e
      subst e
      have := hdis hj
      rw [he] at this
      cases this
    obtain ⟨_, e⟩ := hold j (by omega) hji
    exact ⟨h1, j, by omega, by rw [e]; exact he, by rw [e]; exact hnm, by rw [e]; exact hty,
      by rw [e]; exact hbl⟩

/-- `doWriteNewMetaDataForEntry` (the public `writeNewMetaDataForEntry`) on a folder kept in
order, for a name that is not in use, with room on the image for one more
record: it returns, the record of the entry stands behind the old records or in
the place of the first one that was out of use, and the folder is kept in order.
The blocks `nb` that the body of the folder gains were free, and no block in use
outside the folder is written to. -/
theorem ContentFolder.doWriteNewMetaDataForEntry_kept {S M : Nat} (hS : 8 ≤ S)
    (hS32 : S < 4294967296) {d : ContentFolder} {io : Volume} {ks : List Nat}
    {recs : List (List Byte)} (hk : FolderKept S M d io ks recs)
    (hgood : ∀ i < recs.length, (8 + i * (1 + M + 8)) % S ≠ 0)
    (hsmall : 8 + (recs.length + 1) * (1 + M + 8) < 4294967296) {name : List Byte}
    (hn : name.length < M) (h0 : (0 : Byte) ∉ name) (hnew : name ∉ liveNames recs)
    (entryType : EntryType) {a : Nat}
    (hcap : (folderBody recs).length + (1 + M + 8) ≤ (ks.length + freeCount io) * S)
    (hfile : entryType = EntryType.FileType → a < 18446744073709551616 ∧
      ∃ cs, IsChain io a cs ∧ (∀ y ∈ cs, y < io.blocks ∧ io.bitmap y = true ∧ y ∉ ks) ∧
        ∀ j, j < recs.length → entryMetaDataIsEnabled (recs.getD j []) = true →
          getTypeForEntry (recs.getD j []) = EntryType.FileType →
          ∀ cj, IsChain io (getBlockIndexForEntry M (recs.getD j [])) cj →
            ∀ y ∈ cs, y ∉ cj) :
    ∃ d1 io1 nb recs1,
      d.doWriteNewMetaDataForEntry S M io name entryType a = FolderRes.ok () d1 io1 ∧
      FolderKept S M d1 io1 (ks ++ nb) recs1 ∧
      d1.m_startVolumeBlock = d.m_startVolumeBlock ∧
      (recs1 = recs ++ [entryRecord M name entryType a] ∨
        ∃ i, i < recs.length ∧ entryMetaDataIsEnabled (recs.getD i []) = false ∧
          recs1 = recs.set i (entryRecord M name entryType a)) ∧
      (∀ k, io1.bitmap k = (io.bitmap k || decide (k ∈ nb))) ∧
      (ks ++ nb).length + freeCount io1 = ks.length + freeCount io ∧
      (∀ k ∈ nb, io.bitmap k = false) ∧
      (∀ x, x ∉ ks → x ∉ nb → io1.store x = io.store x) ∧
      io1.blocks = io.blocks := by
  have hS0 : 0 < S := by omega
  obtain ⟨r, d1, hfind, hs1, hc1, hl1, hm1, hcase⟩ :=
    ContentFolder.doFindOffset_first hS0 hS32 hk.layout hgood hsmall
  have hv1 : FolderLayout S M d1 io ks recs := hk.layout.same_handle hs1 hc1 hl1
  unfold ContentFolder.doWriteNewMetaDataForEntry
  rw [hfind]
  rcases hcase with ⟨i, hi, rfl, hdis, hbef, hflag⟩ | ⟨rfl, hflag, hall⟩
  · obtain ⟨f2, f3, F, io1, hopen, hseek, hwr, hlay, hbm, hbl, hoth⟩ :=
      ContentFolder.reuseRecord_layout hS0 hS32 hv1 hsmall hi (hgood i hi) hn entryType a
        (d1.m_deadEntryCount - 1)
    simp only [hopen, hseek, hwr]
    refine ⟨_, io1, [], recs.set i (entryRecord M name entryType a), rfl, ?_, hs1,
      Or.inr ⟨i, hi, hdis, rfl⟩, ?_, ?_, ?_, ?_, hbl⟩
    · rw [List.append_nil]
      refine FolderKept.put hk hlay hm1 hn h0 entryType i
        (by rw [List.length_set]; exact hi) (getD_set_same hi _) ?_
        (by rw [List.length_set]) (fun _ => hdis) hbef hnew ?_ (fun y hy _ => hoth y hy)
        (fun y hy => by rw [hbm]; exact hy) hbl (fun y hy => Or.inl hy) hfile
      · intro j hj hji
        rw [List.length_set] at hj
        exact ⟨hj, getD_set_other (Ne.symm hji) _⟩
      · intro hf
        have hf2 : d1.m_checkForEarlyMetaData = false := hf
        rw [hflag] at hf2
        cases hf2
    · intro k
      rw [hbm]
      simp
    · rw [List.append_nil]
      exact freeCount_congr hbl hbm ▸ rfl
    · intro k hk2
      cases hk2
    · intro x hx _
      exact hoth x hx
  · obtain ⟨f1, F, io1, nb, hseek, hwr, hlay, hbit, hcp, hfree, hoth, hbl⟩ :=
      ContentFolder.appendRecord_layout hS hS32 hv1 hsmall hn entryType a hcap
    have hall2 : ∀ j, j < recs.length → entryMetaDataIsEnabled (recs.getD j []) = true := by
      intro j hj
      cases hchk : d.m_checkForEarlyMetaData with
      | true => exact hall hchk j hj
      | false => exact hk.early hchk _ (getD_mem_of_lt hj)
    simp only [hseek, hwr]
    refine ⟨_, io1, nb, recs ++ [entryRecord M name entryType a], rfl, ?_, hs1, Or.inl rfl,
      hbit, hcp, hfree, hoth, hbl⟩
    refine FolderKept.put hk hlay hm1 hn h0 entryType recs.length
      (by simp) (getD_snoc_new _ _) ?_ (by simp) (fun h => absurd h (Nat.lt_irrefl _))
      (fun j hj => hall2 j hj) hnew (fun _ => hall2) ?_ ?_ hbl ?_ hfile
    · intro j hj hji
      have hjl : j < recs.length := by
        simp only [List.length_append, List.length_singleton] at hj
        omega
      exact ⟨hjl, getD_snoc_old hjl _⟩
    · intro y hy hbit2
      refine hoth y hy ?_
      intro hm
      rw [hfree y hm] at hbit2
      cases hbit2
    · intro y hy
      rw [hbit, hy]
      rfl
    · intro y hy
      rcases List.mem_append.mp hy with h | h
      · exact Or.inl h
      · exact Or.inr (hfree y h)

theorem FolderLayout.moved {S M : Nat} {d : ContentFolder} {io io1 : Volume} {ks : List Nat}
    {recs : List (List Byte)} (hv : FolderLayout S M d io ks recs)
    (hs : ∀ k ∈ ks, io1.store k = io.store k) (hb : io1.blocks = io.blocks)
    (hu : ∀ k ∈ ks, io1.bitmap k = true) : FolderLayout S M d io1 ks recs :=
  ⟨hv.stored.congr_on hs hb, hu, hv.width, hv.count, hv.start, hv.blockCount, hv.mode,
    hv.enforce, hv.buffer⟩

/-- A folder kept in order stays so on an image whose blocks in use are those of the old
image, with their contents. -/
theorem FolderKept.carried {S M : Nat} {d : ContentFolder} {io io1 : Volume} {ks : List Nat}
    {recs : List (List Byte)} (hk : FolderKept S M d io ks recs)
    (hs : ∀ y, io.bitmap y = true → io1.store y = io.store y) (hb : io1.blocks = io.blocks)
    (hu : ∀ y, io.bitmap y = true → io1.bitmap y = true) : FolderKept S M d io1 ks recs := by
  have back : ∀ i, i < recs.length → entryMetaDataIsEnabled (recs.getD i []) = true →
      getTypeForEntry (recs.getD i []) = EntryType.FileType →
      ∀ c, IsChain io1 (getBlockIndexForEntry M (recs.getD i [])) c →
        IsChain io (getBlockIndexForEntry M (recs.getD i [])) c := by
    intro i hi he ht c hc
    obtain ⟨cs, h1, h2⟩ := hk.files i hi he ht
    have e := (IsChain.kept h1 (fun y hy => hs y (h2 y hy).2.1)).2 c hc
    rw [e]
    exact h1
  refine ⟨hk.layout.moved (fun k hk2 => hs k (hk.layout.inUse k hk2)) hb
    (fun k hk2 => hu k (hk.layout.inUse k hk2)), hk.order, hk.early, ?_, ?_, hk.cache⟩
  · intro i hi he ht
    obtain ⟨cs, h1, h2⟩ := hk.files i hi he ht
    exact ⟨cs, IsChain.same_on (fun y hy => hs y (h2 y hy).2.1) h1,
      fun y hy => ⟨by rw [hb]; exact (h2 y hy).1, hu y (h2 y hy).2.1, (h2 y hy).2.2⟩⟩
  · intro i j hi hj hij hei hti hej htj ci cj hci hcj
    exact hk.apart i j hi hj hij hei hti hej htj ci cj (back i hi hei hti ci hci)
      (back j hj hej htj cj hcj)

/-- `addFile` on a folder kept in order, for a name that is not in use, with a free block
for the file and room for one more record: it returns, the record of the file
stands behind the old records or in the place of the first one that was out of
use, and the folder is kept in order. -/
theorem ContentFolder.addFile_kept {S M : Nat} (hS : 8 ≤ S) (hS32 : S < 4294967296)
    {d : ContentFolder} {io : Volume} {ks : List Nat} {recs : List (List Byte)}
    (hk : FolderKept S M d io ks recs)
    (hgood : ∀ i < recs.length, (8 + i * (1 + M + 8)) % S ≠ 0)
    (hsmall : 8 + (recs.length + 1) * (1 + M + 8) < 4294967296)
    (hblocks : io.blocks ≤ 18446744073709551616) {name : List Byte}
    (hn : name.length < M) (h0 : (0 : Byte) ∉ name) (hnew : name ∉ liveNames recs)
    (hfree : 0 < freeCount io)
    (hcap : (folderBody recs).length + (1 + M + 8) ≤ (ks.length + (freeCount io - 1)) * S) :
    ∃ d1 io1 nb recs1 a,
      d.addFile S M io name = FolderRes.ok () d1 io1 ∧
      FolderKept S M d1 io1 (ks ++ nb) recs1 ∧
      d1.m_startVolumeBlock = d.m_startVolumeBlock ∧
      (recs1 = recs ++ [entryRecord M name EntryType.FileType a] ∨
        ∃ i, i < recs.length ∧ entryMetaDataIsEnabled (recs.getD i []) = false ∧
          recs1 = recs.set i (entryRecord M name EntryType.FileType a)) ∧
      io1.blocks = io.blocks ∧
      (ks ++ nb).length + freeCount io1 + 1 = ks.length + freeCount io := by
  obtain ⟨a, f1, ioA, hst⟩ := File.started (S := S) hfree
  have hidx := hst.startIndex
  have hkA : FolderKept S M d ioA ks recs := by
    refine hk.carried ?_ hst.blocks ?_
    · intro y hy
      refine hst.others_kept y ?_
      intro e
      rw [e, hst.wasFree] at hy
      cases hy
    · intro y hy
      rw [hst.bitmap, hy]
      rfl
  have hfc := hst.capacity
  have hchain : IsChain ioA a [a] := hst.writer.laid.chain
  obtain ⟨d2, io2, nb, recs2, hres, hk2, hs2, hrecs, hbit, hcp, hfr, hoth, hbl⟩ :=
    ContentFolder.doWriteNewMetaDataForEntry_kept hS hS32 hkA hgood hsmall hn h0 hnew
      EntryType.FileType (a := a) (by
        have : freeCount ioA = freeCount io - 1 := by omega
        rw [this]
        exact hcap) (by
        intro _
        refine ⟨by have := hst.inside; omega, [a], hchain, ?_, ?_⟩
        · intro y hy
          rw [List.mem_singleton] at hy
          subst hy
          refine ⟨by rw [hst.blocks]; exact hst.inside, by rw [hst.bitmap]; simp, ?_⟩
          intro hm
          have := hk.layout.inUse y hm
          rw [hst.wasFree] at this
          cases this
        · intro j hj he ht cj hcj y hy hy2
          rw [List.mem_singleton] at hy
          subst hy
          obtain ⟨cs, h1, h2⟩ := hk.files j hj he ht
          have hkept : ∀ z ∈ cs, ioA.store z = io.store z := by
            intro z hz
            refine hst.others_kept z ?_
            intro e
            have := (h2 z hz).2.1
            rw [e, hst.wasFree] at this
            cases this
          have e := (IsChain.kept h1 hkept).2 cj hcj
          rw [e] at hy2
          have := (h2 y hy2).2.1
          rw [hst.wasFree] at this
          cases this)
  refine ⟨d2, io2, nb, recs2, a, ?_, hk2, hs2, hrecs, hbl.trans hst.blocks, by omega⟩
  unfold ContentFolder.addFile
  rw [hidx]
  exact hres

/-- A new folder on an image with a free block: the constructor returns, the folder takes
the first free block `a` for its body, which holds the count 0, and is kept in
order with no record; no other block and no other bit of the image has
changed. -/
theorem ContentFolder.create_kept {S M : Nat} (hS : 8 ≤ S) (hS32 : S < 4294967296)
    {io : Volume} (hfree : 0 < freeCount io) :
    ∃ d0 io1 a,
      ContentFolder.create S M io false = FolderRes.ok () d0 io1 ∧
      FolderKept S M d0 io1 [a] [] ∧ d0.m_startVolumeBlock = a ∧
      d0.m_folderData.getStartVolumeBlockIndex S io1 = Res.ok a d0.m_folderData io1 ∧
      io.bitmap a = false ∧ a < io.blocks ∧ io1.blocks = io.blocks ∧
      (∀ y, y ≠ a → io1.store y = io.store y) ∧
      (∀ y, io1.bitmap y = (io.bitmap y || decide (y = a))) ∧
      freeCount io1 + 1 = freeCount io := by
  have hS0 : 0 < S := by omega
  obtain ⟨a, f1, ioA, hst⟩ := File.started (S := S) hfree
  have hidx := hst.startIndex
  have h8 := convertUInt64ToInt8Array_length 0
  obtain ⟨f2, io2, nb, i2, c2, hwrite, hw2, hp2, hcp2, hbit2, hcan2, hbuf2, hfr2, hoth2, hbl2⟩ :=
    Writer.write_one hS0 hS32 hst.writer (convertUInt64ToInt8Array 0) (by rw [h8]; omega) (by
      rw [h8]
      simp only [List.length_singleton, Nat.zero_mul, Nat.zero_add]
      have : S ≤ (1 + freeCount ioA) * S := Nat.le_mul_of_pos_left S (by omega)
      omega)
  rw [h8] at hwrite
  have hsp : splice ([] : List Byte) (0 * S + 0) (convertUInt64ToInt8Array 0) = folderBody [] := by
    simp [splice, folderBody, bodyOf]
  rw [hsp] at hw2 hcan2
  have hlen0 : (folderBody []).length = 8 := by
    simp [folderBody, bodyOf, h8]
  have hnb : nb = [] := by
    rcases hcan2 (Or.inl rfl) with h | h
    · cases nb with
      | nil => rfl
      | cons x xs => simp at h
    · rw [hlen0] at h
      cases nb with
      | nil => rfl
      | cons x xs =>
        exfalso
        have hl : 2 ≤ ([a] ++ x :: xs).length := by simp
        have : S ≤ (([a] ++ x :: xs).length - 1) * S := Nat.le_mul_of_pos_left S (by omega)
        omega
  subst hnb
  rw [List.append_nil] at hw2 hcp2
  have hflush := Writer.flush_noop hw2 (hbuf2 hst.buffer)
  have hmode : f2.m_openDisposition.readWrite = ReadOrWriteOrBoth.ReadWrite := by
    have hpos1 : f1.m_pos = 0 := by
      have := hst.writer.pos
      simpa using this
    have h := File.write_resized 0 0 (by rw [hst.fileSize, hpos1]; simp) (Int.le_refl _) hwrite
    apply h.2.2
    rw [hst.append]
    rfl
  have hgs : f2.getStartVolumeBlockIndex S io2 = Res.ok a f2 io2 := by
    have := File.getStartVolumeBlockIndex_of_block S io2 hw2.block
    rw [hw2.start] at this
    exact this
  have hA : ∀ y, y ≠ a → ioA.store y = io.store y := hst.others_kept
  refine ⟨ContentFolder.mk f2 a 0 0 [] true false, io2, a, ?_, ?_, rfl, hgs, hst.wasFree,
    hst.inside, hbl2.trans hst.blocks, ?_, ?_, ?_⟩
  · unfold ContentFolder.create
    simp only [hidx, hwrite, hflush]
    rfl
  · refine ⟨⟨⟨hw2.laid, Or.inl rfl⟩, hw2.inUse, ?_, rfl, hw2.start, hw2.count, hmode, hw2.enforce,
      hbuf2 hst.buffer⟩, ?_, ?_, ?_, ?_, ?_⟩
    · intro r hr
      cases hr
    · intro i j _ hj
      simp at hj
    · intro _ r hr
      cases hr
    · intro i hi
      simp at hi
    · intro i j hi
      simp at hi
    · intro p hp
      cases hp
  · intro y hy
    rw [hoth2 y (by simpa using hy) (by simp), hA y hy]
  · intro y
    rw [hbit2, hst.bitmap]
    simp
  · have := hst.capacity
    simp only [List.length_singleton] at hcp2
    omega

/-- `addContentFolder` on a folder kept in order, for a name that is not in use, with a
free block for the new folder and room for one more record: it returns, the
record of the new folder stands behind the old records or in the place of the
first one that was out of use, and the folder is kept in order. -/
theorem ContentFolder.addContentFolder_kept {S M : Nat} (hS : 8 ≤ S) (hS32 : S < 4294967296)
    {d : ContentFolder} {io : Volume} {ks : List Nat} {recs : List (List Byte)}
    (hk : FolderKept S M d io ks recs)
    (hgood : ∀ i < recs.length, (8 + i * (1 + M + 8)) % S ≠ 0)
    (hsmall : 8 + (recs.length + 1) * (1 + M + 8) < 4294967296) {name : List Byte}
    (hn : name.length < M) (h0 : (0 : Byte) ∉ name) (hnew : name ∉ liveNames recs)
    (hfree : 0 < freeCount io)
    (hcap : (folderBody recs).length + (1 + M + 8) ≤ (ks.length + (freeCount io - 1)) * S) :
    ∃ d1 io1 nb recs1 a,
      d.addContentFolder S M io name = FolderRes.ok () d1 io1 ∧
      FolderKept S M d1 io1 (ks ++ nb) recs1 ∧
      d1.m_startVolumeBlock = d.m_startVolumeBlock ∧
      (recs1 = recs ++ [entryRecord M name EntryType.FolderType a] ∨
        ∃ i, i < recs.length ∧ entryMetaDataIsEnabled (recs.getD i []) = false ∧
          recs1 = recs.set i (entryRecord M name EntryType.FolderType a)) ∧
      io1.blocks = io.blocks ∧
      (ks ++ nb).length + freeCount io1 + 1 = ks.length + freeCount io := by
  obtain ⟨entry, ioA, a, hcreate, _, _, hstart, hafree, _, hblA, hstA, hbmA, hfcA⟩ :=
    ContentFolder.create_kept (M := M) hS hS32 hfree
  have hkA : FolderKept S M d ioA ks recs := by
    refine hk.carried ?_ hblA ?_
    · intro y hy
      refine hstA y ?_
      intro e
      rw [e, hafree] at hy
      cases hy
    · intro y hy
      rw [hbmA, hy]
      rfl
  obtain ⟨d2, io2, nb, recs2, hres, hk2, hs2, hrecs, hbit, hcp, hfr, hoth, hbl⟩ :=
    ContentFolder.doWriteNewMetaDataForEntry_kept hS hS32 hkA hgood hsmall hn h0 hnew
      EntryType.FolderType (a := a) (by
        have : freeCount ioA = freeCount io - 1 := by omega
        rw [this]
        exact hcap) (by
        intro h
        cases h)
  refine ⟨d2, io2, nb, recs2, a, ?_, hk2, hs2, hrecs, hbl.trans hblA, by omega⟩
  unfold ContentFolder.addContentFolder
  simp only [hcreate, hstart]
  exact hres

/-! ## Looking an entry up in a folder kept in order -/

theorem lookup_mem {α : Type} (name : List Byte) :
    ∀ (l : List (List Byte × α)) (v : α), l.lookup name = some v → (name, v) ∈ l
  | [], _, h => by simp [List.lookup] at h
  | (k, w) :: l, v, h => by
    by_cases hk : name = k
    · subst hk
      simp [List.lookup] at h
      subst h
      exact List.mem_cons_self _ _
    · have hb : (name == k) = false := by simpa using hk
      simp only [List.lookup, hb] at h
      exact List.mem_cons_of_mem _ (lookup_mem name l v h)

/-- In a folder kept in order two records in use carry different names. -/
theorem FolderKept.live_unique {S M : Nat} {d : ContentFolder} {io : Volume} {ks : List Nat}
    {recs : List (List Byte)} (hk : FolderKept S M d io ks recs) {i j : Nat}
    (hi : i < recs.length) (hj : j < recs.length)
    (hei : entryMetaDataIsEnabled (recs.getD i []) = true)
    (hej : entryMetaDataIsEnabled (recs.getD j []) = true)
    (hn : getEntryName (recs.getD i []) = getEntryName (recs.getD j [])) : i = j := by
  rcases Nat.lt_trichotomy i j with h | h | h
  · exact absurd hn (hk.order i j h hj hej)
  · exact h
  · exact absurd hn.symm (hk.order j i h hi hei)

/-- Being kept in order does not depend on the cursor of the working block of
`m_folderData`, on its recorded size and position, on the dead count nor on
`m_oldSpaceAvailableForEntry`; `m_checkForEarlyMetaData` may be switched on. -/
theorem FolderKept.same_state {S M : Nat} {d d1 : ContentFolder} {io : Volume} {ks : List Nat}
    {recs : List (List Byte)} (hk : FolderKept S M d io ks recs)
    (h1 : d1.m_startVolumeBlock = d.m_startVolumeBlock)
    (h2 : d1.m_entryCount = d.m_entryCount)
    (h3 : d1.m_folderData.lent = d.m_folderData.lent)
    (h4 : d1.m_entryInfoCacheMap = d.m_entryInfoCacheMap)
    (h5 : d1.m_checkForEarlyMetaData = false → d.m_checkForEarlyMetaData = false) :
    FolderKept S M d1 io ks recs :=
  ⟨hk.layout.same_handle h1 h2 h3, hk.order, fun h => hk.early (h5 h), hk.files, hk.apart,
    by rw [h4]; exact hk.cache⟩

/-- The file that starts at a block that heads a chain can be opened for appending. -/
theorem File.openExisting_chain {S : Nat} {io : Volume} {b : Nat} {cs : List Nat}
    (hchain : IsChain io b cs) (hin : ∀ k ∈ cs, k < io.blocks) :
    ∃ fe, File.openExisting S io b OpenDisposition.buildAppendDisposition = Res.ok () fe io ∧
      fe.m_startVolumeBlock = b := by
  have hlen : 0 < cs.length := List.length_pos.mpr hchain.ne_nil
  have hlast : cs[cs.length - 1]? = some (cs[cs.length - 1]) :=
    List.getElem?_eq_getElem (by omega)
  exact ⟨_, File.openExisting_back hchain hin OpenDisposition.buildAppendDisposition
    (by decide) (by decide) (by decide) hlast, rfl⟩

/-- `doGetEntryInfo` on the record `i`, in use, of a folder kept in order: it returns the
name, the type and the first block of the record, from the cache or from the
record, and the folder is kept in order with the pair the call may have added to
the cache. -/
theorem ContentFolder.doGetEntryInfo_kept {S M : Nat} {d : ContentFolder} {io : Volume}
    {ks : List Nat} {recs : List (List Byte)} (hk : FolderKept S M d io ks recs) {i : Nat}
    (hi : i < recs.length) (he : entryMetaDataIsEnabled (recs.getD i []) = true) :
    ∃ info d1, d.doGetEntryInfo S M io (recs.getD i []) i = FolderRes.ok info d1 io ∧
      info.filename = getEntryName (recs.getD i []) ∧
      info.type = getTypeForEntry (recs.getD i []) ∧
      info.firstFileBlock = getBlockIndexForEntry M (recs.getD i []) ∧
      FolderKept S M d1 io ks recs ∧ d1.m_folderData = d.m_folderData ∧
      d1.m_startVolumeBlock = d.m_startVolumeBlock ∧ d1.m_entryCount = d.m_entryCount ∧
      d1.m_checkForEarlyMetaData = d.m_checkForEarlyMetaData := by
  unfold ContentFolder.doGetEntryInfo
  simp only
  cases hl : d.m_entryInfoCacheMap.lookup (getEntryName (recs.getD i [])) with
  | some info =>
    obtain ⟨h1, j, hj, hej, hnm, hty, hbl⟩ := hk.cache _ (lookup_mem _ _ _ hl)
    have e : i = j := hk.live_unique hi hj he hej hnm.symm
    subst e
    exact ⟨info, d, rfl, h1, hty, hbl, hk, rfl, rfl, rfl, rfl⟩
  | none =>
    simp only
    by_cases ht : getTypeForEntry (recs.getD i []) = EntryType.FileType
    · obtain ⟨cs, hc, hin⟩ := hk.files i hi he ht
      obtain ⟨fe, hopen, _⟩ :=
        File.openExisting_chain (S := S) hc (fun y hy => (hin y hy).1)
      simp only [ht, if_true, hopen]
      refine ⟨_, _, rfl, rfl, rfl, rfl, ?_, rfl, rfl, rfl, rfl⟩
      refine ⟨hk.layout.same_handle rfl rfl rfl, hk.order, hk.early, hk.files, hk.apart, ?_⟩
      intro p hp
      rcases List.mem_cons.mp hp with e | hp2
      · subst e
        exact ⟨rfl, i, hi, he, rfl, ht.symm, rfl⟩
      · exact hk.cache p hp2
    · simp only [ht, if_false]
      refine ⟨_, _, rfl, rfl, rfl, rfl, ?_, rfl, rfl, rfl, rfl⟩
      refine ⟨hk.layout.same_handle rfl rfl rfl, hk.order, hk.early, hk.files, hk.apart, ?_⟩
      intro p hp
      rcases List.mem_cons.mp hp with e | hp2
      · subst e
        exact ⟨rfl, i, hi, he, rfl, rfl, rfl⟩
      · exact hk.cache p hp2

/-- The scan of `doGetNamedEntryInfo` over a folder kept in order returns the entry of the
record in use that carries the name, and nothing when no record in use does;
the folder is kept in order with the pairs the scan has added to the cache. -/
theorem ContentFolder.namedEntryInfoFrom_kept {S M : Nat} (hS : 0 < S) (hS32 : S < 4294967296)
    {io : Volume} {ks : List Nat} {recs : List (List Byte)}
    (hgood : ∀ i < recs.length, (8 + i * (1 + M + 8)) % S ≠ 0)
    (h32 : (folderBody recs).length < 4294967296) (name : List Byte) :
    ∀ (k e : Nat) (d : ContentFolder), FolderKept S M d io ks recs → e + k ≤ recs.length →
      ∃ r d1, ContentFolder.namedEntryInfoFrom S M io name k e d = FolderRes.ok r d1 io ∧
        FolderKept S M d1 io ks recs ∧ d1.m_startVolumeBlock = d.m_startVolumeBlock ∧
        d1.m_entryCount = d.m_entryCount ∧ d1.m_folderData.lent = d.m_folderData.lent ∧
        d1.m_checkForEarlyMetaData = d.m_checkForEarlyMetaData ∧
        ((∃ i info, r = some info ∧ e ≤ i ∧ i < e + k ∧
            entryMetaDataIsEnabled (recs.getD i []) = true ∧
            getEntryName (recs.getD i []) = name ∧
            info.type = getTypeForEntry (recs.getD i []) ∧
            info.firstFileBlock = getBlockIndexForEntry M (recs.getD i [])) ∨
          (r = none ∧ ∀ j, e ≤ j → j < e + k →
            entryMetaDataIsEnabled (recs.getD j []) = true →
            getEntryName (recs.getD j []) ≠ name)) := by
  intro k
  induction k with
  | zero =>
    intro e d hk _
    exact ⟨none, d, rfl, hk, rfl, rfl, rfl, rfl, Or.inr ⟨rfl, fun j h1 h2 => by omega⟩⟩
  | succ k ih =>
    intro e d hk hek
    have he : e < recs.length := by omega
    have hmode : d.m_folderData.m_openDisposition.readWrite ≠ ReadOrWriteOrBoth.WriteOnly := by
      rw [hk.layout.mode]
      decide
    obtain ⟨hread, _⟩ := read_record hS hS32 hk.layout.stored hk.layout.width h32 hgood
      hk.layout.start hk.layout.blockCount hmode he
    have hk1 : FolderKept S M { d with m_folderData := d.m_folderData.lent } io ks recs :=
      hk.same_state rfl rfl (File.lent_lent _) rfl (fun h => h)
    unfold ContentFolder.namedEntryInfoFrom
    simp only [hread]
    by_cases hen : entryMetaDataIsEnabled (recs.getD e []) = true
    · obtain ⟨info, d2, hinfo, hfn, hty, hbl, hk2, hfd2, hs2, hc2, hchk2⟩ :=
        ContentFolder.doGetEntryInfo_kept hk1 he hen
      simp only [hen, if_true, hinfo]
      by_cases hnm : info.filename = name
      · rw [if_pos hnm]
        refine ⟨some info, d2, rfl, hk2, hs2, hc2, ?_, hchk2,
          Or.inl ⟨e, info, rfl, Nat.le_refl _, by omega, hen, by rw [← hfn]; exact hnm, hty,
            hbl⟩⟩
        rw [hfd2]
        exact File.lent_lent _
      · rw [if_neg hnm]
        obtain ⟨r, d3, hres, hk3, hs3, hc3, hl3, hchk3, hcase⟩ := ih (e + 1) d2 hk2 (by omega)
        refine ⟨r, d3, hres, hk3, hs3.trans hs2, hc3.trans hc2, ?_, hchk3.trans hchk2, ?_⟩
        · rw [hl3, hfd2]
          exact File.lent_lent _
        · rcases hcase with ⟨i, inf, h1, h2, h3, h4⟩ | ⟨h1, h2⟩
          · exact Or.inl ⟨i, inf, h1, by omega, by omega, h4⟩
          · refine Or.inr ⟨h1, ?_⟩
            intro j hj1 hj2 hej
            by_cases hje : j = e
            · subst hje
              rw [← hfn]
              exact hnm
            · exact h2 j (by omega) (by omega) hej
    · simp only [hen, if_false, Bool.false_eq_true]
      obtain ⟨r, d3, hres, hk3, hs3, hc3, hl3, hchk3, hcase⟩ :=
        ih (e + 1) _ hk1 (by omega)
      refine ⟨r, d3, hres, hk3, hs3, hc3, ?_, hchk3, ?_⟩
      · rw [hl3]
        exact File.lent_lent _
      · rcases hcase with ⟨i, inf, h1, h2, h3, h4⟩ | ⟨h1, h2⟩
        · exact Or.inl ⟨i, inf, h1, by omega, by omega, h4⟩
        · refine Or.inr ⟨h1, ?_⟩
          intro j hj1 hj2 hej
          by_cases hje : j = e
          · subst hje
            exact absurd hej hen
          · exact h2 j (by omega) (by omega) hej

/-- `getFile` on a folder kept in order: it returns a handle on the file in use under the
name, at the first block that its record holds, and nothing when no entry in use
carries the name or the entry is a folder. -/
theorem ContentFolder.getFile_kept {S M : Nat} (hS : 0 < S) (hS32 : S < 4294967296)
    {d : ContentFolder} {io : Volume} {ks : List Nat} {recs : List (List Byte)}
    (hk : FolderKept S M d io ks recs)
    (hgood : ∀ i < recs.length, (8 + i * (1 + M + 8)) % S ≠ 0)
    (hsmall : 8 + (recs.length + 1) * (1 + M + 8) < 4294967296) (name : List Byte) :
    ∃ r d1, d.getFile S M io name OpenDisposition.buildAppendDisposition =
        FolderRes.ok r d1 io ∧
      FolderKept S M d1 io ks recs ∧ d1.m_startVolumeBlock = d.m_startVolumeBlock ∧
      d1.m_entryCount = d.m_entryCount ∧ d1.m_folderData.lent = d.m_folderData.lent ∧
      ((∃ i entry, r = some entry ∧ i < recs.length ∧
          entryMetaDataIsEnabled (recs.getD i []) = true ∧
          getEntryName (recs.getD i []) = name ∧
          getTypeForEntry (recs.getD i []) = EntryType.FileType ∧
          entry.m_startVolumeBlock = getBlockIndexForEntry M (recs.getD i [])) ∨
        (r = none ∧ ∀ j, j < recs.length → entryMetaDataIsEnabled (recs.getD j []) = true →
          getEntryName (recs.getD j []) = name →
          getTypeForEntry (recs.getD j []) = EntryType.FolderType)) := by
  obtain ⟨hlen, h32, hcnt⟩ := hk.layout.lengths hsmall
  -- the entry that `doGetNamedEntryInfo` delivers
  have hnamed : ∃ r d1, d.doGetNamedEntryInfo S M io name = FolderRes.ok r d1 io ∧
      FolderKept S M d1 io ks recs ∧ d1.m_startVolumeBlock = d.m_startVolumeBlock ∧
      d1.m_entryCount = d.m_entryCount ∧ d1.m_folderData.lent = d.m_folderData.lent ∧
      ((∃ i info, r = some info ∧ i < recs.length ∧
          entryMetaDataIsEnabled (recs.getD i []) = true ∧
          getEntryName (recs.getD i []) = name ∧
          info.type = getTypeForEntry (recs.getD i []) ∧
          info.firstFileBlock = getBlockIndexForEntry M (recs.getD i [])) ∨
        (r = none ∧ ∀ j, j < recs.length → entryMetaDataIsEnabled (recs.getD j []) = true →
          getEntryName (recs.getD j []) ≠ name)) := by
    unfold ContentFolder.doGetNamedEntryInfo
    cases hl : d.m_entryInfoCacheMap.lookup name with
    | some info =>
      obtain ⟨h1, j, hj, hej, hnm, hty, hbl⟩ := hk.cache _ (lookup_mem _ _ _ hl)
      exact ⟨some info, d, rfl, hk, rfl, rfl, rfl, Or.inl ⟨j, info, rfl, hj, hej, hnm, hty, hbl⟩⟩
    | none =>
      simp only
      obtain ⟨r, d1, hres, hk1, hs1, hc1, hl1, _, hcase⟩ :=
        ContentFolder.namedEntryInfoFrom_kept hS hS32 hgood (by omega) name recs.length 0 d hk
          (by omega)
      rw [hcnt, hres]
      refine ⟨r, d1, rfl, hk1, hs1, hc1, hl1, ?_⟩
      rcases hcase with ⟨i, inf, h1, _, h3, h4⟩ | ⟨h1, h2⟩
      · exact Or.inl ⟨i, inf, h1, by omega, h4⟩
      · exact Or.inr ⟨h1, fun j hj hej => h2 j (Nat.zero_le _) (by omega) hej⟩
  obtain ⟨r, d1, hres, hk1, hs1, hc1, hl1, hcase⟩ := hnamed
  unfold ContentFolder.getFile
  rw [hres]
  rcases hcase with ⟨i, info, rfl, hi, hei, hnm, hty, hbl⟩ | ⟨rfl, hnone⟩
  · simp only
    by_cases ht : info.type = EntryType.FileType
    · obtain ⟨cs, hc, hin⟩ := hk.files i hi hei (by rw [← hty]; exact ht)
      obtain ⟨fe, hopen, hst⟩ :=
        File.openExisting_chain (S := S) hc (fun y hy => (hin y hy).1)
      rw [if_pos ht, hbl, hopen]
      exact ⟨some fe, d1, rfl, hk1, hs1, hc1, hl1,
        Or.inl ⟨i, fe, rfl, hi, hei, hnm, by rw [← hty]; exact ht, hst⟩⟩
    · rw [if_neg ht]
      refine ⟨none, d1, rfl, hk1, hs1, hc1, hl1, Or.inr ⟨rfl, ?_⟩⟩
      intro j hj hej hnj
      have e : i = j := hk.live_unique hi hj hei hej (hnm.trans hnj.symm)
      subst e
      rw [← hty]
      cases hinfo : info.type with
      | FileType => exact absurd hinfo ht
      | FolderType => rfl
  · simp only
    refine ⟨none, d1, rfl, hk1, hs1, hc1, hl1, Or.inr ⟨rfl, ?_⟩⟩
    intro j hj hej hnj
    exact absurd hnj (hnone j hj hej)

/-! ## Taking a record out of use -/

theorem freeCount_mono {io io1 : Volume} (hb : io1.blocks = io.blocks)
    (h : ∀ y, io1.bitmap y = true → io.bitmap y = true) : freeCount io ≤ freeCount io1 := by
  unfold freeCount
  rw [hb]
  apply List.countP_mono_left
  intro x _ hx
  cases h1 : io1.bitmap x with
  | false => rfl
  | true =>
    rw [h x h1] at hx
    cases hx

theorem splice_flag_name (r : List Byte) (hr : 1 ≤ r.length) :
    getEntryName (splice r 0 [0]) = getEntryName r := by
  cases r with
  | nil => simp at hr
  | cons a as => simp [splice, getEntryName]

theorem splice_flag_length (r : List Byte) (hr : 1 ≤ r.length) :
    (splice r 0 [0]).length = r.length := by
  cases r with
  | nil => simp at hr
  | cons a as => simp [splice]

/-- `doPutMetaDataOutOfUse` on a folder that is laid out, when the first record that
carries the name is the record `i`: it returns `true`, the flags byte of the
record `i` is zero afterwards, the name is taken out of the cache and
`m_checkForEarlyMetaData` is on.  No bit of the bitmap changes and no block
outside the chain of the folder is written to. -/
theorem ContentFolder.doPutMetaDataOutOfUse_at {S M : Nat} (hS : 0 < S)
    (hS32 : S < 4294967296) {d : ContentFolder} {io : Volume} {ks : List Nat}
    {recs : List (List Byte)} (hv : FolderLayout S M d io ks recs)
    (hgood : ∀ i < recs.length, (8 + i * (1 + M + 8)) % S ≠ 0)
    (hsmall : 8 + (recs.length + 1) * (1 + M + 8) < 4294967296) {name : List Byte} {i : Nat}
    (hi : i < recs.length) (hname : name = getEntryName (recs.getD i []))
    (hfirst : ∀ j, j < i → name ≠ getEntryName (recs.getD j [])) :
    ∃ d1 io1, d.doPutMetaDataOutOfUse S M io name = FolderRes.ok true d1 io1 ∧
      FolderLayout S M d1 io1 ks (recs.set i (splice (recs.getD i []) 0 [0])) ∧
      d1.m_startVolumeBlock = d.m_startVolumeBlock ∧
      d1.m_checkForEarlyMetaData = true ∧
      d1.m_entryInfoCacheMap = d.m_entryInfoCacheMap.filter (fun p => decide (p.1 ≠ name)) ∧
      (∀ k, io1.bitmap k = io.bitmap k) ∧ (∀ x, x ∉ ks → io1.store x = io.store x) ∧
      io1.blocks = io.blocks := by
  obtain ⟨hlen, h32, hcnt⟩ := hv.lengths hsmall
  have hmode : d.m_folderData.m_openDisposition.readWrite ≠ ReadOrWriteOrBoth.WriteOnly := by
    rw [hv.mode]
    decide
  obtain ⟨temp, hopen, hwt, _, _, hdispt, hbuft⟩ :=
    Stored.open_overwrite hS hv.stored hv.inUse OpenDisposition.buildOverwriteDisposition
      (by decide) (by decide) (by decide)
  have hscan := ContentFolder.metaDataIndexFrom_first hS hS32 hv.stored hv.width
    (by omega) hgood name recs.length 0 d.m_folderData hv.start hv.blockCount hmode (by omega)
  have hidx : ContentFolder.metaDataIndexFrom S M io name recs.length 0 d.m_folderData =
      Except.ok (i : Int) := by
    rcases hscan with ⟨i2, _, h2, h3, h4, h5⟩ | ⟨h1, _⟩
    · have e : i2 = i := by
        rcases Nat.lt_trichotomy i2 i with h | h | h
        · exact absurd h3 (hfirst i2 h)
        · exact h
        · exact absurd hname (h4 i (Nat.zero_le _) h)
      rw [← e]
      exact h5
    · exact absurd hname (h1 i (Nat.zero_le _) (by omega))
  have hne : ((i : Int) = -1) = False := by
    apply propext
    constructor
    · intro h
      omega
    · intro h
      cases h
  have hiW : (i + 1) * (1 + M + 8) ≤ recs.length * (1 + M + 8) :=
    Nat.mul_le_mul_right _ (by omega)
  rw [Nat.succ_mul] at hiW
  have hi32 : ((i : Int) % 4294967296).toNat = i := by
    have hle : i ≤ i * (1 + M + 8) := Nat.le_mul_of_pos_right i (by omega)
    rw [Int.emod_eq_of_lt (by omega) (by omega), Int.toNat_ofNat]
  obtain ⟨io3, hout, hstored, hbm, hoth, hbl⟩ :=
    metaDataToOutOfUse_spec (M := M) hS hS32 hv.stored hwt (by rw [hdispt]; rfl) hbuft
      (i := i) (by omega) (by omega) (hgood i hi)
  have hcontent : splice (folderBody recs) (8 + i * (1 + M + 8)) [0] =
      folderBody (recs.set i (splice (recs.getD i []) 0 [0])) := by
    have := bodyOf_splice (convertUInt64ToInt8Array_length recs.length) hv.width hi 0
      [0] (by simp only [List.length_singleton]; omega)
    rw [Nat.add_zero] at this
    unfold folderBody
    rw [this, List.length_set]
  rw [hcontent] at hstored
  have hwd : (splice (recs.getD i []) 0 [0]).length = 1 + M + 8 := by
    rw [splice_flag_length _ (by rw [getD_width hv.width hi]; omega), getD_width hv.width hi]
  cases d with
  | mk fd st cnt dead cache chk old =>
    simp only at hcnt hidx hopen
    unfold ContentFolder.doPutMetaDataOutOfUse ContentFolder.doGetMetaDataIndexForEntry
    simp only [hopen, hcnt, hidx, hne, if_false, hi32, hout]
    have hpos : 0 < cnt := by
      have := hv.count
      simp only at this
      rw [this]
      exact_mod_cast (by omega : 0 < recs.length)
    simp only [hpos, if_true]
    refine ⟨_, io3, rfl, ?_, rfl, rfl, rfl, hbm, hoth, hbl⟩
    refine ⟨hstored, fun k hk => by rw [hbm]; exact hv.inUse k hk, width_set hv.width i hwd, ?_,
      hv.start, hv.blockCount, hv.mode, hv.enforce, hv.buffer⟩
    show cnt = _
    rw [List.length_set]
    exact hv.count

/-- `removeFile` on a folder kept in order: it returns.  When a file is in use under the
name, its chain is freed, its record is taken out of use, `true` is returned and
the folder is kept in order; otherwise `false` is returned and nothing but the
cache has changed. -/
theorem ContentFolder.removeFile_kept {S M : Nat} (hS : 0 < S) (hS32 : S < 4294967296)
    {d : ContentFolder} {io : Volume} {ks : List Nat} {recs : List (List Byte)}
    (hk : FolderKept S M d io ks recs)
    (hgood : ∀ i < recs.length, (8 + i * (1 + M + 8)) % S ≠ 0)
    (hsmall : 8 + (recs.length + 1) * (1 + M + 8) < 4294967296) (name : List Byte) :
    ∃ r d1 io1 recs1, d.removeFile S M io name = FolderRes.ok r d1 io1 ∧
      FolderKept S M d1 io1 ks recs1 ∧ d1.m_startVolumeBlock = d.m_startVolumeBlock ∧
      io1.blocks = io.blocks ∧ freeCount io ≤ freeCount io1 ∧
      ((r = false ∧ recs1 = recs ∧ io1 = io ∧
          ∀ j, j < recs.length → entryMetaDataIsEnabled (recs.getD j []) = true →
            getEntryName (recs.getD j []) = name →
            getTypeForEntry (recs.getD j []) = EntryType.FolderType) ∨
        (r = true ∧ ∃ i, i < recs.length ∧
          entryMetaDataIsEnabled (recs.getD i []) = true ∧
          getEntryName (recs.getD i []) = name ∧
          getTypeForEntry (recs.getD i []) = EntryType.FileType ∧
          recs1 = recs.set i (splice (recs.getD i []) 0 [0]))) := by
  obtain ⟨r, d1, hget, hk1, hs1, hc1, hl1, hcase⟩ :=
    ContentFolder.getFile_kept hS hS32 hk hgood hsmall name
  unfold ContentFolder.removeFile
  rw [hget]
  rcases hcase with ⟨i, entry, rfl, hi, hei, hnm, hty, hst⟩ | ⟨rfl, hnone⟩
  · simp only
    obtain ⟨cs, hchain, hin⟩ := hk.files i hi hei hty
    have hcs : FileBlockIterator.blocksFrom io entry.m_startVolumeBlock = some cs := by
      rw [hst]
      exact FileBlockIterator.blocksFrom_of_chain hchain (fun y hy => (hin y hy).1)
    obtain ⟨hus, hub, hubm⟩ := File.unlink_frame entry io
    have hkeepbit := File.unlink_bitmap entry io cs hcs
    have hu : ∃ f2 io2, entry.unlink io = Res.ok () f2 io2 := by
      unfold File.unlink
      rw [hcs]
      exact ⟨_, _, rfl⟩
    obtain ⟨f2, io2, hu⟩ := hu
    rw [hu] at hus hub hubm hkeepbit
    simp only [Res.image] at hus hub hubm hkeepbit
    rw [hu]
    simp only
    have hv2 : FolderLayout S M d1 io2 ks recs := by
      refine hk1.layout.moved (fun k _ => by rw [hus]) hub ?_
      intro k hk2
      rw [hkeepbit k (fun hkc => (hin k hkc).2.2 hk2)]
      exact hk.layout.inUse k hk2
    obtain ⟨d3, io3, hput, hv3, hs3, hchk3, hcache3, hbm3, hoth3, hbl3⟩ :=
      ContentFolder.doPutMetaDataOutOfUse_at hS hS32 hv2 hgood hsmall hi hnm.symm
        (fun j hj h => hk.order j i hj hi hei (by rw [hnm]; exact h.symm))
    rw [hput]
    simp only
    have hrec : ∀ j, j ≠ i →
        (recs.set i (splice (recs.getD i []) 0 [0])).getD j [] = recs.getD j [] :=
      fun j hj => getD_set_other (Ne.symm hj) _
    have hwd : 1 ≤ (recs.getD i []).length := by
      rw [getD_width hk.layout.width hi]
      omega
    have hdead : entryMetaDataIsEnabled
        ((recs.set i (splice (recs.getD i []) 0 [0])).getD i []) = false := by
      rw [getD_set_same hi]
      exact splice_flag_disabled _
    have hnames : ∀ j, getEntryName ((recs.set i (splice (recs.getD i []) 0 [0])).getD j []) =
        getEntryName (recs.getD j []) := by
      intro j
      by_cases hj : j = i
      · subst hj
        rw [getD_set_same hi, splice_flag_name _ hwd]
      · rw [hrec j hj]
    have hlive : ∀ j, j < recs.length →
        entryMetaDataIsEnabled ((recs.set i (splice (recs.getD i []) 0 [0])).getD j []) = true →
        j ≠ i ∧ (recs.set i (splice (recs.getD i []) 0 [0])).getD j [] = recs.getD j [] := by
      intro j _ hej
      have hj : j ≠ i := by
        intro e
        subst e
        rw [hdead] at hej
        cases hej
      exact ⟨hj, hrec j hj⟩
    -- the chain of a file that stays in use
    have chainOf : ∀ j, j < recs.length → j ≠ i →
        entryMetaDataIsEnabled (recs.getD j []) = true →
        getTypeForEntry (recs.getD j []) = EntryType.FileType →
        ∃ cj, IsChain io (getBlockIndexForEntry M (recs.getD j [])) cj ∧
          (∀ y ∈ cj, io3.store y = io.store y) ∧
          (∀ y ∈ cj, y < io3.blocks ∧ io3.bitmap y = true ∧ y ∉ ks) := by
      intro j hj hji hej htj
      obtain ⟨cj, h1, h2⟩ := hk.files j hj hej htj
      refine ⟨cj, h1, ?_, ?_⟩
      · intro y hy
        rw [hoth3 y (h2 y hy).2.2, hus]
      · intro y hy
        refine ⟨by rw [hbl3, hub]; exact (h2 y hy).1, ?_, (h2 y hy).2.2⟩
        rw [hbm3, hkeepbit y
          (hk.apart j i hj hi hji hej htj hei hty cj cs h1 hchain y hy)]
        exact (h2 y hy).2.1
    refine ⟨true, _, io3, recs.set i (splice (recs.getD i []) 0 [0]), rfl, ?_, hs3.trans hs1,
      hbl3.trans hub, ?_, Or.inr ⟨rfl, i, hi, hei, hnm, hty, rfl⟩⟩
    · refine ⟨hv3.same_handle rfl rfl rfl, ?_, ?_, ?_, ?_, ?_⟩
      · intro a b hab hb heb
        rw [List.length_set] at hb
        obtain ⟨_, e⟩ := hlive b hb heb
        rw [e] at heb
        rw [hnames a, hnames b]
        exact hk.order a b hab hb heb
      · intro hf
        have hf2 : d3.m_checkForEarlyMetaData = false := hf
        rw [hchk3] at hf2
        cases hf2
      · intro j hj hej htj
        rw [List.length_set] at hj
        obtain ⟨hji, e⟩ := hlive j hj hej
        rw [e] at hej htj ⊢
        obtain ⟨cj, h1, h2, h3⟩ := chainOf j hj hji hej htj
        exact ⟨cj, IsChain.same_on h2 h1, h3⟩
      · intro a b ha hb hab hea hta heb htb ca cb hca hcb
        rw [List.length_set] at ha hb
        obtain ⟨hai, e1⟩ := hlive a ha hea
        obtain ⟨hbi, e2⟩ := hlive b hb heb
        rw [e1] at hea hta hca
        rw [e2] at heb htb hcb
        obtain ⟨ca0, a1, a2, _⟩ := chainOf a ha hai hea hta
        obtain ⟨cb0, b1, b2, _⟩ := chainOf b hb hbi heb htb
        have ea : ca = ca0 := (IsChain.kept a1 a2).2 ca hca
        have eb : cb = cb0 := (IsChain.kept b1 b2).2 cb hcb
        rw [ea, eb]
        exact hk.apart a b ha hb hab hea hta heb htb ca0 cb0 a1 b1
      · intro p hp
        have hp2 : p ∈ d3.m_entryInfoCacheMap := hp
        rw [hcache3] at hp2
        obtain ⟨hmem, hne⟩ := List.mem_filter.mp hp2
        have hne2 : p.1 ≠ name := by simpa using hne
        obtain ⟨h1, j, hj, hej, hnj, htyj, hblj⟩ := hk1.cache p hmem
        have hji : j ≠ i := by
          intro e
          subst e
          exact hne2 (hnj.symm.trans hnm)
        refine ⟨h1, j, by rw [List.length_set]; exact hj, ?_, ?_, ?_, ?_⟩
        · rw [hrec j hji]
          exact hej
        · rw [hrec j hji]
          exact hnj
        · rw [hrec j hji]
          exact htyj
        · rw [hrec j hji]
          exact hblj
    · refine freeCount_mono (hbl3.trans hub) ?_
      intro y hy
      rw [hbm3] at hy
      exact hubm y hy
  · simp only
    exact ⟨false, d1, io, recs, rfl, hk1, hs1, rfl, Nat.le_refl _, Or.inl ⟨rfl, rfl, rfl, hnone⟩⟩

/-! ## The names in use of a folder kept in order -/

theorem nodup_of_order : ∀ (recs : List (List Byte)),
    (∀ i j, i < j → j < recs.length → entryMetaDataIsEnabled (recs.getD j []) = true →
      getEntryName (recs.getD i []) ≠ getEntryName (recs.getD j [])) →
    (liveNames recs).Nodup
  | [], _ => by simp [liveNames]
  | r :: rs, h => by
    have ih := nodup_of_order rs (by
      intro i j hij hj he
      have := h (i + 1) (j + 1) (by omega) (by simpa using hj) (by simpa using he)
      simpa using this)
    have e : liveNames (r :: rs) = liveNames [r] ++ liveNames rs :=
      liveNames_append [r] rs
    rw [e, liveNames_single]
    by_cases hen : entryMetaDataIsEnabled r = true
    · rw [if_pos hen]
      simp only [List.singleton_append, List.nodup_cons]
      refine ⟨?_, ih⟩
      intro hmem
      obtain ⟨j, hj, hej, hnj⟩ := mem_liveNames.mp hmem
      have := h 0 (j + 1) (by omega) (by simpa using hj) (by simpa using hej)
      simp only [List.getD_cons_zero, List.getD_cons_succ] at this
      exact this hnj.symm
    · rw [if_neg hen]
      simpa using ih

/-- The names in use of a folder kept in order are pairwise distinct. -/
theorem FolderKept.names_nodup {S M : Nat} {d : ContentFolder} {io : Volume} {ks : List Nat}
    {recs : List (List Byte)} (hk : FolderKept S M d io ks recs) : (liveNames recs).Nodup :=
  nodup_of_order recs hk.order

theorem splice_name_type (r v : List Byte) (hr : 1 ≤ r.length) :
    getTypeForEntry (splice r 1 v) = getTypeForEntry r := by
  cases r with
  | nil => simp at hr
  | cons a as => simp [splice, getTypeForEntry]

theorem splice_name_block {M : Nat} (r v : List Byte) (hr : r.length = 1 + M + 8)
    (hv : v.length = M) :
    getBlockIndexForEntry M (splice r 1 v) = getBlockIndexForEntry M r := by
  unfold getBlockIndexForEntry splice
  congr 1
  have hl : (List.take 1 r ++ v).length = M + 1 := by
    rw [List.length_append, List.length_take, hv]
    omega
  rw [List.drop_append_eq_append_drop, List.drop_of_length_le (by rw [hl]), hl, Nat.sub_self,
    List.drop_zero, List.nil_append, hv, Nat.add_comm 1 M]

/-! ## Renaming an entry -/

/-- What `doGetMetaDataIndexForEntry` returns on a folder that is laid out: the index of the
first record that carries the name, in use or not, or -1 when no record does;
the image is as it was. -/
theorem ContentFolder.doGetMetaDataIndexForEntry_first {S M : Nat} (hS : 0 < S)
    (hS32 : S < 4294967296) {d : ContentFolder} {io : Volume} {ks : List Nat}
    {recs : List (List Byte)} (hv : FolderLayout S M d io ks recs)
    (hgood : ∀ i < recs.length, (8 + i * (1 + M + 8)) % S ≠ 0)
    (hsmall : 8 + (recs.length + 1) * (1 + M + 8) < 4294967296) (name : List Byte) :
    ∃ r d1, d.doGetMetaDataIndexForEntry S M io name = FolderRes.ok r d1 io ∧
      d1.m_startVolumeBlock = d.m_startVolumeBlock ∧ d1.m_entryCount = d.m_entryCount ∧
      d1.m_folderData.lent = d.m_folderData.lent ∧
      d1.m_entryInfoCacheMap = d.m_entryInfoCacheMap ∧
      d1.m_checkForEarlyMetaData = d.m_checkForEarlyMetaData ∧
      ((∃ i : Nat, r = (i : Int) ∧ i < recs.length ∧ name = getEntryName (recs.getD i []) ∧
          ∀ j, j < i → name ≠ getEntryName (recs.getD j [])) ∨
        (r = -1 ∧ ∀ j, j < recs.length → name ≠ getEntryName (recs.getD j []))) := by
  obtain ⟨hlen, h32, hcnt⟩ := hv.lengths hsmall
  have hmode : d.m_folderData.m_openDisposition.readWrite ≠ ReadOrWriteOrBoth.WriteOnly := by
    rw [hv.mode]
    decide
  have hscan := ContentFolder.metaDataIndexFrom_first hS hS32 hv.stored hv.width
    (by omega) hgood name recs.length 0 d.m_folderData hv.start hv.blockCount hmode (by omega)
  unfold ContentFolder.doGetMetaDataIndexForEntry
  rw [hcnt]
  have hd1 : ∀ g : ContentFolder, g = (if 0 < d.m_entryCount then
        { d with m_folderData := d.m_folderData.lent } else d) →
      g.m_startVolumeBlock = d.m_startVolumeBlock ∧ g.m_entryCount = d.m_entryCount ∧
      g.m_folderData.lent = d.m_folderData.lent ∧
      g.m_entryInfoCacheMap = d.m_entryInfoCacheMap ∧
      g.m_checkForEarlyMetaData = d.m_checkForEarlyMetaData := by
    intro g hg
    subst hg
    split
    · exact ⟨rfl, rfl, File.lent_lent _, rfl, rfl⟩
    · exact ⟨rfl, rfl, rfl, rfl, rfl⟩
  obtain ⟨e1, e2, e3, e4, e5⟩ := hd1 _ rfl
  rcases hscan with ⟨i, _, h2, h3, h4, h5⟩ | ⟨h1, h2⟩
  · simp only [h5]
    exact ⟨(i : Int), _, rfl, e1, e2, e3, e4, e5,
      Or.inl ⟨i, rfl, by omega, h3, fun j hj => h4 j (Nat.zero_le _) hj⟩⟩
  · simp only [h2]
    exact ⟨-1, _, rfl, e1, e2, e3, e4, e5,
      Or.inr ⟨rfl, fun j hj => h1 j (Nat.zero_le _) (by omega)⟩⟩

/-- `updateMetaDataWithNewFilename` on a folder kept in order, for a new name that is not
in use: it returns, the first record that carries the old name, in use or not,
carries the new name afterwards, the folder is laid out and its names in use
are pairwise distinct.  When no record at all carries the new name the folder
is kept in order. -/
theorem ContentFolder.updateMetaDataWithNewFilename_kept {S M : Nat} (hS : 0 < S)
    (hS32 : S < 4294967296) {d : ContentFolder} {io : Volume} {ks : List Nat}
    {recs : List (List Byte)} (hk : FolderKept S M d io ks recs)
    (hgood : GoodOffsets S M recs.length)
    (hsmall : 8 + (recs.length + 1) * (1 + M + 8) < 4294967296) (srcName : List Byte)
    {dstName : List Byte} (hn : dstName.length < M) (h0 : (0 : Byte) ∉ dstName)
    (hnew : dstName ∉ liveNames recs) :
    ∃ r d1 io1 recs1,
      d.updateMetaDataWithNewFilename S M io srcName dstName = FolderRes.ok r d1 io1 ∧
      FolderLayout S M d1 io1 ks recs1 ∧ (liveNames recs1).Nodup ∧
      d1.m_startVolumeBlock = d.m_startVolumeBlock ∧ io1.blocks = io.blocks ∧
      (∀ k, io1.bitmap k = io.bitmap k) ∧
      ((∀ j, j < recs.length → getEntryName (recs.getD j []) ≠ dstName) →
        FolderKept S M d1 io1 ks recs1) ∧
      ((r = false ∧ recs1 = recs ∧
          ∀ j, j < recs.length → srcName ≠ getEntryName (recs.getD j [])) ∨
        (r = true ∧ ∃ i, i < recs.length ∧ srcName = getEntryName (recs.getD i []) ∧
          (∀ j, j < i → srcName ≠ getEntryName (recs.getD j [])) ∧
          recs1 = recs.set i
            (splice (recs.getD i []) 1 (dstName ++ List.replicate (M - dstName.length) 0)))) := by
  have hv := hk.layout
  obtain ⟨hlen, h32, hcnt⟩ := hv.lengths hsmall
  obtain ⟨r, d1, hidx, hs1, hc1, hl1, hm1, hchk1, hcase⟩ :=
    ContentFolder.doGetMetaDataIndexForEntry_first hS hS32 hv (fun i hi => (hgood i hi).1)
      hsmall srcName
  have hk1 : FolderKept S M d1 io ks recs :=
    hk.same_state hs1 hc1 hl1 hm1 (fun h => by rw [← hchk1]; exact h)
  have hv1 := hk1.layout
  unfold ContentFolder.updateMetaDataWithNewFilename
  rw [hidx]
  rcases hcase with ⟨i, rfl, hi, hsrc, hfirst⟩ | ⟨rfl, hnone⟩
  · have hne : ((i : Int) = -1) = False := by
      apply propext
      constructor
      · intro h
        omega
      · intro h
        cases h
    have hW : (1 + M + 8) % 4294967296 = 1 + M + 8 := Nat.mod_eq_of_lt (by omega)
    have hoff : (8 : Int) + (i : Int) * ((1 + M + 8 : Nat) : Int) + 1 =
        ((9 + i * (1 + M + 8) : Nat) : Int) := by
      push_cast
      omega
    obtain ⟨f2, hopen, hw2, _, hsz2, hdisp2, hbuf2⟩ :=
      Stored.open_overwrite hS hv1.stored hv1.inUse OpenDisposition.buildOverwriteDisposition
        (by decide) (by decide) (by decide)
    have hiW : (i + 1) * (1 + M + 8) ≤ recs.length * (1 + M + 8) :=
      Nat.mul_le_mul_right _ (by omega)
    rw [Nat.succ_mul] at hiW
    obtain ⟨f3, i3, c3, hseek, hw3, hpos, _, hdisp3, hbuf3⟩ :=
      Writer.seek_beg hw2 (by rw [hdisp2]; rfl) (k := 9 + i * (1 + M + 8)) (by omega)
        (hgood i hi).2
    have hvl : (dstName ++ List.replicate (M - dstName.length) (0 : Byte)).length = M := by
      simp only [List.length_append, List.length_replicate]
      omega
    obtain ⟨f4, io4, i4, c4, hwrite, hov⟩ :=
      Writer.overwrite hS hS32 (s := dstName ++ List.replicate (M - dstName.length) 0)
        (by rw [hvl]; omega) hw3 (by rw [hdisp3, hdisp2]; rfl) (by rw [hvl, hpos]; omega)
    rw [hvl] at hwrite
    have hstored := hov.stored_after hv1.stored hw3.within
    have hcontent : splice (folderBody recs) (i3 * S + c3)
          (dstName ++ List.replicate (M - dstName.length) 0) =
        folderBody (recs.set i
          (splice (recs.getD i []) 1 (dstName ++ List.replicate (M - dstName.length) 0))) := by
      rw [hpos]
      have := bodyOf_splice (convertUInt64ToInt8Array_length recs.length) hv.width hi 1
        (dstName ++ List.replicate (M - dstName.length) 0) (by rw [hvl]; omega)
      have e : 9 + i * (1 + M + 8) = 8 + i * (1 + M + 8) + 1 := by omega
      unfold folderBody
      rw [e, this, List.length_set]
    rw [hcontent] at hstored
    have hrl : (recs.getD i []).length = 1 + M + 8 := getD_width hv.width hi
    have hwd : (splice (recs.getD i []) 1
        (dstName ++ List.replicate (M - dstName.length) 0)).length = 1 + M + 8 := by
      rw [splice_length _ _ _ (by omega), hvl, hrl]
      omega
    generalize hnewrec : splice (recs.getD i []) 1
      (dstName ++ List.replicate (M - dstName.length) 0) = nr at hstored hwd
    have hen : entryMetaDataIsEnabled nr = entryMetaDataIsEnabled (recs.getD i []) := by
      rw [← hnewrec]
      exact splice_name_enabled _ _ (by omega)
    have hnm : getEntryName nr = dstName := by
      rw [← hnewrec]
      exact splice_name_name _ hrl hn h0
    have hty : getTypeForEntry nr = getTypeForEntry (recs.getD i []) := by
      rw [← hnewrec]
      exact splice_name_type _ _ (by omega)
    have hblk : getBlockIndexForEntry M nr = getBlockIndexForEntry M (recs.getD i []) := by
      rw [← hnewrec]
      exact splice_name_block _ _ hrl hvl
    have hmode4 : f4.m_openDisposition.readWrite = ReadOrWriteOrBoth.ReadWrite := by
      rw [hov.mode, hdisp3, hdisp2]
      rfl
    have hbuf4 : f4.m_buffer = [] := hov.buffer (hbuf3.trans hbuf2)
    have hlay : FolderLayout S M
        (ContentFolder.invalidateEntryInEntryInfoCache { d1 with m_folderData := f4 } srcName)
        io4 ks (recs.set i nr) := by
      refine ⟨hstored, fun k hk2 => by rw [hov.bitmap]; exact hv1.inUse k hk2,
        width_set hv.width i hwd, ?_, hov.writer.start, hov.writer.count, hmode4,
        hov.writer.enforce, hbuf4⟩
      show d1.m_entryCount = _
      rw [List.length_set]
      exact hv1.count
    have hrec : ∀ j, j ≠ i → (recs.set i nr).getD j [] = recs.getD j [] :=
      fun j hj => getD_set_other (Ne.symm hj) _
    have hsame : ∀ j, entryMetaDataIsEnabled ((recs.set i nr).getD j []) =
          entryMetaDataIsEnabled (recs.getD j []) ∧
        getTypeForEntry ((recs.set i nr).getD j []) = getTypeForEntry (recs.getD j []) ∧
        getBlockIndexForEntry M ((recs.set i nr).getD j []) =
          getBlockIndexForEntry M (recs.getD j []) := by
      intro j
      by_cases hj : j = i
      · subst hj
        rw [getD_set_same hi]
        exact ⟨hen, hty, hblk⟩
      · rw [hrec j hj]
        exact ⟨rfl, rfl, rfl⟩
    simp only [hne, if_false, hW, hoff, hopen, hseek,
      ContentFolder.doWriteFilenameToEntryMetaData, createFileNameVector, hn, if_true,
      ContentFolder.doWrite, hwrite]
    refine ⟨true, _, io4, recs.set i nr, rfl, hlay, ?_, hs1, hov.blocks,
      fun k => by rw [hov.bitmap], ?_, Or.inr ⟨rfl, i, hi, hsrc, hfirst, by rw [hnewrec]⟩⟩
    · refine liveNames_set_nodup hi hk.names_nodup nr ?_
      intro _
      rw [hnm]
      exact hnew
    · intro hdst
      have hname2 : ∀ j, j < recs.length → j ≠ i →
          getEntryName ((recs.set i nr).getD j []) ≠ dstName := by
        intro j hj hji
        rw [hrec j hji]
        exact hdst j hj
      have hstore : ∀ cs : List Nat, (∀ y ∈ cs, y < io.blocks ∧ io.bitmap y = true ∧ y ∉ ks) →
          (∀ y ∈ cs, io4.store y = io.store y) ∧
          (∀ y ∈ cs, y < io4.blocks ∧ io4.bitmap y = true ∧ y ∉ ks) := by
        intro cs h
        refine ⟨fun y hy => hov.others y (h y hy).2.2, fun y hy => ⟨?_, ?_, (h y hy).2.2⟩⟩
        · rw [hov.blocks]
          exact (h y hy).1
        · rw [hov.bitmap]
          exact (h y hy).2.1
      refine ⟨hlay, ?_, ?_, ?_, ?_, ?_⟩
      · intro a b hab hb heb
        rw [List.length_set] at hb
        by_cases hbi : b = i
        · subst hbi
          rw [getD_set_same hi, hnm]
          exact hname2 a (by omega) (by omega)
        · rw [hrec b hbi] at heb ⊢
          by_cases hai : a = i
          · subst hai
            rw [getD_set_same hi, hnm]
            exact fun h => hdst b hb h.symm
          · rw [hrec a hai]
            exact hk.order a b hab hb heb
      · intro hf x hx
        obtain ⟨j, hj, e⟩ := exists_getD_of_mem hx
        rw [List.length_set] at hj
        rw [← e, (hsame j).1]
        exact hk1.early hf _ (getD_mem_of_lt hj)
      · intro j hj hej htj
        rw [List.length_set] at hj
        rw [(hsame j).1] at hej
        rw [(hsame j).2.1] at htj
        rw [(hsame j).2.2]
        obtain ⟨cs, h1, h2⟩ := hk.files j hj hej htj
        obtain ⟨h3, h4⟩ := hstore cs h2
        exact ⟨cs, IsChain.same_on h3 h1, h4⟩
      · intro a b ha hb hab hea hta heb htb ca cb hca hcb
        rw [List.length_set] at ha hb
        rw [(hsame a).1] at hea
        rw [(hsame a).2.1] at hta
        rw [(hsame a).2.2] at hca
        rw [(hsame b).1] at heb
        rw [(hsame b).2.1] at htb
        rw [(hsame b).2.2] at hcb
        obtain ⟨ca0, a1, a2⟩ := hk.files a ha hea hta
        obtain ⟨cb0, b1, b2⟩ := hk.files b hb heb htb
        have ea : ca = ca0 := (IsChain.kept a1 (hstore ca0 a2).1).2 ca hca
        have eb : cb = cb0 := (IsChain.kept b1 (hstore cb0 b2).1).2 cb hcb
        rw [ea, eb]
        exact hk.apart a b ha hb hab hea hta heb htb ca0 cb0 a1 b1
      · intro p hp
        have hp2 : p ∈ d1.m_entryInfoCacheMap.filter (fun p => decide (p.1 ≠ srcName)) := hp
        obtain ⟨hmem, hne2⟩ := List.mem_filter.mp hp2
        have hne3 : p.1 ≠ srcName := by simpa using hne2
        obtain ⟨h1, j, hj, hej, hnj, htyj, hblj⟩ := hk1.cache p hmem
        have hji : j ≠ i := by
          intro e
          subst e
          exact hne3 (hnj.symm.trans hsrc.symm)
        refine ⟨h1, j, by rw [List.length_set]; exact hj, ?_, ?_, ?_, ?_⟩
        · rw [hrec j hji]
          exact hej
        · rw [hrec j hji]
          exact hnj
        · rw [hrec j hji]
          exact htyj
        · rw [hrec j hji]
          exact hblj
  · simp only [if_true]
    exact ⟨false, d1, io, recs, rfl, hv1, hk.names_nodup, hs1, rfl, fun _ => rfl, fun _ => hk1,
      Or.inl ⟨rfl, rfl, hnone⟩⟩

/-! ## The names in use after a record is put or changed -/

/-- The names in use after the record `i` is replaced: those of the other records in use,
and the name of the new record when it is in use. -/
theorem mem_liveNames_set {recs : List (List Byte)} {i : Nat} (hi : i < recs.length)
    (e : List Byte) (y : List Byte) :
    y ∈ liveNames (recs.set i e) ↔
      (∃ j, j < recs.length ∧ j ≠ i ∧ entryMetaDataIsEnabled (recs.getD j []) = true ∧
        getEntryName (recs.getD j []) = y) ∨
      (entryMetaDataIsEnabled e = true ∧ getEntryName e = y) := by
  rw [mem_liveNames]
  constructor
  · rintro ⟨j, hj, hen, hn⟩
    rw [List.length_set] at hj
    by_cases hji : j = i
    · subst hji
      rw [getD_set_same hi] at hen hn
      exact Or.inr ⟨hen, hn⟩
    · rw [getD_set_other (Ne.symm hji)] at hen hn
      exact Or.inl ⟨j, hj, hji, hen, hn⟩
  · rintro (⟨j, hj, hji, hen, hn⟩ | ⟨hen, hn⟩)
    · refine ⟨j, by rw [List.length_set]; exact hj, ?_, ?_⟩
      · rw [getD_set_other (Ne.symm hji)]
        exact hen
      · rw [getD_set_other (Ne.symm hji)]
        exact hn
    · refine ⟨i, by rw [List.length_set]; exact hi, ?_, ?_⟩
      · rw [getD_set_same hi]
        exact hen
      · rw [getD_set_same hi]
        exact hn

/-- The names in use after the record of a new entry is appended or put over a record
that is out of use: the names that were in use, and the new name. -/
theorem mem_liveNames_put {M : Nat} {recs recs1 : List (List Byte)} {name : List Byte}
    (hn : name.length < M) (h0 : (0 : Byte) ∉ name) (entryType : EntryType) (a : Nat)
    (hshape : recs1 = recs ++ [entryRecord M name entryType a] ∨
      ∃ i, i < recs.length ∧ entryMetaDataIsEnabled (recs.getD i []) = false ∧
        recs1 = recs.set i (entryRecord M name entryType a)) (y : List Byte) :
    y ∈ liveNames recs1 ↔ y ∈ liveNames recs ∨ y = name := by
  have hname := entryRecord_name hn h0 entryType a
  have hen := entryRecord_enabled M name entryType a
  rcases hshape with h | ⟨i, hi, hdis, h⟩
  · subst h
    rw [liveNames_append, liveNames_single, if_pos hen, hname, List.mem_append,
      List.mem_singleton]
  · subst h
    rw [mem_liveNames_set hi, mem_liveNames, hname]
    constructor
    · rintro (⟨j, hj, _, hej, hnj⟩ | ⟨_, e⟩)
      · exact Or.inl ⟨j, hj, hej, hnj⟩
      · exact Or.inr e.symm
    · rintro (⟨j, hj, hej, hnj⟩ | e)
      · refine Or.inl ⟨j, hj, ?_, hej, hnj⟩
        intro e
        subst e
        rw [hdis] at hej
        cases hej
      · exact Or.inr ⟨hen, e.symm⟩

/-- The names in use after the one record in use that carries the name `x` is replaced by
a record `e`: the other names that were in use, and the name of `e` when `e`
is in use. -/
theorem mem_liveNames_change {S M : Nat} {d : ContentFolder} {io : Volume} {ks : List Nat}
    {recs : List (List Byte)} (hk : FolderKept S M d io ks recs) {i : Nat}
    (hi : i < recs.length) (hen : entryMetaDataIsEnabled (recs.getD i []) = true)
    (e : List Byte) (y : List Byte) :
    y ∈ liveNames (recs.set i e) ↔
      (y ∈ liveNames recs ∧ y ≠ getEntryName (recs.getD i [])) ∨
      (entryMetaDataIsEnabled e = true ∧ getEntryName e = y) := by
  rw [mem_liveNames_set hi, mem_liveNames]
  constructor
  · rintro (⟨j, hj, hji, hej, hnj⟩ | h)
    · refine Or.inl ⟨⟨j, hj, hej, hnj⟩, ?_⟩
      intro e
      exact hji (hk.live_unique hj hi hej hen (hnj.trans e))
    · exact Or.inr h
  · rintro (⟨⟨j, hj, hej, hnj⟩, hne⟩ | h)
    · refine Or.inl ⟨j, hj, ?_, hej, hnj⟩
      intro e
      subst e
      exact hne hnj.symm
    · exact Or.inr h

/-- The names in use after a record that is out of use is replaced by a record that is out
of use are the names that were in use. -/
theorem mem_liveNames_idle {recs : List (List Byte)} {i : Nat} (hi : i < recs.length)
    (hdis : entryMetaDataIsEnabled (recs.getD i []) = false) {e : List Byte}
    (he : entryMetaDataIsEnabled e = false) (y : List Byte) :
    y ∈ liveNames (recs.set i e) ↔ y ∈ liveNames recs := by
  rw [mem_liveNames_set hi, mem_liveNames]
  constructor
  · rintro (⟨j, hj, _, hej, hnj⟩ | ⟨h, _⟩)
    · exact ⟨j, hj, hej, hnj⟩
    · rw [he] at h
      cases h
  · rintro ⟨j, hj, hej, hnj⟩
    refine Or.inl ⟨j, hj, ?_, hej, hnj⟩
    intro e
    subst e
    rw [hdis] at hej
    cases hej

/-! ## Claim C20: the names of the records in use -/

/-- C20, for callers that add no name that is in use (ContentFolder.cpp 327-344, 470-502,
513-529).  On a folder kept in order (`FolderKept`: the state of a new folder,
which the four operations below hand on) whose records avoid the multiples
of the block payload, each operation returns, leaves the records named in the
conclusion laid out on the image, and leaves the names in use pairwise
distinct: `addFile(x)` and `addContentFolder(x)`, for a name `x` that is not in
use, put the record of `x` behind the records or over a record out of use,
and the names in use are the old ones and `x`; `removeFile(x)` takes the one
record of the file `x` out of use, or changes nothing when no file `x` is in
use; `updateMetaDataWithNewFilename(src, dst)`, for a name `dst` that is not in
use, writes `dst` into the first record named `src`, and the folder is kept in
order again when no record at all carries the name `dst`.  The operations
themselves do not look for the new name among the records. -/
theorem C20_operations_keep_the_names_in_use_distinct (S M : Nat) (hS : 8 ≤ S)
    (hS32 : S < 4294967296) (d : ContentFolder) (io : Volume) (ks : List Nat)
    (recs : List (List Byte)) (hk : FolderKept S M d io ks recs)
    (hgood : GoodOffsets S M recs.length)
    (hsmall : 8 + (recs.length + 1) * (1 + M + 8) < 4294967296)
    (hblocks : io.blocks ≤ 18446744073709551616) :
    (∀ name : List Byte, name.length < M → (0 : Byte) ∉ name → name ∉ liveNames recs →
      0 < freeCount io →
      (folderBody recs).length + (1 + M + 8) ≤ (ks.length + (freeCount io - 1)) * S →
      ∃ d1 io1 nb recs1 a,
        d.addFile S M io name = FolderRes.ok () d1 io1 ∧
        FolderKept S M d1 io1 (ks ++ nb) recs1 ∧
        (recs1 = recs ++ [entryRecord M name EntryType.FileType a] ∨
          ∃ i, i < recs.length ∧ entryMetaDataIsEnabled (recs.getD i []) = false ∧
            recs1 = recs.set i (entryRecord M name EntryType.FileType a)) ∧
        (liveNames recs1).Nodup ∧
        ∀ y, y ∈ liveNames recs1 ↔ y ∈ liveNames recs ∨ y = name) ∧
    (∀ name : List Byte, name.length < M → (0 : Byte) ∉ name → name ∉ liveNames recs →
      0 < freeCount io →
      (folderBody recs).length + (1 + M + 8) ≤ (ks.length + (freeCount io - 1)) * S →
      ∃ d1 io1 nb recs1 a,
        d.addContentFolder S M io name = FolderRes.ok () d1 io1 ∧
        FolderKept S M d1 io1 (ks ++ nb) recs1 ∧
        (recs1 = recs ++ [entryRecord M name EntryType.FolderType a] ∨
          ∃ i, i < recs.length ∧ entryMetaDataIsEnabled (recs.getD i []) = false ∧
            recs1 = recs.set i (entryRecord M name EntryType.FolderType a)) ∧
        (liveNames recs1).Nodup ∧
        ∀ y, y ∈ liveNames recs1 ↔ y ∈ liveNames recs ∨ y = name) ∧
    (∀ name : List Byte,
      ∃ r d1 io1 recs1,
        d.removeFile S M io name = FolderRes.ok r d1 io1 ∧
        FolderKept S M d1 io1 ks recs1 ∧
        ((r = false ∧ recs1 = recs) ∨
          (r = true ∧ ∃ i, i < recs.length ∧
            entryMetaDataIsEnabled (recs.getD i []) = true ∧
            getEntryName (recs.getD i []) = name ∧
            recs1 = recs.set i (splice (recs.getD i []) 0 [0]))) ∧
        (liveNames recs1).Nodup ∧
        ∀ y, y ∈ liveNames recs1 ↔ y ∈ liveNames recs ∧ (r = true → y ≠ name)) ∧
    (∀ srcName dstName : List Byte, dstName.length < M → (0 : Byte) ∉ dstName →
      dstName ∉ liveNames recs →
      ∃ r d1 io1 recs1,
        d.updateMetaDataWithNewFilename S M io srcName dstName = FolderRes.ok r d1 io1 ∧
        FolderLayout S M d1 io1 ks recs1 ∧
        ((r = false ∧ recs1 = recs) ∨
          (r = true ∧ ∃ i, i < recs.length ∧ srcName = getEntryName (recs.getD i []) ∧
            recs1 = recs.set i
              (splice (recs.getD i []) 1
                (dstName ++ List.replicate (M - dstName.length) 0)))) ∧
        (liveNames recs1).Nodup ∧
        (∀ y, y ∈ liveNames recs1 ↔
          (y ∈ liveNames recs ∧ y ≠ srcName) ∨ (srcName ∈ liveNames recs ∧ y = dstName)) ∧
        ((∀ j, j < recs.length → getEntryName (recs.getD j []) ≠ dstName) →
          FolderKept S M d1 io1 ks recs1)) := by
  have hS0 : 0 < S := by omega
  have hg1 : ∀ i < recs.length, (8 + i * (1 + M + 8)) % S ≠ 0 := fun i hi => (hgood i hi).1
  refine ⟨?_, ?_, ?_, ?_⟩
  · intro name hn h0 hnew hfree hcap
    obtain ⟨d1, io1, nb, recs1, a, hres, hk1, _, hshape, _, _⟩ :=
      ContentFolder.addFile_kept hS hS32 hk hg1 hsmall hblocks hn h0 hnew hfree hcap
    exact ⟨d1, io1, nb, recs1, a, hres, hk1, hshape, hk1.names_nodup,
      mem_liveNames_put hn h0 EntryType.FileType a hshape⟩
  · intro name hn h0 hnew hfree hcap
    obtain ⟨d1, io1, nb, recs1, a, hres, hk1, _, hshape, _, _⟩ :=
      ContentFolder.addContentFolder_kept hS hS32 hk hg1 hsmall hn h0 hnew hfree hcap
    exact ⟨d1, io1, nb, recs1, a, hres, hk1, hshape, hk1.names_nodup,
      mem_liveNames_put hn h0 EntryType.FolderType a hshape⟩
  · intro name
    obtain ⟨r, d1, io1, recs1, hres, hk1, _, _, _, hshape⟩ :=
      ContentFolder.removeFile_kept hS0 hS32 hk hg1 hsmall name
    refine ⟨r, d1, io1, recs1, hres, hk1, ?_, hk1.names_nodup, ?_⟩
    · rcases hshape with ⟨h1, h2, _⟩ | ⟨h1, i, hi, hen, hnm, _, h2⟩
      · exact Or.inl ⟨h1, h2⟩
      · exact Or.inr ⟨h1, i, hi, hen, hnm, h2⟩
    · intro y
      rcases hshape with ⟨h1, h2, _⟩ | ⟨h1, i, hi, hen, hnm, _, h2⟩
      · subst h1
        rw [h2]
        simp
      · subst h1
        subst h2
        rw [mem_liveNames_change hk hi hen, hnm, splice_flag_disabled]
        simp
  · intro srcName dstName hn h0 hnew
    obtain ⟨r, d1, io1, recs1, hres, hlay, hnd, _, _, _, hkept, hshape⟩ :=
      ContentFolder.updateMetaDataWithNewFilename_kept hS0 hS32 hk hgood hsmall srcName hn h0
        hnew
    refine ⟨r, d1, io1, recs1, hres, hlay, ?_, hnd, ?_, hkept⟩
    · rcases hshape with ⟨h1, h2, _⟩ | ⟨h1, i, hi, hsrc, _, h2⟩
      · exact Or.inl ⟨h1, h2⟩
      · exact Or.inr ⟨h1, i, hi, hsrc, h2⟩
    · intro y
      rcases hshape with ⟨_, h2, hnone⟩ | ⟨_, i, hi, hsrc, hfirst, h2⟩
      · rw [h2]
        have hsrc : srcName ∉ liveNames recs := by
          intro h
          obtain ⟨j, hj, _, e⟩ := mem_liveNames.mp h
          exact hnone j hj e.symm
        constructor
        · intro h
          refine Or.inl ⟨h, ?_⟩
          intro e
          subst e
          exact hsrc h
        · rintro (⟨h, _⟩ | ⟨h, _⟩)
          · exact h
          · exact absurd h hsrc
      · subst h2
        have hrl : (recs.getD i []).length = 1 + M + 8 := getD_width hk.layout.width hi
        have hen2 := splice_name_enabled (recs.getD i [])
          (dstName ++ List.replicate (M - dstName.length) 0) (by omega)
        have hnm2 := splice_name_name (recs.getD i []) hrl hn h0
        by_cases hen : entryMetaDataIsEnabled (recs.getD i []) = true
        · have hlive : srcName ∈ liveNames recs := mem_liveNames.mpr ⟨i, hi, hen, hsrc.symm⟩
          rw [mem_liveNames_change hk hi hen, hen2, hnm2, ← hsrc]
          constructor
          · rintro (h | ⟨_, e⟩)
            · exact Or.inl h
            · exact Or.inr ⟨hlive, e.symm⟩
          · rintro (h | ⟨_, e⟩)
            · exact Or.inl h
            · exact Or.inr ⟨hen, e.symm⟩
        · have hdis : entryMetaDataIsEnabled (recs.getD i []) = false := by
            simpa using hen
          have hsrc2 : srcName ∉ liveNames recs := by
            intro h
            obtain ⟨j, hj, hej, e⟩ := mem_liveNames.mp h
            rcases Nat.lt_trichotomy j i with hlt | heq | hgt
            · exact hfirst j hlt e.symm
            · subst heq
              exact hen hej
            · exact hk.order i j hgt hj hej (hsrc.symm.trans e.symm)
          rw [mem_liveNames_idle hi hdis (hen2.trans hdis)]
          constructor
          · intro h
            refine Or.inl ⟨h, ?_⟩
            intro e
            subst e
            exact hsrc2 h
          · rintro (⟨h, _⟩ | ⟨h, _⟩)
            · exact h
            · exact absurd h hsrc2

/-- C20 on the folder with the files x and y, 64 payload bytes per block and records of
11 bytes: the folder is kept in order, and the four operations leave it as the
theorem says. -/
theorem C20_operations_keep_the_names_in_use_distinct_witness :
    (∀ name : List Byte, name.length < 2 → (0 : Byte) ∉ name →
      name ∉ liveNames folderWithXYRecords → 0 < freeCount folderWithXY.image →
      (folderBody folderWithXYRecords).length + (1 + 2 + 8) ≤
        ([0].length + (freeCount folderWithXY.image - 1)) * 64 →
      ∃ d1 io1 nb recs1 a,
        folderWithXY.folder.addFile 64 2 folderWithXY.image name = FolderRes.ok () d1 io1 ∧
        FolderKept 64 2 d1 io1 ([0] ++ nb) recs1 ∧
        (recs1 = folderWithXYRecords ++ [entryRecord 2 name EntryType.FileType a] ∨
          ∃ i, i < folderWithXYRecords.length ∧
            entryMetaDataIsEnabled (folderWithXYRecords.getD i []) = false ∧
            recs1 = folderWithXYRecords.set i (entryRecord 2 name EntryType.FileType a)) ∧
        (liveNames recs1).Nodup ∧
        ∀ y, y ∈ liveNames recs1 ↔ y ∈ liveNames folderWithXYRecords ∨ y = name) ∧
    (∀ name : List Byte, name.length < 2 → (0 : Byte) ∉ name →
      name ∉ liveNames folderWithXYRecords → 0 < freeCount folderWithXY.image →
      (folderBody folderWithXYRecords).length + (1 + 2 + 8) ≤
        ([0].length + (freeCount folderWithXY.image - 1)) * 64 →
      ∃ d1 io1 nb recs1 a,
        folderWithXY.folder.addContentFolder 64 2 folderWithXY.image name =
          FolderRes.ok () d1 io1 ∧
        FolderKept 64 2 d1 io1 ([0] ++ nb) recs1 ∧
        (recs1 = folderWithXYRecords ++ [entryRecord 2 name EntryType.FolderType a] ∨
          ∃ i, i < folderWithXYRecords.length ∧
            entryMetaDataIsEnabled (folderWithXYRecords.getD i []) = false ∧
            recs1 = folderWithXYRecords.set i (entryRecord 2 name EntryType.FolderType a)) ∧
        (liveNames recs1).Nodup ∧
        ∀ y, y ∈ liveNames recs1 ↔ y ∈ liveNames folderWithXYRecords ∨ y = name) ∧
    (∀ name : List Byte,
      ∃ r d1 io1 recs1,
        folderWithXY.folder.removeFile 64 2 folderWithXY.image name = FolderRes.ok r d1 io1 ∧
        FolderKept 64 2 d1 io1 [0] recs1 ∧
        ((r = false ∧ recs1 = folderWithXYRecords) ∨
          (r = true ∧ ∃ i, i < folderWithXYRecords.length ∧
            entryMetaDataIsEnabled (folderWithXYRecords.getD i []) = true ∧
            getEntryName (folderWithXYRecords.getD i []) = name ∧
            recs1 = folderWithXYRecords.set i
              (splice (folderWithXYRecords.getD i []) 0 [0]))) ∧
        (liveNames recs1).Nodup ∧
        ∀ y, y ∈ liveNames recs1 ↔
          y ∈ liveNames folderWithXYRecords ∧ (r = true → y ≠ name)) ∧
    (∀ srcName dstName : List Byte, dstName.length < 2 → (0 : Byte) ∉ dstName →
      dstName ∉ liveNames folderWithXYRecords →
      ∃ r d1 io1 recs1,
        folderWithXY.folder.updateMetaDataWithNewFilename 64 2 folderWithXY.image srcName
          dstName = FolderRes.ok r d1 io1 ∧
        FolderLayout 64 2 d1 io1 [0] recs1 ∧
        ((r = false ∧ recs1 = folderWithXYRecords) ∨
          (r = true ∧ ∃ i, i < folderWithXYRecords.length ∧
            srcName = getEntryName (folderWithXYRecords.getD i []) ∧
            recs1 = folderWithXYRecords.set i
              (splice (folderWithXYRecords.getD i []) 1
                (dstName ++ List.replicate (2 - dstName.length) 0)))) ∧
        (liveNames recs1).Nodup ∧
        (∀ y, y ∈ liveNames recs1 ↔
          (y ∈ liveNames folderWithXYRecords ∧ y ≠ srcName) ∨
            (srcName ∈ liveNames folderWithXYRecords ∧ y = dstName)) ∧
        ((∀ j, j < folderWithXYRecords.length →
            getEntryName (folderWithXYRecords.getD j []) ≠ dstName) →
          FolderKept 64 2 d1 io1 [0] recs1)) :=
  C20_operations_keep_the_names_in_use_distinct 64 2 (by decide) (by decide)
    folderWithXY.folder folderWithXY.image [0] folderWithXYRecords
    (by
      refine ⟨⟨⟨⟨by decide!, by decide!, by decide!, by decide!, by decide!⟩, by decide!⟩,
          by decide!, by decide!, by decide!, by decide!, by decide!, by decide!, by decide!,
          by decide!⟩, ?_, by decide!, ?_, ?_, ?_⟩
      · intro i j hij hj
        have hj2 : j < 2 := hj
        have h1 : j = 1 := by omega
        have h2 : i = 0 := by omega
        subst h1
        subst h2
        decide!
      · intro i hi _ _
        have hi2 : i < 2 := hi
        interval_cases i
        · exact ⟨[1], by decide!, by decide!⟩
        · exact ⟨[2], by decide!, by decide!⟩
      · intro i j hi hj hij _ _ _ _ ci cj hci hcj
        have hi2 : i < 2 := hi
        have hj2 : j < 2 := hj
        have e1 : IsChain folderWithXY.image 1 [1] := by decide!
        have e2 : IsChain folderWithXY.image 2 [2] := by decide!
        interval_cases i <;> interval_cases j
        · exact absurd rfl hij
        · have a1 : ci = [1] := IsChain.unique hci e1
          have a2 : cj = [2] := IsChain.unique hcj e2
          subst a1
          subst a2
          decide
        · have a1 : ci = [2] := IsChain.unique hci e2
          have a2 : cj = [1] := IsChain.unique hcj e1
          subst a1
          subst a2
          decide
        · exact absurd rfl hij
      · intro p hp
        have : folderWithXY.folder.m_entryInfoCacheMap = [] := by decide!
        rw [this] at hp
        cases hp)
    (by unfold GoodOffsets; decide) (by decide) (by decide!)

/-! ## The types of the entries in use -/

/-- Either no record in use carries the name `y`, or `liveType` gives the type of a record
in use that carries it. -/
theorem liveType_cases (recs : List (List Byte)) (y : List Byte) :
    (liveType recs y = none ∧ y ∉ liveNames recs) ∨
      ∃ j, j < recs.length ∧ entryMetaDataIsEnabled (recs.getD j []) = true ∧
        getEntryName (recs.getD j []) = y ∧
        liveType recs y = some (getTypeForEntry (recs.getD j [])) := by
  unfold liveType
  cases hf : recs.find? (fun r => entryMetaDataIsEnabled r && decide (getEntryName r = y)) with
  | none =>
    left
    refine ⟨rfl, ?_⟩
    intro hmem
    obtain ⟨j, hj, hen, hn⟩ := mem_liveNames.mp hmem
    have := List.find?_eq_none.mp hf _ (getD_mem_of_lt hj)
    rw [hen, hn] at this
    simp at this
  | some r =>
    right
    have hp := List.find?_some hf
    have hmem := List.mem_of_find?_eq_some hf
    obtain ⟨j, hj, e⟩ := exists_getD_of_mem hmem
    simp only [Bool.and_eq_true, decide_eq_true_eq] at hp
    refine ⟨j, hj, by rw [e]; exact hp.1, by rw [e]; exact hp.2, ?_⟩
    rw [e]
    rfl

/-- In a folder kept in order `liveType` gives the type of the one record in use that
carries the name. -/
theorem FolderKept.liveType_eq {S M : Nat} {d : ContentFolder} {io : Volume} {ks : List Nat}
    {recs : List (List Byte)} (hk : FolderKept S M d io ks recs) {j : Nat}
    (hj : j < recs.length) (hen : entryMetaDataIsEnabled (recs.getD j []) = true) :
    liveType recs (getEntryName (recs.getD j [])) = some (getTypeForEntry (recs.getD j [])) := by
  rcases liveType_cases recs (getEntryName (recs.getD j [])) with ⟨_, h⟩ | ⟨i, hi, hei, hni, h⟩
  · exact absurd (mem_liveNames.mpr ⟨j, hj, hen, rfl⟩) h
  · have := hk.live_unique hi hj hei hen hni
    subst this
    exact h

/-- The types of the entries in use after the record of a new entry is put into a folder
kept in order: the new name has the new type, the other names theirs. -/
theorem FolderKept.liveType_put {S M : Nat} {d1 : ContentFolder} {io1 : Volume}
    {ks1 : List Nat} {recs recs1 : List (List Byte)} (hk1 : FolderKept S M d1 io1 ks1 recs1)
    {name : List Byte} (hn : name.length < M) (h0 : (0 : Byte) ∉ name)
    (entryType : EntryType) (a : Nat)
    (hshape : recs1 = recs ++ [entryRecord M name entryType a] ∨
      ∃ i, i < recs.length ∧ entryMetaDataIsEnabled (recs.getD i []) = false ∧
        recs1 = recs.set i (entryRecord M name entryType a)) :
    liveType recs1 = fun y => if y = name then some entryType else liveType recs y := by
  have hname := entryRecord_name hn h0 entryType a
  have hen := entryRecord_enabled M name entryType a
  have hty := entryRecord_type M name entryType a
  -- the place of the new record
  have hplace : ∃ i0, i0 < recs1.length ∧ recs1.getD i0 [] = entryRecord M name entryType a ∧
      ∀ j, j < recs.length → entryMetaDataIsEnabled (recs.getD j []) = true →
        j < recs1.length ∧ recs1.getD j [] = recs.getD j [] := by
    rcases hshape with h | ⟨i, hi, hdis, h⟩
    · subst h
      refine ⟨recs.length, by simp, getD_snoc_new recs _, fun j hj _ => ⟨?_, getD_snoc_old hj _⟩⟩
      simp only [List.length_append, List.length_singleton]
      omega
    · subst h
      refine ⟨i, by rw [List.length_set]; exact hi, getD_set_same hi _, fun j hj hej => ⟨?_, ?_⟩⟩
      · rw [List.length_set]
        exact hj
      · apply getD_set_other
        intro e
        subst e
        rw [hdis] at hej
        cases hej
  obtain ⟨i0, hi0, hrec, hold⟩ := hplace
  funext y
  by_cases hy : y = name
  · subst hy
    rw [if_pos rfl]
    have := hk1.liveType_eq hi0 (by rw [hrec]; exact hen)
    rw [hrec, hname, hty] at this
    exact this
  · rw [if_neg hy]
    rcases liveType_cases recs y with ⟨h1, h2⟩ | ⟨j, hj, hej, hnj, h⟩
    · rw [h1]
      rcases liveType_cases recs1 y with ⟨h3, _⟩ | ⟨j, hj, hej, hnj, _⟩
      · exact h3
      · have := (mem_liveNames_put hn h0 entryType a hshape y).mp
          (mem_liveNames.mpr ⟨j, hj, hej, hnj⟩)
        rcases this with h | h
        · exact absurd h h2
        · exact absurd h hy
    · rw [h]
      obtain ⟨hj1, e⟩ := hold j hj hej
      have := hk1.liveType_eq hj1 (by rw [e]; exact hej)
      rw [e, hnj] at this
      exact this

/-- The types of the entries in use after the record `i`, in use, is taken out of use in a
folder kept in order: its name has none, the other names theirs. -/
theorem FolderKept.liveType_out {S M : Nat} {d d1 : ContentFolder} {io io1 : Volume}
    {ks ks1 : List Nat} {recs : List (List Byte)} (hk : FolderKept S M d io ks recs) {i : Nat}
    (hi : i < recs.length) (hen : entryMetaDataIsEnabled (recs.getD i []) = true)
    (hk1 : FolderKept S M d1 io1 ks1 (recs.set i (splice (recs.getD i []) 0 [0]))) :
    liveType (recs.set i (splice (recs.getD i []) 0 [0])) =
      fun y => if y = getEntryName (recs.getD i []) then none else liveType recs y := by
  funext y
  have hmem := mem_liveNames_change hk hi hen (splice (recs.getD i []) 0 [0]) y
  rw [splice_flag_disabled] at hmem
  by_cases hy : y = getEntryName (recs.getD i [])
  · rw [if_pos hy]
    rcases liveType_cases (recs.set i (splice (recs.getD i []) 0 [0])) y with
      ⟨h3, _⟩ | ⟨j, hj, hej, hnj, _⟩
    · exact h3
    · have := hmem.mp (mem_liveNames.mpr ⟨j, hj, hej, hnj⟩)
      rcases this with ⟨_, h⟩ | ⟨h, _⟩
      · exact absurd hy h
      · cases h
  · rw [if_neg hy]
    rcases liveType_cases recs y with ⟨h1, h2⟩ | ⟨j, hj, hej, hnj, h⟩
    · rw [h1]
      rcases liveType_cases (recs.set i (splice (recs.getD i []) 0 [0])) y with
        ⟨h3, _⟩ | ⟨j, hj, hej, hnj, _⟩
      · exact h3
      · have := hmem.mp (mem_liveNames.mpr ⟨j, hj, hej, hnj⟩)
        rcases this with ⟨h, _⟩ | ⟨h, _⟩
        · exact absurd h h2
        · cases h
    · rw [h]
      have hji : i ≠ j := by
        intro e
        subst e
        exact hy hnj.symm
      have e : (recs.set i (splice (recs.getD i []) 0 [0])).getD j [] = recs.getD j [] :=
        getD_set_other hji _
      have := hk1.liveType_eq (j := j) (by rw [List.length_set]; exact hj) (by rw [e]; exact hej)
      rw [e, hnj] at this
      exact this

/-! ## Runs of operations on a folder kept in order -/

theorem room_for_record {W S r A T k free : Nat} (hT : T = k + free)
    (hcan : k = 1 ∨ (k - 1) * S < 8 + r * W) (hk : 0 < k)
    (hroom : 8 + (r + (A + 1)) * W + (A + 1) * S ≤ T * S) :
    0 < free ∧ 8 + r * W + W ≤ (k + (free - 1)) * S := by
  have e1 : (r + (A + 1)) * W = r * W + A * W + W := by ring
  have e2 : (A + 1) * S = A * S + S := by ring
  rw [e1, e2] at hroom
  have hfree : 0 < free := by
    rcases Nat.eq_zero_or_pos free with h | h
    · exfalso
      have hT2 : T = k := by omega
      rw [hT2] at hroom
      rcases hcan with h1 | h1
      · rw [h1, Nat.one_mul] at hroom
        omega
      · obtain ⟨k1, hk1⟩ : ∃ k1, k = k1 + 1 := ⟨k - 1, by omega⟩
        rw [hk1, Nat.add_sub_cancel] at h1
        rw [hk1, Nat.succ_mul] at hroom
        omega
    · exact h
  refine ⟨hfree, ?_⟩
  obtain ⟨f1, hf1⟩ : ∃ f1, free = f1 + 1 := ⟨free - 1, by omega⟩
  rw [hf1, Nat.add_sub_cancel]
  have e3 : T * S = (k + f1) * S + S := by
    rw [hT, hf1]
    ring
  rw [e3] at hroom
  omega

theorem room_after_record {W S r r1 A T T1 : Nat} (hr : r1 ≤ r + 1) (hT : T1 + 1 = T)
    (hroom : 8 + (r + (A + 1)) * W + (A + 1) * S ≤ T * S) :
    8 + (r1 + A) * W + A * S ≤ T1 * S := by
  subst hT
  have e1 : (r + (A + 1)) * W = (r + 1 + A) * W := by ring
  have e2 : (A + 1) * S = A * S + S := by ring
  have e3 : (T1 + 1) * S = T1 * S + S := by ring
  rw [e1, e2, e3] at hroom
  have : (r1 + A) * W ≤ (r + 1 + A) * W := Nat.mul_le_mul_right W (by omega)
  omega

/-- One operation that the caller may call on a folder kept in order returns and leaves a
folder kept in order, with no record less, at most one record more after an
add, and with room for the operations that follow. -/
theorem ContentFolder.apply_kept {S M : Nat} (hS : 8 ≤ S) (hS32 : S < 4294967296)
    {d : ContentFolder} {io : Volume} {ks : List Nat} {recs : List (List Byte)}
    (hk : FolderKept S M d io ks recs) (op : FolderOp) (ops : List FolderOp)
    (hallowed : FolderOp.allowed M (op :: ops) (liveType recs))
    (hgood : ∀ i < recs.length + FolderOp.adds (op :: ops), (8 + i * (1 + M + 8)) % S ≠ 0)
    (hsmall : 8 + (recs.length + FolderOp.adds (op :: ops) + 1) * (1 + M + 8) < 4294967296)
    (hblocks : io.blocks ≤ 18446744073709551616)
    (hroom : 8 + (recs.length + FolderOp.adds (op :: ops)) * (1 + M + 8) +
      FolderOp.adds (op :: ops) * S ≤ (ks.length + freeCount io) * S) :
    ∃ d1 io1 ks1 recs1, d.apply S M io op = FolderRes.ok () d1 io1 ∧
      FolderKept S M d1 io1 ks1 recs1 ∧ d1.m_startVolumeBlock = d.m_startVolumeBlock ∧
      FolderOp.allowed M ops (liveType recs1) ∧ recs.length ≤ recs1.length ∧
      recs1.length + FolderOp.adds ops ≤ recs.length + FolderOp.adds (op :: ops) ∧
      io1.blocks = io.blocks ∧
      8 + (recs1.length + FolderOp.adds ops) * (1 + M + 8) + FolderOp.adds ops * S ≤
        (ks1.length + freeCount io1) * S := by
  have hchain := hk.layout.stored.laid.chain
  have hks : 0 < ks.length := by
    cases ks with
    | nil => exact absurd hchain (by simp [IsChain])
    | cons _ _ => simp
  have hlen := folderBody_length hk.layout.width
  have hadd : ∀ (entryType : EntryType) (name : List Byte) (d1 : ContentFolder) (io1 : Volume)
      (nb : List Nat) (recs1 : List (List Byte)) (a : Nat),
      FolderOp.adds (op :: ops) = FolderOp.adds ops + 1 →
      name.length < M → (0 : Byte) ∉ name →
      FolderOp.allowed M ops (fun y => if y = name then some entryType else liveType recs y) →
      FolderKept S M d1 io1 (ks ++ nb) recs1 →
      (recs1 = recs ++ [entryRecord M name entryType a] ∨
        ∃ i, i < recs.length ∧ entryMetaDataIsEnabled (recs.getD i []) = false ∧
          recs1 = recs.set i (entryRecord M name entryType a)) →
      (ks ++ nb).length + freeCount io1 + 1 = ks.length + freeCount io →
      FolderOp.allowed M ops (liveType recs1) ∧ recs.length ≤ recs1.length ∧
      recs1.length + FolderOp.adds ops ≤ recs.length + FolderOp.adds (op :: ops) ∧
      8 + (recs1.length + FolderOp.adds ops) * (1 + M + 8) + FolderOp.adds ops * S ≤
        ((ks ++ nb).length + freeCount io1) * S := by
    intro entryType name d1 io1 nb recs1 a hadds hn h0 hal hk1 hshape hT
    rw [hadds] at hroom
    have hl : recs.length ≤ recs1.length ∧ recs1.length ≤ recs.length + 1 := by
      rcases hshape with h | ⟨i, _, _, h⟩
      · subst h
        simp
      · subst h
        simp
    refine ⟨?_, hl.1, by rw [hadds]; omega, room_after_record hl.2 hT hroom⟩
    rw [hk1.liveType_put hn h0 entryType a hshape]
    exact hal
  have hnotlive : ∀ name, liveType recs name = none → name ∉ liveNames recs := by
    intro name h
    rcases liveType_cases recs name with ⟨_, h2⟩ | ⟨j, _, _, _, h2⟩
    · exact h2
    · rw [h] at h2
      cases h2
  cases op with
  | addFile name =>
    obtain ⟨hn, h0, hnone, hal⟩ := hallowed
    have hadds : FolderOp.adds (FolderOp.addFile name :: ops) = FolderOp.adds ops + 1 := rfl
    have hroom2 := hroom
    rw [hadds] at hroom2 hgood hsmall
    obtain ⟨hfree, hcap⟩ := room_for_record rfl
      (by rw [← hlen]; exact hk.layout.stored.canonical) hks hroom2
    obtain ⟨d1, io1, nb, recs1, a, hres, hk1, hs1, hshape, hb1, hT⟩ :=
      ContentFolder.addFile_kept hS hS32 hk (fun i hi => hgood i (by omega))
        (by
          have : (recs.length + 1) * (1 + M + 8) ≤
              (recs.length + (FolderOp.adds ops + 1) + 1) * (1 + M + 8) :=
            Nat.mul_le_mul_right _ (by omega)
          omega)
        hblocks hn h0 (hnotlive name hnone) hfree (by rw [hlen]; exact hcap)
    obtain ⟨h1, h2, h3, h4⟩ :=
      hadd EntryType.FileType name d1 io1 nb recs1 a hadds hn h0 hal hk1 hshape hT
    exact ⟨d1, io1, ks ++ nb, recs1, hres, hk1, hs1, h1, h2, h3, hb1, h4⟩
  | addContentFolder name =>
    obtain ⟨hn, h0, hnone, hal⟩ := hallowed
    have hadds : FolderOp.adds (FolderOp.addContentFolder name :: ops) =
        FolderOp.adds ops + 1 := rfl
    have hroom2 := hroom
    rw [hadds] at hroom2 hgood hsmall
    obtain ⟨hfree, hcap⟩ := room_for_record rfl
      (by rw [← hlen]; exact hk.layout.stored.canonical) hks hroom2
    obtain ⟨d1, io1, nb, recs1, a, hres, hk1, hs1, hshape, hb1, hT⟩ :=
      ContentFolder.addContentFolder_kept hS hS32 hk (fun i hi => hgood i (by omega))
        (by
          have : (recs.length + 1) * (1 + M + 8) ≤
              (recs.length + (FolderOp.adds ops + 1) + 1) * (1 + M + 8) :=
            Nat.mul_le_mul_right _ (by omega)
          omega)
        hn h0 (hnotlive name hnone) hfree (by rw [hlen]; exact hcap)
    obtain ⟨h1, h2, h3, h4⟩ :=
      hadd EntryType.FolderType name d1 io1 nb recs1 a hadds hn h0 hal hk1 hshape hT
    exact ⟨d1, io1, ks ++ nb, recs1, hres, hk1, hs1, h1, h2, h3, hb1, h4⟩
  | removeFile name =>
    have hadds : FolderOp.adds (FolderOp.removeFile name :: ops) = FolderOp.adds ops := rfl
    rw [hadds] at hroom hgood hsmall
    have hal : FolderOp.allowed M ops
        (fun y => if y = name ∧ liveType recs name = some EntryType.FileType then none
          else liveType recs y) := hallowed
    obtain ⟨r, d1, io1, recs1, hres, hk1, hs1, hb1, hfc, hshape⟩ :=
      ContentFolder.removeFile_kept (by omega) hS32 hk (fun i hi => hgood i (by omega))
        (by
          have : (recs.length + 1) * (1 + M + 8) ≤
              (recs.length + FolderOp.adds ops + 1) * (1 + M + 8) :=
            Nat.mul_le_mul_right _ (by omega)
          omega)
        name
    have hroom1 : 8 + (recs.length + FolderOp.adds ops) * (1 + M + 8) + FolderOp.adds ops * S ≤
        (ks.length + freeCount io1) * S :=
      Nat.le_trans hroom (Nat.mul_le_mul_right S (by omega))
    have hrun : d.apply S M io (FolderOp.removeFile name) = FolderRes.ok () d1 io1 := by
      show (match d.removeFile S M io name with
        | FolderRes.fail e d1 io1 => FolderRes.fail e d1 io1
        | FolderRes.ok _ d1 io1 => FolderRes.ok () d1 io1) = _
      rw [hres]
    rcases hshape with ⟨_, h2, _, hfold⟩ | ⟨_, i, hi, hen, hnm, hty, h2⟩
    · subst h2
      refine ⟨d1, io1, ks, recs1, hrun, hk1, hs1, ?_, Nat.le_refl _, by rw [hadds], hb1, hroom1⟩
      have hno : ¬ liveType recs1 name = some EntryType.FileType := by
        intro h
        rcases liveType_cases recs1 name with ⟨h3, _⟩ | ⟨j, hj, hej, hnj, h3⟩
        · rw [h3] at h
          cases h
        · rw [h3, hfold j hj hej hnj] at h
          cases h
      have e : (fun y => if y = name ∧ liveType recs1 name = some EntryType.FileType then none
          else liveType recs1 y) = liveType recs1 := by
        funext y
        rw [if_neg (fun h => hno h.2)]
      rw [e] at hal
      exact hal
    · subst h2
      refine ⟨d1, io1, ks, _, hrun, hk1, hs1, ?_, by rw [List.length_set],
        by rw [List.length_set, hadds], hb1, by rw [List.length_set]; exact hroom1⟩
      have hyes : liveType recs name = some EntryType.FileType := by
        have := hk.liveType_eq hi hen
        rw [hnm, hty] at this
        exact this
      rw [hk.liveType_out hi hen hk1, hnm]
      have e : (fun y => if y = name ∧ liveType recs name = some EntryType.FileType then none
          else liveType recs y) = fun y => if y = name then none else liveType recs y := by
        funext y
        by_cases hy : y = name
        · rw [if_pos ⟨hy, hyes⟩, if_pos hy]
        · rw [if_neg (fun h => hy h.1), if_neg hy]
      rw [e] at hal
      exact hal

/-- A run of operations that the caller may call on a folder kept in order returns, and
after every part of the run the folder is kept in order, with no record less
than before and no record more than at the end of the run. -/
theorem ContentFolder.run_kept {S M : Nat} (hS : 8 ≤ S) (hS32 : S < 4294967296) :
    ∀ (ops : List FolderOp) {d : ContentFolder} {io : Volume} {ks : List Nat}
      {recs : List (List Byte)}, FolderKept S M d io ks recs →
      FolderOp.allowed M ops (liveType recs) →
      (∀ i < recs.length + FolderOp.adds ops, (8 + i * (1 + M + 8)) % S ≠ 0) →
      8 + (recs.length + FolderOp.adds ops + 1) * (1 + M + 8) < 4294967296 →
      io.blocks ≤ 18446744073709551616 →
      8 + (recs.length + FolderOp.adds ops) * (1 + M + 8) + FolderOp.adds ops * S ≤
        (ks.length + freeCount io) * S →
      ∃ d1 io1 ks1 recs1, ContentFolder.run S M ops d io = FolderRes.ok () d1 io1 ∧
        FolderKept S M d1 io1 ks1 recs1 ∧ d1.m_startVolumeBlock = d.m_startVolumeBlock ∧
        recs.length ≤ recs1.length ∧ recs1.length ≤ recs.length + FolderOp.adds ops ∧
        ∀ ops1 ops2, ops = ops1 ++ ops2 →
          ∃ d0 io0 ks0 recs0, ContentFolder.run S M ops1 d io = FolderRes.ok () d0 io0 ∧
            FolderKept S M d0 io0 ks0 recs0 ∧
            d0.m_startVolumeBlock = d.m_startVolumeBlock ∧ recs0.length ≤ recs1.length
  | [], d, io, ks, recs, hk, _, _, _, _, _ => by
    refine ⟨d, io, ks, recs, rfl, hk, rfl, Nat.le_refl _, Nat.le_refl _, ?_⟩
    intro ops1 ops2 h
    have h1 : ops1 = [] := (List.append_eq_nil.mp h.symm).1
    subst h1
    exact ⟨d, io, ks, recs, rfl, hk, rfl, Nat.le_refl _⟩
  | op :: ops, d, io, ks, recs, hk, hallowed, hgood, hsmall, hblocks, hroom => by
    obtain ⟨d1, io1, ks1, recs1, hres, hk1, hs1, hal1, hl1, hl2, hb1, hroom1⟩ :=
      ContentFolder.apply_kept hS hS32 hk op ops hallowed hgood hsmall hblocks hroom
    obtain ⟨d2, io2, ks2, recs2, hrun, hk2, hs2, hl3, hl4, hparts⟩ :=
      ContentFolder.run_kept hS hS32 ops hk1 hal1 (fun i hi => hgood i (by omega))
        (by
          have : (recs1.length + FolderOp.adds ops + 1) * (1 + M + 8) ≤
              (recs.length + FolderOp.adds (op :: ops) + 1) * (1 + M + 8) :=
            Nat.mul_le_mul_right _ (by omega)
          omega)
        (by rw [hb1]; exact hblocks) hroom1
    have hstep : ∀ l, ContentFolder.run S M (op :: l) d io = ContentFolder.run S M l d1 io1 := by
      intro l
      show (match d.apply S M io op with
        | FolderRes.fail e d1 io1 => FolderRes.fail e d1 io1
        | FolderRes.ok _ d1 io1 => ContentFolder.run S M l d1 io1) = _
      rw [hres]
    refine ⟨d2, io2, ks2, recs2, by rw [hstep]; exact hrun, hk2, hs2.trans hs1, by omega,
      by omega, ?_⟩
    intro ops1 ops2 h
    cases ops1 with
    | nil => exact ⟨d, io, ks, recs, rfl, hk, rfl, by omega⟩
    | cons o ops1 =>
      rw [List.cons_append] at h
      obtain ⟨ho, hrest⟩ := List.cons.inj h
      subst ho
      obtain ⟨d0, io0, ks0, recs0, hrun0, hk0, hs0, hl0⟩ := hparts ops1 ops2 hrest
      exact ⟨d0, io0, ks0, recs0, by rw [hstep]; exact hrun0, hk0, hs0.trans hs1, hl0⟩

/-! ## The counts of a folder laid out on an image -/

/-- The counts of a folder that is laid out on the image: the header holds the number of
records, which `getTotalEntryCount` returns, and the blocks of the folder hold
eight bytes and the records. -/
theorem FolderLayout.counts {S M : Nat} (hS : 8 ≤ S) {d : ContentFolder} {io : Volume}
    {ks : List Nat} {recs : List (List Byte)} (hv : FolderLayout S M d io ks recs)
    (hsmall : 8 + (recs.length + 1) * (1 + M + 8) < 4294967296) :
    getNumberOfEntries d.m_folderData io = d.getTotalEntryCount ∧
    FileBlockIterator.blocksFrom io d.m_startVolumeBlock = some ks ∧
    (sumBytesWritten io ks : Int) = 8 + ((1 + M + 8 : Nat) : Int) * d.getTotalEntryCount ∧
    d.getTotalEntryCount = (recs.length : Int) := by
  have hlaid := hv.stored.laid
  have hlen := folderBody_length hv.width
  have hn : recs.length < 4294967296 := by
    have : recs.length ≤ (recs.length + 1) * (1 + M + 8) :=
      Nat.le_trans (Nat.le_succ _) (Nat.le_mul_of_pos_right _ (by omega))
    omega
  have hks : 0 < ks.length := by
    cases ks with
    | nil => exact absurd hlaid.chain (by simp [IsChain])
    | cons _ _ => simp
  have hbytes : ∀ t, t < 8 →
      (io.store d.m_startVolumeBlock).data t = (folderBody recs).getD t 0 := by
    intro t ht
    have := hlaid.bytes 0 hks t (by
      rw [Nat.zero_mul, Nat.sub_zero, hlen]
      exact lt_min (by omega) (by omega))
    rw [getD_zero_of_chain hlaid.chain, Nat.zero_mul, Nat.zero_add] at this
    exact this
  have hconv : convertInt8ArrayToInt64
      ((List.range 8).map (fun t => (io.store d.m_folderData.m_startVolumeBlock).data t)) =
      recs.length := by
    rw [hv.start]
    have e : convertInt8ArrayToInt64
        ((List.range 8).map (fun t => (io.store d.m_startVolumeBlock).data t)) =
        convertInt8ArrayToInt64 (folderBody recs) := by
      unfold convertInt8ArrayToInt64
      congr 1
      apply List.map_congr_left
      intro i hi
      have hi8 : i < 8 := List.mem_range.mp hi
      have : ((List.range 8).map (fun t => (io.store d.m_startVolumeBlock).data t)).getD i 0 =
          (folderBody recs).getD i 0 := by
        rw [List.getD_eq_getElem?_getD, List.getElem?_map, List.getElem?_range hi8]
        exact hbytes i hi8
      rw [this]
    rw [e]
    exact convert_roundtrip recs.length (by omega) _
  refine ⟨?_, FileBlockIterator.blocksFrom_of_chain hlaid.chain hlaid.inside, ?_, hv.count⟩
  · unfold getNumberOfEntries
    simp only [hconv]
    rw [if_pos (by omega)]
    exact hv.count.symm
  · rw [hlaid.sum_eq, hlen]
    show _ = 8 + ((1 + M + 8 : Nat) : Int) * d.m_entryCount
    rw [hv.count]
    push_cast
    ring

theorem FolderOp.adds_append : ∀ (l1 l2 : List FolderOp),
    FolderOp.adds (l1 ++ l2) = FolderOp.adds l1 + FolderOp.adds l2
  | [], l2 => by simp [FolderOp.adds]
  | FolderOp.addFile _ :: l1, l2 => by
    have ih := FolderOp.adds_append l1 l2
    show FolderOp.adds (l1 ++ l2) + 1 = FolderOp.adds l1 + 1 + FolderOp.adds l2
    omega
  | FolderOp.addContentFolder _ :: l1, l2 => by
    have ih := FolderOp.adds_append l1 l2
    show FolderOp.adds (l1 ++ l2) + 1 = FolderOp.adds l1 + 1 + FolderOp.adds l2
    omega
  | FolderOp.removeFile _ :: l1, l2 => by
    have ih := FolderOp.adds_append l1 l2
    show FolderOp.adds (l1 ++ l2) = FolderOp.adds l1 + FolderOp.adds l2
    exact ih

/-- The first part of a run that the caller may call is a run that the caller may call. -/
theorem FolderOp.allowed_left {M : Nat} : ∀ (l1 l2 : List FolderOp)
    (live : List Byte → Option EntryType), FolderOp.allowed M (l1 ++ l2) live →
    FolderOp.allowed M l1 live
  | [], _, _, _ => trivial
  | FolderOp.addFile _ :: l1, l2, _, h =>
    ⟨h.1, h.2.1, h.2.2.1, FolderOp.allowed_left l1 l2 _ h.2.2.2⟩
  | FolderOp.addContentFolder _ :: l1, l2, _, h =>
    ⟨h.1, h.2.1, h.2.2.1, FolderOp.allowed_left l1 l2 _ h.2.2.2⟩
  | FolderOp.removeFile _ :: l1, l2, _, h => FolderOp.allowed_left l1 l2 _ h

/-- A run of operations that the caller may call on a new folder returns, and after every
part of the run the counts of the folder agree and the entry count is not
above the entry count at the end of the run. -/
theorem ContentFolder.createAndRun_counts (S M : Nat) (hS : 8 ≤ S)
    (hS32 : S < 4294967296) (io : Volume) (ops : List FolderOp)
    (hblocks : io.blocks ≤ 18446744073709551616)
    (hallowed : FolderOp.allowed M ops (fun _ => none))
    (hgood : ∀ i < FolderOp.adds ops, (8 + i * (1 + M + 8)) % S ≠ 0)
    (hsmall : 8 + (FolderOp.adds ops + 1) * (1 + M + 8) < 4294967296)
    (hroom : 8 + FolderOp.adds ops * (1 + M + 8) + FolderOp.adds ops * S ≤ freeCount io * S) :
    ∃ d1 io1, ContentFolder.createAndRun S M io ops = FolderRes.ok () d1 io1 ∧
      ∀ ops1 ops2, ops = ops1 ++ ops2 →
        ∃ d0 io0 ks0, ContentFolder.createAndRun S M io ops1 = FolderRes.ok () d0 io0 ∧
          getNumberOfEntries d0.m_folderData io0 = d0.getTotalEntryCount ∧
          FileBlockIterator.blocksFrom io0 d0.m_startVolumeBlock = some ks0 ∧
          (sumBytesWritten io0 ks0 : Int) =
            8 + ((1 + M + 8 : Nat) : Int) * d0.getTotalEntryCount ∧
          d0.getTotalEntryCount ≤ d1.getTotalEntryCount := by
  have hfree : 0 < freeCount io := by
    rcases Nat.eq_zero_or_pos (freeCount io) with h | h
    · rw [h, Nat.zero_mul] at hroom
      omega
    · exact h
  obtain ⟨d0, io0, a, hcreate, hk0, _, _, _, _, hb0, _, _, hfc⟩ :=
    ContentFolder.create_kept (M := M) hS hS32 hfree
  have hlive : liveType [] = fun _ => none := by
    funext y
    rfl
  have hT : ([a].length + freeCount io0) * S = freeCount io * S := by
    rw [← hfc]
    simp only [List.length_singleton]
    ring
  obtain ⟨d1, io1, ks1, recs1, hrun, hk1, _, _, hl1, hparts⟩ :=
    ContentFolder.run_kept hS hS32 ops hk0 (by rw [hlive]; exact hallowed)
      (fun i hi => hgood i (by simpa using hi))
      (by simpa using hsmall) (by rw [hb0]; exact hblocks)
      (by
        rw [hT]
        simpa using hroom)
  have hstep : ∀ l, ContentFolder.createAndRun S M io l = ContentFolder.run S M l d0 io0 := by
    intro l
    unfold ContentFolder.createAndRun
    rw [hcreate]
  have hl1b : recs1.length ≤ FolderOp.adds ops := by simpa using hl1
  refine ⟨d1, io1, by rw [hstep]; exact hrun, ?_⟩
  intro ops1 ops2 h
  obtain ⟨d2, io2, ks2, recs2, hrun2, hk2, _, hl2⟩ := hparts ops1 ops2 h
  have hsmall2 : 8 + (recs2.length + 1) * (1 + M + 8) < 4294967296 := by
    have : (recs2.length + 1) * (1 + M + 8) ≤ (FolderOp.adds ops + 1) * (1 + M + 8) :=
      Nat.mul_le_mul_right _ (by omega)
    omega
  have hsmall1 : 8 + (recs1.length + 1) * (1 + M + 8) < 4294967296 := by
    have : (recs1.length + 1) * (1 + M + 8) ≤ (FolderOp.adds ops + 1) * (1 + M + 8) :=
      Nat.mul_le_mul_right _ (by omega)
    omega
  obtain ⟨c1, c2, c3, c4⟩ := hk2.layout.counts hS hsmall2
  obtain ⟨_, _, _, c5⟩ := hk1.layout.counts hS hsmall1
  refine ⟨d2, io2, ks2, by rw [hstep]; exact hrun2, c1, c2, c3, ?_⟩
  rw [c4, c5]
  exact_mod_cast hl2

/-! ## Claim C21: the counts of a folder after a run of operations -/

/-- C21, for callers that add no name that is in use (ContentFolder.cpp 282-344, 513-529;
CoreFS::throwIfAlreadyExists).  A new folder on which the caller calls
`addFile`, `addContentFolder` and `removeFile` in any order (the run
`ops1 ++ ops2 ++ ops3`), never adding a name that is in use, with names shorter
than MAX_FILENAME_LENGTH and without NUL byte, no record at a multiple of the
block payload and room on the image: every call returns, after every part
`ops1` of the run the header of the folder holds `getTotalEntryCount()` and the
blocks of the folder hold 8 + W * entry count bytes, and the entry count after
`ops1` is not above the entry count after any longer part `ops1 ++ ops2` of the
run. -/
theorem C21_counts_after_operations_of_a_careful_caller (S M : Nat) (hS : 8 ≤ S)
    (hS32 : S < 4294967296) (io : Volume) (ops1 ops2 ops3 : List FolderOp)
    (hblocks : io.blocks ≤ 18446744073709551616)
    (hallowed : FolderOp.allowed M (ops1 ++ ops2 ++ ops3) (fun _ => none))
    (hgood : ∀ i < FolderOp.adds (ops1 ++ ops2 ++ ops3), (8 + i * (1 + M + 8)) % S ≠ 0)
    (hsmall : 8 + (FolderOp.adds (ops1 ++ ops2 ++ ops3) + 1) * (1 + M + 8) < 4294967296)
    (hroom : 8 + FolderOp.adds (ops1 ++ ops2 ++ ops3) * (1 + M + 8) +
      FolderOp.adds (ops1 ++ ops2 ++ ops3) * S ≤ freeCount io * S) :
    ∃ d0 io0 ks0 d1 io1,
      ContentFolder.createAndRun S M io ops1 = FolderRes.ok () d0 io0 ∧
      ContentFolder.createAndRun S M io (ops1 ++ ops2) = FolderRes.ok () d1 io1 ∧
      getNumberOfEntries d0.m_folderData io0 = d0.getTotalEntryCount ∧
      FileBlockIterator.blocksFrom io0 d0.m_startVolumeBlock = some ks0 ∧
      (sumBytesWritten io0 ks0 : Int) =
        8 + ((1 + M + 8 : Nat) : Int) * d0.getTotalEntryCount ∧
      d0.getTotalEntryCount ≤ d1.getTotalEntryCount := by
  have hadds : FolderOp.adds (ops1 ++ ops2) ≤ FolderOp.adds (ops1 ++ ops2 ++ ops3) := by
    rw [FolderOp.adds_append (ops1 ++ ops2) ops3]
    omega
  have h1 : (FolderOp.adds (ops1 ++ ops2) + 1) * (1 + M + 8) ≤
      (FolderOp.adds (ops1 ++ ops2 ++ ops3) + 1) * (1 + M + 8) :=
    Nat.mul_le_mul_right _ (by omega)
  have h2 : FolderOp.adds (ops1 ++ ops2) * (1 + M + 8) ≤
      FolderOp.adds (ops1 ++ ops2 ++ ops3) * (1 + M + 8) :=
    Nat.mul_le_mul_right _ hadds
  have h3 : FolderOp.adds (ops1 ++ ops2) * S ≤ FolderOp.adds (ops1 ++ ops2 ++ ops3) * S :=
    Nat.mul_le_mul_right _ hadds
  obtain ⟨d1, io1, hrun, hparts⟩ :=
    ContentFolder.createAndRun_counts S M hS hS32 io (ops1 ++ ops2) hblocks
      (FolderOp.allowed_left (ops1 ++ ops2) ops3 _ hallowed)
      (fun i hi => hgood i (by omega)) (by omega) (by omega)
  obtain ⟨d0, io0, ks0, hrun0, c1, c2, c3, c4⟩ := hparts ops1 ops2 rfl
  exact ⟨d0, io0, ks0, d1, io1, hrun0, hrun, c1, c2, c3, c4⟩

/-- C21, for the caller that, on the empty image of eight blocks with 64 payload bytes
per block and records of 11 bytes, adds the file x and the folder y and removes
x, then adds the file z and calls removeFile for the folder y, then adds the
file x again. -/
theorem C21_counts_after_operations_of_a_careful_caller_witness :
    ∃ d0 io0 ks0 d1 io1,
      ContentFolder.createAndRun 64 2 emptyImage
        [FolderOp.addFile [120], FolderOp.addContentFolder [121],
          FolderOp.removeFile [120]] = FolderRes.ok () d0 io0 ∧
      ContentFolder.createAndRun 64 2 emptyImage
        ([FolderOp.addFile [120], FolderOp.addContentFolder [121],
            FolderOp.removeFile [120]] ++
          [FolderOp.addFile [122], FolderOp.removeFile [121]]) = FolderRes.ok () d1 io1 ∧
      getNumberOfEntries d0.m_folderData io0 = d0.getTotalEntryCount ∧
      FileBlockIterator.blocksFrom io0 d0.m_startVolumeBlock = some ks0 ∧
      (sumBytesWritten io0 ks0 : Int) =
        8 + ((1 + 2 + 8 : Nat) : Int) * d0.getTotalEntryCount ∧
      d0.getTotalEntryCount ≤ d1.getTotalEntryCount :=
  C21_counts_after_operations_of_a_careful_caller 64 2 (by decide) (by decide) emptyImage
    [FolderOp.addFile [120], FolderOp.addContentFolder [121], FolderOp.removeFile [120]]
    [FolderOp.addFile [122], FolderOp.removeFile [121]] [FolderOp.addFile [120]]
    (by decide) (by decide) (by decide) (by decide) (by decide!)

end KnoxCrypt
